import Mathlib

/-!
Tiled surface encoder of guacamole-server (libguac)

A shallow embedding of `src/libguac/surface-tile.c`, `src/libguac/surface.c` and
`src/libguac/hash.c`.

Conventions of the embedding

* C `int` values are Lean `Int`. Signed overflow is undefined behaviour in C, so
  the statements below describe the executions in which no `int` operation
  overflows; on those the C arithmetic and the `Int` arithmetic coincide.
  C integer division truncates toward zero and is `Int.tdiv`.
* A block of bytes is a function from a byte offset (relative to the start of
  the object) to the byte stored there.
* A `for` loop whose counter is not modified by its body is a structural
  recursion on the number of iterations that remain; the pointers the loop
  advances are carried as offsets.
* A dereference of the tile array outside of the array has no defined result
  and is `none`; so is an access to the array `cell_hash` of
  `guac_hash_foreach_image_rect` outside of its 4096 entries.
* `uint64_t` and `uint32_t` values are natural numbers, with every operation
  taken modulo `2 ^ 64` or `2 ^ 32`.
* Instructions sent to the socket are collected in the order in which they are
  sent.
* Where a statement is about what an execution does on its way (the mutex, the
  bytes or the array entries that it reads and writes) the function is embedded a
  second time, statement by statement, as the list of these events in order.
-/

namespace Guac

/-! ## Bytes and the two libc primitives used by the tile code -/

/-- Bytes of an object, addressed by their offset from the start of the object. -/
abbrev Mem := Int → Nat

/-- The libc `memcpy(dst + d, src + s, n)` for non-overlapping regions: the `n`
bytes starting at offset `d` of `dst` are replaced by the `n` bytes starting at
offset `s` of `src`. -/
def memcpy (dst : Mem) (d : Int) (src : Mem) (s : Int) (n : Int) : Mem :=
  fun i => if d ≤ i ∧ i < d + n then src (s + (i - d)) else dst i

/-- The libc `memcmp(a + pa, b + pb, n)`: zero when the two regions hold the same
bytes, otherwise the difference of the first pair of bytes that differ. -/
def memcmp (a : Mem) (pa : Int) (b : Mem) (pb : Int) : Nat → Int
  | 0 => 0
  | n + 1 =>
    if a pa = b pb then memcmp a (pa + 1) b (pb + 1) n
    else (a pa : Int) - (b pb : Int)

/-! ## Cairo image surfaces and protocol instructions -/

/-- An image surface of cairo as the tile code uses it: the pixel data, and the
width, height (pixels) and stride (bytes between rows). Every pixel is four
bytes. -/
structure cairo_surface_t where
  data : Mem
  width : Int
  height : Int
  stride : Int

/-- Byte `k` of the pixel in column `px` of row `py` of an image surface. -/
def cairo_surface_t.pixel_byte (img : cairo_surface_t) (px py k : Int) : Nat :=
  img.data (py * img.stride + px * 4 + k)

/-- Modelled from the spec: the composite operators of the protocol
(`guac_composite_mode` of `guacamole/protocol-types.h`, which is not part of the
sources at hand). The tile code only ever names `GUAC_COMP_OVER`. -/
inductive guac_composite_mode where
  | GUAC_COMP_OVER
  | GUAC_COMP_SRC
  deriving DecidableEq, Repr

/-- Modelled from the spec: what reaches the instruction sink. `size` is what
`guac_protocol_send_size(socket, layer, w, h)` sends; `png` is what
`guac_client_stream_png` / `guac_user_stream_png` send for the given composite
operator, layer, position and image, the image being captured as it is at the
time of the call. The layer is an opaque handle. -/
inductive guac_instruction where
  | size (layer : Nat) (width height : Int)
  | png (mode : guac_composite_mode) (layer : Nat) (x y : Int) (surface : cairo_surface_t)

/-- Whether an instruction is a `size` instruction. -/
def guac_instruction.is_size : guac_instruction → Bool
  | .size _ _ _ => true
  | .png _ _ _ _ _ => false

/-- Whether an instruction is a streamed PNG. -/
def guac_instruction.is_png : guac_instruction → Bool
  | .size _ _ _ => false
  | .png _ _ _ _ _ => true

/-! ## Tiles (`surface-tile.h`, `surface-tile.c`) -/

/-- The width of each tile, in pixels. -/
abbrev GUAC_SURFACE_TILE_WIDTH : Int := 64

/-- The height of each tile, in pixels. -/
abbrev GUAC_SURFACE_TILE_HEIGHT : Int := 64

/-- The number of bytes in each row of image data. -/
abbrev GUAC_SURFACE_TILE_ROW_SIZE : Int := GUAC_SURFACE_TILE_WIDTH * 4

/-- The number of bytes separating adjacent rows of image data within the same
page of the tile. -/
abbrev GUAC_SURFACE_TILE_STRIDE : Int := GUAC_SURFACE_TILE_ROW_SIZE * 2

/-- The struct `guac_surface_tile`. The two `pages` are the cairo views of
`buffer` that `guac_surface_tile_alloc` creates with `guac_surface_tile_page`;
they are not stored: `tile->pages[p]` is `guac_surface_tile_page tile p`. -/
structure guac_surface_tile where
  x : Int
  y : Int
  dirty : Int
  current_page : Int
  buffer : Mem

/-- The static `guac_surface_tile_page`: the cairo view of one page of the tile,
starting `page * GUAC_SURFACE_TILE_ROW_SIZE` bytes into the buffer. -/
def guac_surface_tile_page (tile : guac_surface_tile) (page : Int) : cairo_surface_t :=
  { data := fun i => tile.buffer (page * GUAC_SURFACE_TILE_ROW_SIZE + i)
    width := GUAC_SURFACE_TILE_WIDTH
    height := GUAC_SURFACE_TILE_HEIGHT
    stride := GUAC_SURFACE_TILE_STRIDE }

/-- The function `guac_surface_tile_alloc`: `calloc` zeroes every field. -/
def guac_surface_tile_alloc (x y : Int) : guac_surface_tile :=
  { x := x, y := y, dirty := 0, current_page := 0, buffer := fun _ => 0 }

/-- The row loop of `guac_surface_tile_put`, for the remaining number of rows,
the three running pointers `src`, `dst_new`, `dst_old`, and the current
`tile->dirty` and `tile->buffer`. -/
def guac_surface_tile_put_rows (buffer : Mem) (stride width : Int) :
    Nat → Int → Int → Int → Int → Mem → Int × Mem
  | 0, _, _, _, dirty, buf => (dirty, buf)
  | n + 1, src, dst_new, dst_old, dirty, buf =>
    let buf1 := memcpy buf dst_new buffer src (width * 4)
    let dirty1 :=
      if dirty = 0 then memcmp buf1 dst_old buf1 dst_new (width * 4).toNat else dirty
    guac_surface_tile_put_rows buffer stride width n
      (src + stride) (dst_new + GUAC_SURFACE_TILE_STRIDE)
      (dst_old + GUAC_SURFACE_TILE_STRIDE) dirty1 buf1

/-- The function `guac_surface_tile_put`. The closing call of
`cairo_surface_mark_dirty` only tells cairo that the page was written and has no
effect on the tile. -/
def guac_surface_tile_put (tile : guac_surface_tile) (x y : Int)
    (buffer : Mem) (width height stride : Int) : guac_surface_tile :=
  let left := tile.x
  let top := tile.y
  let right := left + GUAC_SURFACE_TILE_WIDTH
  let bottom := top + GUAC_SURFACE_TILE_HEIGHT
  let max_left := x
  let max_top := y
  let max_right := max_left + width
  let max_bottom := max_top + height
  let left := if max_left > left then max_left else left
  let top := if max_top > top then max_top else top
  let right := if max_right < right then max_right else right
  let bottom := if max_bottom < bottom then max_bottom else bottom
  let src_x := left - x
  let src_y := top - y
  let dst_x := left - tile.x
  let dst_y := top - tile.y
  let width := right - left
  let height := bottom - top
  if width ≤ 0 then tile
  else if height ≤ 0 then tile
  else
    let src := src_y * stride + src_x * 4
    let dst_old := (1 - tile.current_page) * GUAC_SURFACE_TILE_ROW_SIZE
      + dst_y * GUAC_SURFACE_TILE_STRIDE + dst_x * 4
    let dst_new := tile.current_page * GUAC_SURFACE_TILE_ROW_SIZE
      + dst_y * GUAC_SURFACE_TILE_STRIDE + dst_x * 4
    let r := guac_surface_tile_put_rows buffer stride width height.toNat
      src dst_new dst_old tile.dirty tile.buffer
    { tile with dirty := r.1, buffer := r.2 }

/-- The row loop of `guac_surface_tile_flush`: copies the new page over the old
page, one row at a time. -/
def guac_surface_tile_flush_rows : Nat → Int → Int → Mem → Mem
  | 0, _, _, buf => buf
  | n + 1, dst_new, dst_old, buf =>
    guac_surface_tile_flush_rows n
      (dst_new + GUAC_SURFACE_TILE_STRIDE) (dst_old + GUAC_SURFACE_TILE_STRIDE)
      (memcpy buf dst_old buf dst_new (GUAC_SURFACE_TILE_WIDTH * 4))

/-- The function `guac_surface_tile_flush`: the tile afterwards and the
instructions sent. -/
def guac_surface_tile_flush (tile : guac_surface_tile) (layer : Nat) :
    guac_surface_tile × List guac_instruction :=
  if tile.dirty ≠ 0 then
    let dst_old := (1 - tile.current_page) * GUAC_SURFACE_TILE_ROW_SIZE
    let dst_new := tile.current_page * GUAC_SURFACE_TILE_ROW_SIZE
    let buf := guac_surface_tile_flush_rows GUAC_SURFACE_TILE_HEIGHT.toNat
      dst_new dst_old tile.buffer
    let synced : guac_surface_tile := { tile with buffer := buf }
    ({ synced with current_page := 1 - tile.current_page, dirty := 0 },
      [guac_instruction.png guac_composite_mode.GUAC_COMP_OVER layer tile.x tile.y
        (guac_surface_tile_page synced tile.current_page)])
  else (tile, [])

/-- The function `guac_surface_tile_dup`: the instruction sent to the user. -/
def guac_surface_tile_dup (tile : guac_surface_tile) (layer : Nat) : guac_instruction :=
  guac_instruction.png guac_composite_mode.GUAC_COMP_OVER layer tile.x tile.y
    (guac_surface_tile_page tile (1 - tile.current_page))

/-! ## Surfaces (`surface-priv.h`, `surface.c`) -/

/-- The struct `guac_surface`. Of the three references fixed at allocation only
the layer is kept (as an opaque handle); the mutex has no content. The array
`tiles` is the row-major array that `malloc` returned. -/
structure guac_surface where
  layer : Nat
  content_dirty : Int
  size_dirty : Int
  width : Int
  height : Int
  rows : Int
  columns : Int
  tiles : List guac_surface_tile

/-- The inner loop of `guac_surface_alloc`: the tiles of one row, from the given
column on. -/
def guac_surface_alloc_columns (row : Int) : Nat → Int → List guac_surface_tile
  | 0, _ => []
  | n + 1, column =>
    guac_surface_tile_alloc (column * GUAC_SURFACE_TILE_WIDTH) (row * GUAC_SURFACE_TILE_HEIGHT)
      :: guac_surface_alloc_columns row n (column + 1)

/-- The outer loop of `guac_surface_alloc`: the tiles of the remaining rows, in
the order in which `*(current++)` stores them. -/
def guac_surface_alloc_rows (columns : Int) : Nat → Int → List guac_surface_tile
  | 0, _ => []
  | n + 1, row =>
    guac_surface_alloc_columns row columns.toNat 0
      ++ guac_surface_alloc_rows columns n (row + 1)

/-- The function `guac_surface_alloc`. -/
def guac_surface_alloc (layer : Nat) (width height : Int) : guac_surface :=
  let rows := (height + GUAC_SURFACE_TILE_HEIGHT - 1).tdiv GUAC_SURFACE_TILE_HEIGHT
  let columns := (width + GUAC_SURFACE_TILE_WIDTH - 1).tdiv GUAC_SURFACE_TILE_WIDTH
  { layer := layer
    content_dirty := 0
    size_dirty := 1
    width := width
    height := height
    rows := rows
    columns := columns
    tiles := guac_surface_alloc_rows columns rows.toNat 0 }

/-- The inner loop of `guac_surface_resize` for one row: the remaining number of
columns, the current column, the read position `old_tile` in the old array, the
part of the new array written so far (`new_tile` points to its end) and the
tiles handed to `guac_surface_tile_free` so far. -/
def guac_surface_resize_columns (old : List guac_surface_tile)
    (old_rows old_columns new_rows new_columns row : Int) :
    Nat → Int → Nat → List guac_surface_tile → List guac_surface_tile →
      Option (Nat × List guac_surface_tile × List guac_surface_tile)
  | 0, _, old_tile, new_tiles, freed => some (old_tile, new_tiles, freed)
  | n + 1, column, old_tile, new_tiles, freed =>
    if row < new_rows ∧ column < new_columns then
      if row < old_rows ∧ column < old_columns then
        match old[old_tile]? with
        | none => none
        | some t =>
          guac_surface_resize_columns old old_rows old_columns new_rows new_columns row
            n (column + 1) (old_tile + 1) (new_tiles ++ [t]) freed
      else
        guac_surface_resize_columns old old_rows old_columns new_rows new_columns row
          n (column + 1) old_tile
          (new_tiles ++ [guac_surface_tile_alloc (column * GUAC_SURFACE_TILE_WIDTH)
            (row * GUAC_SURFACE_TILE_HEIGHT)]) freed
    else
      match old[old_tile]? with
      | none => none
      | some t =>
        guac_surface_resize_columns old old_rows old_columns new_rows new_columns row
          n (column + 1) (old_tile + 1) new_tiles (freed ++ [t])

/-- The outer loop of `guac_surface_resize`. -/
def guac_surface_resize_rows (old : List guac_surface_tile)
    (old_rows old_columns new_rows new_columns : Int) (max_columns : Nat) :
    Nat → Int → Nat → List guac_surface_tile → List guac_surface_tile →
      Option (Nat × List guac_surface_tile × List guac_surface_tile)
  | 0, _, old_tile, new_tiles, freed => some (old_tile, new_tiles, freed)
  | n + 1, row, old_tile, new_tiles, freed =>
    match guac_surface_resize_columns old old_rows old_columns new_rows new_columns row
        max_columns 0 old_tile new_tiles freed with
    | none => none
    | some (old_tile1, new_tiles1, freed1) =>
      guac_surface_resize_rows old old_rows old_columns new_rows new_columns max_columns
        n (row + 1) old_tile1 new_tiles1 freed1

/-- The function `guac_surface_resize`: the status returned, the surface
afterwards and the tiles freed, in the order of the calls of
`guac_surface_tile_free`. The limits `GUAC_SURFACE_MAX_WIDTH` and
`GUAC_SURFACE_MAX_HEIGHT` come from `surface-constants.h` and are parameters. -/
def guac_surface_resize (GUAC_SURFACE_MAX_WIDTH GUAC_SURFACE_MAX_HEIGHT : Int)
    (surface : guac_surface) (width height : Int) :
    Option (Int × guac_surface × List guac_surface_tile) :=
  if width > GUAC_SURFACE_MAX_WIDTH ∨ height > GUAC_SURFACE_MAX_HEIGHT then
    some (1, surface, [])
  else
    let new_rows := (height + GUAC_SURFACE_TILE_HEIGHT - 1).tdiv GUAC_SURFACE_TILE_HEIGHT
    let new_columns := (width + GUAC_SURFACE_TILE_WIDTH - 1).tdiv GUAC_SURFACE_TILE_WIDTH
    let max_rows := if surface.rows > new_rows then surface.rows else new_rows
    let max_columns := if surface.columns > new_columns then surface.columns else new_columns
    match guac_surface_resize_rows surface.tiles surface.rows surface.columns
        new_rows new_columns max_columns.toNat max_rows.toNat 0 0 [] [] with
    | none => none
    | some (_, new_tiles, freed) =>
      some (0,
        { surface with
          tiles := new_tiles
          rows := new_rows
          columns := new_columns
          width := width
          height := height
          size_dirty := 1 },
        freed)

/-- The inner loop of `guac_surface_draw`: the remaining number of columns, the
pointer `current` (as an index into the tile array) and the tile array. -/
def guac_surface_draw_columns (x y : Int) (buffer : Mem) (width height stride : Int) :
    Nat → Int → List guac_surface_tile → Option (List guac_surface_tile)
  | 0, _, tiles => some tiles
  | n + 1, current, tiles =>
    if current < 0 then none
    else
      match tiles[current.toNat]? with
      | none => none
      | some t =>
        guac_surface_draw_columns x y buffer width height stride n (current + 1)
          (tiles.set current.toNat (guac_surface_tile_put t x y buffer width height stride))

/-- The outer loop of `guac_surface_draw`: the remaining number of rows, the
pointer `current_row` and the tile array; `count` is the number of iterations of
the inner loop. -/
def guac_surface_draw_rows (x y : Int) (buffer : Mem) (width height stride : Int)
    (columns : Int) (count : Nat) :
    Nat → Int → List guac_surface_tile → Option (List guac_surface_tile)
  | 0, _, tiles => some tiles
  | n + 1, current_row, tiles =>
    match guac_surface_draw_columns x y buffer width height stride count current_row tiles with
    | none => none
    | some tiles1 =>
      guac_surface_draw_rows x y buffer width height stride columns count
        n (current_row + columns) tiles1

/-- The function `guac_surface_draw`. -/
def guac_surface_draw (surface : guac_surface) (x y : Int) (src : cairo_surface_t) :
    Option guac_surface :=
  if x ≥ surface.width ∨ y ≥ surface.height then some surface
  else
    let buffer := src.data
    let stride := src.stride
    let width := src.width
    let height := src.height
    let row := y.tdiv GUAC_SURFACE_TILE_HEIGHT
    let column := x.tdiv GUAC_SURFACE_TILE_WIDTH
    let last_row := (y + height - 1).tdiv GUAC_SURFACE_TILE_HEIGHT
    let last_column := (x + width - 1).tdiv GUAC_SURFACE_TILE_WIDTH
    match guac_surface_draw_rows x y buffer width height stride surface.columns
        (last_column - column + 1).toNat (last_row - row + 1).toNat
        (surface.columns * row + column) surface.tiles with
    | none => none
    | some tiles => some { surface with tiles := tiles, content_dirty := 1 }

/-- The inner loop of `guac_surface_flush`: the remaining number of columns, the
pointer `current`, the tile array and the instructions sent so far. -/
def guac_surface_flush_columns (layer : Nat) :
    Nat → Nat → List guac_surface_tile → List guac_instruction →
      Option (Nat × List guac_surface_tile × List guac_instruction)
  | 0, current, tiles, out => some (current, tiles, out)
  | n + 1, current, tiles, out =>
    match tiles[current]? with
    | none => none
    | some t =>
      guac_surface_flush_columns layer n (current + 1)
        (tiles.set current (guac_surface_tile_flush t layer).1)
        (out ++ (guac_surface_tile_flush t layer).2)

/-- The outer loop of `guac_surface_flush`. -/
def guac_surface_flush_rows (layer : Nat) (columns : Nat) :
    Nat → Nat → List guac_surface_tile → List guac_instruction →
      Option (Nat × List guac_surface_tile × List guac_instruction)
  | 0, current, tiles, out => some (current, tiles, out)
  | n + 1, current, tiles, out =>
    match guac_surface_flush_columns layer columns current tiles out with
    | none => none
    | some (current1, tiles1, out1) =>
      guac_surface_flush_rows layer columns n current1 tiles1 out1

/-- The function `guac_surface_flush`: the surface afterwards and the
instructions sent, in order. -/
def guac_surface_flush (surface : guac_surface) :
    Option (guac_surface × List guac_instruction) :=
  let out1 :=
    if surface.size_dirty ≠ 0 then
      [guac_instruction.size surface.layer surface.width surface.height]
    else []
  let s1 : guac_surface :=
    if surface.size_dirty ≠ 0 then { surface with size_dirty := 0 } else surface
  if s1.content_dirty ≠ 0 then
    match guac_surface_flush_rows s1.layer s1.columns.toNat s1.rows.toNat 0 s1.tiles out1 with
    | none => none
    | some (_, tiles, out) => some ({ s1 with tiles := tiles, content_dirty := 0 }, out)
  else some (s1, out1)

/-! ## Vocabulary of the statements -/

/-- Two image surfaces show the same picture: they have the same size and hold
the same four bytes for every pixel of it. -/
def cairo_surface_t.same_picture (a b : cairo_surface_t) : Prop :=
  a.width = b.width ∧ a.height = b.height ∧
    ∀ px py k : Int, 0 ≤ px ∧ px < a.width → 0 ≤ py ∧ py < a.height → 0 ≤ k ∧ k < 4 →
      a.pixel_byte px py k = b.pixel_byte px py k

/-- Two instructions are the same on the wire: the same kind and arguments, and
for a streamed PNG the same picture. -/
def guac_instruction.same : guac_instruction → guac_instruction → Prop
  | .size l w h, .size l1 w1 h1 => l = l1 ∧ w = w1 ∧ h = h1
  | .png m l x y a, .png m1 l1 x1 y1 b =>
    m = m1 ∧ l = l1 ∧ x = x1 ∧ y = y1 ∧ a.same_picture b
  | _, _ => False

/-- The streamed PNG that shows the new page of a tile at the origin of the
tile, with the operator over. -/
def guac_surface_tile.png_of_new_page (tile : guac_surface_tile) (layer : Nat) :
    guac_instruction :=
  guac_instruction.png guac_composite_mode.GUAC_COMP_OVER layer tile.x tile.y
    (guac_surface_tile_page tile tile.current_page)

/-- The canvas pixel (px, py) lies in the rectangle of width `w` and height `h`
placed at (x, y). -/
def in_rect (x y w h px py : Int) : Prop :=
  x ≤ px ∧ px < x + w ∧ y ≤ py ∧ py < y + h

instance (x y w h px py : Int) : Decidable (in_rect x y w h px py) := by
  unfold in_rect; infer_instance


/-- The buffer of a tile once the row loop of `guac_surface_tile_flush` has
copied the new page over the old page. -/
def guac_surface_tile.synced_buffer (tile : guac_surface_tile) : Mem :=
  guac_surface_tile_flush_rows 64 (tile.current_page * 256)
    ((1 - tile.current_page) * 256) tile.buffer

/-- The layout of a surface as `guac_surface_alloc` and `guac_surface_resize`
compute it: the numbers of rows and columns follow from the size of the canvas
and the tile array has one tile for every position of the grid. -/
def guac_surface.layout (s : guac_surface) : Prop :=
  s.rows = (s.height + GUAC_SURFACE_TILE_HEIGHT - 1).tdiv GUAC_SURFACE_TILE_HEIGHT ∧
  s.columns = (s.width + GUAC_SURFACE_TILE_WIDTH - 1).tdiv GUAC_SURFACE_TILE_WIDTH ∧
  s.tiles.length = s.rows.toNat * s.columns.toNat

/-- A well-formed surface: `rows` and `columns` are the ceilings of `height / 64`
and `width / 64`, the tile array has `rows * columns` tiles, and the tile at grid
position `(r, c)`, which is entry `r * columns + c` of the row-major array, has
origin `(64 c, 64 r)`. -/
def guac_surface.well_formed (s : guac_surface) : Prop :=
  s.rows = (s.height + 63) / 64 ∧ s.columns = (s.width + 63) / 64 ∧
  s.tiles.length = s.rows.toNat * s.columns.toNat ∧
  ∀ r c : Nat, r < s.rows.toNat → c < s.columns.toNat →
    (s.tiles[r * s.columns.toNat + c]?).map (fun t => (t.x, t.y))
      = some (64 * (c : Int), 64 * (r : Int))

/-- Byte `k` of the pixel that the new pages of the surface hold at the canvas
coordinate `(px, py)`: the pixel of the new page of the tile at grid position
`(py / 64, px / 64)`. -/
def guac_surface.new_page_byte (s : guac_surface) (px py k : Int) : Option Nat :=
  (s.tiles[(py / 64 * s.columns + px / 64).toNat]?).map
    (fun t => (guac_surface_tile_page t t.current_page).pixel_byte (px - t.x) (py - t.y) k)

/-- The rectangle of the image `src` drawn at `(x, y)` is not empty and lies
inside of the canvas of the surface. -/
def guac_surface.rect_inside (s : guac_surface) (x y : Int) (src : cairo_surface_t) : Prop :=
  0 ≤ x ∧ 0 ≤ y ∧ x + src.width ≤ s.width ∧ y + src.height ≤ s.height ∧
    1 ≤ src.width ∧ 1 ≤ src.height

instance (s : guac_surface) (x y : Int) (src : cairo_surface_t) :
    Decidable (s.rect_inside x y src) := by
  unfold guac_surface.rect_inside; infer_instance

/-- The surfaces that can be reached from `guac_surface_alloc` by calls of
`guac_surface_resize`, `guac_surface_draw` and `guac_surface_flush` that return. -/
inductive guac_surface.reachable (max_width max_height : Int) : guac_surface → Prop
  | alloc (layer : Nat) (width height : Int) :
    guac_surface.reachable max_width max_height (guac_surface_alloc layer width height)
  | resize (s s1 : guac_surface) (width height status : Int) (freed : List guac_surface_tile) :
    guac_surface.reachable max_width max_height s →
    guac_surface_resize max_width max_height s width height = some (status, s1, freed) →
    guac_surface.reachable max_width max_height s1
  | draw (s s1 : guac_surface) (x y : Int) (src : cairo_surface_t) :
    guac_surface.reachable max_width max_height s →
    guac_surface_draw s x y src = some s1 →
    guac_surface.reachable max_width max_height s1
  | flush (s s1 : guac_surface) (out : List guac_instruction) :
    guac_surface.reachable max_width max_height s →
    guac_surface_flush s = some (s1, out) →
    guac_surface.reachable max_width max_height s1

/-- The positions `(row, column)` of a grid in row-major order. -/
def grid_positions (rows columns : Nat) : List (Nat × Nat) :=
  (List.range rows).flatMap (fun r => (List.range columns).map (fun c => (r, c)))

/-- The footprint of the tile at grid position `p = (row, column)` meets the
rectangle of width `w` and height `h` placed at `(x, y)`. -/
def tile_meets_rect (x y w h : Int) (p : Nat × Nat) : Bool :=
  decide (x < 64 * (p.2 : Int) + 64 ∧ 64 * (p.2 : Int) < x + w ∧
    y < 64 * (p.1 : Int) + 64 ∧ 64 * (p.1 : Int) < y + h)

/-- The entries of the tile array that the loops of `guac_surface_draw` visit
when the surface has `C` columns and the image `src` is drawn at a position
`(x, y)` that is not negative: entry `i` is visited in iteration `k` of the
outer loop when it lies among the `last_column - column + 1` entries that start
at `C * row + column + k * C`. -/
def draw_dispatched (C : Nat) (x y : Int) (src : cairo_surface_t) (i : Nat) : Prop :=
  ∃ k : Nat, k < ((y + src.height - 1) / 64).toNat - (y / 64).toNat + 1 ∧
    C * (y / 64).toNat + (x / 64).toNat + k * C ≤ i ∧
    i < C * (y / 64).toNat + (x / 64).toNat + k * C
      + (((x + src.width - 1) / 64).toNat - (x / 64).toNat + 1)

/-! ## Image comparison and image hashing (`hash.c`)

A pointer into image data is a block of bytes together with an offset into it.
A callback of type `guac_hash_callback` takes the position, the hash and its
closure, and gives its result together with the closure as it has left it. -/

/-- The function `guac_image_cmp`, its row loop: the remaining number of rows and
the two running pointers `data_a` and `data_b`. The byte count `width_a * 4` of
`memcmp` is a number of bytes when the width is not negative. -/
def guac_image_cmp_rows (data_a : Mem) (width_a stride_a : Int) (data_b : Mem) (stride_b : Int) :
    Nat → Int → Int → Int
  | 0, _, _ => 0
  | n + 1, pa, pb =>
    let cmp_result := memcmp data_a pa data_b pb (width_a * 4).toNat
    if cmp_result ≠ 0 then cmp_result
    else guac_image_cmp_rows data_a width_a stride_a data_b stride_b n
      (pa + stride_a) (pb + stride_b)

/-- The function `guac_image_cmp`, for image data that start at offset `pa` of
`data_a` and at offset `pb` of `data_b`. -/
def guac_image_cmp (data_a : Mem) (pa : Int) (width_a height_a stride_a : Int)
    (data_b : Mem) (pb : Int) (width_b height_b stride_b : Int) : Int :=
  if width_a ≠ width_b then width_a - width_b
  else if height_a ≠ height_b then height_a - height_b
  else guac_image_cmp_rows data_a width_a stride_a data_b stride_b height_a.toNat pa pb

/-- The 32-bit pixel that `*(row++)` reads at a byte offset of the image data
(the four bytes in little-endian order). -/
def read_uint32 (data : Mem) (offset : Int) : Nat :=
  (data offset + 256 * data (offset + 1) + 65536 * data (offset + 2)
    + 16777216 * data (offset + 3)) % 2 ^ 32

/-- The update `((hash * 31) << 1) + value` of `guac_hash_foreach_image_rect`, in
unsigned 64-bit arithmetic. -/
def hash_step (hash value : Nat) : Nat :=
  ((hash * 31 % 2 ^ 64) * 2 % 2 ^ 64 + value) % 2 ^ 64

/-- The inner loop of `guac_hash_foreach_image_rect` for the row `y` whose data
start at `offset`: the remaining number of columns, the column `x`, `row_hash`,
the array `cell_hash` and the closure. The result 0 says that the loop ran to
its end; any other result is what the function returns at once. An access to
`cell_hash` outside of its 4096 entries has no defined result. -/
def guac_hash_foreach_image_rect_columns {σ : Type} (data : Mem) (offset : Int) (y : Nat)
    (rect_width rect_height : Int) (callback : Int → Int → Nat → σ → Int × σ) :
    Nat → Nat → Nat → (Nat → Nat) → σ → Option (Int × (Nat → Nat) × σ)
  | 0, _, _, cell_hash, closure => some (0, cell_hash, closure)
  | n + 1, x, row_hash, cell_hash, closure =>
    if 4096 ≤ x then none
    else
      let pixel := read_uint32 data (offset + 4 * (x : Int))
      let row_hash := hash_step row_hash pixel
      let cell := hash_step (cell_hash x) row_hash
      let cell_hash := fun i => if i = x then cell else cell_hash i
      if (y : Int) ≥ rect_height - 1 ∧ (x : Int) ≥ rect_width - 1 then
        let result := callback ((x : Int) - rect_width + 1) ((y : Int) - rect_height + 1)
          cell closure
        if result.1 ≠ 0 then some (result.1, cell_hash, result.2)
        else guac_hash_foreach_image_rect_columns data offset y rect_width rect_height callback
          n (x + 1) row_hash cell_hash result.2
      else guac_hash_foreach_image_rect_columns data offset y rect_width rect_height callback
        n (x + 1) row_hash cell_hash closure

/-- The outer loop of `guac_hash_foreach_image_rect`: the remaining number of
rows, the row `y`, the running pointer `data`, the array `cell_hash` and the
closure. -/
def guac_hash_foreach_image_rect_rows {σ : Type} (data : Mem) (width stride : Int)
    (rect_width rect_height : Int) (callback : Int → Int → Nat → σ → Int × σ) :
    Nat → Nat → Int → (Nat → Nat) → σ → Option (Int × σ)
  | 0, _, _, _, closure => some (0, closure)
  | n + 1, y, offset, cell_hash, closure =>
    match guac_hash_foreach_image_rect_columns data offset y rect_width rect_height callback
        width.toNat 0 0 cell_hash closure with
    | none => none
    | some (result, cell_hash1, closure1) =>
      if result ≠ 0 then some (result, closure1)
      else guac_hash_foreach_image_rect_rows data width stride rect_width rect_height callback
        n (y + 1) (offset + stride) cell_hash1 closure1

/-- The function `guac_hash_foreach_image_rect`: the value returned and the
closure as the callbacks have left it. -/
def guac_hash_foreach_image_rect {σ : Type} (data : Mem) (width height stride : Int)
    (rect_width rect_height : Int) (callback : Int → Int → Nat → σ → Int × σ) (closure : σ) :
    Option (Int × σ) :=
  if rect_width ≠ 64 ∨ rect_height ≠ 64 then some (0, closure)
  else guac_hash_foreach_image_rect_rows data width stride rect_width rect_height callback
    height.toNat 0 0 (fun _ => 0) closure

/-- The struct `guac_hash_search_state`. -/
structure guac_hash_search_state where
  haystack_data : Mem
  haystack_stride : Int
  needle_data : Mem
  needle_stride : Int
  needle_width : Int
  needle_height : Int
  x : Int
  y : Int
  value : Nat

/-- The callback `guac_hash_assign_value`; its closure is the `uint64_t` that it
assigns. -/
def guac_hash_assign_value (_x _y : Int) (hash : Nat) (_closure : Nat) : Int × Nat :=
  (1, hash)

/-- The callback `guac_hash_find_value`. -/
def guac_hash_find_value (x y : Int) (hash : Nat) (state : guac_hash_search_state) :
    Int × guac_hash_search_state :=
  if state.value = hash then
    let current := x * 4 + y * state.haystack_stride
    let width := state.needle_width
    let height := state.needle_height
    if guac_image_cmp state.haystack_data current width height state.haystack_stride
        state.needle_data 0 width height state.needle_stride = 0 then
      (1, { state with x := x, y := y })
    else (0, state)
  else (0, state)

/-- The function `guac_hash_search_image`: the value returned and the contents
of `*found_x` and `*found_y` afterwards. The members of `state` that the
initializer does not name start as zero. -/
def guac_hash_search_image (haystack_data : Mem)
    (haystack_width haystack_height haystack_stride : Int) (needle_data : Mem)
    (needle_width needle_height needle_stride : Int) (found_x found_y : Int) :
    Option (Int × Int × Int) :=
  if haystack_width < needle_width ∨ haystack_height < needle_height then
    some (0, found_x, found_y)
  else
    let state : guac_hash_search_state :=
      { haystack_data := haystack_data
        haystack_stride := haystack_stride
        needle_data := needle_data
        needle_stride := needle_stride
        needle_width := needle_width
        needle_height := needle_height
        x := 0
        y := 0
        value := 0 }
    match guac_hash_foreach_image_rect needle_data needle_width needle_height needle_stride
        needle_width needle_height guac_hash_assign_value state.value with
    | none => none
    | some (_, value) =>
      match guac_hash_foreach_image_rect haystack_data haystack_width haystack_height
          haystack_stride needle_width needle_height guac_hash_find_value
          { state with value := value } with
      | none => none
      | some (result, state1) =>
        if result ≠ 0 then some (1, state1.x, state1.y)
        else some (0, found_x, found_y)

/-! ## Vocabulary of the statements about `hash.c` and about the resize -/

/-- The reference comparator of the specification: the difference of the widths
when they differ, else the difference of the heights when they differ, else the
first result that is not zero among the comparisons of the rows, top to bottom,
each over the first `width * 4` bytes of the row, and 0 when there is none. -/
def image_cmp_reference (data_a : Mem) (pa : Int) (width_a height_a stride_a : Int)
    (data_b : Mem) (pb : Int) (width_b height_b stride_b : Int) : Int :=
  if width_a ≠ width_b then width_a - width_b
  else if height_a ≠ height_b then height_a - height_b
  else
    (((List.range height_a.toNat).map (fun k : Nat =>
        memcmp data_a (pa + (k : Int) * stride_a) data_b (pb + (k : Int) * stride_b)
          (width_a * 4).toNat)).find? (fun r => r ≠ 0)).getD 0

/-- The bytes of an image in row-major order: for every row, top to bottom, its
first `width * 4` bytes. -/
def image_bytes (data : Mem) (p : Int) (width height stride : Int) : List Nat :=
  (List.range height.toNat).flatMap (fun k : Nat =>
    (List.range (width * 4).toNat).map (fun j : Nat => data (p + (k : Int) * stride + (j : Int))))

/-- The sign of the comparison of two lists of bytes in lexicographic order:
-1, 0 or 1 as the first list is less than, equal to or greater than the second. -/
def lex_sign : List Nat → List Nat → Int
  | [], [] => 0
  | [], _ :: _ => -1
  | _ :: _, [] => 1
  | a :: as, b :: bs => if a < b then -1 else if b < a then 1 else lex_sign as bs

/-- The hash that results from a start value by the updates with a list of
values, first to last. -/
def hash_fold (hash : Nat) (values : List Nat) : Nat :=
  values.foldl hash_step hash

/-- The hash of the 64x64 rectangle whose top-left pixel is pixel `(X, Y)` of an
image: the updates, top to bottom, with the hashes of its 64 rows, each of them
the updates, left to right, with the 64 pixels of the row. -/
def rect_hash (data : Mem) (stride : Int) (X Y : Nat) : Nat :=
  hash_fold 0 ((List.range 64).map (fun b : Nat =>
    hash_fold 0 ((List.range 64).map (fun a : Nat =>
      read_uint32 data (((Y + b : Nat) : Int) * stride + 4 * ((X + a : Nat) : Int))))))

/-- The enumeration of the specification: every top-left position `(X, Y)` of a
64x64 rectangle that lies inside of the image, `0 <= X <= width - 64` and
`0 <= Y <= height - 64`, in row-major order (`Y`-major, then `X`), each with the
hash of its rectangle. -/
def rect_enumeration (data : Mem) (width height stride : Int) : List (Int × Int × Nat) :=
  (List.range (height - 63).toNat).flatMap (fun Y : Nat =>
    (List.range (width - 63).toNat).map (fun X : Nat =>
      ((X : Int), (Y : Int), rect_hash data stride X Y)))

/-- The calls of the specification: the callback is called for the entries of a
list in order; the first result that is not zero stops the calls and is the
result; the result is 0 when there is none. The closure is handed from each call
to the next. -/
def callbacks_run {σ : Type} (callback : Int → Int → Nat → σ → Int × σ) :
    List (Int × Int × Nat) → σ → Int × σ
  | [], closure => (0, closure)
  | e :: rest, closure =>
    if (callback e.1 e.2.1 e.2.2 closure).1 ≠ 0 then callback e.1 e.2.1 e.2.2 closure
    else callbacks_run callback rest (callback e.1 e.2.1 e.2.2 closure).2

/-- The value of `row_hash` once the first `n` pixels of the row whose data start
at `offset` have been read. -/
def row_hash_of (data : Mem) (offset : Int) (n : Nat) : Nat :=
  hash_fold 0 ((List.range n).map (fun a : Nat => read_uint32 data (offset + 4 * (a : Int))))

/-- The value of `cell_hash[x]` once the first `n` rows of the image have been
read. -/
def cell_hash_of (data : Mem) (stride : Int) (x n : Nat) : Nat :=
  hash_fold 0 ((List.range n).map (fun y : Nat => row_hash_of data ((y : Int) * stride) (x + 1)))

/-- The calls that the inner loop of `guac_hash_foreach_image_rect` makes in row
`y` for the columns `x, ..., x + n - 1`, when `cell_hash` held `cell` at the
start of the row. -/
def row_calls (data : Mem) (offset : Int) (y : Nat) (cell : Nat → Nat) (x n : Nat) :
    List (Int × Int × Nat) :=
  if 63 ≤ y then
    ((List.range' x n).filter (fun i => decide (63 ≤ i))).map (fun i : Nat =>
      ((i : Int) - 63, (y : Int) - 63, hash_step (cell i) (row_hash_of data offset (i + 1))))
  else []

/-- The array `cell_hash` once the first `y` rows of the image have been read. -/
def cells_of (data : Mem) (width stride : Int) (y : Nat) : Nat → Nat :=
  fun i => if i < width.toNat then cell_hash_of data stride i y else 0

/-- The closure after the callback has been called for every entry of a list,
in order, each call taking the closure that the call before has left. -/
def closure_after {σ : Type} (callback : Int → Int → Nat → σ → Int × σ)
    (calls : List (Int × Int × Nat)) (closure : σ) : σ :=
  calls.foldl (fun c e => (callback e.1 e.2.1 e.2.2 c).2) closure

/-- Every call of the callback for the entries of a list, in order and starting
from a closure, returns 0. -/
def all_return_zero {σ : Type} (callback : Int → Int → Nat → σ → Int × σ) :
    List (Int × Int × Nat) → σ → Prop
  | [], _ => True
  | e :: rest, closure =>
    (callback e.1 e.2.1 e.2.2 closure).1 = 0 ∧
      all_return_zero callback rest (callback e.1 e.2.1 e.2.2 closure).2

/-- Row-major order of positions `(x, y)`: an earlier row, or the same row and
an earlier column. -/
def row_major_before (p q : Int × Int) : Prop :=
  p.2 < q.2 ∨ (p.2 = q.2 ∧ p.1 < q.1)

/-- A callback that returns 0 and appends its arguments to its closure, the list
of the calls made so far. -/
def record_call (x y : Int) (hash : Nat) (calls : List (Int × Int × Nat)) :
    Int × List (Int × Int × Nat) :=
  (0, calls ++ [(x, y, hash)])

/-- The 32-bit pixel `(x, y)` of an image. -/
def image_pixel (data : Mem) (stride : Int) (x y : Int) : Nat :=
  read_uint32 data (y * stride + 4 * x)

/-- A position `(X, Y)` of the haystack at which a needle fits:
`0 <= X <= haystack_width - needle_width` and
`0 <= Y <= haystack_height - needle_height`. -/
def valid_position (haystack_width haystack_height needle_width needle_height X Y : Int) :
    Prop :=
  0 ≤ X ∧ X ≤ haystack_width - needle_width ∧ 0 ≤ Y ∧ Y ≤ haystack_height - needle_height

/-- The haystack holds a byte-exact copy of the needle with its top-left pixel
at `(X, Y)`: row `k` of the needle, over its first `needle_width * 4` bytes, is
row `Y + k` of the haystack from the byte `X * 4` on. -/
def needle_at (haystack_data : Mem) (haystack_stride : Int) (needle_data : Mem)
    (needle_width needle_height needle_stride : Int) (X Y : Int) : Prop :=
  ∀ k j : Int, 0 ≤ k → k < needle_height → 0 ≤ j → j < needle_width * 4 →
    haystack_data ((Y + k) * haystack_stride + X * 4 + j) = needle_data (k * needle_stride + j)

/-- The state of `guac_hash_search_image` when it searches the haystack: the
initializer, with the hash of the needle as `value`. -/
def search_state (haystack_data : Mem) (haystack_stride : Int) (needle_data : Mem)
    (needle_width needle_height needle_stride : Int) (value : Nat) : guac_hash_search_state :=
  { haystack_data := haystack_data
    haystack_stride := haystack_stride
    needle_data := needle_data
    needle_stride := needle_stride
    needle_width := needle_width
    needle_height := needle_height
    x := 0
    y := 0
    value := value }

/-- The two tests of `guac_hash_find_value` for a call of the enumeration: the
hash is the value searched for, and `guac_image_cmp` finds the rectangle of the
haystack at the position equal to the needle. -/
def find_matches (state : guac_hash_search_state) (e : Int × Int × Nat) : Prop :=
  state.value = e.2.2 ∧
    guac_image_cmp state.haystack_data (e.1 * 4 + e.2.1 * state.haystack_stride)
      state.needle_width state.needle_height state.haystack_stride
      state.needle_data 0 state.needle_width state.needle_height state.needle_stride = 0

/-- The number of tiles that row `r` of `guac_surface_resize` copies from the old
array into the new array: the columns that lie in both grids, when the row lies
in both. -/
def resize_copied (R C NR NC r : Nat) : Nat :=
  if r < R ∧ r < NR then min C NC else 0

/-- The number of fresh tiles that row `r` of `guac_surface_resize` stores into
the new array. -/
def resize_fresh (R C NR NC r : Nat) : Nat :=
  if r < NR then NC - resize_copied R C NR NC r else 0

/-- The number of tiles of row `r` of the old grid that lie outside of the new
grid. -/
def resize_dropped (R C NR NC r : Nat) : Nat :=
  if r < R then C - resize_copied R C NR NC r else 0

/-- Row `r` of the new tile array: the tiles copied from row `r` of the old
array, then the fresh tiles. -/
def resize_new_row (old : List guac_surface_tile) (R C NR NC r : Nat) :
    List guac_surface_tile :=
  (old.drop (r * C)).take (resize_copied R C NR NC r) ++
    (List.range' (resize_copied R C NR NC r) (resize_fresh R C NR NC r)).map (fun c1 : Nat =>
      guac_surface_tile_alloc ((c1 : Int) * GUAC_SURFACE_TILE_WIDTH)
        ((r : Int) * GUAC_SURFACE_TILE_HEIGHT))

/-- The tiles of row `r` of the old array that lie outside of the new grid. -/
def resize_freed_row (old : List guac_surface_tile) (R C NR NC r : Nat) :
    List guac_surface_tile :=
  (old.drop (r * C + resize_copied R C NR NC r)).take (resize_dropped R C NR NC r)

/-! ## The whole-surface hash (`hash.c`) -/

/-- The function `_guac_hash_32to24`, on `unsigned int` values of 32 bits. -/
def _guac_hash_32to24 (value : Nat) : Nat :=
  let upper := value &&& 0xFF000000
  (value &&& 0xFFFFFF) ^^^ (upper >>> 8) ^^^ (upper >>> 16) ^^^ (upper >>> 24)

/-- The function `_guac_rotate`, on `unsigned int` values of 32 bits: the left
shift drops the bits above bit 31. -/
def _guac_rotate (value : Nat) (amount : Int) : Nat :=
  let amount := Int.land amount 0x1F
  (value >>> amount.toNat) ||| ((value <<< (32 - amount).toNat) % 2 ^ 32)

/-- The inner loop of `guac_hash_surface`: the remaining number of pixels of the
row, the running pointer `row` and `hash_value`. -/
def guac_hash_surface_columns (data : Mem) : Nat → Int → Nat → Nat
  | 0, _, hash_value => hash_value
  | n + 1, row, hash_value =>
    let color := read_uint32 data row
    guac_hash_surface_columns data n (row + 4)
      (_guac_rotate hash_value 1 ^^^ color ^^^ 0x1B872E69)

/-- The outer loop of `guac_hash_surface`: the remaining number of rows, the
running pointer `data` and `hash_value`. -/
def guac_hash_surface_rows (data : Mem) (width stride : Int) : Nat → Int → Nat → Nat
  | 0, _, hash_value => hash_value
  | n + 1, offset, hash_value =>
    guac_hash_surface_rows data width stride n (offset + stride)
      (guac_hash_surface_columns data width.toNat offset hash_value)

/-- The function `guac_hash_surface`. -/
def guac_hash_surface (surface : cairo_surface_t) : Nat :=
  _guac_hash_32to24
    (guac_hash_surface_rows surface.data surface.width surface.stride surface.height.toNat 0 0)

/-- The rotation of a 32-bit value to the right by one bit: bit 0 becomes bit 31
and every other bit moves down by one. -/
def rotate_right_32 (acc : Nat) : Nat :=
  acc / 2 + (acc % 2) * 2 ^ 31

/-- The 32-bit pixels of an image in row-major order: rows `y = 0..height-1`,
within a row `x = 0..width-1`, the pixel read at byte offset `y * stride + 4 x`. -/
def image_pixels (img : cairo_surface_t) : List Nat :=
  (List.range img.height.toNat).flatMap (fun y : Nat =>
    (List.range img.width.toNat).map (fun x : Nat =>
      read_uint32 img.data ((y : Int) * img.stride + 4 * (x : Int))))

/-- The reference fold of the specification: from `acc = 0`, for every pixel in
row-major order, `acc <- rotate_right_32(acc, 1) XOR pixel XOR 0x1B872E69`. -/
def hash_surface_fold (pixels : List Nat) : Nat :=
  pixels.foldl (fun acc pixel => rotate_right_32 acc ^^^ pixel ^^^ 0x1B872E69) 0

/-! ## Vocabulary of the statements about the histories of a tile -/

/-- The tile states that can be reached from `guac_surface_tile_alloc` by calls
of `guac_surface_tile_put` and `guac_surface_tile_flush`, each state together
with the instructions that the flushes have sent so far, in order. -/
inductive guac_surface_tile.reachable : guac_surface_tile → List guac_instruction → Prop
  | alloc (x y : Int) : guac_surface_tile.reachable (guac_surface_tile_alloc x y) []
  | put (t : guac_surface_tile) (sent : List guac_instruction) (x y : Int) (buffer : Mem)
      (width height stride : Int) :
    guac_surface_tile.reachable t sent →
    guac_surface_tile.reachable (guac_surface_tile_put t x y buffer width height stride) sent
  | flush (t : guac_surface_tile) (sent : List guac_instruction) (layer : Nat) :
    guac_surface_tile.reachable t sent →
    guac_surface_tile.reachable (guac_surface_tile_flush t layer).1
      (sent ++ (guac_surface_tile_flush t layer).2)

/-- The old page and the new page of a tile hold the same bytes over the whole
64x64 tile. -/
def guac_surface_tile.pages_identical (t : guac_surface_tile) : Prop :=
  ∀ dx dy k : Int, 0 ≤ dx ∧ dx < 64 → 0 ≤ dy ∧ dy < 64 → 0 ≤ k ∧ k < 4 →
    (guac_surface_tile_page t (1 - t.current_page)).pixel_byte dx dy k
      = (guac_surface_tile_page t t.current_page).pixel_byte dx dy k

/-- A clean tile hides no change: when the dirty flag is clear the two pages are
identical. -/
def guac_surface_tile.consistent (t : guac_surface_tile) : Prop :=
  t.dirty = 0 → t.pages_identical

/-- A draw of the image `src` at `(x, y)` writes onto the tile the bytes that its
new page already holds: for every pixel of the source rectangle that lies on the
footprint of the tile, the source bytes are those of the new page. -/
def guac_surface_tile.put_redundant (t : guac_surface_tile) (x y : Int)
    (src : cairo_surface_t) : Prop :=
  ∀ px py k : Int, in_rect x y src.width src.height px py →
    in_rect t.x t.y 64 64 px py → 0 ≤ k ∧ k < 4 →
    src.pixel_byte (px - x) (py - y) k
      = (guac_surface_tile_page t t.current_page).pixel_byte (px - t.x) (py - t.y) k

/-- The surfaces that a sequence of calls of `guac_surface_draw` that return
leads to, when each call writes, on every tile of the surface it is made on, the
bytes that the new page of the tile holds at that time. -/
inductive guac_surface.redundant_draws : guac_surface → guac_surface → Prop
  | none (s : guac_surface) : guac_surface.redundant_draws s s
  | draw (s s1 s2 : guac_surface) (x y : Int) (src : cairo_surface_t) :
    guac_surface.redundant_draws s s1 →
    (∀ t ∈ s1.tiles, t.put_redundant x y src) →
    guac_surface_draw s1 x y src = some s2 →
    guac_surface.redundant_draws s s2

/-! ## Vocabulary of the statements about the histories of a surface -/

/-- The surfaces obtained from `guac_surface_alloc`, called with a width and a
height from 1 to the limits, by calls of `guac_surface_resize`,
`guac_surface_draw` and `guac_surface_flush` that return, with any arguments;
`sizes` says which widths and heights the calls of resize are given. -/
inductive guac_surface.obtained (max_width max_height : Int) (sizes : Int → Int → Prop) :
    guac_surface → Prop
  | alloc (layer : Nat) (width height : Int) :
    1 ≤ width → width ≤ max_width → 1 ≤ height → height ≤ max_height →
    guac_surface.obtained max_width max_height sizes (guac_surface_alloc layer width height)
  | resize (s s1 : guac_surface) (width height status : Int) (freed : List guac_surface_tile) :
    guac_surface.obtained max_width max_height sizes s →
    sizes width height →
    guac_surface_resize max_width max_height s width height = some (status, s1, freed) →
    guac_surface.obtained max_width max_height sizes s1
  | draw (s s1 : guac_surface) (x y : Int) (src : cairo_surface_t) :
    guac_surface.obtained max_width max_height sizes s →
    guac_surface_draw s x y src = some s1 →
    guac_surface.obtained max_width max_height sizes s1
  | flush (s s1 : guac_surface) (out : List guac_instruction) :
    guac_surface.obtained max_width max_height sizes s →
    guac_surface_flush s = some (s1, out) →
    guac_surface.obtained max_width max_height sizes s1

/-! ## The mutex of a surface (`surface-priv.h`, `surface.c`)

The functions of `surface.c` once more, this time as the sequence of what an
execution does with the mutex and with the members of the surface, statement by
statement. The member `lock` itself is touched by `pthread_mutex_lock` and
`pthread_mutex_unlock` only. -/

/-- The members of `struct guac_surface` other than `lock`. -/
inductive guac_surface_member where
  | client
  | socket
  | layer
  | content_dirty
  | size_dirty
  | width
  | height
  | rows
  | columns
  | tiles
  deriving DecidableEq, Repr

/-- What a statement does with the surface: `pthread_mutex_lock(&(surface->lock))`,
`pthread_mutex_unlock(&(surface->lock))`, a read or a write of a member, or an
access to the tile array or to a tile through a pointer taken from
`surface->tiles`. -/
inductive guac_surface_event where
  | mutex_lock
  | mutex_unlock
  | read (member : guac_surface_member)
  | write (member : guac_surface_member)
  | tile_access
  deriving DecidableEq, Repr

/-- The inner loop of `guac_surface_resize`, for the remaining number of columns
and the current column: the test `row < surface->rows && column <
surface->columns` is made for the positions of the new grid and reads `columns`
only when `row < surface->rows`; `*(old_tile++)` is an access to the old
array. -/
def guac_surface_resize_columns_events (old_rows old_columns new_rows new_columns row : Int) :
    Nat → Int → List guac_surface_event
  | 0, _ => []
  | n + 1, column =>
    (if row < new_rows ∧ column < new_columns then
      [guac_surface_event.read guac_surface_member.rows]
        ++ (if row < old_rows then [guac_surface_event.read guac_surface_member.columns]
            else [])
        ++ (if row < old_rows ∧ column < old_columns then [guac_surface_event.tile_access]
            else [])
    else [guac_surface_event.tile_access])
      ++ guac_surface_resize_columns_events old_rows old_columns new_rows new_columns row
          n (column + 1)

/-- The outer loop of `guac_surface_resize`. -/
def guac_surface_resize_rows_events (old_rows old_columns new_rows new_columns : Int)
    (max_columns : Nat) : Nat → Int → List guac_surface_event
  | 0, _ => []
  | n + 1, row =>
    guac_surface_resize_columns_events old_rows old_columns new_rows new_columns row
        max_columns 0
      ++ guac_surface_resize_rows_events old_rows old_columns new_rows new_columns max_columns
          n (row + 1)

/-- The function `guac_surface_resize`, as the events of its execution. -/
def guac_surface_resize_events (GUAC_SURFACE_MAX_WIDTH GUAC_SURFACE_MAX_HEIGHT : Int)
    (surface : guac_surface) (width height : Int) : List guac_surface_event :=
  if width > GUAC_SURFACE_MAX_WIDTH ∨ height > GUAC_SURFACE_MAX_HEIGHT then []
  else
    let new_rows := (height + GUAC_SURFACE_TILE_HEIGHT - 1).tdiv GUAC_SURFACE_TILE_HEIGHT
    let new_columns := (width + GUAC_SURFACE_TILE_WIDTH - 1).tdiv GUAC_SURFACE_TILE_WIDTH
    let max_rows := if surface.rows > new_rows then surface.rows else new_rows
    let max_columns := if surface.columns > new_columns then surface.columns else new_columns
    [guac_surface_event.mutex_lock]
      ++ [guac_surface_event.read guac_surface_member.rows]
      ++ (if surface.rows > new_rows then [guac_surface_event.read guac_surface_member.rows]
          else [])
      ++ [guac_surface_event.read guac_surface_member.columns]
      ++ (if surface.columns > new_columns then
            [guac_surface_event.read guac_surface_member.columns]
          else [])
      ++ [guac_surface_event.read guac_surface_member.tiles]
      ++ guac_surface_resize_rows_events surface.rows surface.columns new_rows new_columns
          max_columns.toNat max_rows.toNat 0
      ++ [guac_surface_event.read guac_surface_member.tiles,
          guac_surface_event.write guac_surface_member.tiles,
          guac_surface_event.write guac_surface_member.rows,
          guac_surface_event.write guac_surface_member.columns,
          guac_surface_event.write guac_surface_member.width,
          guac_surface_event.write guac_surface_member.height,
          guac_surface_event.write guac_surface_member.size_dirty]
      ++ [guac_surface_event.mutex_unlock]

/-- The inner loop of `guac_surface_draw`: every iteration hands `*current` to
`guac_surface_tile_put`. -/
def guac_surface_draw_columns_events : Nat → List guac_surface_event
  | 0 => []
  | n + 1 => guac_surface_event.tile_access :: guac_surface_draw_columns_events n

/-- The outer loop of `guac_surface_draw`: every iteration reads
`surface->columns` to advance `current_row`. -/
def guac_surface_draw_rows_events (count : Nat) : Nat → List guac_surface_event
  | 0 => []
  | n + 1 =>
    guac_surface_event.read guac_surface_member.columns
      :: (guac_surface_draw_columns_events count ++ guac_surface_draw_rows_events count n)

/-- The function `guac_surface_draw`, as the events of its execution. The test
`x >= surface->width || y >= surface->height` reads `height` only when
`x < surface->width`. -/
def guac_surface_draw_events (surface : guac_surface) (x y : Int) (src : cairo_surface_t) :
    List guac_surface_event :=
  [guac_surface_event.mutex_lock, guac_surface_event.read guac_surface_member.width]
    ++ (if x ≥ surface.width then [] else [guac_surface_event.read guac_surface_member.height])
    ++
    (if x ≥ surface.width ∨ y ≥ surface.height then [guac_surface_event.mutex_unlock]
    else
      let width := src.width
      let height := src.height
      let row := y.tdiv GUAC_SURFACE_TILE_HEIGHT
      let column := x.tdiv GUAC_SURFACE_TILE_WIDTH
      let last_row := (y + height - 1).tdiv GUAC_SURFACE_TILE_HEIGHT
      let last_column := (x + width - 1).tdiv GUAC_SURFACE_TILE_WIDTH
      [guac_surface_event.read guac_surface_member.tiles,
        guac_surface_event.read guac_surface_member.columns]
        ++ guac_surface_draw_rows_events (last_column - column + 1).toNat
            (last_row - row + 1).toNat
        ++ [guac_surface_event.write guac_surface_member.content_dirty,
            guac_surface_event.mutex_unlock])

/-- The inner loop of `guac_surface_flush`: every test reads `surface->columns`,
every iteration hands `*(current++)`, `surface->client`, `surface->socket` and
`surface->layer` to `guac_surface_tile_flush`. -/
def guac_surface_flush_columns_events : Nat → List guac_surface_event
  | 0 => [guac_surface_event.read guac_surface_member.columns]
  | n + 1 =>
    [guac_surface_event.read guac_surface_member.columns,
      guac_surface_event.tile_access,
      guac_surface_event.read guac_surface_member.client,
      guac_surface_event.read guac_surface_member.socket,
      guac_surface_event.read guac_surface_member.layer]
      ++ guac_surface_flush_columns_events n

/-- The outer loop of `guac_surface_flush`: every test reads `surface->rows`. -/
def guac_surface_flush_rows_events (columns : Nat) : Nat → List guac_surface_event
  | 0 => [guac_surface_event.read guac_surface_member.rows]
  | n + 1 =>
    guac_surface_event.read guac_surface_member.rows
      :: (guac_surface_flush_columns_events columns
        ++ guac_surface_flush_rows_events columns n)

/-- The function `guac_surface_flush`, as the events of its execution. -/
def guac_surface_flush_events (surface : guac_surface) : List guac_surface_event :=
  [guac_surface_event.mutex_lock, guac_surface_event.read guac_surface_member.size_dirty]
    ++ (if surface.size_dirty ≠ 0 then
        [guac_surface_event.read guac_surface_member.socket,
          guac_surface_event.read guac_surface_member.layer,
          guac_surface_event.read guac_surface_member.width,
          guac_surface_event.read guac_surface_member.height,
          guac_surface_event.write guac_surface_member.size_dirty]
      else [])
    ++ [guac_surface_event.read guac_surface_member.content_dirty]
    ++ (if surface.content_dirty ≠ 0 then
        [guac_surface_event.read guac_surface_member.tiles]
          ++ guac_surface_flush_rows_events surface.columns.toNat surface.rows.toNat
          ++ [guac_surface_event.write guac_surface_member.content_dirty]
      else [])
    ++ [guac_surface_event.mutex_unlock]

/-- The members that must not be read or written without the mutex: all but the
three references set at allocation (`surface-priv.h`). -/
def guac_surface_member.needs_lock : guac_surface_member → Bool
  | .client => false
  | .socket => false
  | .layer => false
  | _ => true

/-- The discipline of the mutex along a sequence of events, from the state
`held`: the mutex is locked only when it is not held, unlocked only when it is
held, and a member that needs the lock, or a tile, is touched only while it is
held. The result is the state of the mutex at the end, or `none` when the
discipline is broken. -/
def mutex_discipline : Bool → List guac_surface_event → Option Bool
  | held, [] => some held
  | held, guac_surface_event.mutex_lock :: rest =>
    if held then none else mutex_discipline true rest
  | held, guac_surface_event.mutex_unlock :: rest =>
    if held then mutex_discipline false rest else none
  | held, guac_surface_event.read member :: rest =>
    if member.needs_lock ∧ ¬ held then none else mutex_discipline held rest
  | held, guac_surface_event.write member :: rest =>
    if member.needs_lock ∧ ¬ held then none else mutex_discipline held rest
  | held, guac_surface_event.tile_access :: rest =>
    if held then mutex_discipline held rest else none

/-- An event other than the two calls on the mutex. -/
def guac_surface_event.is_access : guac_surface_event → Bool
  | .mutex_lock => false
  | .mutex_unlock => false
  | _ => true

/-- A sequence of events that starts with the mutex not held, keeps the
discipline, locks the mutex once, never unlocks it and so ends with the mutex
held. -/
def mutex_opened (events : List guac_surface_event) : Prop :=
  mutex_discipline false events = some true ∧
    events.count guac_surface_event.mutex_lock = 1 ∧
    events.count guac_surface_event.mutex_unlock = 0

/-- A sequence of events that starts with the mutex not held, keeps the
discipline, locks the mutex once, unlocks it once, as its last event, and so
ends with the mutex not held. -/
def mutex_bracketed (events : List guac_surface_event) : Prop :=
  mutex_discipline false events = some false ∧
    events.count guac_surface_event.mutex_lock = 1 ∧
    events.count guac_surface_event.mutex_unlock = 1 ∧
    events.getLast? = some guac_surface_event.mutex_unlock

/-! ## Vocabulary of the statements about the weights of the pixels in the hash -/

/-- The polynomial of the specification for the 64x64 rectangle whose top-left
pixel is pixel `(X, Y)` of an image: the sum over `0 <= i, j < 64` of
`pixel(X + i, Y + j) * 62 ^ (126 - i - j)`, modulo `2 ^ 64`. -/
def rect_polynomial (data : Mem) (stride : Int) (X Y : Int) : Nat :=
  (∑ i ∈ Finset.range 64, ∑ j ∈ Finset.range 64,
    image_pixel data stride (X + (i : Int)) (Y + (j : Int)) * 62 ^ (126 - i - j)) % 2 ^ 64

/-- The polynomial of the specification without the terms that vanish modulo
`2 ^ 64`: the sum over the `0 <= i, j < 64` with `i + j >= 63` only. -/
def rect_polynomial_lower (data : Mem) (stride : Int) (X Y : Int) : Nat :=
  (∑ i ∈ Finset.range 64, ∑ j ∈ Finset.range 64,
    if 63 ≤ i + j then
      image_pixel data stride (X + (i : Int)) (Y + (j : Int)) * 62 ^ (126 - i - j)
    else 0) % 2 ^ 64

/-! ## The bytes that `guac_surface_tile_put` reads and writes (`surface-tile.c`)

A second embedding of `guac_surface_tile_put`, statement by statement: the
accesses to memory of an execution, in the order in which they are made. -/

/-- An access of `guac_surface_tile_put` to memory: `length` bytes from a byte
offset on, read from the source `buffer`, read from `tile->buffer` or written to
`tile->buffer`. -/
inductive guac_surface_tile_access where
  | source_read (offset length : Int)
  | tile_read (offset length : Int)
  | tile_write (offset length : Int)
deriving DecidableEq, Repr

/-- The row loop of `guac_surface_tile_put`, its accesses: `memcpy` reads
`width * 4` bytes at `src` and writes them at `dst_new`; when `tile->dirty` is 0,
`memcmp` reads bytes among the `width * 4` at `dst_old` and at `dst_new`. -/
def guac_surface_tile_put_rows_accesses (buffer : Mem) (stride width : Int) :
    Nat → Int → Int → Int → Int → Mem → List guac_surface_tile_access
  | 0, _, _, _, _, _ => []
  | n + 1, src, dst_new, dst_old, dirty, buf =>
    let buf1 := memcpy buf dst_new buffer src (width * 4)
    let dirty1 :=
      if dirty = 0 then memcmp buf1 dst_old buf1 dst_new (width * 4).toNat else dirty
    [guac_surface_tile_access.source_read src (width * 4),
      guac_surface_tile_access.tile_write dst_new (width * 4)]
    ++ (if dirty = 0 then
          [guac_surface_tile_access.tile_read dst_old (width * 4),
            guac_surface_tile_access.tile_read dst_new (width * 4)]
        else [])
    ++ guac_surface_tile_put_rows_accesses buffer stride width n
      (src + stride) (dst_new + GUAC_SURFACE_TILE_STRIDE)
      (dst_old + GUAC_SURFACE_TILE_STRIDE) dirty1 buf1

/-- The function `guac_surface_tile_put`, its accesses to the source `buffer`
and to `tile->buffer`. -/
def guac_surface_tile_put_accesses (tile : guac_surface_tile) (x y : Int)
    (buffer : Mem) (width height stride : Int) : List guac_surface_tile_access :=
  let left := tile.x
  let top := tile.y
  let right := left + GUAC_SURFACE_TILE_WIDTH
  let bottom := top + GUAC_SURFACE_TILE_HEIGHT
  let max_left := x
  let max_top := y
  let max_right := max_left + width
  let max_bottom := max_top + height
  let left := if max_left > left then max_left else left
  let top := if max_top > top then max_top else top
  let right := if max_right < right then max_right else right
  let bottom := if max_bottom < bottom then max_bottom else bottom
  let src_x := left - x
  let src_y := top - y
  let dst_x := left - tile.x
  let dst_y := top - tile.y
  let width := right - left
  let height := bottom - top
  if width ≤ 0 then []
  else if height ≤ 0 then []
  else
    let src := src_y * stride + src_x * 4
    let dst_old := (1 - tile.current_page) * GUAC_SURFACE_TILE_ROW_SIZE
      + dst_y * GUAC_SURFACE_TILE_STRIDE + dst_x * 4
    let dst_new := tile.current_page * GUAC_SURFACE_TILE_ROW_SIZE
      + dst_y * GUAC_SURFACE_TILE_STRIDE + dst_x * 4
    guac_surface_tile_put_rows_accesses buffer stride width height.toNat
      src dst_new dst_old tile.dirty tile.buffer

/-- The bytes `offset, ..., offset + length - 1` of `tile->buffer` are at least
one byte, and all of them lie in the row segment of one page of the tile: the 256
bytes of row `row` of page `page`, which start at the byte
`page * 256 + row * 512` of the 32768 bytes of the buffer. -/
def in_page_row (page row offset length : Int) : Prop :=
  0 < length ∧ 0 ≤ row ∧ row < 64 ∧
    page * 256 + row * 512 ≤ offset ∧ offset + length ≤ page * 256 + row * 512 + 256

/-- The bytes `offset, ..., offset + length - 1` of the source buffer are the
bytes of at least one pixel, and of pixels of one row only, at a row in
`[0, height)` and at pixel columns in `[0, width)` of an image of that width,
height and stride: the bytes of the pixels `c, ..., c + w - 1` of row `r`. -/
def in_source_row (width height stride offset length : Int) : Prop :=
  ∃ r c w : Int, 0 ≤ r ∧ r < height ∧ 0 ≤ c ∧ 0 < w ∧ c + w ≤ width ∧
    offset = r * stride + c * 4 ∧ length = w * 4

/-- An access of `guac_surface_tile_put` is within bounds: a read of the source
lies in one row of the source image; an access to `tile->buffer` lies in
`[0, 32768)` and in one row segment of a page, the new page `current_page` for a
write and either page for a read. -/
def guac_surface_tile_access.in_bounds (current_page width height stride : Int) :
    guac_surface_tile_access → Prop
  | guac_surface_tile_access.source_read offset length =>
    in_source_row width height stride offset length
  | guac_surface_tile_access.tile_read offset length =>
    0 ≤ offset ∧ offset + length ≤ 32768 ∧
      ∃ row : Int, in_page_row current_page row offset length ∨
        in_page_row (1 - current_page) row offset length
  | guac_surface_tile_access.tile_write offset length =>
    0 ≤ offset ∧ offset + length ≤ 32768 ∧
      ∃ row : Int, in_page_row current_page row offset length

/-! ## The entries of `cell_hash` that `guac_hash_foreach_image_rect` uses (`hash.c`)

A second embedding of the loops of `guac_hash_foreach_image_rect`: the indices
at which an execution reads and writes the array `cell_hash`, row by row. -/

/-- The inner loop of `guac_hash_foreach_image_rect`, its accesses to
`cell_hash` in one row: the index `x` of every iteration that is executed, in
order (the iteration reads `*current_cell_hash` and writes
`*(current_cell_hash++)`, both at index `x`). The list ends with the index of an
access outside of the 4096 entries, after which the execution has no defined
continuation, or with the index of the iteration in which the callback returns a
result that is not zero. -/
def guac_hash_foreach_image_rect_columns_indices {σ : Type} (data : Mem) (offset : Int)
    (y : Nat) (rect_width rect_height : Int) (callback : Int → Int → Nat → σ → Int × σ) :
    Nat → Nat → Nat → (Nat → Nat) → σ → List Nat
  | 0, _, _, _, _ => []
  | n + 1, x, row_hash, cell_hash, closure =>
    if 4096 ≤ x then [x]
    else
      let pixel := read_uint32 data (offset + 4 * (x : Int))
      let row_hash := hash_step row_hash pixel
      let cell := hash_step (cell_hash x) row_hash
      let cell_hash := fun i => if i = x then cell else cell_hash i
      if (y : Int) ≥ rect_height - 1 ∧ (x : Int) ≥ rect_width - 1 then
        let result := callback ((x : Int) - rect_width + 1) ((y : Int) - rect_height + 1)
          cell closure
        if result.1 ≠ 0 then [x]
        else x :: guac_hash_foreach_image_rect_columns_indices data offset y rect_width
          rect_height callback n (x + 1) row_hash cell_hash result.2
      else x :: guac_hash_foreach_image_rect_columns_indices data offset y rect_width
        rect_height callback n (x + 1) row_hash cell_hash closure

/-- The outer loop of `guac_hash_foreach_image_rect`, its accesses to
`cell_hash`: for every row that is executed, in order, the indices of that
row. -/
def guac_hash_foreach_image_rect_rows_indices {σ : Type} (data : Mem) (width stride : Int)
    (rect_width rect_height : Int) (callback : Int → Int → Nat → σ → Int × σ) :
    Nat → Nat → Int → (Nat → Nat) → σ → List (List Nat)
  | 0, _, _, _, _ => []
  | n + 1, y, offset, cell_hash, closure =>
    guac_hash_foreach_image_rect_columns_indices data offset y rect_width rect_height callback
        width.toNat 0 0 cell_hash closure ::
      match guac_hash_foreach_image_rect_columns data offset y rect_width rect_height callback
          width.toNat 0 0 cell_hash closure with
      | none => []
      | some (result, cell_hash1, closure1) =>
        if result ≠ 0 then []
        else guac_hash_foreach_image_rect_rows_indices data width stride rect_width rect_height
          callback n (y + 1) (offset + stride) cell_hash1 closure1

/-- The function `guac_hash_foreach_image_rect`, its accesses to `cell_hash`:
for every row of the image that the function executes, the indices at which the
row reads and writes the array. -/
def guac_hash_foreach_image_rect_indices {σ : Type} (data : Mem) (width height stride : Int)
    (rect_width rect_height : Int) (callback : Int → Int → Nat → σ → Int × σ) (closure : σ) :
    List (List Nat) :=
  if rect_width ≠ 64 ∨ rect_height ≠ 64 then []
  else guac_hash_foreach_image_rect_rows_indices data width stride rect_width rect_height
    callback height.toNat 0 0 (fun _ => 0) closure

/-! # Theorems -/

/-! ## The libc primitives and the row loops of the tile -/

theorem memcmp_eq_zero_iff (a b : Mem) (n : Nat) : ∀ (pa pb : Int),
    memcmp a pa b pb n = 0 ↔ ∀ k : Int, 0 ≤ k → k < n → a (pa + k) = b (pb + k) := by
  induction n with
  | zero =>
    intro pa pb
    simp only [memcmp, true_iff]
    intro k h0 h1
    simp at h1
    omega
  | succ n ih =>
    intro pa pb
    unfold memcmp
    by_cases h : a pa = b pb
    · rw [if_pos h, ih]
      constructor
      · intro H k h0 h1
        by_cases hk : k = 0
        · subst hk; simpa using h
        · have := H (k - 1) (by omega) (by push_cast at h1; omega)
          have e1 : pa + 1 + (k - 1) = pa + k := by ring
          have e2 : pb + 1 + (k - 1) = pb + k := by ring
          rwa [e1, e2] at this
      · intro H k h0 h1
        have := H (k + 1) (by omega) (by push_cast; omega)
        have e1 : pa + (k + 1) = pa + 1 + k := by ring
        have e2 : pb + (k + 1) = pb + 1 + k := by ring
        rwa [e1, e2] at this
    · rw [if_neg h]
      constructor
      · intro H
        exact absurd (by omega) h
      · intro H
        have := H 0 (le_refl _) (by push_cast; omega)
        simp at this
        exact absurd this h

theorem tile_put_rows_snd (buffer : Mem) (stride width : Int) (hw : width ≤ 64) (n : Nat) :
    ∀ (src dn dold dirty : Int) (buf : Mem) (i : Int),
    (guac_surface_tile_put_rows buffer stride width n src dn dold dirty buf).2 i =
      if 0 ≤ i - dn ∧ (i - dn) / 512 < n ∧ (i - dn) % 512 < width * 4 then
        buffer (src + ((i - dn) / 512) * stride + (i - dn) % 512)
      else buf i := by
  induction n with
  | zero =>
    intro src dn dold dirty buf i
    simp only [guac_surface_tile_put_rows]
    rw [if_neg]
    push_cast
    omega
  | succ n ih =>
    intro src dn dold dirty buf i
    simp only [guac_surface_tile_put_rows, GUAC_SURFACE_TILE_STRIDE, GUAC_SURFACE_TILE_ROW_SIZE,
      GUAC_SURFACE_TILE_WIDTH]
    rw [ih]
    norm_num only
    by_cases h1 : 0 ≤ i - (dn + 512) ∧ (i - (dn + 512)) / 512 < (n : Int)
        ∧ (i - (dn + 512)) % 512 < width * 4
    · rw [if_pos h1, if_pos (by push_cast; omega)]
      have hq : (i - dn) / 512 = (i - (dn + 512)) / 512 + 1 := by omega
      have hm : (i - dn) % 512 = (i - (dn + 512)) % 512 := by omega
      rw [hq, hm]
      congr 1
      ring
    · rw [if_neg h1]
      unfold memcpy
      by_cases h2 : dn ≤ i ∧ i < dn + width * 4
      · rw [if_pos h2, if_pos (by push_cast; omega)]
        have hq : (i - dn) / 512 = 0 := by omega
        have hm : (i - dn) % 512 = i - dn := by omega
        rw [hq, hm]
        congr 1
        ring
      · rw [if_neg h2, if_neg]
        push_cast
        omega

theorem tile_put_rows_fst (buffer : Mem) (stride width : Int) (hw0 : 0 < width) (hw : width ≤ 64)
    (n : Nat) :
    ∀ (src dn dold dirty : Int) (buf : Mem), (dold - dn - 256) % 512 = 0 →
    ((guac_surface_tile_put_rows buffer stride width n src dn dold dirty buf).1 ≠ 0 ↔
      (dirty ≠ 0 ∨ ∃ r b : Int, 0 ≤ r ∧ r < n ∧ 0 ≤ b ∧ b < width * 4 ∧
        buffer (src + r * stride + b) ≠ buf (dold + r * 512 + b))) := by
  induction n with
  | zero =>
    intro src dn dold dirty buf _
    simp only [guac_surface_tile_put_rows]
    constructor
    · intro h; exact Or.inl h
    · rintro (h | ⟨r, b, h0, h1, _⟩)
      · exact h
      · simp at h1; omega
  | succ n ih =>
    intro src dn dold dirty buf hpar
    simp only [guac_surface_tile_put_rows, GUAC_SURFACE_TILE_STRIDE, GUAC_SURFACE_TILE_ROW_SIZE,
      GUAC_SURFACE_TILE_WIDTH]
    norm_num only
    rw [ih _ _ _ _ _ (by omega)]
    -- the old page is not touched by the copy of this row
    have hold : ∀ j : Int, (j - dn) % 512 ≥ 256 →
        memcpy buf dn buffer src (width * 4) j = buf j := by
      intro j hj
      unfold memcpy
      rw [if_neg]
      omega
    have hnew : ∀ k : Int, 0 ≤ k → k < width * 4 →
        memcpy buf dn buffer src (width * 4) (dn + k) = buffer (src + k) := by
      intro k h0 h1
      unfold memcpy
      rw [if_pos (by omega)]
      congr 1
      ring
    have hcmp : (memcmp (memcpy buf dn buffer src (width * 4)) dold
        (memcpy buf dn buffer src (width * 4)) dn (width * 4).toNat ≠ 0) ↔
        ∃ b : Int, 0 ≤ b ∧ b < width * 4 ∧ buffer (src + b) ≠ buf (dold + b) := by
      rw [Ne, memcmp_eq_zero_iff]
      constructor
      · intro H
        by_contra hcon
        apply H
        intro k h0 h1
        have h1' : k < width * 4 := by omega
        rw [hold _ (by omega), hnew k h0 h1']
        by_contra hne
        exact hcon ⟨k, h0, h1', fun e => hne e.symm⟩
      · rintro ⟨b, h0, h1, hne⟩ H
        have := H b h0 (by omega)
        rw [hold _ (by omega), hnew b h0 h1] at this
        exact hne this.symm
    constructor
    · rintro (h | ⟨r, b, hr0, hr1, hb0, hb1, hne⟩)
      · by_cases hd : dirty = 0
        · rw [if_pos hd] at h
          obtain ⟨b, h0, h1, hne⟩ := hcmp.mp h
          refine Or.inr ⟨0, b, le_refl _, by push_cast; omega, h0, h1, ?_⟩
          simpa using hne
        · exact Or.inl hd
      · rw [hold _ (by omega)] at hne
        refine Or.inr ⟨r + 1, b, by omega, by push_cast; omega, hb0, hb1, ?_⟩
        have e1 : src + (r + 1) * stride + b = src + stride + r * stride + b := by ring
        have e2 : dold + (r + 1) * 512 + b = dold + 512 + r * 512 + b := by ring
        rw [e1, e2]
        exact hne
    · rintro (h | ⟨r, b, hr0, hr1, hb0, hb1, hne⟩)
      · exact Or.inl (by rw [if_neg h]; exact h)
      · by_cases hr : r = 0
        · subst hr
          left
          by_cases hd : dirty = 0
          · rw [if_pos hd]
            exact hcmp.mpr ⟨b, hb0, hb1, by simpa using hne⟩
          · rw [if_neg hd]; exact hd
        · right
          refine ⟨r - 1, b, by omega, by push_cast at hr1; omega, hb0, hb1, ?_⟩
          rw [hold _ (by omega)]
          have e1 : src + stride + (r - 1) * stride + b = src + r * stride + b := by ring
          have e2 : dold + 512 + (r - 1) * 512 + b = dold + r * 512 + b := by ring
          rw [e1, e2]
          exact hne

/-- Closed form of `guac_surface_tile_put` in terms of the clipped rectangle. -/
theorem tile_put_eq (tile : guac_surface_tile) (x y : Int) (buffer : Mem) (width height stride : Int) :
    guac_surface_tile_put tile x y buffer width height stride =
      if min (x + width) (tile.x + 64) - max x tile.x ≤ 0 then tile
      else if min (y + height) (tile.y + 64) - max y tile.y ≤ 0 then tile
      else
        { tile with
          dirty := (guac_surface_tile_put_rows buffer stride
            (min (x + width) (tile.x + 64) - max x tile.x)
            (min (y + height) (tile.y + 64) - max y tile.y).toNat
            ((max y tile.y - y) * stride + (max x tile.x - x) * 4)
            (tile.current_page * 256 + (max y tile.y - tile.y) * 512 + (max x tile.x - tile.x) * 4)
            ((1 - tile.current_page) * 256 + (max y tile.y - tile.y) * 512
              + (max x tile.x - tile.x) * 4)
            tile.dirty tile.buffer).1
          buffer := (guac_surface_tile_put_rows buffer stride
            (min (x + width) (tile.x + 64) - max x tile.x)
            (min (y + height) (tile.y + 64) - max y tile.y).toNat
            ((max y tile.y - y) * stride + (max x tile.x - x) * 4)
            (tile.current_page * 256 + (max y tile.y - tile.y) * 512 + (max x tile.x - tile.x) * 4)
            ((1 - tile.current_page) * 256 + (max y tile.y - tile.y) * 512
              + (max x tile.x - tile.x) * 4)
            tile.dirty tile.buffer).2 } := by
  have e1 : (if x > tile.x then x else tile.x) = max x tile.x := by
    split_ifs <;> omega
  have e2 : (if y > tile.y then y else tile.y) = max y tile.y := by
    split_ifs <;> omega
  have e3 : (if x + width < tile.x + 64 then x + width else tile.x + 64)
      = min (x + width) (tile.x + 64) := by
    split_ifs <;> omega
  have e4 : (if y + height < tile.y + 64 then y + height else tile.y + 64)
      = min (y + height) (tile.y + 64) := by
    split_ifs <;> omega
  simp only [guac_surface_tile_put, GUAC_SURFACE_TILE_STRIDE, GUAC_SURFACE_TILE_ROW_SIZE,
    GUAC_SURFACE_TILE_WIDTH, GUAC_SURFACE_TILE_HEIGHT, e1, e2, e3, e4]
  norm_num only

theorem tile_put_x (tile : guac_surface_tile) (x y : Int) (buffer : Mem) (width height stride : Int) :
    (guac_surface_tile_put tile x y buffer width height stride).x = tile.x := by
  rw [tile_put_eq]; split_ifs <;> rfl

theorem tile_put_y (tile : guac_surface_tile) (x y : Int) (buffer : Mem) (width height stride : Int) :
    (guac_surface_tile_put tile x y buffer width height stride).y = tile.y := by
  rw [tile_put_eq]; split_ifs <;> rfl

theorem tile_put_current_page (tile : guac_surface_tile) (x y : Int) (buffer : Mem)
    (width height stride : Int) :
    (guac_surface_tile_put tile x y buffer width height stride).current_page
      = tile.current_page := by
  rw [tile_put_eq]; split_ifs <;> rfl

/-- A put whose source rectangle does not meet the tile returns the tile as it is. -/
theorem tile_put_of_empty (tile : guac_surface_tile) (x y : Int) (buffer : Mem)
    (width height stride : Int)
    (h : ∀ px py : Int, ¬ (x ≤ px ∧ px < x + width ∧ y ≤ py ∧ py < y + height ∧
      tile.x ≤ px ∧ px < tile.x + 64 ∧ tile.y ≤ py ∧ py < tile.y + 64)) :
    guac_surface_tile_put tile x y buffer width height stride = tile := by
  rw [tile_put_eq]
  split_ifs with h1 h2
  · rfl
  · rfl
  · exfalso
    exact h (max x tile.x) (max y tile.y) (by omega)

/-- Byte `b` of row `dy` of page `page` lies at this offset of the tile buffer. -/
theorem tile_page_pixel_byte (tile : guac_surface_tile) (page dx dy k : Int) :
    (guac_surface_tile_page tile page).pixel_byte dx dy k
      = tile.buffer (page * 256 + (dy * 512 + dx * 4 + k)) := by
  simp only [guac_surface_tile_page, cairo_surface_t.pixel_byte, GUAC_SURFACE_TILE_STRIDE,
    GUAC_SURFACE_TILE_ROW_SIZE, GUAC_SURFACE_TILE_WIDTH]
  norm_num only

/-- Inside the overlap the new page holds the source bytes after a put. -/
theorem tile_put_new_page_in (tile : guac_surface_tile) (x y : Int) (buffer : Mem)
    (width height stride : Int) (px py k : Int)
    (hx : x ≤ px ∧ px < x + width) (hy : y ≤ py ∧ py < y + height)
    (htx : tile.x ≤ px ∧ px < tile.x + 64) (hty : tile.y ≤ py ∧ py < tile.y + 64)
    (hk : 0 ≤ k ∧ k < 4) :
    (guac_surface_tile_page (guac_surface_tile_put tile x y buffer width height stride)
        tile.current_page).pixel_byte (px - tile.x) (py - tile.y) k
      = buffer ((py - y) * stride + (px - x) * 4 + k) := by
  rw [tile_page_pixel_byte, tile_put_eq, if_neg (by omega), if_neg (by omega)]
  simp only
  rw [tile_put_rows_snd _ _ _ (by omega)]
  have hd : tile.current_page * 256 + ((py - tile.y) * 512 + (px - tile.x) * 4 + k)
      - (tile.current_page * 256 + (max y tile.y - tile.y) * 512 + (max x tile.x - tile.x) * 4)
      = (py - max y tile.y) * 512 + ((px - max x tile.x) * 4 + k) := by ring
  rw [hd]
  have hq : ((py - max y tile.y) * 512 + ((px - max x tile.x) * 4 + k)) / 512
      = py - max y tile.y := by omega
  have hm : ((py - max y tile.y) * 512 + ((px - max x tile.x) * 4 + k)) % 512
      = (px - max x tile.x) * 4 + k := by omega
  rw [hq, hm, if_pos (by rw [Int.toNat_of_nonneg (by omega)]; omega)]
  congr 1
  ring

/-- Outside of the source rectangle the new page is as it was before the put. -/
theorem tile_put_new_page_out (tile : guac_surface_tile) (x y : Int) (buffer : Mem)
    (width height stride : Int) (dx dy k : Int)
    (hdx : 0 ≤ dx ∧ dx < 64) (hdy : 0 ≤ dy ∧ dy < 64) (hk : 0 ≤ k ∧ k < 4)
    (hout : ¬ (x ≤ tile.x + dx ∧ tile.x + dx < x + width ∧
      y ≤ tile.y + dy ∧ tile.y + dy < y + height)) :
    (guac_surface_tile_page (guac_surface_tile_put tile x y buffer width height stride)
        tile.current_page).pixel_byte dx dy k
      = (guac_surface_tile_page tile tile.current_page).pixel_byte dx dy k := by
  rw [tile_page_pixel_byte, tile_page_pixel_byte, tile_put_eq]
  split_ifs with h1 h2
  · rfl
  · rfl
  · simp only
    rw [tile_put_rows_snd _ _ _ (by omega), if_neg]
    rw [Int.toNat_of_nonneg (by omega)]
    omega

/-- The old page is as it was before the put. -/
theorem tile_put_old_page (tile : guac_surface_tile) (x y : Int) (buffer : Mem)
    (width height stride : Int) (dx dy k : Int)
    (hdx : 0 ≤ dx ∧ dx < 64) (hk : 0 ≤ k ∧ k < 4) :
    (guac_surface_tile_page (guac_surface_tile_put tile x y buffer width height stride)
        (1 - tile.current_page)).pixel_byte dx dy k
      = (guac_surface_tile_page tile (1 - tile.current_page)).pixel_byte dx dy k := by
  rw [tile_page_pixel_byte, tile_page_pixel_byte, tile_put_eq]
  split_ifs with h1 h2
  · rfl
  · rfl
  · simp only
    rw [tile_put_rows_snd _ _ _ (by omega), if_neg]
    omega

/-- The dirty flag after a put. -/
theorem tile_put_dirty_iff (tile : guac_surface_tile) (x y : Int) (buffer : Mem)
    (width height stride : Int) :
    (guac_surface_tile_put tile x y buffer width height stride).dirty ≠ 0 ↔
      (tile.dirty ≠ 0 ∨ ∃ px py k : Int,
        (x ≤ px ∧ px < x + width) ∧ (y ≤ py ∧ py < y + height) ∧
        (tile.x ≤ px ∧ px < tile.x + 64) ∧ (tile.y ≤ py ∧ py < tile.y + 64) ∧
        (0 ≤ k ∧ k < 4) ∧
        buffer ((py - y) * stride + (px - x) * 4 + k) ≠
          (guac_surface_tile_page tile (1 - tile.current_page)).pixel_byte
            (px - tile.x) (py - tile.y) k) := by
  rw [tile_put_eq]
  split_ifs with h1 h2
  · constructor
    · intro h; exact Or.inl h
    · rintro (h | ⟨px, py, k, hx, hy, htx, hty, _⟩)
      · exact h
      · omega
  · constructor
    · intro h; exact Or.inl h
    · rintro (h | ⟨px, py, k, hx, hy, htx, hty, _⟩)
      · exact h
      · omega
  · simp only
    rw [tile_put_rows_fst _ _ _ (by omega) (by omega) _ _ _ _ _ _ (by omega)]
    rw [Int.toNat_of_nonneg (by omega)]
    constructor
    · rintro (h | ⟨r, b, hr0, hr1, hb0, hb1, hne⟩)
      · exact Or.inl h
      · refine Or.inr ⟨max x tile.x + b / 4, max y tile.y + r, b % 4,
          by omega, by omega, by omega, by omega, by omega, ?_⟩
        rw [tile_page_pixel_byte]
        have e1 : (max y tile.y + r - y) * stride + (max x tile.x + b / 4 - x) * 4 + b % 4
            = (max y tile.y - y) * stride + (max x tile.x - x) * 4 + r * stride + b := by
          have : b / 4 * 4 + b % 4 = b := by omega
          linear_combination this
        have e2 : (1 - tile.current_page) * 256
            + ((max y tile.y + r - tile.y) * 512 + (max x tile.x + b / 4 - tile.x) * 4 + b % 4)
            = (1 - tile.current_page) * 256 + (max y tile.y - tile.y) * 512
              + (max x tile.x - tile.x) * 4 + r * 512 + b := by
          omega
        rw [e1, e2]
        exact hne
    · rintro (h | ⟨px, py, k, hx, hy, htx, hty, hk, hne⟩)
      · exact Or.inl h
      · refine Or.inr ⟨py - max y tile.y, (px - max x tile.x) * 4 + k,
          by omega, by omega, by omega, by omega, ?_⟩
        rw [tile_page_pixel_byte] at hne
        have e1 : (max y tile.y - y) * stride + (max x tile.x - x) * 4
            + (py - max y tile.y) * stride + ((px - max x tile.x) * 4 + k)
            = (py - y) * stride + (px - x) * 4 + k := by ring
        have e2 : (1 - tile.current_page) * 256 + (max y tile.y - tile.y) * 512
              + (max x tile.x - tile.x) * 4 + (py - max y tile.y) * 512
              + ((px - max x tile.x) * 4 + k)
            = (1 - tile.current_page) * 256
              + ((py - tile.y) * 512 + (px - tile.x) * 4 + k) := by ring
        rw [e1, e2]
        exact hne

/-- Closed form of the copy of the new page over the old page. -/
theorem tile_flush_rows_eq (n : Nat) :
    ∀ (dn dold : Int) (buf : Mem) (i : Int), (dold - dn - 256) % 512 = 0 →
    guac_surface_tile_flush_rows n dn dold buf i =
      if 0 ≤ i - dold ∧ (i - dold) / 512 < n ∧ (i - dold) % 512 < 256 then
        buf (dn + (i - dold))
      else buf i := by
  induction n with
  | zero =>
    intro dn dold buf i _
    simp only [guac_surface_tile_flush_rows]
    rw [if_neg]
    push_cast
    omega
  | succ n ih =>
    intro dn dold buf i hpar
    simp only [guac_surface_tile_flush_rows, GUAC_SURFACE_TILE_STRIDE,
      GUAC_SURFACE_TILE_ROW_SIZE, GUAC_SURFACE_TILE_WIDTH]
    norm_num only
    rw [ih _ _ _ _ (by omega)]
    by_cases h1 : 0 ≤ i - (dold + 512) ∧ (i - (dold + 512)) / 512 < (n : Int)
        ∧ (i - (dold + 512)) % 512 < 256
    · rw [if_pos h1, if_pos (by push_cast; omega)]
      unfold memcpy
      rw [if_neg (by omega)]
      congr 1
      ring
    · rw [if_neg h1]
      unfold memcpy
      by_cases h2 : dold ≤ i ∧ i < dold + 256
      · rw [if_pos h2, if_pos (by push_cast; omega)]
      · rw [if_neg h2, if_neg]
        push_cast
        omega

/-! ## Flushing a tile -/

theorem tile_flush_clean (tile : guac_surface_tile) (layer : Nat) (h : tile.dirty = 0) :
    guac_surface_tile_flush tile layer = (tile, []) := by
  simp [guac_surface_tile_flush, h]

theorem tile_flush_dirty_snd (tile : guac_surface_tile) (layer : Nat) (h : tile.dirty ≠ 0) :
    (guac_surface_tile_flush tile layer).2 =
      [guac_instruction.png guac_composite_mode.GUAC_COMP_OVER layer tile.x tile.y
        (guac_surface_tile_page
          { tile with buffer := tile.synced_buffer }
          tile.current_page)] := by
  have e1 : GUAC_SURFACE_TILE_HEIGHT.toNat = 64 := rfl
  have e2 : GUAC_SURFACE_TILE_ROW_SIZE = 256 := rfl
  simp only [guac_surface_tile_flush, if_pos h, e1, e2, guac_surface_tile.synced_buffer]

theorem tile_flush_dirty_fst (tile : guac_surface_tile) (layer : Nat) (h : tile.dirty ≠ 0) :
    (guac_surface_tile_flush tile layer).1 =
      { tile with
        buffer := tile.synced_buffer
        current_page := 1 - tile.current_page
        dirty := 0 } := by
  have e1 : GUAC_SURFACE_TILE_HEIGHT.toNat = 64 := rfl
  have e2 : GUAC_SURFACE_TILE_ROW_SIZE = 256 := rfl
  simp only [guac_surface_tile_flush, if_pos h, e1, e2, guac_surface_tile.synced_buffer]

/-- After the copy of a flush, either page of the tile holds what the new page
held before. -/
theorem tile_flush_rows_page (tile : guac_surface_tile) (page dx dy k : Int)
    (hp : page = tile.current_page ∨ page = 1 - tile.current_page)
    (hdx : 0 ≤ dx ∧ dx < 64) (hdy : 0 ≤ dy ∧ dy < 64) (hk : 0 ≤ k ∧ k < 4) :
    (guac_surface_tile_page
      { tile with buffer := tile.synced_buffer }
      page).pixel_byte dx dy k
      = (guac_surface_tile_page tile tile.current_page).pixel_byte dx dy k := by
  rw [tile_page_pixel_byte, tile_page_pixel_byte]
  simp only [guac_surface_tile.synced_buffer]
  rw [tile_flush_rows_eq _ _ _ _ _ (by omega)]
  rcases hp with hp | hp
  · subst hp
    rw [if_neg (by omega)]
  · subst hp
    rw [if_pos (by push_cast; omega)]
    congr 1
    ring

theorem tile_flush_x (tile : guac_surface_tile) (layer : Nat) :
    (guac_surface_tile_flush tile layer).1.x = tile.x := by
  unfold guac_surface_tile_flush; split_ifs <;> rfl

theorem tile_flush_y (tile : guac_surface_tile) (layer : Nat) :
    (guac_surface_tile_flush tile layer).1.y = tile.y := by
  unfold guac_surface_tile_flush; split_ifs <;> rfl

theorem tile_flush_fst_dirty (tile : guac_surface_tile) (layer : Nat) :
    (guac_surface_tile_flush tile layer).1.dirty = 0 := by
  unfold guac_surface_tile_flush
  split_ifs with h
  · rfl
  · simpa using h

/-- What a flush of a tile sends is the same on the wire as the PNG of the new
page for a dirty tile, and nothing for a clean tile. -/
theorem tile_flush_snd_same (tile : guac_surface_tile) (layer : Nat) :
    List.Forall₂ guac_instruction.same (guac_surface_tile_flush tile layer).2
      (if tile.dirty ≠ 0 then [tile.png_of_new_page layer] else []) := by
  by_cases h : tile.dirty ≠ 0
  · rw [if_pos h, tile_flush_dirty_snd _ _ h]
    refine List.Forall₂.cons ?_ List.Forall₂.nil
    refine ⟨rfl, rfl, rfl, rfl, rfl, rfl, ?_⟩
    intro px py k hx hy hk
    exact tile_flush_rows_page tile tile.current_page px py k (Or.inl rfl) hx hy hk
  · rw [if_neg h, tile_flush_clean _ _ (by simpa using h)]
    exact List.Forall₂.nil

/-! ## The dispatch loops of a draw -/

theorem surface_draw_columns_spec (x y : Int) (buffer : Mem) (width height stride : Int) (n : Nat) :
    ∀ (cur : Nat) (tiles : List guac_surface_tile), cur + n ≤ tiles.length →
    ∃ tiles1, guac_surface_draw_columns x y buffer width height stride n (cur : Int) tiles
        = some tiles1 ∧ tiles1.length = tiles.length ∧
      ∀ i : Nat, tiles1[i]? =
        if cur ≤ i ∧ i < cur + n then
          (tiles[i]?).map (fun t => guac_surface_tile_put t x y buffer width height stride)
        else tiles[i]? := by
  induction n with
  | zero =>
    intro cur tiles _
    refine ⟨tiles, rfl, rfl, ?_⟩
    intro i
    rw [if_neg (by omega)]
  | succ n ih =>
    intro cur tiles hlen
    have hcur : cur < tiles.length := by omega
    obtain ⟨tiles1, h1, h2, h3⟩ := ih (cur + 1)
      (tiles.set cur (guac_surface_tile_put tiles[cur] x y buffer width height stride))
      (by rw [List.length_set]; omega)
    refine ⟨tiles1, ?_, ?_, ?_⟩
    · unfold guac_surface_draw_columns
      rw [if_neg (by omega), Int.toNat_ofNat, List.getElem?_eq_getElem hcur]
      simp only
      rw [← h1]
      push_cast
      rfl
    · rw [h2, List.length_set]
    · intro i
      rw [h3]
      by_cases hi : i = cur
      · subst hi
        rw [if_neg (by omega), if_pos (by omega), List.getElem?_set_self hcur,
          List.getElem?_eq_getElem hcur]
        rfl
      · rw [List.getElem?_set_ne (Ne.symm hi)]
        by_cases h4 : cur + 1 ≤ i ∧ i < cur + 1 + n
        · rw [if_pos h4, if_pos (by omega)]
        · rw [if_neg h4, if_neg (by omega)]

theorem surface_draw_rows_spec (x y : Int) (buffer : Mem) (width height stride : Int)
    (C m : Nat) (hm : m ≤ C) (n : Nat) :
    ∀ (cur : Nat) (tiles : List guac_surface_tile),
    (∀ k, k < n → cur + k * C + m ≤ tiles.length) →
    ∃ tiles1, guac_surface_draw_rows x y buffer width height stride (C : Int) m n (cur : Int) tiles
        = some tiles1 ∧ tiles1.length = tiles.length ∧
      ∀ i : Nat,
        ((∃ k, k < n ∧ cur + k * C ≤ i ∧ i < cur + k * C + m) → tiles1[i]? =
          (tiles[i]?).map (fun t => guac_surface_tile_put t x y buffer width height stride)) ∧
        ((¬ ∃ k, k < n ∧ cur + k * C ≤ i ∧ i < cur + k * C + m) → tiles1[i]? = tiles[i]?) := by
  induction n with
  | zero =>
    intro cur tiles _
    refine ⟨tiles, rfl, rfl, ?_⟩
    intro i
    constructor
    · rintro ⟨k, hk, _⟩
      omega
    · intro _
      rfl
  | succ n ih =>
    intro cur tiles hlen
    obtain ⟨tiles0, h01, h02, h03⟩ := surface_draw_columns_spec x y buffer width height stride m cur tiles
      (by have := hlen 0 (by omega); omega)
    obtain ⟨tiles1, h1, h2, h3⟩ := ih (cur + C) tiles0 (by
      intro k hk
      have := hlen (k + 1) (by omega)
      rw [Nat.succ_mul] at this
      omega)
    refine ⟨tiles1, ?_, ?_, ?_⟩
    · unfold guac_surface_draw_rows
      rw [h01]
      simp only
      rw [← h1]
      push_cast
      rfl
    · rw [h2, h02]
    · intro i
      constructor
      · rintro ⟨k, hk, hlo, hhi⟩
        by_cases hk0 : k = 0
        · subst hk0
          have hnot : ¬ ∃ k, k < n ∧ cur + C + k * C ≤ i ∧ i < cur + C + k * C + m := by
            rintro ⟨k, _, h5, _⟩
            have : 0 ≤ k * C := Nat.zero_le _
            omega
          rw [(h3 i).2 hnot, h03, if_pos (by omega)]
        · have hex : ∃ k, k < n ∧ cur + C + k * C ≤ i ∧ i < cur + C + k * C + m := by
            refine ⟨k - 1, by omega, ?_, ?_⟩
            · have : (k - 1) * C + C = k * C := by
                rw [← Nat.succ_mul]; congr 1; omega
              omega
            · have : (k - 1) * C + C = k * C := by
                rw [← Nat.succ_mul]; congr 1; omega
              omega
          rw [(h3 i).1 hex, h03, if_neg]
          have : (k - 1) * C + C = k * C := by
            rw [← Nat.succ_mul]; congr 1; omega
          have : 0 ≤ (k - 1) * C := Nat.zero_le _
          omega
      · intro hnot
        have hnot1 : ¬ ∃ k, k < n ∧ cur + C + k * C ≤ i ∧ i < cur + C + k * C + m := by
          rintro ⟨k, hk, h5, h6⟩
          apply hnot
          refine ⟨k + 1, by omega, ?_, ?_⟩
          · rw [Nat.succ_mul]; omega
          · rw [Nat.succ_mul]; omega
        rw [(h3 i).2 hnot1, h03, if_neg]
        intro hc
        apply hnot
        exact ⟨0, by omega, by omega, by omega⟩

/-- Membership of a tile index in the range of a draw, read off its row
`i / C` and column `i % C`. -/
theorem dispatch_iff (C row col m n i : Nat) (hm : col + m ≤ C) :
    (∃ k, k < n ∧ C * row + col + k * C ≤ i ∧ i < C * row + col + k * C + m) ↔
      (row ≤ i / C ∧ i / C < row + n ∧ col ≤ i % C ∧ i % C < col + m) := by
  constructor
  · rintro ⟨k, hk, hlo, hhi⟩
    have hC : 0 < C := by omega
    have e : k * C = C * k := Nat.mul_comm _ _
    have hdiv : i / C = row + k := by
      apply Nat.div_eq_of_lt_le
      · rw [Nat.add_mul, Nat.mul_comm row C]; omega
      · have : (row + k + 1) * C = C * row + k * C + C := by ring
        omega
    have hmod := Nat.div_add_mod i C
    rw [hdiv, Nat.mul_add] at hmod
    omega
  · rintro ⟨h1, h2, h3, h4⟩
    refine ⟨i / C - row, by omega, ?_, ?_⟩
    · have hmod := Nat.div_add_mod i C
      have : (i / C - row) * C + C * row = C * (i / C) := by
        rw [Nat.mul_comm C row, ← Nat.add_mul, Nat.mul_comm]
        congr 1; omega
      omega
    · have hmod := Nat.div_add_mod i C
      have : (i / C - row) * C + C * row = C * (i / C) := by
        rw [Nat.mul_comm C row, ← Nat.add_mul, Nat.mul_comm]
        congr 1; omega
      omega

/-- A draw whose rectangle lies inside of the canvas returns, and has put the
source on the entries of the tile array that its loops visit and on no other. -/
theorem surface_draw_pointwise (s : guac_surface) (x y : Int) (src : cairo_surface_t)
    (R C : Nat) (hcols : s.columns = (C : Int)) (hlen : s.tiles.length = R * C)
    (hx : 0 ≤ x) (hy : 0 ≤ y) (hw : 1 ≤ src.width) (hh : 1 ≤ src.height)
    (hxw : x + src.width ≤ s.width) (hyh : y + src.height ≤ s.height)
    (hW : s.width ≤ 64 * (C : Int)) (hH : s.height ≤ 64 * (R : Int)) :
    ∃ tiles1, guac_surface_draw s x y src
        = some { s with tiles := tiles1, content_dirty := 1 } ∧
      tiles1.length = s.tiles.length ∧
      ∀ i : Nat,
        (draw_dispatched C x y src i → tiles1[i]? = (s.tiles[i]?).map
          (fun t => guac_surface_tile_put t x y src.data src.width src.height src.stride)) ∧
        (¬ draw_dispatched C x y src i → tiles1[i]? = s.tiles[i]?) := by
  obtain ⟨row, hrow⟩ : ∃ row : Nat, (row : Int) = y / 64 :=
    ⟨(y / 64).toNat, by rw [Int.toNat_of_nonneg (by omega)]⟩
  obtain ⟨col, hcol⟩ : ∃ col : Nat, (col : Int) = x / 64 :=
    ⟨(x / 64).toNat, by rw [Int.toNat_of_nonneg (by omega)]⟩
  obtain ⟨lrow, hlrow⟩ : ∃ lrow : Nat, (lrow : Int) = (y + src.height - 1) / 64 :=
    ⟨((y + src.height - 1) / 64).toNat, by rw [Int.toNat_of_nonneg (by omega)]⟩
  obtain ⟨lcol, hlcol⟩ : ∃ lcol : Nat, (lcol : Int) = (x + src.width - 1) / 64 :=
    ⟨((x + src.width - 1) / 64).toNat, by rw [Int.toNat_of_nonneg (by omega)]⟩
  have t1 : y.tdiv 64 = row := by rw [Int.tdiv_eq_ediv hy (by norm_num)]; omega
  have t2 : x.tdiv 64 = col := by rw [Int.tdiv_eq_ediv hx (by norm_num)]; omega
  have t3 : (y + src.height - 1).tdiv 64 = lrow := by
    rw [Int.tdiv_eq_ediv (by omega) (by norm_num)]; omega
  have t4 : (x + src.width - 1).tdiv 64 = lcol := by
    rw [Int.tdiv_eq_ediv (by omega) (by norm_num)]; omega
  have e1 : ((lcol : Int) - col + 1).toNat = lcol - col + 1 := by omega
  have e2 : ((lrow : Int) - row + 1).toNat = lrow - row + 1 := by omega
  have e3 : (C : Int) * row + col = ((C * row + col : Nat) : Int) := by push_cast; ring
  have hlc : lcol < C := by omega
  have hlr : lrow < R := by omega
  obtain ⟨tiles1, h1, h2, h3⟩ := surface_draw_rows_spec x y src.data src.width src.height
    src.stride C (lcol - col + 1) (by omega) (lrow - row + 1) (C * row + col) s.tiles (by
      intro k hk
      rw [hlen]
      have h5 : (row + k + 1) * C ≤ R * C := Nat.mul_le_mul_right C (by omega)
      have h6 : (row + k + 1) * C = C * row + k * C + C := by ring
      omega)
  refine ⟨tiles1, ?_, h2, ?_⟩
  · unfold guac_surface_draw
    rw [if_neg (by omega)]
    simp only [GUAC_SURFACE_TILE_HEIGHT, GUAC_SURFACE_TILE_WIDTH, t1, t2, t3, t4, hcols]
    rw [e1, e2, e3, h1]
  · have hd : ∀ i, draw_dispatched C x y src i ↔
        ∃ k, k < lrow - row + 1 ∧ C * row + col + k * C ≤ i ∧
          i < C * row + col + k * C + (lcol - col + 1) := by
      intro i
      unfold draw_dispatched
      rw [← hrow, ← hcol, ← hlrow, ← hlcol]
      simp only [Int.toNat_ofNat]
    intro i
    rw [hd i]
    exact h3 i

/-- A draw whose rectangle lies inside of the canvas of a surface whose tiles sit
at their grid origins puts the source on every tile of the surface. -/
theorem surface_draw_eq_map (s : guac_surface) (x y : Int) (src : cairo_surface_t) (R C : Nat)
    (hcols : s.columns = (C : Int)) (hlen : s.tiles.length = R * C)
    (horig : ∀ i : Nat, i < R * C → ∃ t, s.tiles[i]? = some t ∧
      t.x = 64 * ((i % C : Nat) : Int) ∧ t.y = 64 * ((i / C : Nat) : Int))
    (hx : 0 ≤ x) (hy : 0 ≤ y) (hw : 1 ≤ src.width) (hh : 1 ≤ src.height)
    (hxw : x + src.width ≤ s.width) (hyh : y + src.height ≤ s.height)
    (hW : s.width ≤ 64 * (C : Int)) (hH : s.height ≤ 64 * (R : Int)) :
    guac_surface_draw s x y src = some
      { s with
        tiles := s.tiles.map
          (fun t => guac_surface_tile_put t x y src.data src.width src.height src.stride)
        content_dirty := 1 } := by
  obtain ⟨tiles1, h1, h2, h3⟩ :=
    surface_draw_pointwise s x y src R C hcols hlen hx hy hw hh hxw hyh hW hH
  have htiles : tiles1 = s.tiles.map
      (fun t => guac_surface_tile_put t x y src.data src.width src.height src.stride) := by
    apply List.ext_getElem?
    intro i
    rw [List.getElem?_map]
    by_cases hi : i < R * C
    · obtain ⟨t, ht, htx, hty⟩ := horig i hi
      by_cases hex : draw_dispatched C x y src i
      · rw [(h3 i).1 hex]
      · rw [(h3 i).2 hex, ht]
        simp only [Option.map_some']
        congr 1
        symm
        apply tile_put_of_empty
        intro px py hc
        apply hex
        unfold draw_dispatched
        rw [dispatch_iff C _ _ _ _ i (by omega)]
        omega
    · have hn1 : tiles1[i]? = none := List.getElem?_eq_none (by omega)
      have hn2 : s.tiles[i]? = none := List.getElem?_eq_none (by omega)
      rw [hn1, hn2]
      rfl
  rw [h1, htiles]

/-! ## The loops of a surface flush -/

theorem surface_flush_columns_spec (layer : Nat) (n : Nat) :
    ∀ (done rest : List guac_surface_tile) (out : List guac_instruction), n ≤ rest.length →
    guac_surface_flush_columns layer n done.length (done ++ rest) out = some
      (done.length + n,
        done ++ (rest.take n).map (fun t => (guac_surface_tile_flush t layer).1) ++ rest.drop n,
        out ++ (rest.take n).flatMap (fun t => (guac_surface_tile_flush t layer).2)) := by
  induction n with
  | zero =>
    intro done rest out _
    simp [guac_surface_flush_columns]
  | succ n ih =>
    intro done rest out hlen
    cases rest with
    | nil => simp at hlen
    | cons t rest =>
      unfold guac_surface_flush_columns
      have hget : (done ++ t :: rest)[done.length]? = some t := by
        rw [List.getElem?_append_right (le_refl _)]
        simp
      rw [hget]
      simp only
      have hset : (done ++ t :: rest).set done.length (guac_surface_tile_flush t layer).1
          = (done ++ [(guac_surface_tile_flush t layer).1]) ++ rest := by
        rw [List.set_append_right _ _ (le_refl _)]
        simp
      rw [hset]
      have hl : done.length + 1 = (done ++ [(guac_surface_tile_flush t layer).1]).length := by
        simp
      rw [hl, ih _ rest _ (by simpa using hlen)]
      simp [Nat.add_assoc, Nat.add_comm 1 n]

theorem surface_flush_rows_spec (layer : Nat) (C : Nat) (n : Nat) :
    ∀ (done rest : List guac_surface_tile) (out : List guac_instruction), n * C ≤ rest.length →
    guac_surface_flush_rows layer C n done.length (done ++ rest) out = some
      (done.length + n * C,
        done ++ (rest.take (n * C)).map (fun t => (guac_surface_tile_flush t layer).1)
          ++ rest.drop (n * C),
        out ++ (rest.take (n * C)).flatMap (fun t => (guac_surface_tile_flush t layer).2)) := by
  induction n with
  | zero =>
    intro done rest out _
    simp [guac_surface_flush_rows]
  | succ n ih =>
    intro done rest out hlen
    have hsucc : (n + 1) * C = C + n * C := by ring
    rw [hsucc] at hlen
    unfold guac_surface_flush_rows
    rw [surface_flush_columns_spec layer C done rest out (by omega)]
    simp only
    have hl : done.length + C
        = (done ++ (rest.take C).map (fun t => (guac_surface_tile_flush t layer).1)).length := by
      simp; omega
    rw [hl, ih _ (rest.drop C) _ (by simp; omega)]
    rw [hsucc]
    have e1 : rest.take (C + n * C) = rest.take C ++ (rest.drop C).take (n * C) := by
      rw [List.take_add]
    have e2 : (rest.drop C).drop (n * C) = rest.drop (C + n * C) := by
      rw [List.drop_drop]
    rw [e1, e2]
    simp [Nat.add_assoc]
    omega

/-- Closed form of `guac_surface_flush` on a surface whose tile array has as
many tiles as its grid has positions. -/
theorem surface_flush_eq (s : guac_surface) (hlen : s.tiles.length = s.rows.toNat * s.columns.toNat) :
    guac_surface_flush s = some
      ({ s with
          size_dirty := 0
          content_dirty := 0
          tiles := if s.content_dirty ≠ 0 then
              s.tiles.map (fun t => (guac_surface_tile_flush t s.layer).1)
            else s.tiles },
        (if s.size_dirty ≠ 0 then [guac_instruction.size s.layer s.width s.height] else [])
          ++ (if s.content_dirty ≠ 0 then
              s.tiles.flatMap (fun t => (guac_surface_tile_flush t s.layer).2)
            else [])) := by
  have key := surface_flush_rows_spec s.layer s.columns.toNat s.rows.toNat [] s.tiles
    (if s.size_dirty ≠ 0 then [guac_instruction.size s.layer s.width s.height] else [])
    (by omega)
  simp only [List.length_nil, List.nil_append, ← hlen, List.take_length, List.drop_length,
    List.append_nil, Nat.zero_add] at key
  unfold guac_surface_flush
  by_cases hs : s.size_dirty ≠ 0 <;> by_cases hc : s.content_dirty ≠ 0
  · simp only [if_pos hs, if_pos hc] at key ⊢
    rw [key]
  · simp only [if_pos hs, if_neg hc, List.append_nil]
    have h2 : s.content_dirty = 0 := by simpa using hc
    rw [h2]
  · simp only [if_neg hs, if_pos hc] at key ⊢
    rw [key]
    have : s.size_dirty = 0 := by simpa using hs
    cases s; simp_all
  · simp only [if_neg hs, if_neg hc, List.append_nil]
    have h1 : s.size_dirty = 0 := by simpa using hs
    have h2 : s.content_dirty = 0 := by simpa using hc
    cases s; simp_all

/-! ## Allocation -/

theorem grid_positions_length (R C : Nat) : (grid_positions R C).length = R * C := by
  induction R with
  | zero => simp [grid_positions]
  | succ R ih =>
    unfold grid_positions at ih ⊢
    rw [List.range_succ, List.flatMap_append, List.length_append, ih]
    simp [Nat.succ_mul]

theorem grid_positions_getElem? (R C : Nat) (r c : Nat) (hr : r < R) (hc : c < C) :
    (grid_positions R C)[r * C + c]? = some (r, c) := by
  induction R with
  | zero => omega
  | succ R ih =>
    have hsplit : grid_positions (R + 1) C
        = grid_positions R C ++ (List.range C).map (fun c => (R, c)) := by
      unfold grid_positions
      rw [List.range_succ, List.flatMap_append]
      simp
    rw [hsplit]
    by_cases hrR : r < R
    · have hlt : r * C + c < R * C := by
        have : (r + 1) * C ≤ R * C := Nat.mul_le_mul_right C hrR
        rw [Nat.succ_mul] at this
        omega
      rw [List.getElem?_append_left (by rw [grid_positions_length]; exact hlt)]
      exact ih hrR
    · have hrR' : r = R := by omega
      subst hrR'
      rw [List.getElem?_append_right (by rw [grid_positions_length]; omega),
        grid_positions_length]
      simp [hc]

theorem alloc_columns_eq (row : Int) (n : Nat) : ∀ c0 : Nat,
    guac_surface_alloc_columns row n (c0 : Int)
      = (List.range' c0 n).map (fun c : Nat => guac_surface_tile_alloc (64 * (c : Int)) (64 * row)) := by
  induction n with
  | zero => intro c0; rfl
  | succ n ih =>
    intro c0
    unfold guac_surface_alloc_columns
    have := ih (c0 + 1)
    push_cast at this
    rw [this, List.range'_succ, List.map_cons]
    simp only [GUAC_SURFACE_TILE_WIDTH, GUAC_SURFACE_TILE_HEIGHT]
    rw [Int.mul_comm (c0 : Int) 64, Int.mul_comm row 64]

theorem alloc_rows_eq (C : Nat) (n : Nat) : ∀ r0 : Nat,
    guac_surface_alloc_rows (C : Int) n (r0 : Int)
      = (List.range' r0 n).flatMap (fun r : Nat => (List.range C).map
          (fun c : Nat => guac_surface_tile_alloc (64 * (c : Int)) (64 * (r : Int)))) := by
  induction n with
  | zero => intro r0; rfl
  | succ n ih =>
    intro r0
    unfold guac_surface_alloc_rows
    have h1 := ih (r0 + 1)
    push_cast at h1
    have h2 := alloc_columns_eq (r0 : Int) C 0
    rw [Int.toNat_ofNat, h1]
    simp only [Nat.cast_zero] at h2
    rw [h2, List.range'_succ, List.flatMap_cons, List.range_eq_range']

/-- The tiles of a freshly allocated surface: one fresh tile for every grid
position, in row-major order, at the origin of the position. -/
theorem alloc_tiles (layer : Nat) (width height : Int) (R C : Nat)
    (hR : (R : Int) = (height + 63).tdiv 64) (hC : (C : Int) = (width + 63).tdiv 64) :
    (guac_surface_alloc layer width height).tiles
      = (grid_positions R C).map
          (fun p => guac_surface_tile_alloc (64 * (p.2 : Int)) (64 * (p.1 : Int))) := by
  have e1 : height + 64 - 1 = height + 63 := by ring
  have e2 : width + 64 - 1 = width + 63 := by ring
  simp only [guac_surface_alloc, GUAC_SURFACE_TILE_WIDTH, GUAC_SURFACE_TILE_HEIGHT, e1, e2]
  rw [← hR, ← hC, Int.toNat_ofNat]
  have := alloc_rows_eq C R 0
  simp only [Nat.cast_zero] at this
  rw [this, grid_positions, ← List.range_eq_range']
  simp only [List.flatMap_def, List.map_flatten, List.map_map]
  congr 1
  apply List.map_congr_left
  intro r _
  simp [Function.comp_def]

theorem alloc_well_formed (layer : Nat) (width height : Int) (hw : 0 ≤ width) (hh : 0 ≤ height) :
    (guac_surface_alloc layer width height).well_formed := by
  obtain ⟨R, hR⟩ : ∃ R : Nat, (R : Int) = (height + 63).tdiv 64 :=
    ⟨((height + 63).tdiv 64).toNat, by
      rw [Int.toNat_of_nonneg]
      rw [Int.tdiv_eq_ediv (by omega) (by norm_num)]; omega⟩
  obtain ⟨C, hC⟩ : ∃ C : Nat, (C : Int) = (width + 63).tdiv 64 :=
    ⟨((width + 63).tdiv 64).toNat, by
      rw [Int.toNat_of_nonneg]
      rw [Int.tdiv_eq_ediv (by omega) (by norm_num)]; omega⟩
  have htiles := alloc_tiles layer width height R C hR hC
  have e1 : height + 64 - 1 = height + 63 := by ring
  have e2 : width + 64 - 1 = width + 63 := by ring
  have hrows : (guac_surface_alloc layer width height).rows = R := by
    simp only [guac_surface_alloc, GUAC_SURFACE_TILE_HEIGHT, e1, hR]
  have hcols : (guac_surface_alloc layer width height).columns = C := by
    simp only [guac_surface_alloc, GUAC_SURFACE_TILE_WIDTH, e2, hC]
  have hwd : (guac_surface_alloc layer width height).width = width := rfl
  have hht : (guac_surface_alloc layer width height).height = height := rfl
  refine ⟨?_, ?_, ?_, ?_⟩
  · rw [hrows, hht, hR, Int.tdiv_eq_ediv (by omega) (by norm_num)]
  · rw [hcols, hwd, hC, Int.tdiv_eq_ediv (by omega) (by norm_num)]
  · rw [hrows, hcols, htiles, List.length_map, grid_positions_length]
    simp
  · intro r c hr hc
    rw [hrows, Int.toNat_ofNat] at hr
    rw [hcols, Int.toNat_ofNat] at hc
    rw [hcols, Int.toNat_ofNat, htiles, List.getElem?_map,
      grid_positions_getElem? R C r c hr hc]
    rfl

/-- The tile of a well-formed surface that holds a given pixel of the grid. -/
theorem well_formed_tile_at (s : guac_surface) (hwf : s.well_formed) (px py : Int)
    (hpx : 0 ≤ px ∧ px < 64 * s.columns) (hpy : 0 ≤ py ∧ py < 64 * s.rows) :
    ∃ t, s.tiles[(py / 64 * s.columns + px / 64).toNat]? = some t ∧
      t.x = 64 * (px / 64) ∧ t.y = 64 * (py / 64) := by
  obtain ⟨_, _, _, horig⟩ := hwf
  obtain ⟨r, hr⟩ : ∃ r : Nat, (r : Int) = py / 64 :=
    ⟨(py / 64).toNat, by rw [Int.toNat_of_nonneg (by omega)]⟩
  obtain ⟨c, hc⟩ : ∃ c : Nat, (c : Int) = px / 64 :=
    ⟨(px / 64).toNat, by rw [Int.toNat_of_nonneg (by omega)]⟩
  obtain ⟨C, hC⟩ : ∃ C : Nat, (C : Int) = s.columns :=
    ⟨s.columns.toNat, by rw [Int.toNat_of_nonneg (by omega)]⟩
  have h := horig r c (by omega) (by omega)
  rw [Option.map_eq_some'] at h
  obtain ⟨t, ht, hxy⟩ := h
  have hidx : (py / 64 * s.columns + px / 64).toNat = r * s.columns.toNat + c := by
    rw [← hr, ← hc, ← hC, Int.toNat_ofNat]
    have : ((r : Int) * C + c) = ((r * C + c : Nat) : Int) := by push_cast; ring
    rw [this, Int.toNat_ofNat]
  refine ⟨t, by rw [hidx]; exact ht, ?_, ?_⟩
  · have := congrArg Prod.fst hxy
    simp only at this
    rw [this, hc]
  · have := congrArg Prod.snd hxy
    simp only at this
    rw [this, hr]

/-- The origins of a well-formed surface, read off the index of a tile. -/
theorem well_formed_index (s : guac_surface) (hwf : s.well_formed) (R C : Nat)
    (hR : s.rows = R) (hC : s.columns = C) :
    ∀ i : Nat, i < R * C → ∃ t, s.tiles[i]? = some t ∧
      t.x = 64 * ((i % C : Nat) : Int) ∧ t.y = 64 * ((i / C : Nat) : Int) := by
  intro i hi
  obtain ⟨_, _, _, horig⟩ := hwf
  have hCpos : 0 < C := by
    rcases Nat.eq_zero_or_pos C with h | h
    · subst h; simp at hi
    · exact h
  have h := horig (i / C) (i % C)
    (by rw [hR, Int.toNat_ofNat]; exact Nat.div_lt_of_lt_mul (by rw [Nat.mul_comm]; exact hi))
    (by rw [hC, Int.toNat_ofNat]; exact Nat.mod_lt _ hCpos)
  rw [hC, Int.toNat_ofNat, Nat.div_add_mod', Option.map_eq_some'] at h
  obtain ⟨t, ht, hxy⟩ := h
  refine ⟨t, ht, ?_, ?_⟩
  · have := congrArg Prod.fst hxy
    simpa using this
  · have := congrArg Prod.snd hxy
    simpa using this

/-- On a well-formed surface a draw inside of the canvas puts the source on every
tile. -/
theorem well_formed_draw (s : guac_surface) (x y : Int) (src : cairo_surface_t)
    (hwf : s.well_formed) (hin : s.rect_inside x y src) :
    guac_surface_draw s x y src = some
      { s with
        tiles := s.tiles.map
          (fun t => guac_surface_tile_put t x y src.data src.width src.height src.stride)
        content_dirty := 1 } := by
  obtain ⟨hx, hy, hxw, hyh, hw, hh⟩ := hin
  have hwf' := hwf
  obtain ⟨hrows, hcols, hlen, _⟩ := hwf
  exact surface_draw_eq_map s x y src s.rows.toNat s.columns.toNat
    (by rw [Int.toNat_of_nonneg (by omega)]) hlen
    (well_formed_index s hwf' _ _ (by rw [Int.toNat_of_nonneg (by omega)])
      (by rw [Int.toNat_of_nonneg (by omega)]))
    hx hy hw hh hxw hyh
    (by rw [Int.toNat_of_nonneg (by omega)]; omega)
    (by rw [Int.toNat_of_nonneg (by omega)]; omega)

/-! ## Claims about the tile -/

/-- C1: after `guac_surface_tile_put`, every pixel of the new page of the tile
(page `current_page`) whose canvas coordinate `(px, py)` lies both in the source
rectangle `[x, x+width) x [y, y+height)` and in the footprint of the tile holds
the four source bytes found at source offset `(py - y) * stride + (px - x) * 4`. -/
theorem guac_surface_tile_put_overlap (tile : guac_surface_tile) (x y : Int) (buffer : Mem)
    (width height stride : Int) (px py k : Int)
    (hsrc : in_rect x y width height px py)
    (htile : in_rect tile.x tile.y GUAC_SURFACE_TILE_WIDTH GUAC_SURFACE_TILE_HEIGHT px py)
    (hk : 0 ≤ k ∧ k < 4) :
    (guac_surface_tile_page (guac_surface_tile_put tile x y buffer width height stride)
        (guac_surface_tile_put tile x y buffer width height stride).current_page).pixel_byte
        (px - tile.x) (py - tile.y) k
      = buffer ((py - y) * stride + (px - x) * 4 + k) := by
  rw [tile_put_current_page]
  obtain ⟨h1, h2, h3, h4⟩ := hsrc
  obtain ⟨h5, h6, h7, h8⟩ := htile
  exact tile_put_new_page_in tile x y buffer width height stride px py k
    ⟨h1, h2⟩ ⟨h3, h4⟩ ⟨h5, h6⟩ ⟨h7, h8⟩ hk

/-- Witness of C1: a one pixel source of bytes 9 put at the origin of a fresh
tile. -/
theorem guac_surface_tile_put_overlap_witness :
    (guac_surface_tile_page
      (guac_surface_tile_put (guac_surface_tile_alloc 0 0) 0 0 (fun _ => 9) 1 1 4)
      (guac_surface_tile_put (guac_surface_tile_alloc 0 0) 0 0 (fun _ => 9) 1 1 4).current_page
      ).pixel_byte 0 0 0 = 9 :=
  guac_surface_tile_put_overlap (guac_surface_tile_alloc 0 0) 0 0 (fun _ => 9) 1 1 4 0 0 0
    (by decide) (by decide) (by decide)

/-- C2: the dirty flag after `guac_surface_tile_put` is set if and only if it was
set before or some byte written into the overlap differs from the byte at the
same position of the old page (page `1 - current_page`); writing bytes identical
to the old page into a clean tile leaves the flag clear, and a put whose overlap
with the tile is empty leaves the flag as it was. -/
theorem guac_surface_tile_put_dirty (tile : guac_surface_tile) (x y : Int) (buffer : Mem)
    (width height stride : Int) :
    ((guac_surface_tile_put tile x y buffer width height stride).dirty ≠ 0 ↔
      (tile.dirty ≠ 0 ∨ ∃ px py k : Int,
        in_rect x y width height px py ∧
        in_rect tile.x tile.y GUAC_SURFACE_TILE_WIDTH GUAC_SURFACE_TILE_HEIGHT px py ∧
        (0 ≤ k ∧ k < 4) ∧
        buffer ((py - y) * stride + (px - x) * 4 + k) ≠
          (guac_surface_tile_page tile (1 - tile.current_page)).pixel_byte
            (px - tile.x) (py - tile.y) k)) ∧
    (tile.dirty = 0 →
      (∀ px py k : Int, in_rect x y width height px py →
        in_rect tile.x tile.y GUAC_SURFACE_TILE_WIDTH GUAC_SURFACE_TILE_HEIGHT px py →
        0 ≤ k ∧ k < 4 →
        buffer ((py - y) * stride + (px - x) * 4 + k) =
          (guac_surface_tile_page tile (1 - tile.current_page)).pixel_byte
            (px - tile.x) (py - tile.y) k) →
      (guac_surface_tile_put tile x y buffer width height stride).dirty = 0) ∧
    ((∀ px py : Int, ¬ (in_rect x y width height px py ∧
        in_rect tile.x tile.y GUAC_SURFACE_TILE_WIDTH GUAC_SURFACE_TILE_HEIGHT px py)) →
      (guac_surface_tile_put tile x y buffer width height stride).dirty = tile.dirty) := by
  have key := tile_put_dirty_iff tile x y buffer width height stride
  refine ⟨?_, ?_, ?_⟩
  · rw [key]
    constructor
    · rintro (h | ⟨px, py, k, hx, hy, htx, hty, hk, hne⟩)
      · exact Or.inl h
      · exact Or.inr ⟨px, py, k, ⟨hx.1, hx.2, hy.1, hy.2⟩, ⟨htx.1, htx.2, hty.1, hty.2⟩, hk, hne⟩
    · rintro (h | ⟨px, py, k, ⟨h1, h2, h3, h4⟩, ⟨h5, h6, h7, h8⟩, hk, hne⟩)
      · exact Or.inl h
      · exact Or.inr ⟨px, py, k, ⟨h1, h2⟩, ⟨h3, h4⟩, ⟨h5, h6⟩, ⟨h7, h8⟩, hk, hne⟩
  · intro hclean hsame
    by_contra hd
    rcases key.mp hd with h | ⟨px, py, k, hx, hy, htx, hty, hk, hne⟩
    · exact h hclean
    · exact hne (hsame px py k ⟨hx.1, hx.2, hy.1, hy.2⟩ ⟨htx.1, htx.2, hty.1, hty.2⟩ hk)
  · intro hempty
    rw [tile_put_of_empty tile x y buffer width height stride]
    intro px py hc
    exact hempty px py ⟨⟨hc.1, hc.2.1, hc.2.2.1, hc.2.2.2.1⟩,
      ⟨hc.2.2.2.2.1, hc.2.2.2.2.2.1, hc.2.2.2.2.2.2.1, hc.2.2.2.2.2.2.2⟩⟩

/-- C3: `guac_surface_tile_put` leaves the origin and `current_page` of the tile
as they were, changes no byte of the old page (page `1 - current_page`) and no
byte of the new page outside of the source rectangle; when the source rectangle
does not meet the footprint of the tile, in particular when its width or height
is zero or negative, the whole tile is as it was. -/
theorem guac_surface_tile_put_frame (tile : guac_surface_tile) (x y : Int) (buffer : Mem)
    (width height stride : Int) :
    (guac_surface_tile_put tile x y buffer width height stride).x = tile.x ∧
    (guac_surface_tile_put tile x y buffer width height stride).y = tile.y ∧
    (guac_surface_tile_put tile x y buffer width height stride).current_page
      = tile.current_page ∧
    (∀ dx dy k : Int, 0 ≤ dx ∧ dx < GUAC_SURFACE_TILE_WIDTH →
      0 ≤ dy ∧ dy < GUAC_SURFACE_TILE_HEIGHT → 0 ≤ k ∧ k < 4 →
      (guac_surface_tile_page (guac_surface_tile_put tile x y buffer width height stride)
          (1 - tile.current_page)).pixel_byte dx dy k
        = (guac_surface_tile_page tile (1 - tile.current_page)).pixel_byte dx dy k) ∧
    (∀ dx dy k : Int, 0 ≤ dx ∧ dx < GUAC_SURFACE_TILE_WIDTH →
      0 ≤ dy ∧ dy < GUAC_SURFACE_TILE_HEIGHT → 0 ≤ k ∧ k < 4 →
      ¬ in_rect x y width height (tile.x + dx) (tile.y + dy) →
      (guac_surface_tile_page (guac_surface_tile_put tile x y buffer width height stride)
          tile.current_page).pixel_byte dx dy k
        = (guac_surface_tile_page tile tile.current_page).pixel_byte dx dy k) ∧
    ((∀ px py : Int, ¬ (in_rect x y width height px py ∧
        in_rect tile.x tile.y GUAC_SURFACE_TILE_WIDTH GUAC_SURFACE_TILE_HEIGHT px py)) →
      guac_surface_tile_put tile x y buffer width height stride = tile) ∧
    (width ≤ 0 ∨ height ≤ 0 →
      guac_surface_tile_put tile x y buffer width height stride = tile) := by
  refine ⟨tile_put_x _ _ _ _ _ _ _, tile_put_y _ _ _ _ _ _ _, tile_put_current_page _ _ _ _ _ _ _,
    ?_, ?_, ?_, ?_⟩
  · intro dx dy k hdx _ hk
    exact tile_put_old_page tile x y buffer width height stride dx dy k hdx hk
  · intro dx dy k hdx hdy hk hout
    exact tile_put_new_page_out tile x y buffer width height stride dx dy k hdx hdy hk hout
  · intro hempty
    apply tile_put_of_empty
    intro px py hc
    exact hempty px py ⟨⟨hc.1, hc.2.1, hc.2.2.1, hc.2.2.2.1⟩,
      ⟨hc.2.2.2.2.1, hc.2.2.2.2.2.1, hc.2.2.2.2.2.2.1, hc.2.2.2.2.2.2.2⟩⟩
  · intro hneg
    apply tile_put_of_empty
    intro px py hc
    omega

/-- C4: for a tile whose dirty flag is set, `guac_surface_tile_flush` sends
exactly one streamed PNG, with the operator over, at the origin of the tile,
showing what the new page held before the call; afterwards both pages hold that
image over the whole 64x64 footprint, the dirty flag is clear and `current_page`
is one minus what it was. -/
theorem guac_surface_tile_flush_dirty (tile : guac_surface_tile) (layer : Nat)
    (h : tile.dirty ≠ 0) :
    ∃ img : cairo_surface_t,
      (guac_surface_tile_flush tile layer).2 =
        [guac_instruction.png guac_composite_mode.GUAC_COMP_OVER layer tile.x tile.y img] ∧
      img.width = GUAC_SURFACE_TILE_WIDTH ∧ img.height = GUAC_SURFACE_TILE_HEIGHT ∧
      (∀ dx dy k : Int, 0 ≤ dx ∧ dx < GUAC_SURFACE_TILE_WIDTH →
        0 ≤ dy ∧ dy < GUAC_SURFACE_TILE_HEIGHT → 0 ≤ k ∧ k < 4 →
        img.pixel_byte dx dy k
            = (guac_surface_tile_page tile tile.current_page).pixel_byte dx dy k ∧
        (guac_surface_tile_page (guac_surface_tile_flush tile layer).1
            (guac_surface_tile_flush tile layer).1.current_page).pixel_byte dx dy k
            = img.pixel_byte dx dy k ∧
        (guac_surface_tile_page (guac_surface_tile_flush tile layer).1
            (1 - (guac_surface_tile_flush tile layer).1.current_page)).pixel_byte dx dy k
            = img.pixel_byte dx dy k) ∧
      (guac_surface_tile_flush tile layer).1.dirty = 0 ∧
      (guac_surface_tile_flush tile layer).1.current_page = 1 - tile.current_page ∧
      (guac_surface_tile_flush tile layer).1.x = tile.x ∧
      (guac_surface_tile_flush tile layer).1.y = tile.y := by
  refine ⟨_, tile_flush_dirty_snd tile layer h, rfl, rfl, ?_, tile_flush_fst_dirty tile layer, ?_,
    tile_flush_x tile layer, tile_flush_y tile layer⟩
  · intro dx dy k hdx hdy hk
    have hnew := tile_flush_rows_page tile tile.current_page dx dy k (Or.inl rfl) hdx hdy hk
    have hold := tile_flush_rows_page tile (1 - tile.current_page) dx dy k (Or.inr rfl) hdx hdy hk
    rw [tile_flush_dirty_fst tile layer h]
    refine ⟨hnew, ?_, ?_⟩
    · rw [hnew]
      exact hold
    · rw [hnew]
      simp only [sub_sub_cancel]
      exact hnew
  · rw [tile_flush_dirty_fst tile layer h]

/-- Witness of C4: a dirty tile at the origin. -/
theorem guac_surface_tile_flush_dirty_witness :
    (guac_surface_tile_flush
        { x := 0, y := 0, dirty := 1, current_page := 0, buffer := fun _ => 0 } 7).1.current_page
      = 1 ∧
    (guac_surface_tile_flush
        { x := 0, y := 0, dirty := 1, current_page := 0, buffer := fun _ => 0 } 7).2.length
      = 1 := by
  obtain ⟨img, h1, _, _, _, _, h6, _, _⟩ := guac_surface_tile_flush_dirty
    { x := 0, y := 0, dirty := 1, current_page := 0, buffer := fun _ => 0 } 7 (by decide)
  exact ⟨by rw [h6]; rfl, by rw [h1]; rfl⟩

/-! ## Claims about the surface -/

theorem instruction_same_refl_size (layer : Nat) (width height : Int) :
    (guac_instruction.size layer width height).same (guac_instruction.size layer width height) :=
  ⟨rfl, rfl, rfl⟩

/-- What the flushes of a list of tiles send, in the order of the list: one PNG
for every dirty tile and nothing for a clean tile. -/
theorem tiles_flush_same (layer : Nat) (tiles : List guac_surface_tile) :
    List.Forall₂ guac_instruction.same
      (tiles.flatMap (fun t => (guac_surface_tile_flush t layer).2))
      ((tiles.filter (fun t => t.dirty ≠ 0)).map (fun t => t.png_of_new_page layer)) := by
  induction tiles with
  | nil => exact List.Forall₂.nil
  | cons t rest ih =>
    rw [List.flatMap_cons]
    have h := tile_flush_snd_same t layer
    by_cases hd : t.dirty ≠ 0
    · rw [if_pos hd] at h
      rw [List.filter_cons_of_pos (by simpa using hd), List.map_cons]
      exact List.rel_append h ih
    · rw [if_neg hd] at h
      rw [List.filter_cons_of_neg (by simpa using hd)]
      have := List.rel_append h ih
      simpa using this

/-- C5: on a surface whose tile array has one tile for every grid position,
`guac_surface_flush` returns and sends, in this order: one `size(layer, width,
height)` if and only if `size_dirty` was set; then, if and only if
`content_dirty` was set, one streamed PNG (operator over, at the origin of the
tile, showing its new page) for every tile whose dirty flag is set, in the
row-major order of the tile array, and nothing for a clean tile. Afterwards
`size_dirty` and `content_dirty` are 0. -/
theorem guac_surface_flush_emits (s : guac_surface)
    (hlen : s.tiles.length = s.rows.toNat * s.columns.toNat) :
    ∃ s1 out, guac_surface_flush s = some (s1, out) ∧
      List.Forall₂ guac_instruction.same out
        ((if s.size_dirty ≠ 0 then [guac_instruction.size s.layer s.width s.height] else [])
          ++ (if s.content_dirty ≠ 0 then
              (s.tiles.filter (fun t => t.dirty ≠ 0)).map (fun t => t.png_of_new_page s.layer)
            else [])) ∧
      s1.size_dirty = 0 ∧ s1.content_dirty = 0 := by
  refine ⟨_, _, surface_flush_eq s hlen, ?_, rfl, rfl⟩
  apply List.rel_append
  · by_cases hs : s.size_dirty ≠ 0
    · rw [if_pos hs]
      exact List.Forall₂.cons (instruction_same_refl_size _ _ _) List.Forall₂.nil
    · rw [if_neg hs]
      exact List.Forall₂.nil
  · by_cases hc : s.content_dirty ≠ 0
    · rw [if_pos hc, if_pos hc]
      exact tiles_flush_same s.layer s.tiles
    · rw [if_neg hc, if_neg hc]
      exact List.Forall₂.nil

/-- Witness of C5: a fresh 128x128 surface of 2x2 tiles on which an 8x1 image of
bytes 9 was drawn at (60, 70), so that the tiles at (0, 64) and (64, 64) are
dirty and the tiles at (0, 0) and (64, 0) are clean: the flush sends the size
instruction, then the PNG of the tile at (0, 64), then the PNG of the tile at
(64, 64), nothing for the two clean tiles, and clears both flags. -/
theorem guac_surface_flush_emits_witness :
    ∃ s s1 out,
      guac_surface_draw (guac_surface_alloc 7 128 128) 60 70
        { data := fun _ => 9, width := 8, height := 1, stride := 32 } = some s ∧
      s.size_dirty = 1 ∧ s.content_dirty = 1 ∧
      s.tiles.map (fun t => decide (t.dirty ≠ 0)) = [false, false, true, true] ∧
      guac_surface_flush s = some (s1, out) ∧
      List.Forall₂ guac_instruction.same out
        [guac_instruction.size 7 128 128,
          guac_instruction.png guac_composite_mode.GUAC_COMP_OVER 7 0 64
            (guac_surface_tile_page (guac_surface_tile_put (guac_surface_tile_alloc 0 64) 60 70
              (fun _ => 9) 8 1 32) 0),
          guac_instruction.png guac_composite_mode.GUAC_COMP_OVER 7 64 64
            (guac_surface_tile_page (guac_surface_tile_put (guac_surface_tile_alloc 64 64) 60 70
              (fun _ => 9) 8 1 32) 0)] ∧
      s1.size_dirty = 0 ∧ s1.content_dirty = 0 := by
  obtain ⟨s1, out, h1, h2, h3, h4⟩ := guac_surface_flush_emits
    { layer := 7, content_dirty := 1, size_dirty := 1, width := 128, height := 128, rows := 2,
      columns := 2,
      tiles := [guac_surface_tile_alloc 0 0, guac_surface_tile_alloc 64 0,
        guac_surface_tile_put (guac_surface_tile_alloc 0 64) 60 70 (fun _ => 9) 8 1 32,
        guac_surface_tile_put (guac_surface_tile_alloc 64 64) 60 70 (fun _ => 9) 8 1 32] }
    (by decide)
  exact ⟨_, s1, out, rfl, rfl, rfl, rfl, h1, h2, h3, h4⟩

/-- C6: on a well-formed surface, a draw of an image whose rectangle is not
empty and lies inside of the canvas returns; afterwards the new page holds, at
every canvas coordinate of the rectangle, the source pixel (the destination is
ignored), every other pixel of the new pages of the grid is as it was, and
`content_dirty` is set. -/
theorem guac_surface_draw_inside (s : guac_surface) (x y : Int) (src : cairo_surface_t)
    (hwf : s.well_formed) (hin : s.rect_inside x y src) :
    ∃ s1, guac_surface_draw s x y src = some s1 ∧
      (∀ px py k : Int, in_rect x y src.width src.height px py → 0 ≤ k ∧ k < 4 →
        s1.new_page_byte px py k = some (src.pixel_byte (px - x) (py - y) k)) ∧
      (∀ px py k : Int, 0 ≤ px ∧ px < 64 * s.columns → 0 ≤ py ∧ py < 64 * s.rows →
        0 ≤ k ∧ k < 4 → ¬ in_rect x y src.width src.height px py →
        s1.new_page_byte px py k = s.new_page_byte px py k) ∧
      s1.content_dirty = 1 := by
  refine ⟨_, well_formed_draw s x y src hwf hin, ?_, ?_, rfl⟩
  · intro px py k hrect hk
    obtain ⟨hx, hy, hxw, hyh, hw, hh⟩ := hin
    obtain ⟨h1, h2, h3, h4⟩ := hrect
    have hrows := hwf.1
    have hcols := hwf.2.1
    obtain ⟨t, ht, htx, hty⟩ := well_formed_tile_at s hwf px py (by omega) (by omega)
    simp only [guac_surface.new_page_byte, List.getElem?_map, ht, Option.map_some',
      tile_put_x, tile_put_y, tile_put_current_page]
    rw [tile_put_new_page_in t x y src.data src.width src.height src.stride px py k
      ⟨h1, h2⟩ ⟨h3, h4⟩ (by omega) (by omega) hk]
    rfl
  · intro px py k hpx hpy hk hout
    obtain ⟨t, ht, htx, hty⟩ := well_formed_tile_at s hwf px py hpx hpy
    simp only [guac_surface.new_page_byte, List.getElem?_map, ht, Option.map_some',
      tile_put_x, tile_put_y, tile_put_current_page]
    rw [tile_put_new_page_out t x y src.data src.width src.height src.stride
      (px - t.x) (py - t.y) k (by omega) (by omega) hk]
    intro hc
    apply hout
    unfold in_rect
    omega

/-- Witness of C6: a 2x2 image of bytes 9 drawn at (5, 5) on a fresh 128x128
surface. -/
theorem guac_surface_draw_inside_witness :
    ∃ s1, guac_surface_draw (guac_surface_alloc 7 128 128) 5 5
        { data := fun _ => 9, width := 2, height := 2, stride := 8 } = some s1 ∧
      s1.new_page_byte 6 6 0 = some 9 ∧ s1.content_dirty = 1 := by
  obtain ⟨s1, h1, h2, _, h4⟩ := guac_surface_draw_inside (guac_surface_alloc 7 128 128) 5 5
    { data := fun _ => 9, width := 2, height := 2, stride := 8 }
    (alloc_well_formed 7 128 128 (by decide) (by decide)) (by decide)
  exact ⟨s1, h1, h2 6 6 0 (by decide) (by decide), h4⟩

/-! ## The layout of the surfaces that can be reached -/

theorem alloc_columns_length (row : Int) (n : Nat) : ∀ column : Int,
    (guac_surface_alloc_columns row n column).length = n := by
  induction n with
  | zero => intro column; rfl
  | succ n ih =>
    intro column
    unfold guac_surface_alloc_columns
    rw [List.length_cons, ih]

theorem alloc_rows_length (columns : Int) (n : Nat) : ∀ row : Int,
    (guac_surface_alloc_rows columns n row).length = n * columns.toNat := by
  induction n with
  | zero => intro row; simp [guac_surface_alloc_rows]
  | succ n ih =>
    intro row
    unfold guac_surface_alloc_rows
    rw [List.length_append, ih, alloc_columns_length, Nat.succ_mul]
    omega

theorem alloc_layout (layer : Nat) (width height : Int) :
    (guac_surface_alloc layer width height).layout := by
  refine ⟨rfl, rfl, ?_⟩
  simp only [guac_surface_alloc]
  rw [alloc_rows_length]

theorem draw_columns_length (x y : Int) (buffer : Mem) (width height stride : Int) (n : Nat) :
    ∀ (current : Int) (tiles tiles1 : List guac_surface_tile),
    guac_surface_draw_columns x y buffer width height stride n current tiles = some tiles1 →
    tiles1.length = tiles.length := by
  induction n with
  | zero =>
    intro current tiles tiles1 h
    simp only [guac_surface_draw_columns, Option.some.injEq] at h
    rw [← h]
  | succ n ih =>
    intro current tiles tiles1 h
    unfold guac_surface_draw_columns at h
    split at h
    · exact absurd h (by simp)
    · split at h
      · exact absurd h (by simp)
      · rw [ih _ _ _ h, List.length_set]

theorem draw_rows_length (x y : Int) (buffer : Mem) (width height stride : Int)
    (columns : Int) (count : Nat) (n : Nat) :
    ∀ (current : Int) (tiles tiles1 : List guac_surface_tile),
    guac_surface_draw_rows x y buffer width height stride columns count n current tiles
      = some tiles1 →
    tiles1.length = tiles.length := by
  induction n with
  | zero =>
    intro current tiles tiles1 h
    simp only [guac_surface_draw_rows, Option.some.injEq] at h
    rw [← h]
  | succ n ih =>
    intro current tiles tiles1 h
    unfold guac_surface_draw_rows at h
    split at h
    · exact absurd h (by simp)
    · rename_i tiles0 h0
      rw [ih _ _ _ h, draw_columns_length _ _ _ _ _ _ _ _ _ _ h0]

theorem draw_layout (s s1 : guac_surface) (x y : Int) (src : cairo_surface_t)
    (hs : s.layout) (h : guac_surface_draw s x y src = some s1) : s1.layout := by
  unfold guac_surface_draw at h
  split at h
  · simp only [Option.some.injEq] at h
    rw [← h]; exact hs
  · simp only at h
    split at h
    · exact absurd h (by simp)
    · rename_i tiles1 h1
      simp only [Option.some.injEq] at h
      have hl := draw_rows_length _ _ _ _ _ _ _ _ _ _ _ _ h1
      rw [← h]
      exact ⟨hs.1, hs.2.1, by simp only; rw [hl]; exact hs.2.2⟩

theorem flush_layout (s s1 : guac_surface) (out : List guac_instruction)
    (hs : s.layout) (h : guac_surface_flush s = some (s1, out)) : s1.layout := by
  rw [surface_flush_eq s hs.2.2] at h
  simp only [Option.some.injEq, Prod.mk.injEq] at h
  rw [← h.1]
  refine ⟨hs.1, hs.2.1, ?_⟩
  simp only
  split_ifs
  · rw [List.length_map]; exact hs.2.2
  · exact hs.2.2

theorem resize_columns_length (old : List guac_surface_tile)
    (old_rows old_columns new_rows new_columns row : Int) (n : Nat) :
    ∀ (column : Nat) (old_tile : Nat) (new_tiles freed : List guac_surface_tile)
      (r : Nat × List guac_surface_tile × List guac_surface_tile),
    guac_surface_resize_columns old old_rows old_columns new_rows new_columns row
      n (column : Int) old_tile new_tiles freed = some r →
    r.2.1.length = new_tiles.length +
      (if row < new_rows then
        min (column + n) new_columns.toNat - min column new_columns.toNat else 0) := by
  induction n with
  | zero =>
    intro column old_tile new_tiles freed r h
    simp only [guac_surface_resize_columns, Option.some.injEq] at h
    rw [← h]
    simp
  | succ n ih =>
    intro column old_tile new_tiles freed r h
    unfold guac_surface_resize_columns at h
    have hc1 : ((column : Int) + 1) = ((column + 1 : Nat) : Int) := by push_cast; rfl
    rw [hc1] at h
    split at h
    · rename_i hnew
      split at h
      · split at h
        · exact absurd h (by simp)
        · rw [ih _ _ _ _ _ h, List.length_append, if_pos hnew.1, if_pos hnew.1]
          simp only [List.length_singleton]
          omega
      · rw [ih _ _ _ _ _ h, List.length_append, if_pos hnew.1, if_pos hnew.1]
        simp only [List.length_singleton]
        omega
    · rename_i hnew
      split at h
      · exact absurd h (by simp)
      · rw [ih _ _ _ _ _ h]
        by_cases hr : row < new_rows
        · rw [if_pos hr, if_pos hr]
          omega
        · rw [if_neg hr, if_neg hr]

theorem resize_rows_length (old : List guac_surface_tile)
    (old_rows old_columns new_rows new_columns : Int) (max_columns : Nat)
    (hmax : new_columns.toNat ≤ max_columns) (n : Nat) :
    ∀ (row : Nat) (old_tile : Nat) (new_tiles freed : List guac_surface_tile)
      (r : Nat × List guac_surface_tile × List guac_surface_tile),
    guac_surface_resize_rows old old_rows old_columns new_rows new_columns max_columns
      n (row : Int) old_tile new_tiles freed = some r →
    r.2.1.length = new_tiles.length +
      (min (row + n) new_rows.toNat - min row new_rows.toNat) * new_columns.toNat := by
  induction n with
  | zero =>
    intro row old_tile new_tiles freed r h
    simp only [guac_surface_resize_rows, Option.some.injEq] at h
    rw [← h]
    simp
  | succ n ih =>
    intro row old_tile new_tiles freed r h
    unfold guac_surface_resize_rows at h
    have hc1 : ((row : Int) + 1) = ((row + 1 : Nat) : Int) := by push_cast; rfl
    rw [hc1] at h
    split at h
    · exact absurd h (by simp)
    · rename_i o1 nt1 fr1 h0
      have hcol := resize_columns_length _ _ _ _ _ _ _ 0 _ _ _ _ h0
      simp only [Nat.cast_zero] at hcol
      rw [ih _ _ _ _ _ h, hcol]
      by_cases hr : (row : Int) < new_rows
      · rw [if_pos hr]
        have e1 : min (row + 1 + n) new_rows.toNat - min row new_rows.toNat
            = (min (row + 1 + n) new_rows.toNat - min (row + 1) new_rows.toNat) + 1 := by
          omega
        have e2 : row + (n + 1) = row + 1 + n := by omega
        have e3 : min (0 + max_columns) new_columns.toNat - min 0 new_columns.toNat
            = new_columns.toNat := by omega
        rw [e2, e1, Nat.succ_mul, e3]
        omega
      · rw [if_neg hr]
        have e1 : min (row + 1 + n) new_rows.toNat - min (row + 1) new_rows.toNat = 0 := by
          omega
        have e2 : min (row + (n + 1)) new_rows.toNat - min row new_rows.toNat = 0 := by
          omega
        rw [e1, e2]
        omega

theorem resize_layout (max_width max_height : Int) (s s1 : guac_surface) (width height : Int)
    (status : Int) (freed : List guac_surface_tile) (hs : s.layout)
    (h : guac_surface_resize max_width max_height s width height = some (status, s1, freed)) :
    s1.layout := by
  unfold guac_surface_resize at h
  split at h
  · simp only [Option.some.injEq, Prod.mk.injEq] at h
    rw [← h.2.1]; exact hs
  · simp only at h
    split at h
    · exact absurd h (by simp)
    · rename_i o1 nt1 fr1 h0
      simp only [Option.some.injEq, Prod.mk.injEq] at h
      have hl := resize_rows_length _ _ _ _ _ _ (by split_ifs <;> omega) _ 0 _ _ _ _ h0
      simp only [List.length_nil, Nat.zero_add] at hl
      rw [← h.2.1]
      refine ⟨rfl, rfl, ?_⟩
      simp only
      rw [hl]
      congr 1
      split_ifs <;> omega

/-- Every surface that can be reached has the layout that allocation gave it. -/
theorem reachable_layout (max_width max_height : Int) (s : guac_surface)
    (h : s.reachable max_width max_height) : s.layout := by
  induction h with
  | alloc layer width height => exact alloc_layout layer width height
  | resize s s1 width height status freed _ hr ih =>
    exact resize_layout max_width max_height s s1 width height status freed ih hr
  | draw s s1 x y src _ hd ih => exact draw_layout s s1 x y src ih hd
  | flush s s1 out _ hf ih => exact flush_layout s s1 out ih hf

/-! ## Drawing the same image twice -/

/-- A tile on which an image was put and which was then flushed is clean after
the same image is put on it again. -/
theorem tile_put_flush_put_clean (t : guac_surface_tile) (layer : Nat) (x y : Int)
    (buffer : Mem) (width height stride : Int) :
    (guac_surface_tile_put
      (guac_surface_tile_flush (guac_surface_tile_put t x y buffer width height stride) layer).1
      x y buffer width height stride).dirty = 0 := by
  by_contra hd
  rcases (tile_put_dirty_iff _ x y buffer width height stride).mp hd with
    h | ⟨px, py, k, hx, hy, htx, hty, hk, hne⟩
  · exact h (tile_flush_fst_dirty _ layer)
  · rw [tile_flush_x, tile_put_x] at htx
    rw [tile_flush_y, tile_put_y] at hty
    rw [tile_flush_x, tile_flush_y, tile_put_x, tile_put_y] at hne
    apply hne
    by_cases h1 : (guac_surface_tile_put t x y buffer width height stride).dirty ≠ 0
    · rw [tile_flush_dirty_fst _ layer h1]
      simp only [sub_sub_cancel]
      have hpage := tile_flush_rows_page (guac_surface_tile_put t x y buffer width height stride)
        (guac_surface_tile_put t x y buffer width height stride).current_page
        (px - t.x) (py - t.y) k (Or.inl rfl) (by omega) (by omega) hk
      rw [tile_put_current_page] at hpage ⊢
      rw [tile_put_new_page_in t x y buffer width height stride px py k hx hy htx hty hk] at hpage
      rw [← hpage]
      rfl
    · have h1' : (guac_surface_tile_put t x y buffer width height stride).dirty = 0 := by
        simpa using h1
      rw [tile_flush_clean _ layer h1', tile_put_current_page,
        tile_put_old_page t x y buffer width height stride (px - t.x) (py - t.y) k
          (by omega) hk]
      by_contra hne'
      exact h1 ((tile_put_dirty_iff t x y buffer width height stride).mpr
        (Or.inr ⟨px, py, k, hx, hy, htx, hty, hk, hne'⟩))

/-- The flushes of tiles that are all clean send nothing. -/
theorem tiles_flush_clean (layer : Nat) (tiles : List guac_surface_tile)
    (h : ∀ t ∈ tiles, t.dirty = 0) :
    tiles.flatMap (fun t => (guac_surface_tile_flush t layer).2) = [] := by
  rw [List.flatMap_eq_nil_iff]
  intro t ht
  rw [tile_flush_clean t layer (h t ht)]

/-- The bounds that the layout of a surface gives for a rectangle inside of its
canvas. -/
theorem layout_bounds (s : guac_surface) (hs : s.layout) (hw : 1 ≤ s.width) (hh : 1 ≤ s.height) :
    s.columns = ((s.columns.toNat : Nat) : Int) ∧
    s.tiles.length = s.rows.toNat * s.columns.toNat ∧
    s.width ≤ 64 * ((s.columns.toNat : Nat) : Int) ∧
    s.height ≤ 64 * ((s.rows.toNat : Nat) : Int) := by
  obtain ⟨h1, h2, h3⟩ := hs
  simp only [GUAC_SURFACE_TILE_HEIGHT, GUAC_SURFACE_TILE_WIDTH] at h1 h2
  rw [Int.tdiv_eq_ediv (by omega) (by norm_num)] at h1 h2
  refine ⟨?_, h3, ?_, ?_⟩
  · rw [Int.toNat_of_nonneg (by omega)]
  · rw [Int.toNat_of_nonneg (by omega)]; omega
  · rw [Int.toNat_of_nonneg (by omega)]; omega

/-- Drawing an image inside of the canvas, flushing, and drawing the same image
at the same position again leaves every tile clean, so that the second flush
sends nothing. -/
theorem layout_redraw_silent (s : guac_surface) (hs : s.layout) (x y : Int)
    (src : cairo_surface_t) (hin : s.rect_inside x y src) :
    ∃ s1 s2 out1 s3 s4,
      guac_surface_draw s x y src = some s1 ∧
      guac_surface_flush s1 = some (s2, out1) ∧
      guac_surface_draw s2 x y src = some s3 ∧
      (∀ t ∈ s3.tiles, t.dirty = 0) ∧
      guac_surface_flush s3 = some (s4, []) := by
  obtain ⟨hx, hy, hxw, hyh, hw, hh⟩ := hin
  obtain ⟨hc, hlen, hW, hH⟩ := layout_bounds s hs (by omega) (by omega)
  obtain ⟨tiles1, hd1, hl1, hp1⟩ := surface_draw_pointwise s x y src s.rows.toNat
    s.columns.toNat hc hlen hx hy hw hh hxw hyh hW hH
  -- the first flush
  have hf1 := surface_flush_eq { s with tiles := tiles1, content_dirty := 1 }
    (by simp only; rw [hl1]; exact hlen)
  simp only [ne_eq, one_ne_zero, not_false_eq_true, if_true] at hf1
  -- the second draw
  obtain ⟨tiles3, hd3, hl3, hp3⟩ := surface_draw_pointwise
    { s with
      tiles := tiles1.map (fun t => (guac_surface_tile_flush t s.layer).1)
      content_dirty := 0, size_dirty := 0 }
    x y src s.rows.toNat s.columns.toNat hc
    (by simp only [List.length_map]; rw [hl1]; exact hlen) hx hy hw hh hxw hyh hW hH
  simp only at hd3 hl3 hp3
  have hclean : ∀ t ∈ tiles3, t.dirty = 0 := by
    intro t ht
    obtain ⟨i, hi, hti⟩ := List.getElem_of_mem ht
    have hsome : tiles3[i]? = some t := by rw [List.getElem?_eq_getElem hi, hti]
    by_cases hD : draw_dispatched s.columns.toNat x y src i
    · rw [(hp3 i).1 hD, List.getElem?_map, (hp1 i).1 hD] at hsome
      simp only [Option.map_map, Option.map_eq_some', Function.comp_apply] at hsome
      obtain ⟨t0, _, ht0⟩ := hsome
      rw [← ht0]
      exact tile_put_flush_put_clean t0 s.layer x y src.data src.width src.height src.stride
    · rw [(hp3 i).2 hD, List.getElem?_map] at hsome
      simp only [Option.map_eq_some'] at hsome
      obtain ⟨t1, _, ht1⟩ := hsome
      rw [← ht1]
      exact tile_flush_fst_dirty t1 s.layer
  -- the second flush
  have hf3 := surface_flush_eq
    { s with tiles := tiles3, content_dirty := 1, size_dirty := 0 }
    (by simp only; rw [hl3, List.length_map, hl1]; exact hlen)
  simp only [ne_eq, one_ne_zero, not_false_eq_true, if_true, not_true_eq_false, if_false,
    List.nil_append] at hf3
  rw [tiles_flush_clean s.layer tiles3 hclean] at hf3
  exact ⟨_, _, _, _, _, hd1, hf1, hd3, hclean, hf3⟩

/-- A draw whose origin lies to the right of or below the canvas returns and
leaves the surface as it is. -/
theorem surface_draw_beyond (s : guac_surface) (x y : Int) (src : cairo_surface_t)
    (h : x ≥ s.width ∨ y ≥ s.height) : guac_surface_draw s x y src = some s := by
  unfold guac_surface_draw
  rw [if_pos h]

/-- C7, evaluated at an input on which the code leaves the grid: on the
well-formed one-tile surface of 64x64 pixels a draw of an image of 65x1 pixels
at the origin (0, 0), which lies inside of the canvas, computes
`last_column = 1` and dereferences entry 1 of a tile array that has the single
entry 0; the range of tiles is not clipped to the grid. -/
theorem guac_surface_draw_leaves_grid :
    (guac_surface_alloc 7 64 64).well_formed ∧
    (guac_surface_alloc 7 64 64).rows = 1 ∧ (guac_surface_alloc 7 64 64).columns = 1 ∧
    (guac_surface_alloc 7 64 64).tiles.length = 1 ∧
    (0 : Int) < (guac_surface_alloc 7 64 64).width ∧
    (0 : Int) < (guac_surface_alloc 7 64 64).height ∧
    guac_surface_draw (guac_surface_alloc 7 64 64) 0 0
      { data := fun _ => 9, width := 65, height := 1, stride := 260 } = none :=
  ⟨alloc_well_formed 7 64 64 (by decide) (by decide), rfl, rfl, rfl, by decide, by decide, rfl⟩

/-- C8: from every surface that can be reached from `guac_surface_alloc`, and for
every image whose rectangle lies inside of the canvas, the sequence draw, flush,
the same draw again, flush returns at every step; every tile is clean after the
second draw and the second flush sends no instruction at all. -/
theorem guac_surface_redraw_silent (max_width max_height : Int) (s : guac_surface)
    (hs : s.reachable max_width max_height) (x y : Int) (src : cairo_surface_t)
    (hin : s.rect_inside x y src) :
    ∃ s1 s2 out1 s3 s4,
      guac_surface_draw s x y src = some s1 ∧
      guac_surface_flush s1 = some (s2, out1) ∧
      guac_surface_draw s2 x y src = some s3 ∧
      (∀ t ∈ s3.tiles, t.dirty = 0) ∧
      guac_surface_flush s3 = some (s4, []) :=
  layout_redraw_silent s (reachable_layout max_width max_height s hs) x y src hin

/-- Witness of C8: a 10x10 image of bytes 9 drawn twice at (5, 5) on a fresh
128x128 surface. -/
theorem guac_surface_redraw_silent_witness :
    ∃ s1 s2 out1 s3 s4,
      guac_surface_draw (guac_surface_alloc 7 128 128) 5 5
        { data := fun _ => 9, width := 10, height := 10, stride := 40 } = some s1 ∧
      guac_surface_flush s1 = some (s2, out1) ∧
      guac_surface_draw s2 5 5
        { data := fun _ => 9, width := 10, height := 10, stride := 40 } = some s3 ∧
      (∀ t ∈ s3.tiles, t.dirty = 0) ∧
      guac_surface_flush s3 = some (s4, []) :=
  guac_surface_redraw_silent 8192 8192 (guac_surface_alloc 7 128 128)
    (guac_surface.reachable.alloc 7 128 128) 5 5
    { data := fun _ => 9, width := 10, height := 10, stride := 40 } (by decide)

/-- C10, evaluated at an input with a negative origin: on a fresh 64x64 surface a
draw of an image of 10x1 pixels of bytes 9 at (-5, 0), whose origin lies outside
of the canvas, returns with `content_dirty` set, with the dirty flag of tile 0
set and with the bytes of the image on the new page of tile 0; and a draw at
(-64, 0) dereferences entry -1 of the tile array. Only `x >= width` and
`y >= height` are tested by the code. -/
theorem guac_surface_draw_negative_origin :
    (guac_surface_alloc 7 64 64).content_dirty = 0 ∧
    (guac_surface_alloc 7 64 64).new_page_byte 0 0 0 = some 0 ∧
    (guac_surface_alloc 7 64 64).tiles.map (fun t => t.dirty) = [0] ∧
    (∃ s1, guac_surface_draw (guac_surface_alloc 7 64 64) (-5) 0
        { data := fun _ => 9, width := 10, height := 1, stride := 40 } = some s1 ∧
      s1.content_dirty = 1 ∧ s1.new_page_byte 0 0 0 = some 9 ∧
      s1.tiles.map (fun t => t.dirty) = [-9]) ∧
    guac_surface_draw (guac_surface_alloc 7 64 64) (-64) 0
      { data := fun _ => 9, width := 10, height := 1, stride := 40 } = none :=
  ⟨rfl, rfl, rfl, ⟨_, rfl, rfl, rfl, rfl⟩, rfl⟩

/-! ## The first flush after a draw on a fresh surface -/

/-- A fresh tile on which an image without a zero pixel was put is dirty exactly
when its footprint meets the rectangle of the image. -/
theorem fresh_put_dirty (x y : Int) (src : cairo_surface_t) (p : Nat × Nat)
    (hw : 1 ≤ src.width) (hh : 1 ≤ src.height)
    (hnz : ∀ px py : Int, 0 ≤ px ∧ px < src.width → 0 ≤ py ∧ py < src.height →
      ∃ k : Int, 0 ≤ k ∧ k < 4 ∧ src.pixel_byte px py k ≠ 0) :
    decide ((guac_surface_tile_put
        (guac_surface_tile_alloc (64 * (p.2 : Int)) (64 * (p.1 : Int)))
        x y src.data src.width src.height src.stride).dirty ≠ 0)
      = tile_meets_rect x y src.width src.height p := by
  unfold tile_meets_rect
  rw [decide_eq_decide, tile_put_dirty_iff]
  have hx0 : (guac_surface_tile_alloc (64 * (p.2 : Int)) (64 * (p.1 : Int))).x = 64 * (p.2 : Int) :=
    rfl
  have hy0 : (guac_surface_tile_alloc (64 * (p.2 : Int)) (64 * (p.1 : Int))).y = 64 * (p.1 : Int) :=
    rfl
  rw [hx0, hy0]
  constructor
  · rintro (h | ⟨px, py, k, hx, hy, htx, hty, _⟩)
    · exact absurd rfl h
    · omega
  · intro hmeet
    right
    obtain ⟨k, hk0, hk4, hk⟩ := hnz (max x (64 * (p.2 : Int)) - x) (max y (64 * (p.1 : Int)) - y)
      (by omega) (by omega)
    refine ⟨max x (64 * (p.2 : Int)), max y (64 * (p.1 : Int)), k,
      by omega, by omega, by omega, by omega, ⟨hk0, hk4⟩, ?_⟩
    rw [tile_page_pixel_byte]
    exact hk

/-- C9: on a freshly allocated surface of `W x H` pixels, after one draw of an
image without a zero pixel whose rectangle lies inside of the canvas, the flush
returns and sends `size(layer, W, H)` followed by exactly one streamed PNG for
every tile whose footprint meets the rectangle, at the origin of the tile, in
row-major order, and nothing for any other tile. -/
theorem guac_surface_first_flush (layer : Nat) (W H : Int) (x y : Int) (src : cairo_surface_t)
    (hin : (guac_surface_alloc layer W H).rect_inside x y src)
    (hnz : ∀ px py : Int, 0 ≤ px ∧ px < src.width → 0 ≤ py ∧ py < src.height →
      ∃ k : Int, 0 ≤ k ∧ k < 4 ∧ src.pixel_byte px py k ≠ 0) :
    ∃ s1 s2 out,
      guac_surface_draw (guac_surface_alloc layer W H) x y src = some s1 ∧
      guac_surface_flush s1 = some (s2, out) ∧
      List.Forall₂ guac_instruction.same out
        (guac_instruction.size layer W H ::
          ((grid_positions ((H + 63) / 64).toNat ((W + 63) / 64).toNat).filter
              (tile_meets_rect x y src.width src.height)).map
            (fun p => guac_instruction.png guac_composite_mode.GUAC_COMP_OVER layer
              (64 * (p.2 : Int)) (64 * (p.1 : Int))
              (guac_surface_tile_page
                (guac_surface_tile_put
                  (guac_surface_tile_alloc (64 * (p.2 : Int)) (64 * (p.1 : Int)))
                  x y src.data src.width src.height src.stride) 0))) := by
  have hin' := hin
  obtain ⟨hx, hy, hxw, hyh, hw, hh⟩ := hin
  have hW : 1 ≤ W := by
    have : (guac_surface_alloc layer W H).width = W := rfl
    omega
  have hH : 1 ≤ H := by
    have : (guac_surface_alloc layer W H).height = H := rfl
    omega
  have hwf := alloc_well_formed layer W H (by omega) (by omega)
  have hR : ((((H + 63) / 64).toNat : Nat) : Int) = (H + 63).tdiv 64 := by
    rw [Int.tdiv_eq_ediv (by omega) (by norm_num), Int.toNat_of_nonneg (by omega)]
  have hC : ((((W + 63) / 64).toNat : Nat) : Int) = (W + 63).tdiv 64 := by
    rw [Int.tdiv_eq_ediv (by omega) (by norm_num), Int.toNat_of_nonneg (by omega)]
  have htiles := alloc_tiles layer W H _ _ hR hC
  have hdraw := well_formed_draw (guac_surface_alloc layer W H) x y src hwf hin'
  have hflush := surface_flush_eq
    { guac_surface_alloc layer W H with
      tiles := (guac_surface_alloc layer W H).tiles.map
        (fun t => guac_surface_tile_put t x y src.data src.width src.height src.stride)
      content_dirty := 1 }
    (by simp only [List.length_map]; exact hwf.2.2.1)
  refine ⟨_, _, _, hdraw, hflush, ?_⟩
  have hsd : (guac_surface_alloc layer W H).size_dirty = 1 := rfl
  have hly : (guac_surface_alloc layer W H).layer = layer := rfl
  have hwd : (guac_surface_alloc layer W H).width = W := rfl
  have hht : (guac_surface_alloc layer W H).height = H := rfl
  simp only [hsd, hly, hwd, hht, ne_eq, one_ne_zero, not_false_eq_true, if_true,
    List.singleton_append]
  refine List.Forall₂.cons (instruction_same_refl_size _ _ _) ?_
  have hsame := tiles_flush_same layer ((guac_surface_alloc layer W H).tiles.map
    (fun t => guac_surface_tile_put t x y src.data src.width src.height src.stride))
  rw [htiles, List.map_map, List.filter_map, List.map_map] at hsame
  have hfilter : (grid_positions ((H + 63) / 64).toNat ((W + 63) / 64).toNat).filter
      ((fun t : guac_surface_tile => decide (t.dirty ≠ 0)) ∘
        ((fun t => guac_surface_tile_put t x y src.data src.width src.height src.stride) ∘
          fun p : Nat × Nat => guac_surface_tile_alloc (64 * (p.2 : Int)) (64 * (p.1 : Int))))
      = (grid_positions ((H + 63) / 64).toNat ((W + 63) / 64).toNat).filter
          (tile_meets_rect x y src.width src.height) := by
    apply List.filter_congr
    intro p _
    exact fresh_put_dirty x y src p hw hh hnz
  rw [hfilter] at hsame
  rw [htiles, List.map_map]
  have hpng : ((fun t : guac_surface_tile => t.png_of_new_page layer) ∘
      (fun t => guac_surface_tile_put t x y src.data src.width src.height src.stride) ∘
        fun p : Nat × Nat => guac_surface_tile_alloc (64 * (p.2 : Int)) (64 * (p.1 : Int)))
      = (fun p : Nat × Nat => guac_instruction.png guac_composite_mode.GUAC_COMP_OVER layer
          (64 * (p.2 : Int)) (64 * (p.1 : Int))
          (guac_surface_tile_page
            (guac_surface_tile_put
              (guac_surface_tile_alloc (64 * (p.2 : Int)) (64 * (p.1 : Int)))
              x y src.data src.width src.height src.stride) 0)) := by
    funext p
    simp only [Function.comp_apply, guac_surface_tile.png_of_new_page, tile_put_x, tile_put_y,
      tile_put_current_page]
    rfl
  rw [hpng] at hsame
  exact hsame

/-- Witness of C9: a 10x10 image of bytes 9 on a fresh 128x128 surface; drawn at
(5, 5) it yields one PNG, for tile (0, 0) only; drawn at (60, 60) it yields
four, for the tiles at (0, 0), (64, 0), (0, 64) and (64, 64) in this order. -/
theorem guac_surface_first_flush_witness :
    (∃ s1 s2 out,
      guac_surface_draw (guac_surface_alloc 7 128 128) 5 5
        { data := fun _ => 9, width := 10, height := 10, stride := 40 } = some s1 ∧
      guac_surface_flush s1 = some (s2, out) ∧
      List.Forall₂ guac_instruction.same out
        [guac_instruction.size 7 128 128,
          guac_instruction.png guac_composite_mode.GUAC_COMP_OVER 7 0 0
            (guac_surface_tile_page (guac_surface_tile_put (guac_surface_tile_alloc 0 0) 5 5
              (fun _ => 9) 10 10 40) 0)]) ∧
    (∃ s1 s2 out,
      guac_surface_draw (guac_surface_alloc 7 128 128) 60 60
        { data := fun _ => 9, width := 10, height := 10, stride := 40 } = some s1 ∧
      guac_surface_flush s1 = some (s2, out) ∧
      List.Forall₂ guac_instruction.same out
        [guac_instruction.size 7 128 128,
          guac_instruction.png guac_composite_mode.GUAC_COMP_OVER 7 0 0
            (guac_surface_tile_page (guac_surface_tile_put (guac_surface_tile_alloc 0 0) 60 60
              (fun _ => 9) 10 10 40) 0),
          guac_instruction.png guac_composite_mode.GUAC_COMP_OVER 7 64 0
            (guac_surface_tile_page (guac_surface_tile_put (guac_surface_tile_alloc 64 0) 60 60
              (fun _ => 9) 10 10 40) 0),
          guac_instruction.png guac_composite_mode.GUAC_COMP_OVER 7 0 64
            (guac_surface_tile_page (guac_surface_tile_put (guac_surface_tile_alloc 0 64) 60 60
              (fun _ => 9) 10 10 40) 0),
          guac_instruction.png guac_composite_mode.GUAC_COMP_OVER 7 64 64
            (guac_surface_tile_page (guac_surface_tile_put (guac_surface_tile_alloc 64 64) 60 60
              (fun _ => 9) 10 10 40) 0)]) :=
  ⟨guac_surface_first_flush 7 128 128 5 5
      { data := fun _ => 9, width := 10, height := 10, stride := 40 } (by decide)
      (fun _ _ _ _ => ⟨0, by decide, by decide, Nat.succ_ne_zero 8⟩),
    guac_surface_first_flush 7 128 128 60 60
      { data := fun _ => 9, width := 10, height := 10, stride := 40 } (by decide)
      (fun _ _ _ _ => ⟨0, by decide, by decide, Nat.succ_ne_zero 8⟩)⟩

/-! ## Image comparison -/

theorem memcmp_congr (a a1 b b1 : Mem) (n : Nat) : ∀ (pa pb : Int),
    (∀ j : Int, 0 ≤ j → j < n → a1 (pa + j) = a (pa + j)) →
    (∀ j : Int, 0 ≤ j → j < n → b1 (pb + j) = b (pb + j)) →
    memcmp a1 pa b1 pb n = memcmp a pa b pb n := by
  induction n with
  | zero => intro pa pb _ _; rfl
  | succ n ih =>
    intro pa pb ha hb
    unfold memcmp
    have ha0 := ha 0 (le_refl _) (by push_cast; omega)
    have hb0 := hb 0 (le_refl _) (by push_cast; omega)
    simp only [add_zero] at ha0 hb0
    rw [ha0, hb0, ih (pa + 1) (pb + 1)
      (fun j h0 h1 => by
        have := ha (1 + j) (by omega) (by push_cast; omega)
        rwa [← add_assoc] at this)
      (fun j h0 h1 => by
        have := hb (1 + j) (by omega) (by push_cast; omega)
        rwa [← add_assoc] at this)]

theorem image_cmp_rows_eq (data_a : Mem) (width_a stride_a : Int) (data_b : Mem)
    (stride_b : Int) (n : Nat) : ∀ (pa pb : Int),
    guac_image_cmp_rows data_a width_a stride_a data_b stride_b n pa pb =
      (((List.range n).map (fun k : Nat =>
        memcmp data_a (pa + (k : Int) * stride_a) data_b (pb + (k : Int) * stride_b)
          (width_a * 4).toNat)).find? (fun r => r ≠ 0)).getD 0 := by
  induction n with
  | zero => intro pa pb; rfl
  | succ n ih =>
    intro pa pb
    unfold guac_image_cmp_rows
    rw [List.range_succ_eq_map, List.map_cons, List.map_map, List.find?_cons]
    simp only [Nat.cast_zero, zero_mul, add_zero]
    by_cases h : memcmp data_a pa data_b pb (width_a * 4).toNat ≠ 0
    · rw [if_pos h]
      simp [h]
    · rw [if_neg h, ih]
      have h0 : memcmp data_a pa data_b pb (width_a * 4).toNat = 0 := by simpa using h
      simp only [h0, ne_eq, not_true_eq_false, decide_False]
      congr 3
      funext k
      simp only [Function.comp_apply, Nat.cast_succ]
      congr 1 <;> ring

theorem image_cmp_rows_eq_zero_iff (data_a : Mem) (width_a stride_a : Int) (data_b : Mem)
    (stride_b : Int) (n : Nat) : ∀ (pa pb : Int),
    guac_image_cmp_rows data_a width_a stride_a data_b stride_b n pa pb = 0 ↔
      ∀ k j : Int, 0 ≤ k ∧ k < n → 0 ≤ j ∧ j < width_a * 4 →
        data_a (pa + k * stride_a + j) = data_b (pb + k * stride_b + j) := by
  induction n with
  | zero =>
    intro pa pb
    simp only [guac_image_cmp_rows, true_iff]
    intro k j hk
    simp at hk
    omega
  | succ n ih =>
    intro pa pb
    unfold guac_image_cmp_rows
    simp only
    by_cases h : memcmp data_a pa data_b pb (width_a * 4).toNat ≠ 0
    · rw [if_pos h]
      constructor
      · intro h0; exact absurd h0 h
      · intro H
        exfalso
        apply h
        rw [memcmp_eq_zero_iff]
        intro j h0 h1
        have := H 0 j ⟨le_refl _, by push_cast; omega⟩ ⟨h0, by omega⟩
        simpa using this
    · rw [if_neg h, ih]
      have h0 : memcmp data_a pa data_b pb (width_a * 4).toNat = 0 := by simpa using h
      rw [memcmp_eq_zero_iff] at h0
      constructor
      · intro H k j hk hj
        by_cases hk0 : k = 0
        · subst hk0
          have := h0 j hj.1 (by omega)
          simpa using this
        · have := H (k - 1) j ⟨by omega, by push_cast at hk; omega⟩ hj
          have e1 : pa + stride_a + (k - 1) * stride_a + j = pa + k * stride_a + j := by ring
          have e2 : pb + stride_b + (k - 1) * stride_b + j = pb + k * stride_b + j := by ring
          rwa [e1, e2] at this
      · intro H k j hk hj
        have := H (k + 1) j ⟨by omega, by push_cast; omega⟩ hj
        have e1 : pa + (k + 1) * stride_a + j = pa + stride_a + k * stride_a + j := by ring
        have e2 : pb + (k + 1) * stride_b + j = pb + stride_b + k * stride_b + j := by ring
        rwa [e1, e2] at this

theorem image_cmp_rows_congr (a a1 : Mem) (width_a stride_a : Int) (b b1 : Mem)
    (stride_b : Int) (n : Nat) : ∀ (pa pb : Int),
    (∀ k j : Int, 0 ≤ k ∧ k < n → 0 ≤ j ∧ j < width_a * 4 →
      a1 (pa + k * stride_a + j) = a (pa + k * stride_a + j)) →
    (∀ k j : Int, 0 ≤ k ∧ k < n → 0 ≤ j ∧ j < width_a * 4 →
      b1 (pb + k * stride_b + j) = b (pb + k * stride_b + j)) →
    guac_image_cmp_rows a1 width_a stride_a b1 stride_b n pa pb
      = guac_image_cmp_rows a width_a stride_a b stride_b n pa pb := by
  induction n with
  | zero => intro pa pb _ _; rfl
  | succ n ih =>
    intro pa pb ha hb
    unfold guac_image_cmp_rows
    have hm : memcmp a1 pa b1 pb (width_a * 4).toNat = memcmp a pa b pb (width_a * 4).toNat := by
      apply memcmp_congr
      · intro j h0 h1
        have := ha 0 j ⟨le_refl _, by push_cast; omega⟩ ⟨h0, by omega⟩
        simpa using this
      · intro j h0 h1
        have := hb 0 j ⟨le_refl _, by push_cast; omega⟩ ⟨h0, by omega⟩
        simpa using this
    have hrest := ih (pa + stride_a) (pb + stride_b)
      (fun k j hk hj => by
        have := ha (k + 1) j ⟨by omega, by push_cast; omega⟩ hj
        have e1 : pa + (k + 1) * stride_a + j = pa + stride_a + k * stride_a + j := by ring
        rwa [e1] at this)
      (fun k j hk hj => by
        have := hb (k + 1) j ⟨by omega, by push_cast; omega⟩ hj
        have e1 : pb + (k + 1) * stride_b + j = pb + stride_b + k * stride_b + j := by ring
        rwa [e1] at this)
    simp only [hm, hrest]

theorem lex_sign_self (l : List Nat) : lex_sign l l = 0 := by
  induction l with
  | nil => rfl
  | cons a l ih => simp [lex_sign, ih]

theorem lex_sign_cons (a b : Nat) (as bs : List Nat) :
    lex_sign (a :: as) (b :: bs) = if a < b then -1 else if b < a then 1 else lex_sign as bs := by
  rw [lex_sign]

theorem lex_sign_antisymm : ∀ (l1 l2 : List Nat), lex_sign l1 l2 = - lex_sign l2 l1
  | [], [] => by simp [lex_sign]
  | [], _ :: _ => by simp [lex_sign]
  | _ :: _, [] => by simp [lex_sign]
  | a :: as, b :: bs => by
    have ih := lex_sign_antisymm as bs
    rw [lex_sign_cons, lex_sign_cons]
    by_cases h1 : a < b
    · have h2 : ¬ b < a := by omega
      simp [h1, h2]
    · by_cases h2 : b < a
      · simp [h1, h2]
      · simp [h1, h2, ih]

theorem lex_sign_range (l1 l2 : List Nat) :
    lex_sign l1 l2 = -1 ∨ lex_sign l1 l2 = 0 ∨ lex_sign l1 l2 = 1 := by
  induction l1 generalizing l2 with
  | nil => cases l2 <;> simp [lex_sign]
  | cons a as ih =>
    cases l2 with
    | nil => simp [lex_sign]
    | cons b bs =>
      unfold lex_sign
      split_ifs
      · simp
      · simp
      · exact ih bs

theorem lex_sign_trans : ∀ (l1 l2 l3 : List Nat),
    lex_sign l1 l2 ≤ 0 → lex_sign l2 l3 ≤ 0 → lex_sign l1 l3 ≤ 0
  | [], _, [] => by intro _ _; simp [lex_sign]
  | [], _, _ :: _ => by intro _ _; simp [lex_sign]
  | _ :: _, [], _ => by intro h _; simp [lex_sign] at h
  | _ :: _, _ :: _, [] => by intro _ h; simp [lex_sign] at h
  | a :: as, b :: bs, c :: cs => by
    have ih := lex_sign_trans as bs cs
    intro h1 h2
    unfold lex_sign at h1 h2 ⊢
    by_cases hab : a < b
    · by_cases hbc : b < c
      · rw [if_pos (by omega)]; omega
      · by_cases hcb : c < b
        · rw [if_neg hbc, if_pos hcb] at h2; omega
        · rw [if_pos (by omega)]; omega
    · by_cases hba : b < a
      · rw [if_neg hab, if_pos hba] at h1; omega
      · rw [if_neg hab, if_neg hba] at h1
        have hab' : a = b := by omega
        subst hab'
        by_cases hbc : a < c
        · rw [if_pos hbc]; omega
        · by_cases hcb : c < a
          · rw [if_neg hbc, if_pos hcb] at h2; omega
          · rw [if_neg hbc, if_neg hcb] at h2 ⊢
            exact ih h1 h2

theorem lex_sign_append (l1 l2 r1 r2 : List Nat) (hlen : l1.length = l2.length) :
    lex_sign (l1 ++ r1) (l2 ++ r2) =
      if lex_sign l1 l2 ≠ 0 then lex_sign l1 l2 else lex_sign r1 r2 := by
  induction l1 generalizing l2 with
  | nil =>
    cases l2 with
    | nil => simp [lex_sign]
    | cons b bs => simp at hlen
  | cons a as ih =>
    cases l2 with
    | nil => simp at hlen
    | cons b bs =>
      simp only [List.cons_append]
      rw [lex_sign_cons, lex_sign_cons]
      by_cases h1 : a < b
      · simp [h1]
      · by_cases h2 : b < a
        · simp [h1, h2]
        · simp only [h1, h2, if_false]
          exact ih bs (by simpa using hlen)

/-- The bytes that `memcmp` compares. -/
theorem memcmp_sign (a b : Mem) (n : Nat) : ∀ (pa pb : Int),
    Int.sign (memcmp a pa b pb n) =
      lex_sign ((List.range n).map (fun j : Nat => a (pa + (j : Int))))
        ((List.range n).map (fun j : Nat => b (pb + (j : Int)))) := by
  induction n with
  | zero => intro pa pb; simp [memcmp, lex_sign]
  | succ n ih =>
    intro pa pb
    unfold memcmp
    rw [List.range_succ_eq_map, List.map_cons, List.map_cons, List.map_map, List.map_map]
    unfold lex_sign
    simp only [Nat.cast_zero, add_zero]
    have e1 : ((fun j : Nat => a (pa + (j : Int))) ∘ Nat.succ)
        = fun j : Nat => a (pa + 1 + (j : Int)) := by
      funext j; simp only [Function.comp_apply, Nat.cast_succ]; congr 1; ring
    have e2 : ((fun j : Nat => b (pb + (j : Int))) ∘ Nat.succ)
        = fun j : Nat => b (pb + 1 + (j : Int)) := by
      funext j; simp only [Function.comp_apply, Nat.cast_succ]; congr 1; ring
    rw [e1, e2]
    by_cases h : a pa = b pb
    · rw [if_pos h, if_neg (by omega), if_neg (by omega)]
      exact ih (pa + 1) (pb + 1)
    · rw [if_neg h]
      by_cases hlt : a pa < b pb
      · rw [if_pos hlt]
        exact Int.sign_eq_neg_one_of_neg (by omega)
      · rw [if_neg hlt, if_pos (by omega)]
        exact Int.sign_eq_one_of_pos (by omega)

theorem image_cmp_rows_sign (data_a : Mem) (width stride_a : Int) (data_b : Mem)
    (stride_b : Int) (n : Nat) : ∀ (pa pb : Int),
    Int.sign (guac_image_cmp_rows data_a width stride_a data_b stride_b n pa pb) =
      lex_sign
        ((List.range n).flatMap (fun k : Nat => (List.range (width * 4).toNat).map
          (fun j : Nat => data_a (pa + (k : Int) * stride_a + (j : Int)))))
        ((List.range n).flatMap (fun k : Nat => (List.range (width * 4).toNat).map
          (fun j : Nat => data_b (pb + (k : Int) * stride_b + (j : Int))))) := by
  induction n with
  | zero => intro pa pb; simp [guac_image_cmp_rows, lex_sign]
  | succ n ih =>
    intro pa pb
    unfold guac_image_cmp_rows
    rw [List.range_succ_eq_map, List.flatMap_cons, List.flatMap_cons,
      lex_sign_append _ _ _ _ (by simp)]
    simp only [Nat.cast_zero, zero_mul, add_zero]
    rw [← memcmp_sign]
    have hrest := ih (pa + stride_a) (pb + stride_b)
    have ea : (List.map Nat.succ (List.range n)).flatMap (fun k : Nat =>
          (List.range (width * 4).toNat).map
            (fun j : Nat => data_a (pa + (k : Int) * stride_a + (j : Int))))
        = (List.range n).flatMap (fun k : Nat => (List.range (width * 4).toNat).map
            (fun j : Nat => data_a (pa + stride_a + (k : Int) * stride_a + (j : Int)))) := by
      rw [List.flatMap_map]
      congr 1
      funext k
      apply List.map_congr_left
      intro j _
      simp only [Nat.cast_succ]
      congr 1; ring
    have eb : (List.map Nat.succ (List.range n)).flatMap (fun k : Nat =>
          (List.range (width * 4).toNat).map
            (fun j : Nat => data_b (pb + (k : Int) * stride_b + (j : Int))))
        = (List.range n).flatMap (fun k : Nat => (List.range (width * 4).toNat).map
            (fun j : Nat => data_b (pb + stride_b + (k : Int) * stride_b + (j : Int)))) := by
      rw [List.flatMap_map]
      congr 1
      funext k
      apply List.map_congr_left
      intro j _
      simp only [Nat.cast_succ]
      congr 1; ring
    rw [ea, eb, ← hrest]
    by_cases h : memcmp data_a pa data_b pb (width * 4).toNat ≠ 0
    · rw [if_pos h, if_pos]
      intro h0
      exact h (Int.sign_eq_zero_iff_zero.mp h0)
    · rw [if_neg h, if_neg]
      have h0 : memcmp data_a pa data_b pb (width * 4).toNat = 0 := by simpa using h
      simp [h0]

theorem lex_sign_eq_zero_iff : ∀ (l1 l2 : List Nat), lex_sign l1 l2 = 0 ↔ l1 = l2
  | [], [] => by simp [lex_sign]
  | [], _ :: _ => by simp [lex_sign]
  | _ :: _, [] => by simp [lex_sign]
  | a :: as, b :: bs => by
    have ih := lex_sign_eq_zero_iff as bs
    rw [lex_sign_cons]
    by_cases h1 : a < b
    · have : a ≠ b := by omega
      simp [h1, this]
    · by_cases h2 : b < a
      · have : a ≠ b := by omega
        simp [h1, h2, this]
      · have : a = b := by omega
        simp [h1, h2, this, ih]

theorem int_sign_nonpos_iff (n : Int) : Int.sign n ≤ 0 ↔ n ≤ 0 := by
  rcases lt_trichotomy n 0 with h | h | h
  · rw [Int.sign_eq_neg_one_of_neg h]; omega
  · subst h; simp
  · rw [Int.sign_eq_one_of_pos h]; omega

theorem image_cmp_same_dims (data_a : Mem) (pa : Int) (width height stride_a : Int)
    (data_b : Mem) (pb : Int) (stride_b : Int) :
    guac_image_cmp data_a pa width height stride_a data_b pb width height stride_b
      = guac_image_cmp_rows data_a width stride_a data_b stride_b height.toNat pa pb := by
  unfold guac_image_cmp
  rw [if_neg (by simp), if_neg (by simp)]

theorem image_cmp_sign (data_a : Mem) (pa : Int) (width height stride_a : Int)
    (data_b : Mem) (pb : Int) (stride_b : Int) :
    Int.sign (guac_image_cmp data_a pa width height stride_a data_b pb width height stride_b)
      = lex_sign (image_bytes data_a pa width height stride_a)
          (image_bytes data_b pb width height stride_b) := by
  rw [image_cmp_same_dims, image_cmp_rows_sign]
  rfl

/-- C19: for a width that is not negative, `guac_image_cmp` is the reference
comparator: the difference of the widths when they differ, else the difference
of the heights when they differ, else the first result that is not zero among
the comparisons, top to bottom, of the first `width * 4` bytes of each pair of
rows (row `k` of A at offset `k * stride_a`, of B at `k * stride_b`). It returns
0 exactly when the dimensions are equal and every pair of rows holds the same
`width * 4` bytes, and the bytes of a row beyond `width * 4` have no effect. -/
theorem guac_image_cmp_is_reference (data_a : Mem) (pa : Int) (width_a height_a stride_a : Int)
    (data_b : Mem) (pb : Int) (width_b height_b stride_b : Int) (_hw : 0 ≤ width_a) :
    guac_image_cmp data_a pa width_a height_a stride_a data_b pb width_b height_b stride_b
      = image_cmp_reference data_a pa width_a height_a stride_a
          data_b pb width_b height_b stride_b ∧
    (guac_image_cmp data_a pa width_a height_a stride_a data_b pb width_b height_b stride_b = 0
      ↔ width_a = width_b ∧ height_a = height_b ∧
        ∀ k j : Int, 0 ≤ k ∧ k < height_a → 0 ≤ j ∧ j < width_a * 4 →
          data_a (pa + k * stride_a + j) = data_b (pb + k * stride_b + j)) ∧
    (∀ a1 b1 : Mem,
      (∀ k j : Int, 0 ≤ k ∧ k < height_a → 0 ≤ j ∧ j < width_a * 4 →
        a1 (pa + k * stride_a + j) = data_a (pa + k * stride_a + j)) →
      (∀ k j : Int, 0 ≤ k ∧ k < height_b → 0 ≤ j ∧ j < width_b * 4 →
        b1 (pb + k * stride_b + j) = data_b (pb + k * stride_b + j)) →
      guac_image_cmp a1 pa width_a height_a stride_a b1 pb width_b height_b stride_b
        = guac_image_cmp data_a pa width_a height_a stride_a
            data_b pb width_b height_b stride_b) := by
  refine ⟨?_, ?_, ?_⟩
  · unfold guac_image_cmp image_cmp_reference
    rw [image_cmp_rows_eq]
  · unfold guac_image_cmp
    by_cases h1 : width_a ≠ width_b
    · rw [if_pos h1]
      constructor
      · intro h; omega
      · intro h; exact absurd h.1 h1
    · rw [if_neg h1]
      by_cases h2 : height_a ≠ height_b
      · rw [if_pos h2]
        constructor
        · intro h; omega
        · intro h; exact absurd h.2.1 h2
      · rw [if_neg h2, image_cmp_rows_eq_zero_iff]
        have e1 : width_a = width_b := by simpa using h1
        have e2 : height_a = height_b := by simpa using h2
        constructor
        · intro H
          refine ⟨e1, e2, ?_⟩
          intro k j hk hj
          exact H k j ⟨hk.1, by omega⟩ hj
        · intro H k j hk hj
          exact H.2.2 k j ⟨hk.1, by omega⟩ hj
  · intro a1 b1 ha hb
    unfold guac_image_cmp
    by_cases h1 : width_a ≠ width_b
    · rw [if_pos h1, if_pos h1]
    · rw [if_neg h1, if_neg h1]
      by_cases h2 : height_a ≠ height_b
      · rw [if_pos h2, if_pos h2]
      · rw [if_neg h2, if_neg h2]
        have e1 : width_a = width_b := by simpa using h1
        have e2 : height_a = height_b := by simpa using h2
        apply image_cmp_rows_congr
        · intro k j hk hj
          exact ha k j ⟨hk.1, by omega⟩ hj
        · intro k j hk hj
          exact hb k j ⟨hk.1, by omega⟩ ⟨hj.1, by omega⟩

/-- Witness of C19: two images of 1x2 pixels with stride 8 that differ in the
last byte of the second row and in their padding. -/
theorem guac_image_cmp_is_reference_witness :
    guac_image_cmp (fun i => if i = 11 then 5 else if i = 4 then 1 else 0) 0 1 2 8
        (fun i => if i = 11 then 7 else 0) 0 1 2 8
      = image_cmp_reference (fun i => if i = 11 then 5 else if i = 4 then 1 else 0) 0 1 2 8
          (fun i => if i = 11 then 7 else 0) 0 1 2 8 ∧
    guac_image_cmp (fun i => if i = 11 then 5 else if i = 4 then 1 else 0) 0 1 2 8
        (fun i => if i = 11 then 7 else 0) 0 1 2 8 = -2 :=
  ⟨(guac_image_cmp_is_reference (fun i => if i = 11 then 5 else if i = 4 then 1 else 0) 0 1 2 8
      (fun i => if i = 11 then 7 else 0) 0 1 2 8 (by decide)).1, by decide⟩

/-- C20: on images of equal dimensions, with a width that is not negative, the
sign of `guac_image_cmp` is the sign of the lexicographic comparison of the
row-major concatenations of the `width * 4`-byte rows of the two images; so the
sign of `cmp(A, B)` is minus the sign of `cmp(B, A)`, `cmp(A, B) <= 0` and
`cmp(B, C) <= 0` give `cmp(A, C) <= 0`, and any two images are comparable. -/
theorem guac_image_cmp_total_order (a : Mem) (pa stride_a : Int) (b : Mem) (pb stride_b : Int)
    (c : Mem) (pc stride_c : Int) (width height : Int) (_hw : 0 ≤ width) :
    Int.sign (guac_image_cmp a pa width height stride_a b pb width height stride_b)
      = lex_sign (image_bytes a pa width height stride_a)
          (image_bytes b pb width height stride_b) ∧
    Int.sign (guac_image_cmp a pa width height stride_a b pb width height stride_b)
      = - Int.sign (guac_image_cmp b pb width height stride_b a pa width height stride_a) ∧
    (guac_image_cmp a pa width height stride_a b pb width height stride_b ≤ 0 →
      guac_image_cmp b pb width height stride_b c pc width height stride_c ≤ 0 →
      guac_image_cmp a pa width height stride_a c pc width height stride_c ≤ 0) ∧
    (guac_image_cmp a pa width height stride_a b pb width height stride_b ≤ 0 ∨
      guac_image_cmp b pb width height stride_b a pa width height stride_a ≤ 0) ∧
    (guac_image_cmp a pa width height stride_a b pb width height stride_b = 0 ↔
      image_bytes a pa width height stride_a = image_bytes b pb width height stride_b) := by
  refine ⟨image_cmp_sign _ _ _ _ _ _ _ _, ?_, ?_, ?_, ?_⟩
  · rw [image_cmp_sign, image_cmp_sign, lex_sign_antisymm]
  · intro h1 h2
    rw [← int_sign_nonpos_iff, image_cmp_sign] at h1 h2 ⊢
    exact lex_sign_trans _ _ _ h1 h2
  · rw [← int_sign_nonpos_iff, ← int_sign_nonpos_iff (guac_image_cmp b _ _ _ _ _ _ _ _ _),
      image_cmp_sign, image_cmp_sign, lex_sign_antisymm]
    rcases lex_sign_range (image_bytes b pb width height stride_b)
      (image_bytes a pa width height stride_a) with h | h | h <;> rw [h] <;> simp
  · rw [← Int.sign_eq_zero_iff_zero, image_cmp_sign]
    exact lex_sign_eq_zero_iff _ _

/-! ## The hash of a rectangle -/

theorem hash_step_eq (h v : Nat) : hash_step h v = (62 * h + v) % 2 ^ 64 := by
  unfold hash_step
  omega

theorem hash_step_lt (h v : Nat) : hash_step h v < 2 ^ 64 := by
  rw [hash_step_eq]
  exact Nat.mod_lt _ (by norm_num)

theorem hash_fold_append (h : Nat) (l1 l2 : List Nat) :
    hash_fold h (l1 ++ l2) = hash_fold (hash_fold h l1) l2 := by
  unfold hash_fold
  rw [List.foldl_append]

theorem hash_fold_snoc (h : Nat) (l : List Nat) (v : Nat) :
    hash_fold h (l ++ [v]) = hash_step (hash_fold h l) v := by
  rw [hash_fold_append]
  rfl

/-- Every update doubles the power of two modulo which two hashes agree. -/
theorem hash_step_modEq (h1 h2 v j : Nat) (hj : j < 64) (h : h1 ≡ h2 [MOD 2 ^ j]) :
    hash_step h1 v ≡ hash_step h2 v [MOD 2 ^ (j + 1)] := by
  rw [hash_step_eq, hash_step_eq]
  have hdvd : 2 ^ (j + 1) ∣ 2 ^ 64 := Nat.pow_dvd_pow 2 (by omega)
  have e1 : (62 * h1 + v) % 2 ^ 64 ≡ 62 * h1 + v [MOD 2 ^ (j + 1)] :=
    (Nat.mod_modEq _ _).of_dvd hdvd
  have e2 : (62 * h2 + v) % 2 ^ 64 ≡ 62 * h2 + v [MOD 2 ^ (j + 1)] :=
    (Nat.mod_modEq _ _).of_dvd hdvd
  refine e1.trans (Nat.ModEq.trans ?_ e2.symm)
  apply Nat.ModEq.add_right
  have h3 : 2 * h1 ≡ 2 * h2 [MOD 2 * 2 ^ j] := Nat.ModEq.mul_left' 2 h
  have h4 : 31 * (2 * h1) ≡ 31 * (2 * h2) [MOD 2 * 2 ^ j] := Nat.ModEq.mul_left 31 h3
  have e3 : 62 * h1 = 31 * (2 * h1) := by ring
  have e4 : 62 * h2 = 31 * (2 * h2) := by ring
  have e5 : 2 ^ (j + 1) = 2 * 2 ^ j := by ring
  rw [e3, e4, e5]
  exact h4

theorem hash_fold_modEq (l : List Nat) : ∀ (h1 h2 j : Nat), j + l.length ≤ 64 →
    h1 ≡ h2 [MOD 2 ^ j] → hash_fold h1 l ≡ hash_fold h2 l [MOD 2 ^ (j + l.length)] := by
  induction l with
  | nil => intro h1 h2 j _ h; simpa [hash_fold] using h
  | cons v l ih =>
    intro h1 h2 j hlen h
    simp only [List.length_cons] at hlen
    have hs := hash_step_modEq h1 h2 v j (by omega) h
    have := ih (hash_step h1 v) (hash_step h2 v) (j + 1) (by omega) hs
    simp only [List.length_cons]
    have e : j + (l.length + 1) = j + 1 + l.length := by omega
    rw [e]
    exact this

/-- After 64 updates the start value has left the hash. -/
theorem hash_fold_start (l : List Nat) (hlen : l.length = 64) (h1 h2 : Nat) :
    hash_fold h1 l = hash_fold h2 l := by
  have hm := hash_fold_modEq l h1 h2 0 (by omega) (by simp [Nat.ModEq, Nat.mod_one])
  rw [Nat.zero_add, hlen] at hm
  have hlt : ∀ h, hash_fold h l < 2 ^ 64 := by
    intro h
    obtain ⟨l0, v, rfl⟩ : ∃ l0 v, l = l0 ++ [v] := by
      rcases List.eq_nil_or_concat l with hnil | ⟨l0, v, hc⟩
      · subst hnil; simp at hlen
      · exact ⟨l0, v, by simpa using hc⟩
    rw [hash_fold_snoc]
    exact hash_step_lt _ _
  unfold Nat.ModEq at hm
  rwa [Nat.mod_eq_of_lt (hlt h1), Nat.mod_eq_of_lt (hlt h2)] at hm

/-- The hash of the last 64 of a list of values. -/
theorem hash_fold_range_add (f : Nat → Nat) (n : Nat) :
    hash_fold 0 ((List.range (n + 64)).map f)
      = hash_fold 0 ((List.range 64).map (fun a => f (n + a))) := by
  rw [List.range_add, List.map_append, List.map_map, hash_fold_append]
  exact hash_fold_start _ (by simp) _ _

/-! ## The loops of the enumeration of rectangles -/

theorem row_hash_of_succ (data : Mem) (offset : Int) (n : Nat) :
    row_hash_of data offset (n + 1)
      = hash_step (row_hash_of data offset n) (read_uint32 data (offset + 4 * (n : Int))) := by
  unfold row_hash_of
  rw [List.range_succ, List.map_append, List.map_singleton, hash_fold_snoc]

theorem cell_hash_of_succ (data : Mem) (stride : Int) (x n : Nat) :
    cell_hash_of data stride x (n + 1)
      = hash_step (cell_hash_of data stride x n)
          (row_hash_of data ((n : Int) * stride) (x + 1)) := by
  unfold cell_hash_of
  rw [List.range_succ, List.map_append, List.map_singleton, hash_fold_snoc]

theorem row_calls_zero (data : Mem) (offset : Int) (y : Nat) (cell : Nat → Nat) (x : Nat) :
    row_calls data offset y cell x 0 = [] := by
  unfold row_calls
  split_ifs <;> simp

theorem row_calls_succ (data : Mem) (offset : Int) (y : Nat) (cell : Nat → Nat) (x n : Nat) :
    row_calls data offset y cell x (n + 1) =
      if 63 ≤ y ∧ 63 ≤ x then
        ((x : Int) - 63, (y : Int) - 63, hash_step (cell x) (row_hash_of data offset (x + 1)))
          :: row_calls data offset y cell (x + 1) n
      else row_calls data offset y cell (x + 1) n := by
  unfold row_calls
  rw [List.range'_succ]
  by_cases hy : 63 ≤ y
  · by_cases hx : 63 ≤ x
    · rw [if_pos hy, if_pos ⟨hy, hx⟩, if_pos hy, List.filter_cons_of_pos (by simpa using hx),
        List.map_cons]
    · rw [if_pos hy, if_neg (fun h => hx h.2), if_pos hy,
        List.filter_cons_of_neg (by simpa using hx)]
  · rw [if_neg hy, if_neg (fun h => hy h.1), if_neg hy]

theorem callbacks_run_append {σ : Type} (callback : Int → Int → Nat → σ → Int × σ)
    (l1 l2 : List (Int × Int × Nat)) : ∀ (closure : σ),
    callbacks_run callback (l1 ++ l2) closure =
      if (callbacks_run callback l1 closure).1 ≠ 0 then callbacks_run callback l1 closure
      else callbacks_run callback l2 (callbacks_run callback l1 closure).2 := by
  induction l1 with
  | nil => intro closure; simp [callbacks_run]
  | cons e l1 ih =>
    intro closure
    simp only [List.cons_append, callbacks_run]
    by_cases h : (callback e.1 e.2.1 e.2.2 closure).1 ≠ 0
    · rw [if_pos h, if_pos h, if_pos h]
    · rw [if_neg h, if_neg h]
      exact ih _

theorem foreach_columns_spec {σ : Type} (data : Mem) (offset : Int) (y : Nat)
    (callback : Int → Int → Nat → σ → Int × σ) (cell : Nat → Nat) (n : Nat) :
    ∀ (x : Nat) (cur : Nat → Nat) (closure : σ), x + n ≤ 4096 →
    (∀ i, cur i = if i < x then hash_step (cell i) (row_hash_of data offset (i + 1))
      else cell i) →
    ∃ cell1, guac_hash_foreach_image_rect_columns data offset y 64 64 callback n x
        (row_hash_of data offset x) cur closure
        = some ((callbacks_run callback (row_calls data offset y cell x n) closure).1, cell1,
            (callbacks_run callback (row_calls data offset y cell x n) closure).2) ∧
      ((callbacks_run callback (row_calls data offset y cell x n) closure).1 = 0 →
        ∀ i, cell1 i = if i < x + n then hash_step (cell i) (row_hash_of data offset (i + 1))
          else cell i) := by
  induction n with
  | zero =>
    intro x cur closure _ hcur
    refine ⟨cur, ?_, ?_⟩
    · rw [row_calls_zero]
      rfl
    · intro _ i
      rw [hcur i]
      rfl
  | succ n ih =>
    intro x cur closure hx hcur
    have hcx : cur x = cell x := by rw [hcur x, if_neg (by omega)]
    have hinv : ∀ i, (fun i => if i = x then
          hash_step (cell x) (row_hash_of data offset (x + 1)) else cur i) i
        = if i < x + 1 then hash_step (cell i) (row_hash_of data offset (i + 1)) else cell i := by
      intro i
      simp only
      by_cases hi : i = x
      · subst hi
        rw [if_pos rfl, if_pos (by omega)]
      · rw [if_neg hi, hcur i]
        by_cases hlt : i < x
        · rw [if_pos hlt, if_pos (by omega)]
        · rw [if_neg hlt, if_neg (by omega)]
    have e63x : (x : Int) - 64 + 1 = (x : Int) - 63 := by ring
    have e63y : (y : Int) - 64 + 1 = (y : Int) - 63 := by ring
    have hadd : x + (n + 1) = x + 1 + n := by omega
    unfold guac_hash_foreach_image_rect_columns
    rw [if_neg (by omega)]
    simp only [← row_hash_of_succ, hcx, e63x, e63y]
    rw [row_calls_succ, hadd]
    by_cases hc : 63 ≤ y ∧ 63 ≤ x
    · rw [if_pos hc, if_pos (by omega)]
      simp only [callbacks_run]
      by_cases hr : (callback ((x : Int) - 63) ((y : Int) - 63)
          (hash_step (cell x) (row_hash_of data offset (x + 1))) closure).1 ≠ 0
      · rw [if_pos hr, if_pos hr]
        exact ⟨_, rfl, fun h0 => absurd h0 hr⟩
      · rw [if_neg hr, if_neg hr]
        exact ih (x + 1) _ _ (by omega) hinv
    · rw [if_neg hc, if_neg (by omega)]
      exact ih (x + 1) _ _ (by omega) hinv

theorem foreach_rows_spec {σ : Type} (data : Mem) (width stride : Int)
    (callback : Int → Int → Nat → σ → Int × σ) (hW : width.toNat ≤ 4096) (n : Nat) :
    ∀ (y : Nat) (closure : σ),
    guac_hash_foreach_image_rect_rows data width stride 64 64 callback n y
        ((y : Int) * stride) (cells_of data width stride y) closure
      = some (callbacks_run callback
          ((List.range' y n).flatMap (fun y1 : Nat =>
            row_calls data ((y1 : Int) * stride) y1 (cells_of data width stride y1)
              0 width.toNat)) closure) := by
  induction n with
  | zero =>
    intro y closure
    rfl
  | succ n ih =>
    intro y closure
    obtain ⟨cell1, h1, h2⟩ := foreach_columns_spec data ((y : Int) * stride) y callback
      (cells_of data width stride y) width.toNat 0 (cells_of data width stride y) closure
      (by omega) (fun i => by rw [if_neg (by omega)])
    have hr0 : row_hash_of data ((y : Int) * stride) 0 = 0 := rfl
    rw [hr0] at h1
    unfold guac_hash_foreach_image_rect_rows
    rw [h1]
    simp only
    rw [List.range'_succ, List.flatMap_cons, callbacks_run_append]
    by_cases hr : (callbacks_run callback
        (row_calls data ((y : Int) * stride) y (cells_of data width stride y) 0 width.toNat)
        closure).1 ≠ 0
    · rw [if_pos hr, if_pos hr]
    · rw [if_neg hr, if_neg hr]
      have hcell : cell1 = cells_of data width stride (y + 1) := by
        funext i
        rw [h2 (by simpa using hr) i, Nat.zero_add]
        unfold cells_of
        by_cases hi : i < width.toNat
        · rw [if_pos hi, if_pos hi, if_pos hi, cell_hash_of_succ]
        · rw [if_neg hi, if_neg hi, if_neg hi]
      have hoff : (y : Int) * stride + stride = ((y + 1 : Nat) : Int) * stride := by
        push_cast; ring
      rw [hcell, hoff]
      exact ih (y + 1) _

theorem range_filter_ge (k n : Nat) :
    (List.range n).filter (fun i => decide (k ≤ i)) = (List.range (n - k)).map (fun i => i + k) := by
  induction n with
  | zero => simp
  | succ n ih =>
    rw [List.range_succ, List.filter_append, ih]
    by_cases h : k ≤ n
    · have e : n + 1 - k = (n - k) + 1 := by omega
      rw [e, List.range_succ, List.map_append]
      simp [h]
    · have e1 : n + 1 - k = 0 := by omega
      have e2 : n - k = 0 := by omega
      simp [h, e1, e2]

theorem flatMap_if_eq_filter {α β : Type} (p : α → Bool) (F : α → List β) (l : List α) :
    l.flatMap (fun a => if p a then F a else []) = (l.filter p).flatMap F := by
  induction l with
  | nil => rfl
  | cons a l ih =>
    rw [List.flatMap_cons, ih]
    by_cases h : p a
    · rw [List.filter_cons_of_pos h, List.flatMap_cons, if_pos h]
    · rw [List.filter_cons_of_neg h, if_neg h, List.nil_append]

/-- The hash that the enumeration has computed for a rectangle, from all of the
rows above and all of the columns to the left, is the hash of the rectangle. -/
theorem cell_hash_of_window (data : Mem) (stride : Int) (X Y : Nat) :
    cell_hash_of data stride (X + 63) (Y + 64) = rect_hash data stride X Y := by
  unfold cell_hash_of rect_hash
  rw [hash_fold_range_add]
  congr 2
  funext b
  unfold row_hash_of
  have e : X + 63 + 1 = X + 64 := by omega
  rw [e, hash_fold_range_add]

/-- The calls of all rows are the enumeration of the specification. -/
theorem image_calls_eq (data : Mem) (width height stride : Int) :
    (List.range' 0 height.toNat).flatMap (fun y1 : Nat =>
        row_calls data ((y1 : Int) * stride) y1 (cells_of data width stride y1) 0 width.toNat)
      = rect_enumeration data width height stride := by
  have hrows : ∀ y1 : Nat,
      row_calls data ((y1 : Int) * stride) y1 (cells_of data width stride y1) 0 width.toNat
        = if decide (63 ≤ y1) then
            (List.range (width - 63).toNat).map (fun X : Nat =>
              ((X : Int), (y1 : Int) - 63, cell_hash_of data stride (X + 63) (y1 + 1)))
          else [] := by
    intro y1
    unfold row_calls
    by_cases hy : 63 ≤ y1
    · rw [if_pos hy, if_pos (by simpa using hy), ← List.range_eq_range', range_filter_ge,
        List.map_map]
      have e : width.toNat - 63 = (width - 63).toNat := by omega
      rw [e]
      apply List.map_congr_left
      intro X hX
      rw [List.mem_range] at hX
      simp only [Function.comp_apply]
      have hlt : X + 63 < width.toNat := by omega
      unfold cells_of
      rw [if_pos hlt, ← cell_hash_of_succ]
      push_cast
      congr 1
      ring
    · rw [if_neg hy, if_neg (by simpa using hy)]
  simp only [hrows]
  rw [flatMap_if_eq_filter (fun y1 => decide (63 ≤ y1)), ← List.range_eq_range', range_filter_ge,
    List.flatMap_map]
  unfold rect_enumeration
  have e : height.toNat - 63 = (height - 63).toNat := by omega
  rw [e]
  congr 1
  funext Y
  apply List.map_congr_left
  intro X _
  have e2 : Y + 63 + 1 = Y + 64 := by omega
  rw [e2, cell_hash_of_window]
  push_cast
  congr 2
  ring

/-- For an image of at most 4096 columns, `guac_hash_foreach_image_rect` with a
rectangle of 64x64 makes the calls of the specification. -/
theorem foreach_eq {σ : Type} (data : Mem) (width height stride : Int)
    (callback : Int → Int → Nat → σ → Int × σ) (closure : σ) (hW : width ≤ 4096) :
    guac_hash_foreach_image_rect data width height stride 64 64 callback closure
      = some (callbacks_run callback (rect_enumeration data width height stride) closure) := by
  unfold guac_hash_foreach_image_rect
  rw [if_neg (by simp)]
  have h := foreach_rows_spec data width stride callback (by omega) height.toNat 0 closure
  have hc : cells_of data width stride 0 = fun _ => 0 := by
    funext i
    unfold cells_of
    split_ifs
    · rfl
    · rfl
  rw [hc] at h
  simp only [Nat.cast_zero, zero_mul] at h
  rw [h, image_calls_eq]

/-! ## The enumeration and the calls -/

theorem rect_enumeration_mem (data : Mem) (width height stride : Int) (e : Int × Int × Nat) :
    e ∈ rect_enumeration data width height stride ↔
      ∃ X Y : Nat, (X : Int) + 64 ≤ width ∧ (Y : Int) + 64 ≤ height ∧
        e = ((X : Int), (Y : Int), rect_hash data stride X Y) := by
  unfold rect_enumeration
  simp only [List.mem_flatMap, List.mem_map, List.mem_range]
  constructor
  · rintro ⟨Y, hY, X, hX, rfl⟩
    exact ⟨X, Y, by omega, by omega, rfl⟩
  · rintro ⟨X, Y, hX, hY, rfl⟩
    exact ⟨Y, by omega, X, by omega, rfl⟩

theorem rect_enumeration_pairwise (data : Mem) (width height stride : Int) :
    (rect_enumeration data width height stride).Pairwise
      (fun e1 e2 => row_major_before (e1.1, e1.2.1) (e2.1, e2.2.1)) := by
  unfold rect_enumeration
  rw [List.pairwise_flatMap]
  constructor
  · intro Y _
    rw [List.pairwise_map]
    exact (List.pairwise_lt_range _).imp (fun h => Or.inr ⟨rfl, by dsimp only; exact_mod_cast h⟩)
  · exact (List.pairwise_lt_range _).imp (fun h x hx y hy => by
      simp only [List.mem_map] at hx hy
      obtain ⟨_, _, rfl⟩ := hx
      obtain ⟨_, _, rfl⟩ := hy
      exact Or.inl (by dsimp only; exact_mod_cast h))

theorem rect_enumeration_positions (data : Mem) (width height stride : Int) (X Y : Int) :
    (∃ hash, (X, Y, hash) ∈ rect_enumeration data width height stride) ↔
      0 ≤ X ∧ X ≤ width - 64 ∧ 0 ≤ Y ∧ Y ≤ height - 64 := by
  constructor
  · rintro ⟨hash, h⟩
    obtain ⟨X1, Y1, h1, h2, h3⟩ := (rect_enumeration_mem _ _ _ _ _).1 h
    simp only [Prod.mk.injEq] at h3
    obtain ⟨rfl, rfl, _⟩ := h3
    omega
  · rintro ⟨h1, h2, h3, h4⟩
    refine ⟨rect_hash data stride X.toNat Y.toNat, (rect_enumeration_mem _ _ _ _ _).2
      ⟨X.toNat, Y.toNat, by omega, by omega, ?_⟩⟩
    rw [Int.toNat_of_nonneg h1, Int.toNat_of_nonneg h3]

theorem rect_enumeration_small (data : Mem) (width height stride : Int)
    (h : width < 64 ∨ height < 64) : rect_enumeration data width height stride = [] := by
  unfold rect_enumeration
  rcases h with h | h
  · have e : (width - 63).toNat = 0 := by omega
    rw [e]
    simp
  · have e : (height - 63).toNat = 0 := by omega
    rw [e]
    simp

theorem rect_enumeration_single (data : Mem) (stride : Int) :
    rect_enumeration data 64 64 stride = [(0, 0, rect_hash data stride 0 0)] := by
  unfold rect_enumeration
  have e : ((64 : Int) - 63).toNat = 1 := by decide
  rw [e]
  rfl

theorem callbacks_run_all_zero {σ : Type} (callback : Int → Int → Nat → σ → Int × σ) :
    ∀ (l : List (Int × Int × Nat)) (closure : σ), all_return_zero callback l closure →
      callbacks_run callback l closure = (0, closure_after callback l closure) := by
  intro l
  induction l with
  | nil => intro closure _; rfl
  | cons e rest ih =>
    intro closure h
    obtain ⟨h1, h2⟩ := h
    unfold callbacks_run
    rw [if_neg (by simpa using h1)]
    exact ih _ h2

theorem callbacks_run_first {σ : Type} (callback : Int → Int → Nat → σ → Int × σ)
    (e : Int × Int × Nat) (post : List (Int × Int × Nat)) :
    ∀ (pre : List (Int × Int × Nat)) (closure : σ), all_return_zero callback pre closure →
      (callback e.1 e.2.1 e.2.2 (closure_after callback pre closure)).1 ≠ 0 →
      callbacks_run callback (pre ++ e :: post) closure
        = callback e.1 e.2.1 e.2.2 (closure_after callback pre closure) := by
  intro pre
  induction pre with
  | nil =>
    intro closure _ h
    simp only [List.nil_append, callbacks_run, closure_after, List.foldl_nil] at h ⊢
    rw [if_pos h]
  | cons e1 rest ih =>
    intro closure h hne
    obtain ⟨h1, h2⟩ := h
    simp only [List.cons_append, callbacks_run]
    rw [if_neg (by simpa using h1)]
    exact ih _ h2 hne

theorem all_return_zero_of_forall {σ : Type} (callback : Int → Int → Nat → σ → Int × σ)
    (hzero : ∀ x y hash c, (callback x y hash c).1 = 0) :
    ∀ (l : List (Int × Int × Nat)) (closure : σ), all_return_zero callback l closure := by
  intro l
  induction l with
  | nil => intro _; trivial
  | cons e rest ih => intro closure; exact ⟨hzero _ _ _ _, ih _⟩

theorem closure_after_record : ∀ (l init : List (Int × Int × Nat)),
    closure_after record_call l init = init ++ l := by
  intro l
  induction l with
  | nil => intro init; simp [closure_after]
  | cons e rest ih =>
    intro init
    have h := ih (init ++ [e])
    simp only [closure_after, List.foldl_cons] at h ⊢
    rw [show (record_call e.1 e.2.1 e.2.2 init).2 = init ++ [e] from rfl, h]
    simp

theorem foreach_columns_overflow {σ : Type} (data : Mem) (offset : Int) (y : Nat) (hy : y < 63)
    (callback : Int → Int → Nat → σ → Int × σ) :
    ∀ (n x row_hash : Nat) (cell_hash : Nat → Nat) (closure : σ), x ≤ 4096 → 4096 < x + n →
      guac_hash_foreach_image_rect_columns data offset y 64 64 callback n x row_hash cell_hash
        closure = none := by
  intro n
  induction n with
  | zero => intro x _ _ _ h1 h2; omega
  | succ n ih =>
    intro x row_hash cell_hash closure h1 h2
    unfold guac_hash_foreach_image_rect_columns
    by_cases hx : 4096 ≤ x
    · rw [if_pos hx]
    · rw [if_neg hx]
      simp only
      rw [if_neg (by omega)]
      exact ih _ _ _ _ (by omega) (by omega)

theorem foreach_overflow {σ : Type} (data : Mem) (width height stride : Int)
    (callback : Int → Int → Nat → σ → Int × σ) (closure : σ) (hW : 4096 < width)
    (hH : 1 ≤ height) :
    guac_hash_foreach_image_rect data width height stride 64 64 callback closure = none := by
  unfold guac_hash_foreach_image_rect
  rw [if_neg (by simp)]
  obtain ⟨n, hn⟩ : ∃ n, height.toNat = n + 1 := ⟨height.toNat - 1, by omega⟩
  rw [hn]
  unfold guac_hash_foreach_image_rect_rows
  rw [foreach_columns_overflow data 0 0 (by decide) callback width.toNat 0 0 _ closure
    (by omega) (by omega)]

/-! ## Claims about the enumeration of rectangles -/

/-- What `guac_hash_foreach_image_rect` hands to a callback that records its
calls: every entry of the enumeration, in order, when the rectangle is 64x64. -/
theorem foreach_record (data : Mem) (width height stride : Int) (hW : width ≤ 4096) :
    guac_hash_foreach_image_rect data width height stride 64 64 record_call []
      = some (0, rect_enumeration data width height stride) := by
  rw [foreach_eq data width height stride record_call [] hW,
    callbacks_run_all_zero record_call _ _
      (all_return_zero_of_forall record_call (fun _ _ _ _ => rfl) _ _),
    closure_after_record]
  rfl

/-- Identical 64x64 rectangles of pixels have the same hash. -/
theorem rect_hash_congr (data1 : Mem) (stride1 : Int) (data2 : Mem) (stride2 : Int)
    (X1 Y1 X2 Y2 : Nat)
    (h : ∀ a b : Int, 0 ≤ a → a < 64 → 0 ≤ b → b < 64 →
      image_pixel data1 stride1 ((X1 : Int) + a) ((Y1 : Int) + b)
        = image_pixel data2 stride2 ((X2 : Int) + a) ((Y2 : Int) + b)) :
    rect_hash data1 stride1 X1 Y1 = rect_hash data2 stride2 X2 Y2 := by
  unfold rect_hash
  refine congrArg (hash_fold 0) (List.map_congr_left (fun b hb => ?_))
  refine congrArg (hash_fold 0) (List.map_congr_left (fun a ha => ?_))
  have hb1 := List.mem_range.1 hb
  have ha1 := List.mem_range.1 ha
  have := h (a : Int) (b : Int) (by omega) (by omega) (by omega) (by omega)
  unfold image_pixel at this
  push_cast
  exact this

/-- C16: for an image of width at most 4096 and a callback that always returns
0, `guac_hash_foreach_image_rect` returns 0; when `rect_width` or `rect_height`
is not 64 no call is made (the closure comes back as it was, and a recording
callback records nothing); otherwise the calls are those of the enumeration, in
its order, whose positions are exactly the `(X, Y)` with `0 <= X <= width - 64`
and `0 <= Y <= height - 64`, in strictly increasing row-major order (so each
once), and there is none when `width < 64` or `height < 64`. -/
theorem guac_hash_foreach_image_rect_enumerates {σ : Type} (data : Mem)
    (width height stride rect_width rect_height : Int)
    (callback : Int → Int → Nat → σ → Int × σ) (closure : σ)
    (hW : width ≤ 4096) (hzero : ∀ x y hash c, (callback x y hash c).1 = 0) :
    (∃ closure1, guac_hash_foreach_image_rect data width height stride rect_width rect_height
        callback closure = some (0, closure1)) ∧
    (rect_width ≠ 64 ∨ rect_height ≠ 64 →
      guac_hash_foreach_image_rect data width height stride rect_width rect_height
          callback closure = some (0, closure) ∧
      guac_hash_foreach_image_rect data width height stride rect_width rect_height
          record_call [] = some (0, [])) ∧
    (rect_width = 64 → rect_height = 64 →
      guac_hash_foreach_image_rect data width height stride rect_width rect_height
          callback closure
        = some (0, closure_after callback (rect_enumeration data width height stride) closure) ∧
      guac_hash_foreach_image_rect data width height stride rect_width rect_height
          record_call [] = some (0, rect_enumeration data width height stride)) ∧
    (∀ X Y : Int, (∃ hash, (X, Y, hash) ∈ rect_enumeration data width height stride) ↔
      0 ≤ X ∧ X ≤ width - 64 ∧ 0 ≤ Y ∧ Y ≤ height - 64) ∧
    (rect_enumeration data width height stride).Pairwise
      (fun e1 e2 => row_major_before (e1.1, e1.2.1) (e2.1, e2.2.1)) ∧
    (width < 64 ∨ height < 64 → rect_enumeration data width height stride = []) := by
  have h64 : guac_hash_foreach_image_rect data width height stride 64 64 callback closure
      = some (0, closure_after callback (rect_enumeration data width height stride) closure) := by
    rw [foreach_eq data width height stride callback closure hW,
      callbacks_run_all_zero callback _ _ (all_return_zero_of_forall callback hzero _ _)]
  have hne : ∀ {τ : Type} (cb : Int → Int → Nat → τ → Int × τ) (c : τ),
      rect_width ≠ 64 ∨ rect_height ≠ 64 →
      guac_hash_foreach_image_rect data width height stride rect_width rect_height cb c
        = some (0, c) := by
    intro τ cb c h
    unfold guac_hash_foreach_image_rect
    rw [if_pos h]
  refine ⟨?_, fun h => ⟨hne callback closure h, hne record_call [] h⟩, ?_,
    rect_enumeration_positions data width height stride,
    rect_enumeration_pairwise data width height stride,
    rect_enumeration_small data width height stride⟩
  · by_cases h : rect_width ≠ 64 ∨ rect_height ≠ 64
    · exact ⟨closure, hne callback closure h⟩
    · have h1 : rect_width = 64 := by
        by_contra h1
        exact h (Or.inl h1)
      have h2 : rect_height = 64 := by
        by_contra h2
        exact h (Or.inr h2)
      rw [h1, h2]
      exact ⟨_, h64⟩
  · intro h1 h2
    rw [h1, h2]
    exact ⟨h64, foreach_record data width height stride hW⟩

/-- Witness of C16: a 64x64 image of zero bytes and the recording callback. -/
theorem guac_hash_foreach_image_rect_enumerates_witness :
    ∃ closure1, guac_hash_foreach_image_rect (fun _ => 0) 64 64 256 64 64 record_call []
      = some (0, closure1) :=
  (guac_hash_foreach_image_rect_enumerates (fun _ => 0) 64 64 256 64 64 record_call []
    (by decide) (fun _ _ _ _ => rfl)).1

/-- Counterexample to C17 as stated: on an image of 4097x64 pixels and a
callback that returns 0 at every call, `guac_hash_foreach_image_rect` does not
return 0: in the first row it stores to `cell_hash[4096]`, outside of the 4096
entries of the array. -/
theorem guac_hash_foreach_image_rect_stops_wide :
    guac_hash_foreach_image_rect (fun _ => 0) 4097 64 16388 64 64 record_call [] = none :=
  foreach_overflow (fun _ => 0) 4097 64 16388 record_call [] (by decide) (by decide)

/-- C17, amended: for `guac_hash_foreach_image_rect` with a 64x64 rectangle on
an image of width at most 4096, if the calls for the entries before an entry of
the enumeration all return 0 and the call for that entry does not, the function
returns the result of that call and the closure as that call has left it (no
later position is handed to the callback); if all the calls return 0, the
function returns 0, with the closure after all of them. -/
theorem guac_hash_foreach_image_rect_stops {σ : Type} (data : Mem)
    (width height stride : Int) (callback : Int → Int → Nat → σ → Int × σ) (closure : σ)
    (hW : width ≤ 4096) :
    (∀ (pre : List (Int × Int × Nat)) (e : Int × Int × Nat) (post : List (Int × Int × Nat)),
      rect_enumeration data width height stride = pre ++ e :: post →
      all_return_zero callback pre closure →
      (callback e.1 e.2.1 e.2.2 (closure_after callback pre closure)).1 ≠ 0 →
      guac_hash_foreach_image_rect data width height stride 64 64 callback closure
        = some (callback e.1 e.2.1 e.2.2 (closure_after callback pre closure))) ∧
    (all_return_zero callback (rect_enumeration data width height stride) closure →
      guac_hash_foreach_image_rect data width height stride 64 64 callback closure
        = some (0, closure_after callback (rect_enumeration data width height stride) closure)) := by
  constructor
  · intro pre e post h1 h2 h3
    rw [foreach_eq data width height stride callback closure hW, h1,
      callbacks_run_first callback e post pre closure h2 h3]
  · intro h
    rw [foreach_eq data width height stride callback closure hW,
      callbacks_run_all_zero callback _ _ h]

/-- Witness of C17: on a 64x64 image the callback `guac_hash_assign_value`,
which returns 1, stops the enumeration at its first call. -/
theorem guac_hash_foreach_image_rect_stops_witness :
    guac_hash_foreach_image_rect (fun _ => 0) 64 64 256 64 64 guac_hash_assign_value 0
      = some (1, rect_hash (fun _ => 0) 256 0 0) :=
  (guac_hash_foreach_image_rect_stops (fun _ => 0) 64 64 256 guac_hash_assign_value 0
    (by decide)).1 [] (0, 0, rect_hash (fun _ => 0) 256 0 0) []
    (rect_enumeration_single (fun _ => 0) 256) trivial (by decide)

/-- C18: for two images of width at most 4096, the enumerations hand their calls
to a recording callback, and whenever a call of the one and a call of the other
are for positions whose 64x64 rectangles of pixels are identical, the two hashes
handed over are equal, whatever the rest of the images, their sizes, their
strides and the two positions are. -/
theorem guac_hash_rolling_hash_deterministic (data1 : Mem) (width1 height1 stride1 : Int)
    (data2 : Mem) (width2 height2 stride2 : Int) (hW1 : width1 ≤ 4096) (hW2 : width2 ≤ 4096) :
    ∃ calls1 calls2 : List (Int × Int × Nat),
      guac_hash_foreach_image_rect data1 width1 height1 stride1 64 64 record_call []
        = some (0, calls1) ∧
      guac_hash_foreach_image_rect data2 width2 height2 stride2 64 64 record_call []
        = some (0, calls2) ∧
      ∀ (X1 Y1 : Int) (hash1 : Nat) (X2 Y2 : Int) (hash2 : Nat),
        (X1, Y1, hash1) ∈ calls1 → (X2, Y2, hash2) ∈ calls2 →
        (∀ a b : Int, 0 ≤ a → a < 64 → 0 ≤ b → b < 64 →
          image_pixel data1 stride1 (X1 + a) (Y1 + b)
            = image_pixel data2 stride2 (X2 + a) (Y2 + b)) →
        hash1 = hash2 := by
  refine ⟨_, _, foreach_record data1 width1 height1 stride1 hW1,
    foreach_record data2 width2 height2 stride2 hW2, ?_⟩
  intro X1 Y1 hash1 X2 Y2 hash2 h1 h2 h
  obtain ⟨A1, B1, _, _, e1⟩ := (rect_enumeration_mem _ _ _ _ _).1 h1
  obtain ⟨A2, B2, _, _, e2⟩ := (rect_enumeration_mem _ _ _ _ _).1 h2
  simp only [Prod.mk.injEq] at e1 e2
  obtain ⟨rfl, rfl, rfl⟩ := e1
  obtain ⟨rfl, rfl, rfl⟩ := e2
  exact rect_hash_congr _ _ _ _ _ _ _ _ h

/-! ## The search -/

theorem image_cmp_eq_zero_iff_needle_at (haystack_data : Mem) (haystack_stride : Int)
    (needle_data : Mem) (needle_width needle_height needle_stride : Int) (X Y : Int) :
    guac_image_cmp haystack_data (X * 4 + Y * haystack_stride) needle_width needle_height
        haystack_stride needle_data 0 needle_width needle_height needle_stride = 0 ↔
      needle_at haystack_data haystack_stride needle_data needle_width needle_height
        needle_stride X Y := by
  rw [image_cmp_same_dims, image_cmp_rows_eq_zero_iff]
  unfold needle_at
  constructor
  · intro H k j h1 h2 h3 h4
    have := H k j ⟨h1, by omega⟩ ⟨h3, h4⟩
    have e1 : X * 4 + Y * haystack_stride + k * haystack_stride + j
        = (Y + k) * haystack_stride + X * 4 + j := by ring
    have e2 : (0 : Int) + k * needle_stride + j = k * needle_stride + j := by ring
    rwa [e1, e2] at this
  · intro H k j h1 h2
    have := H k j h1.1 (by omega) h2.1 h2.2
    have e1 : X * 4 + Y * haystack_stride + k * haystack_stride + j
        = (Y + k) * haystack_stride + X * 4 + j := by ring
    have e2 : (0 : Int) + k * needle_stride + j = k * needle_stride + j := by ring
    rwa [e1, e2]

theorem find_value_of_matches (state : guac_hash_search_state) (e : Int × Int × Nat)
    (h : find_matches state e) :
    guac_hash_find_value e.1 e.2.1 e.2.2 state = (1, { state with x := e.1, y := e.2.1 }) := by
  unfold guac_hash_find_value
  rw [if_pos h.1]
  simp only
  rw [if_pos h.2]

theorem find_value_of_not_matches (state : guac_hash_search_state) (e : Int × Int × Nat)
    (h : ¬ find_matches state e) :
    guac_hash_find_value e.1 e.2.1 e.2.2 state = (0, state) := by
  unfold guac_hash_find_value
  by_cases h1 : state.value = e.2.2
  · rw [if_pos h1]
    simp only
    rw [if_neg (fun h2 => h ⟨h1, h2⟩)]
  · rw [if_neg h1]

/-- The calls of `guac_hash_find_value` for a list: either no entry passes the
two tests and the result is 0 with the state as it was, or the result is 1 with
the position of the first entry that passes them. -/
theorem find_value_run (state : guac_hash_search_state) :
    ∀ l : List (Int × Int × Nat),
    (callbacks_run guac_hash_find_value l state = (0, state) ∧
      ∀ e ∈ l, ¬ find_matches state e) ∨
    (∃ pre e post, l = pre ++ e :: post ∧ (∀ e1 ∈ pre, ¬ find_matches state e1) ∧
      find_matches state e ∧
      callbacks_run guac_hash_find_value l state
        = (1, { state with x := e.1, y := e.2.1 })) := by
  intro l
  induction l with
  | nil => exact Or.inl ⟨rfl, fun e he => by simp at he⟩
  | cons e rest ih =>
    by_cases h : find_matches state e
    · refine Or.inr ⟨[], e, rest, rfl, fun e1 he1 => by simp at he1, h, ?_⟩
      unfold callbacks_run
      rw [find_value_of_matches state e h, if_pos (by simp)]
    · have hrun : callbacks_run guac_hash_find_value (e :: rest) state
          = callbacks_run guac_hash_find_value rest state := by
        conv_lhs => unfold callbacks_run
        rw [find_value_of_not_matches state e h, if_neg (by simp)]
      rcases ih with ⟨h1, h2⟩ | ⟨pre, e0, post, h1, h2, h3, h4⟩
      · refine Or.inl ⟨by rw [hrun, h1], ?_⟩
        intro e1 he1
        rcases List.mem_cons.1 he1 with rfl | he1
        · exact h
        · exact h2 e1 he1
      · refine Or.inr ⟨e :: pre, e0, post, by rw [h1]; rfl, ?_, h3, by rw [hrun, h4]⟩
        intro e1 he1
        rcases List.mem_cons.1 he1 with rfl | he1
        · exact h
        · exact h2 e1 he1

/-- A copy of the 64x64 needle in the haystack has the hash of the needle. -/
theorem needle_at_hash (haystack_data : Mem) (haystack_stride : Int) (needle_data : Mem)
    (needle_stride : Int) (X Y : Nat)
    (h : needle_at haystack_data haystack_stride needle_data 64 64 needle_stride X Y) :
    rect_hash haystack_data haystack_stride X Y = rect_hash needle_data needle_stride 0 0 := by
  apply rect_hash_congr
  intro a b ha0 ha1 hb0 hb1
  unfold image_pixel read_uint32
  have key : ∀ i : Int, 0 ≤ i → i < 4 →
      haystack_data ((((Y : Nat) : Int) + b) * haystack_stride
        + 4 * (((X : Nat) : Int) + a) + i)
        = needle_data ((((0 : Nat) : Int) + b) * needle_stride + 4 * (((0 : Nat) : Int) + a) + i) := by
    intro i hi0 hi1
    have := h b (4 * a + i) hb0 hb1 (by omega) (by omega)
    have e1 : (((Y : Nat) : Int) + b) * haystack_stride
        + 4 * (((X : Nat) : Int) + a) + i
        = (((Y : Nat) : Int) + b) * haystack_stride + ((X : Nat) : Int) * 4 + (4 * a + i) := by ring
    have e2 : (((0 : Nat) : Int) + b) * needle_stride + 4 * (((0 : Nat) : Int) + a) + i
        = b * needle_stride + (4 * a + i) := by push_cast; ring
    rw [e1, e2]
    exact this
  have k0 := key 0 (by decide) (by decide)
  have k1 := key 1 (by decide) (by decide)
  have k2 := key 2 (by decide) (by decide)
  have k3 := key 3 (by decide) (by decide)
  simp only [add_zero] at k0
  rw [k0, k1, k2, k3]

theorem find_matches_iff (haystack_data : Mem) (haystack_stride : Int) (needle_data : Mem)
    (needle_stride : Int) (X Y : Nat) :
    find_matches (search_state haystack_data haystack_stride needle_data 64 64 needle_stride
        (rect_hash needle_data needle_stride 0 0))
        ((X : Int), (Y : Int), rect_hash haystack_data haystack_stride X Y) ↔
      needle_at haystack_data haystack_stride needle_data 64 64 needle_stride X Y := by
  unfold find_matches search_state
  simp only
  rw [image_cmp_eq_zero_iff_needle_at]
  exact ⟨fun h => h.2, fun h => ⟨(needle_at_hash _ _ _ _ _ _ h).symm, h⟩⟩

/-- The function `guac_hash_search_image` for a 64x64 needle and a haystack of
width at most 4096, in terms of the calls of `guac_hash_find_value` for the
enumeration of the haystack. -/
theorem search_eq (haystack_data : Mem) (haystack_width haystack_height haystack_stride : Int)
    (needle_data : Mem) (needle_stride : Int) (found_x found_y : Int)
    (hW : haystack_width ≤ 4096) (hbig : ¬ (haystack_width < 64 ∨ haystack_height < 64)) :
    guac_hash_search_image haystack_data haystack_width haystack_height haystack_stride
        needle_data 64 64 needle_stride found_x found_y
      = if (callbacks_run guac_hash_find_value
            (rect_enumeration haystack_data haystack_width haystack_height haystack_stride)
            (search_state haystack_data haystack_stride needle_data 64 64 needle_stride
              (rect_hash needle_data needle_stride 0 0))).1 ≠ 0 then
          some (1,
            (callbacks_run guac_hash_find_value
              (rect_enumeration haystack_data haystack_width haystack_height haystack_stride)
              (search_state haystack_data haystack_stride needle_data 64 64 needle_stride
                (rect_hash needle_data needle_stride 0 0))).2.x,
            (callbacks_run guac_hash_find_value
              (rect_enumeration haystack_data haystack_width haystack_height haystack_stride)
              (search_state haystack_data haystack_stride needle_data 64 64 needle_stride
                (rect_hash needle_data needle_stride 0 0))).2.y)
        else some (0, found_x, found_y) := by
  have hn : guac_hash_foreach_image_rect needle_data 64 64 needle_stride 64 64
      guac_hash_assign_value 0 = some (1, rect_hash needle_data needle_stride 0 0) := by
    rw [foreach_eq needle_data 64 64 needle_stride guac_hash_assign_value 0 (by decide),
      rect_enumeration_single]
    rfl
  unfold guac_hash_search_image
  rw [if_neg hbig]
  simp only
  rw [hn]
  simp only
  rw [foreach_eq haystack_data haystack_width haystack_height haystack_stride
    guac_hash_find_value _ hW]
  rfl

/-- The search for a 64x64 needle in a haystack of width at most 4096: either
it returns 0, leaves `found_x` and `found_y` as they were and no position holds
a copy of the needle, or it returns 1 with the first position, in row-major
order, that holds a copy. -/
theorem search_spec (haystack_data : Mem)
    (haystack_width haystack_height haystack_stride : Int)
    (needle_data : Mem) (needle_stride : Int) (found_x found_y : Int)
    (hW : haystack_width ≤ 4096) :
    (guac_hash_search_image haystack_data haystack_width haystack_height haystack_stride
        needle_data 64 64 needle_stride found_x found_y = some (0, found_x, found_y) ∧
      ∀ X Y : Int, valid_position haystack_width haystack_height 64 64 X Y →
        ¬ needle_at haystack_data haystack_stride needle_data 64 64 needle_stride X Y) ∨
    (∃ X Y : Int,
      guac_hash_search_image haystack_data haystack_width haystack_height haystack_stride
        needle_data 64 64 needle_stride found_x found_y = some (1, X, Y) ∧
      valid_position haystack_width haystack_height 64 64 X Y ∧
      needle_at haystack_data haystack_stride needle_data 64 64 needle_stride X Y ∧
      ∀ X1 Y1 : Int, valid_position haystack_width haystack_height 64 64 X1 Y1 →
        needle_at haystack_data haystack_stride needle_data 64 64 needle_stride X1 Y1 →
        (X1 = X ∧ Y1 = Y) ∨ row_major_before (X, Y) (X1, Y1)) := by
  by_cases hbig : haystack_width < 64 ∨ haystack_height < 64
  · left
    constructor
    · unfold guac_hash_search_image
      rw [if_pos hbig]
    · intro X Y hv
      unfold valid_position at hv
      omega
  · rw [search_eq haystack_data haystack_width haystack_height haystack_stride needle_data
      needle_stride found_x found_y hW hbig]
    -- a valid position that holds a copy is an entry of the enumeration that passes the tests
    have hcopy : ∀ X1 Y1 : Int, valid_position haystack_width haystack_height 64 64 X1 Y1 →
        needle_at haystack_data haystack_stride needle_data 64 64 needle_stride X1 Y1 →
        (X1, Y1, rect_hash haystack_data haystack_stride X1.toNat Y1.toNat)
            ∈ rect_enumeration haystack_data haystack_width haystack_height haystack_stride ∧
          find_matches (search_state haystack_data haystack_stride needle_data 64 64
              needle_stride (rect_hash needle_data needle_stride 0 0))
            (X1, Y1, rect_hash haystack_data haystack_stride X1.toNat Y1.toNat) := by
      intro X1 Y1 hv hc
      unfold valid_position at hv
      obtain ⟨v1, v2, v3, v4⟩ := hv
      have eX : ((X1.toNat : Nat) : Int) = X1 := Int.toNat_of_nonneg v1
      have eY : ((Y1.toNat : Nat) : Int) = Y1 := Int.toNat_of_nonneg v3
      constructor
      · exact (rect_enumeration_mem _ _ _ _ _).2
          ⟨X1.toNat, Y1.toNat, by omega, by omega, by rw [eX, eY]⟩
      · have := (find_matches_iff haystack_data haystack_stride needle_data needle_stride
          X1.toNat Y1.toNat).2 (by rw [eX, eY]; exact hc)
        rwa [eX, eY] at this
    rcases find_value_run (search_state haystack_data haystack_stride needle_data 64 64
        needle_stride (rect_hash needle_data needle_stride 0 0))
        (rect_enumeration haystack_data haystack_width haystack_height haystack_stride)
      with ⟨h1, h2⟩ | ⟨pre, e, post, h1, h2, h3, h4⟩
    · left
      rw [h1]
      refine ⟨by simp, ?_⟩
      intro X Y hv hc
      exact h2 _ (hcopy X Y hv hc).1 (hcopy X Y hv hc).2
    · right
      rw [h4]
      have hmem : e ∈ rect_enumeration haystack_data haystack_width haystack_height
          haystack_stride := by rw [h1]; simp
      obtain ⟨X, Y, hX, hY, rfl⟩ := (rect_enumeration_mem _ _ _ _ _).1 hmem
      refine ⟨(X : Int), (Y : Int), by simp, ?_, (find_matches_iff _ _ _ _ _ _).1 h3, ?_⟩
      · unfold valid_position
        omega
      · intro X1 Y1 hv hc
        obtain ⟨m1, m2⟩ := hcopy X1 Y1 hv hc
        rw [h1] at m1
        rcases List.mem_append.1 m1 with m | m
        · exact absurd m2 (h2 _ m)
        · rcases List.mem_cons.1 m with m | m
          · left
            simp only [Prod.mk.injEq] at m
            exact ⟨m.1, m.2.1⟩
          · right
            have hp := rect_enumeration_pairwise haystack_data haystack_width haystack_height
              haystack_stride
            rw [h1, List.pairwise_append] at hp
            exact (List.pairwise_cons.1 hp.2.1).1 _ m

/-- The search in a haystack of width above 4096, of height at least 64, for a
64x64 needle: the enumeration of the haystack stores to `cell_hash[4096]`. -/
theorem search_overflow (haystack_data : Mem)
    (haystack_width haystack_height haystack_stride : Int)
    (needle_data : Mem) (needle_stride : Int) (found_x found_y : Int)
    (hW : 4096 < haystack_width) (hH : 64 ≤ haystack_height) :
    guac_hash_search_image haystack_data haystack_width haystack_height haystack_stride
        needle_data 64 64 needle_stride found_x found_y = none := by
  have hn : guac_hash_foreach_image_rect needle_data 64 64 needle_stride 64 64
      guac_hash_assign_value 0 = some (1, rect_hash needle_data needle_stride 0 0) := by
    rw [foreach_eq needle_data 64 64 needle_stride guac_hash_assign_value 0 (by decide),
      rect_enumeration_single]
    rfl
  unfold guac_hash_search_image
  rw [if_neg (by omega)]
  simp only
  rw [hn]
  simp only
  rw [foreach_overflow haystack_data haystack_width haystack_height haystack_stride
    guac_hash_find_value _ hW (by omega)]

/-- The search for a needle that is not 64x64 returns 0 and leaves `found_x` and
`found_y` as they were: `guac_hash_foreach_image_rect` makes no call. -/
theorem search_other_size (haystack_data : Mem)
    (haystack_width haystack_height haystack_stride : Int)
    (needle_data : Mem) (needle_width needle_height needle_stride : Int) (found_x found_y : Int)
    (h : needle_width ≠ 64 ∨ needle_height ≠ 64) :
    guac_hash_search_image haystack_data haystack_width haystack_height haystack_stride
        needle_data needle_width needle_height needle_stride found_x found_y
      = some (0, found_x, found_y) := by
  unfold guac_hash_search_image guac_hash_foreach_image_rect
  by_cases hs : haystack_width < needle_width ∨ haystack_height < needle_height
  · rw [if_pos hs]
  · rw [if_neg hs]
    simp only [if_pos h]
    rfl

/-! ## Claims about the search -/

/-- Counterexample to C14 as stated: a haystack of 64x64 pixels of bytes 9 holds
a byte-exact copy of a needle of 32x32 pixels of bytes 9 at the valid position
(0, 0), and the search returns 0 and leaves `found_x` and `found_y` as they
were, because `guac_hash_foreach_image_rect` makes no call for a rectangle that
is not 64x64; and in a haystack of 4097x64 pixels that holds a copy of a 64x64
needle at (0, 0) the search returns nothing, because the enumeration of the
haystack stores to `cell_hash[4096]`. -/
theorem guac_hash_search_image_any_needle :
    valid_position 64 64 32 32 0 0 ∧
    needle_at (fun _ => 9) 256 (fun _ => 9) 32 32 128 0 0 ∧
    guac_hash_search_image (fun _ => 9) 64 64 256 (fun _ => 9) 32 32 128 (-7) (-8)
      = some (0, -7, -8) ∧
    valid_position 4097 64 64 64 0 0 ∧
    needle_at (fun _ => 9) 16388 (fun _ => 9) 64 64 256 0 0 ∧
    guac_hash_search_image (fun _ => 9) 4097 64 16388 (fun _ => 9) 64 64 256 (-7) (-8)
      = none :=
  ⟨by unfold valid_position; decide, fun _ _ _ _ _ _ => rfl,
    search_other_size (fun _ => 9) 64 64 256 (fun _ => 9) 32 32 128 (-7) (-8)
      (Or.inl (by decide)),
    by unfold valid_position; decide, fun _ _ _ _ _ _ => rfl,
    search_overflow (fun _ => 9) 4097 64 16388 (fun _ => 9) 256 (-7) (-8)
      (by decide) (by decide)⟩

/-- C14, amended: for every 64x64 needle and every haystack of width at most
4096, if a byte-exact copy of the needle exists in the haystack at a valid
position, `guac_hash_search_image` returns 1 and `(found_x, found_y)` is a valid
position that holds a copy and comes, in row-major order, before every other
valid position that holds one; otherwise it returns 0 (and leaves `found_x` and
`found_y` as they were). -/
theorem guac_hash_search_image_first_copy (haystack_data : Mem)
    (haystack_width haystack_height haystack_stride : Int)
    (needle_data : Mem) (needle_stride : Int) (found_x found_y : Int)
    (hW : haystack_width ≤ 4096) :
    ((∃ X Y : Int, valid_position haystack_width haystack_height 64 64 X Y ∧
        needle_at haystack_data haystack_stride needle_data 64 64 needle_stride X Y) →
      ∃ X Y : Int,
        guac_hash_search_image haystack_data haystack_width haystack_height haystack_stride
          needle_data 64 64 needle_stride found_x found_y = some (1, X, Y) ∧
        valid_position haystack_width haystack_height 64 64 X Y ∧
        needle_at haystack_data haystack_stride needle_data 64 64 needle_stride X Y ∧
        ∀ X1 Y1 : Int, valid_position haystack_width haystack_height 64 64 X1 Y1 →
          needle_at haystack_data haystack_stride needle_data 64 64 needle_stride X1 Y1 →
          (X1 = X ∧ Y1 = Y) ∨ row_major_before (X, Y) (X1, Y1)) ∧
    ((¬ ∃ X Y : Int, valid_position haystack_width haystack_height 64 64 X Y ∧
        needle_at haystack_data haystack_stride needle_data 64 64 needle_stride X Y) →
      guac_hash_search_image haystack_data haystack_width haystack_height haystack_stride
        needle_data 64 64 needle_stride found_x found_y = some (0, found_x, found_y)) := by
  rcases search_spec haystack_data haystack_width haystack_height haystack_stride needle_data
      needle_stride found_x found_y hW with ⟨h1, h2⟩ | ⟨X, Y, h1, h2, h3, h4⟩
  · exact ⟨fun ⟨X, Y, hv, hc⟩ => absurd hc (h2 X Y hv), fun _ => h1⟩
  · exact ⟨fun _ => ⟨X, Y, h1, h2, h3, h4⟩, fun h => absurd ⟨X, Y, h2, h3⟩ h⟩

/-- Witness of C14: a 64x64 needle of zero bytes in a 64x64 haystack of zero
bytes is found at (0, 0). -/
theorem guac_hash_search_image_first_copy_witness :
    guac_hash_search_image (fun _ => 0) 64 64 256 (fun _ => 0) 64 64 256 (-7) (-8)
      = some (1, 0, 0) := by
  obtain ⟨X, Y, h, hv, _⟩ :=
    (guac_hash_search_image_first_copy (fun _ => 0) 64 64 256 (fun _ => 0) 256 (-7) (-8)
      (by decide)).1
      ⟨0, 0, by unfold valid_position; decide, fun _ _ _ _ _ _ => rfl⟩
  unfold valid_position at hv
  have hX : X = 0 := by omega
  have hY : Y = 0 := by omega
  rw [hX, hY] at h
  exact h

/-- Counterexample to C15 as stated: a haystack of 4097x64 pixels of zero bytes
holds no copy of a 64x64 needle of bytes 1, and the search does not return 0:
the enumeration of the haystack stores to `cell_hash[4096]`. -/
theorem guac_hash_search_image_wide_haystack :
    (∀ X Y : Int, ¬ needle_at (fun _ => 0) 16388 (fun _ => 1) 64 64 256 X Y) ∧
    guac_hash_search_image (fun _ => 0) 4097 64 16388 (fun _ => 1) 64 64 256 (-7) (-8)
      = none :=
  ⟨fun _ _ h => Nat.zero_ne_one (h 0 0 (by decide) (by decide) (by decide) (by decide)),
    search_overflow (fun _ => 0) 4097 64 16388 (fun _ => 1) 256 (-7) (-8)
      (by decide) (by decide)⟩

/-- C15, amended: `guac_hash_search_image` returns 0 or 1 when it returns;
whenever it returns 1, the reported `(found_x, found_y)` is a valid position and
the rectangle of the haystack there is identical to the needle over
`needle_width * 4` bytes of every row; and a haystack of width at most 4096 that
holds no exact copy of the needle yields 0, whatever the hashes of its
rectangles are. -/
theorem guac_hash_search_image_sound (haystack_data : Mem)
    (haystack_width haystack_height haystack_stride : Int) (needle_data : Mem)
    (needle_width needle_height needle_stride : Int) (found_x found_y : Int) :
    (∀ r X Y : Int,
      guac_hash_search_image haystack_data haystack_width haystack_height haystack_stride
        needle_data needle_width needle_height needle_stride found_x found_y = some (r, X, Y) →
      r = 0 ∨ r = 1) ∧
    (∀ X Y : Int,
      guac_hash_search_image haystack_data haystack_width haystack_height haystack_stride
        needle_data needle_width needle_height needle_stride found_x found_y = some (1, X, Y) →
      valid_position haystack_width haystack_height needle_width needle_height X Y ∧
        needle_at haystack_data haystack_stride needle_data needle_width needle_height
          needle_stride X Y) ∧
    (haystack_width ≤ 4096 →
      (∀ X Y : Int,
        valid_position haystack_width haystack_height needle_width needle_height X Y →
        ¬ needle_at haystack_data haystack_stride needle_data needle_width needle_height
          needle_stride X Y) →
      guac_hash_search_image haystack_data haystack_width haystack_height haystack_stride
        needle_data needle_width needle_height needle_stride found_x found_y
        = some (0, found_x, found_y)) := by
  by_cases hsz : needle_width ≠ 64 ∨ needle_height ≠ 64
  · rw [search_other_size haystack_data haystack_width haystack_height haystack_stride
      needle_data needle_width needle_height needle_stride found_x found_y hsz]
    refine ⟨?_, ?_, fun _ _ => rfl⟩
    · intro r X Y h
      simp only [Option.some.injEq, Prod.mk.injEq] at h
      exact Or.inl h.1.symm
    · intro X Y h
      simp only [Option.some.injEq, Prod.mk.injEq] at h
      exact absurd h.1 (by decide)
  · have hw64 : needle_width = 64 := by
      by_contra h
      exact hsz (Or.inl h)
    have hh64 : needle_height = 64 := by
      by_contra h
      exact hsz (Or.inr h)
    subst hw64
    subst hh64
    by_cases hW : haystack_width ≤ 4096
    · rcases search_spec haystack_data haystack_width haystack_height haystack_stride
          needle_data needle_stride found_x found_y hW with ⟨h1, _⟩ | ⟨X, Y, h1, h2, h3, _⟩
      · rw [h1]
        refine ⟨?_, ?_, fun _ _ => rfl⟩
        · intro r X Y h
          simp only [Option.some.injEq, Prod.mk.injEq] at h
          exact Or.inl h.1.symm
        · intro X Y h
          simp only [Option.some.injEq, Prod.mk.injEq] at h
          exact absurd h.1 (by decide)
      · rw [h1]
        refine ⟨?_, ?_, fun _ hno => absurd h3 (hno X Y h2)⟩
        · intro r X1 Y1 h
          simp only [Option.some.injEq, Prod.mk.injEq] at h
          exact Or.inr h.1.symm
        · intro X1 Y1 h
          simp only [Option.some.injEq, Prod.mk.injEq, true_and] at h
          rw [← h.1, ← h.2]
          exact ⟨h2, h3⟩
    · by_cases hH : haystack_height < 64
      · have h0 : guac_hash_search_image haystack_data haystack_width haystack_height
            haystack_stride needle_data 64 64 needle_stride found_x found_y
            = some (0, found_x, found_y) := by
          unfold guac_hash_search_image
          rw [if_pos (Or.inr hH)]
        rw [h0]
        refine ⟨?_, ?_, fun _ _ => rfl⟩
        · intro r X Y h
          simp only [Option.some.injEq, Prod.mk.injEq] at h
          exact Or.inl h.1.symm
        · intro X Y h
          simp only [Option.some.injEq, Prod.mk.injEq] at h
          exact absurd h.1 (by decide)
      · rw [search_overflow haystack_data haystack_width haystack_height haystack_stride
          needle_data needle_stride found_x found_y (by omega) (by omega)]
        exact ⟨fun _ _ _ h => by simp at h, fun _ _ h => by simp at h,
          fun h => absurd h hW⟩

/-- Witness of C15: a 64x64 haystack whose first byte is 1 and whose other bytes
are 0 holds no copy of the 64x64 needle of zero bytes, although the hash of its
one rectangle does not depend on the top-left pixel; the search returns 0 and
leaves `found_x` and `found_y` as they were. -/
theorem guac_hash_search_image_sound_witness :
    guac_hash_search_image (fun i => if i = 0 then 1 else 0) 64 64 256 (fun _ => 0) 64 64 256
      (-7) (-8) = some (0, -7, -8) :=
  (guac_hash_search_image_sound (fun i => if i = 0 then 1 else 0) 64 64 256 (fun _ => 0)
    64 64 256 (-7) (-8)).2.2 (by decide) (by
      intro X Y hv hc
      unfold valid_position at hv
      have hX : X = 0 := by omega
      have hY : Y = 0 := by omega
      subst hX
      subst hY
      exact absurd (hc 0 0 (by decide) (by decide) (by decide) (by decide)) (by decide))

/-- Witness of C18: two images of zero bytes, of 64x64 and of 65x64 pixels. -/
theorem guac_hash_rolling_hash_deterministic_witness :
    ∃ calls1 calls2 : List (Int × Int × Nat),
      guac_hash_foreach_image_rect (fun _ => 0) 64 64 256 64 64 record_call []
        = some (0, calls1) ∧
      guac_hash_foreach_image_rect (fun _ => 0) 65 64 260 64 64 record_call []
        = some (0, calls2) := by
  obtain ⟨c1, c2, h1, h2, _⟩ := guac_hash_rolling_hash_deterministic
    (fun _ => 0) 64 64 256 (fun _ => 0) 65 64 260 (by decide) (by decide)
  exact ⟨c1, c2, h1, h2⟩

/-- Witness of C20: two images of 1x2 pixels, with a stride of 8 bytes, that
differ in the second row. -/
theorem guac_image_cmp_total_order_witness :
    Int.sign (guac_image_cmp (fun i => if i = 11 then 5 else 0) 0 1 2 8
        (fun i => if i = 11 then 7 else 0) 0 1 2 8)
      = - Int.sign (guac_image_cmp (fun i => if i = 11 then 7 else 0) 0 1 2 8
        (fun i => if i = 11 then 5 else 0) 0 1 2 8) :=
  (guac_image_cmp_total_order (fun i => if i = 11 then 5 else 0) 0 8
    (fun i => if i = 11 then 7 else 0) 0 8 (fun _ => 0) 0 8 1 2 (by decide)).2.1

/-! ## The resize, when every position of the loops lies in the old or the new grid -/

theorem resize_columns_add (old : List guac_surface_tile)
    (old_rows old_columns new_rows new_columns row : Int) (n2 : Nat) :
    ∀ (n1 c o : Nat) (nt fr : List guac_surface_tile),
    guac_surface_resize_columns old old_rows old_columns new_rows new_columns row
        (n1 + n2) (c : Int) o nt fr
      = (guac_surface_resize_columns old old_rows old_columns new_rows new_columns row
          n1 (c : Int) o nt fr).bind (fun st =>
        guac_surface_resize_columns old old_rows old_columns new_rows new_columns row
          n2 ((c + n1 : Nat) : Int) st.1 st.2.1 st.2.2) := by
  intro n1
  induction n1 with
  | zero => intro c o nt fr; simp [guac_surface_resize_columns]
  | succ n1 ih =>
    intro c o nt fr
    have e : n1 + 1 + n2 = (n1 + n2) + 1 := by omega
    have hc1 : ((c : Int) + 1) = ((c + 1 : Nat) : Int) := by push_cast; rfl
    have hc2 : c + (n1 + 1) = c + 1 + n1 := by omega
    rw [e, hc2]
    simp only [guac_surface_resize_columns, hc1]
    split
    · split
      · cases old[o]? with
        | none => rfl
        | some t => exact ih _ _ _ _
      · exact ih _ _ _ _
    · cases old[o]? with
      | none => rfl
      | some t => exact ih _ _ _ _

theorem drop_take_succ (old : List guac_surface_tile) (o n : Nat) (h : o < old.length) :
    (old.drop o).take (n + 1) = old[o] :: (old.drop (o + 1)).take n := by
  rw [List.drop_eq_getElem_cons h, List.take_succ_cons]

theorem resize_columns_copy (old : List guac_surface_tile) (R C NR NC r : Nat) :
    ∀ (n c o : Nat) (nt fr : List guac_surface_tile),
    (∀ c1, c ≤ c1 → c1 < c + n → r < NR ∧ c1 < NC ∧ r < R ∧ c1 < C) →
    o + n ≤ old.length →
    guac_surface_resize_columns old (R : Int) (C : Int) (NR : Int) (NC : Int) (r : Int)
        n (c : Int) o nt fr
      = some (o + n, nt ++ (old.drop o).take n, fr) := by
  intro n
  induction n with
  | zero => intro c o nt fr _ _; simp [guac_surface_resize_columns]
  | succ n ih =>
    intro c o nt fr h hlen
    have hc1 : ((c : Int) + 1) = ((c + 1 : Nat) : Int) := by push_cast; rfl
    obtain ⟨h1, h2, h3, h4⟩ := h c (le_refl _) (by omega)
    have ho : o < old.length := by omega
    simp only [guac_surface_resize_columns, hc1]
    rw [if_pos ⟨by exact_mod_cast h1, by exact_mod_cast h2⟩,
      if_pos ⟨by exact_mod_cast h3, by exact_mod_cast h4⟩, List.getElem?_eq_getElem ho]
    simp only
    rw [ih (c + 1) (o + 1) _ _ (fun c1 hc hc' => h c1 (by omega) (by omega)) (by omega),
      drop_take_succ old o n ho]
    simp only [List.append_assoc, List.singleton_append]
    congr 2
    omega

theorem resize_columns_alloc (old : List guac_surface_tile) (R C NR NC r : Nat) :
    ∀ (n c o : Nat) (nt fr : List guac_surface_tile),
    (∀ c1, c ≤ c1 → c1 < c + n → r < NR ∧ c1 < NC ∧ (R ≤ r ∨ C ≤ c1)) →
    guac_surface_resize_columns old (R : Int) (C : Int) (NR : Int) (NC : Int) (r : Int)
        n (c : Int) o nt fr
      = some (o, nt ++ (List.range' c n).map (fun c1 : Nat =>
          guac_surface_tile_alloc ((c1 : Int) * GUAC_SURFACE_TILE_WIDTH)
            ((r : Int) * GUAC_SURFACE_TILE_HEIGHT)), fr) := by
  intro n
  induction n with
  | zero => intro c o nt fr _; simp [guac_surface_resize_columns]
  | succ n ih =>
    intro c o nt fr h
    have hc1 : ((c : Int) + 1) = ((c + 1 : Nat) : Int) := by push_cast; rfl
    obtain ⟨h1, h2, h3⟩ := h c (le_refl _) (by omega)
    simp only [guac_surface_resize_columns, hc1]
    rw [if_pos ⟨by exact_mod_cast h1, by exact_mod_cast h2⟩, if_neg (by
      intro hh
      have a1 : r < R := by exact_mod_cast hh.1
      have a2 : c < C := by exact_mod_cast hh.2
      omega)]
    rw [ih (c + 1) o _ _ (fun c1 hc hc' => h c1 (by omega) (by omega))]
    simp only [List.append_assoc, List.singleton_append, List.range'_succ, List.map_cons]

theorem resize_columns_free (old : List guac_surface_tile) (R C NR NC r : Nat) :
    ∀ (n c o : Nat) (nt fr : List guac_surface_tile),
    (∀ c1, c ≤ c1 → c1 < c + n → NR ≤ r ∨ NC ≤ c1) →
    o + n ≤ old.length →
    guac_surface_resize_columns old (R : Int) (C : Int) (NR : Int) (NC : Int) (r : Int)
        n (c : Int) o nt fr
      = some (o + n, nt, fr ++ (old.drop o).take n) := by
  intro n
  induction n with
  | zero => intro c o nt fr _ _; simp [guac_surface_resize_columns]
  | succ n ih =>
    intro c o nt fr h hlen
    have hc1 : ((c : Int) + 1) = ((c + 1 : Nat) : Int) := by push_cast; rfl
    have h1 := h c (le_refl _) (by omega)
    have ho : o < old.length := by omega
    simp only [guac_surface_resize_columns, hc1]
    rw [if_neg (by
      intro hh
      have a1 : r < NR := by exact_mod_cast hh.1
      have a2 : c < NC := by exact_mod_cast hh.2
      omega), List.getElem?_eq_getElem ho]
    simp only
    rw [ih (c + 1) (o + 1) _ _ (fun c1 hc hc' => h c1 (by omega) (by omega)) (by omega),
      drop_take_succ old o n ho]
    simp only [List.append_assoc, List.singleton_append]
    congr 2
    omega

/-- One row of `guac_surface_resize`, when the other dimension does not change
in the opposite direction: the tiles of the row that lie in both grids are
copied, then come the fresh tiles or the tiles to free. -/
theorem resize_row (old : List guac_surface_tile) (R C NR NC r o : Nat)
    (nt fr : List guac_surface_tile)
    (hH : (R < NR → C ≤ NC) ∧ (NR < R → NC ≤ C)) (hr : r < max R NR)
    (ho : o + (resize_copied R C NR NC r + resize_dropped R C NR NC r) ≤ old.length) :
    guac_surface_resize_columns old (R : Int) (C : Int) (NR : Int) (NC : Int) (r : Int)
        (max C NC) 0 o nt fr
      = some (o + (resize_copied R C NR NC r + resize_dropped R C NR NC r),
          nt ++ ((old.drop o).take (resize_copied R C NR NC r) ++
            (List.range' (resize_copied R C NR NC r) (resize_fresh R C NR NC r)).map
              (fun c1 : Nat => guac_surface_tile_alloc ((c1 : Int) * GUAC_SURFACE_TILE_WIDTH)
                ((r : Int) * GUAC_SURFACE_TILE_HEIGHT))),
          fr ++ (old.drop (o + resize_copied R C NR NC r)).take
            (resize_dropped R C NR NC r)) := by
  have hn : max C NC = resize_copied R C NR NC r
      + (resize_fresh R C NR NC r + resize_dropped R C NR NC r) := by
    unfold resize_fresh resize_dropped resize_copied
    split_ifs <;> omega
  have h0 : (0 : Int) = ((0 : Nat) : Int) := rfl
  rw [hn, h0, resize_columns_add, resize_columns_copy old R C NR NC r _ 0 o nt fr
    (by
      intro c1 h1 h2
      unfold resize_copied at h2
      split_ifs at h2 <;> omega)
    (by omega)]
  simp only [Option.some_bind, Nat.zero_add]
  rw [resize_columns_add, resize_columns_alloc old R C NR NC r _ _ _ _ fr
    (by
      intro c1 h1 h2
      unfold resize_fresh resize_copied at h2
      unfold resize_copied at h1
      split_ifs at h1 h2 <;> omega)]
  simp only [Option.some_bind]
  rw [resize_columns_free old R C NR NC r _ _ _ _ fr
    (by
      intro c1 h1 h2
      unfold resize_dropped resize_fresh resize_copied at h2
      unfold resize_fresh resize_copied at h1
      split_ifs at h1 h2 <;> omega)
    (by omega)]
  simp only [List.append_assoc, Nat.add_assoc]

theorem resize_rows_spec (old : List guac_surface_tile) (R C NR NC : Nat)
    (hH : (R < NR → C ≤ NC) ∧ (NR < R → NC ≤ C)) (hlen : old.length = R * C) :
    ∀ (n r0 : Nat) (nt fr : List guac_surface_tile), r0 + n ≤ max R NR →
    guac_surface_resize_rows old (R : Int) (C : Int) (NR : Int) (NC : Int) (max C NC)
        n (r0 : Int) (min r0 R * C) nt fr
      = some (min (r0 + n) R * C,
          nt ++ (List.range' r0 n).flatMap (resize_new_row old R C NR NC),
          fr ++ (List.range' r0 n).flatMap (resize_freed_row old R C NR NC)) := by
  intro n
  induction n with
  | zero => intro r0 nt fr _; simp [guac_surface_resize_rows]
  | succ n ih =>
    intro r0 nt fr h
    have hr1 : ((r0 : Int) + 1) = ((r0 + 1 : Nat) : Int) := by push_cast; rfl
    have hadv : min r0 R * C + (resize_copied R C NR NC r0 + resize_dropped R C NR NC r0)
        = min (r0 + 1) R * C := by
      by_cases h1 : r0 < R
      · have e1 : min r0 R = r0 := Nat.min_eq_left (by omega)
        have e2 : min (r0 + 1) R = r0 + 1 := Nat.min_eq_left (by omega)
        rw [e1, e2, Nat.succ_mul]
        unfold resize_dropped resize_copied
        split_ifs <;> omega
      · have e1 : min r0 R = R := Nat.min_eq_right (by omega)
        have e2 : min (r0 + 1) R = R := Nat.min_eq_right (by omega)
        rw [e1, e2]
        unfold resize_dropped resize_copied
        split_ifs <;> omega
    have hbound : min (r0 + 1) R * C ≤ old.length := by
      rw [hlen]
      exact Nat.mul_le_mul_right _ (Nat.min_le_right _ _)
    have hnew : (old.drop (min r0 R * C)).take (resize_copied R C NR NC r0)
        ++ (List.range' (resize_copied R C NR NC r0) (resize_fresh R C NR NC r0)).map
            (fun c1 : Nat => guac_surface_tile_alloc ((c1 : Int) * GUAC_SURFACE_TILE_WIDTH)
              ((r0 : Int) * GUAC_SURFACE_TILE_HEIGHT))
        = resize_new_row old R C NR NC r0 := by
      unfold resize_new_row
      by_cases h1 : r0 < R
      · rw [show min r0 R = r0 from Nat.min_eq_left (by omega)]
      · have hk : resize_copied R C NR NC r0 = 0 := by
          unfold resize_copied
          rw [if_neg (fun hh => h1 hh.1)]
        rw [hk]
        simp
    have hfreed : (old.drop (min r0 R * C + resize_copied R C NR NC r0)).take
          (resize_dropped R C NR NC r0)
        = resize_freed_row old R C NR NC r0 := by
      unfold resize_freed_row
      by_cases h1 : r0 < R
      · rw [show min r0 R = r0 from Nat.min_eq_left (by omega)]
      · have hk : resize_dropped R C NR NC r0 = 0 := by
          unfold resize_dropped
          rw [if_neg h1]
        rw [hk]
        simp
    simp only [guac_surface_resize_rows, hr1]
    rw [resize_row old R C NR NC r0 _ nt fr hH (by omega) (by rw [hadv]; exact hbound)]
    simp only
    have e3 : r0 + 1 + n = r0 + (n + 1) := by omega
    rw [hadv, hnew, hfreed, ih (r0 + 1) _ _ (by omega), e3]
    simp only [List.range'_succ, List.flatMap_cons, List.append_assoc]

/-- The function `guac_surface_resize` on a surface with a grid of `R` rows and
`C` columns, for an accepted size with a grid of `NR` rows and `NC` columns, when
rows and columns do not change in opposite directions: it returns 0 with the
rows of the new array and frees the tiles outside of the new grid. -/
theorem resize_eq (max_width max_height : Int) (s : guac_surface) (width height : Int)
    (R C NR NC : Nat) (hR : s.rows = (R : Int)) (hC : s.columns = (C : Int))
    (hlen : s.tiles.length = R * C)
    (hNR : (height + GUAC_SURFACE_TILE_HEIGHT - 1).tdiv GUAC_SURFACE_TILE_HEIGHT = (NR : Int))
    (hNC : (width + GUAC_SURFACE_TILE_WIDTH - 1).tdiv GUAC_SURFACE_TILE_WIDTH = (NC : Int))
    (hacc : ¬ (width > max_width ∨ height > max_height))
    (hH : (R < NR → C ≤ NC) ∧ (NR < R → NC ≤ C)) :
    guac_surface_resize max_width max_height s width height
      = some (0,
          { s with
            tiles := (List.range (max R NR)).flatMap (resize_new_row s.tiles R C NR NC)
            rows := (NR : Int)
            columns := (NC : Int)
            width := width
            height := height
            size_dirty := 1 },
          (List.range (max R NR)).flatMap (resize_freed_row s.tiles R C NR NC)) := by
  have hmr : (if (R : Int) > (NR : Int) then (R : Int) else (NR : Int)).toNat = max R NR := by
    split_ifs <;> omega
  have hmc : (if (C : Int) > (NC : Int) then (C : Int) else (NC : Int)).toNat = max C NC := by
    split_ifs <;> omega
  have h := resize_rows_spec s.tiles R C NR NC hH hlen (max R NR) 0 [] [] (by omega)
  simp only [Nat.zero_min, Nat.zero_mul, Nat.cast_zero, List.nil_append, Nat.zero_add,
    ← List.range_eq_range'] at h
  unfold guac_surface_resize
  rw [if_neg hacc]
  simp only [hNR, hNC, hR, hC, hmr, hmc]
  rw [h]

theorem flatMap_range_length {α : Type} (f : Nat → List α) (m : Nat) :
    ∀ n : Nat, (∀ r, r < n → (f r).length = m) → ((List.range n).flatMap f).length = n * m := by
  intro n
  induction n with
  | zero => intro _; simp
  | succ n ih =>
    intro h
    rw [List.range_succ, List.flatMap_append, List.length_append,
      ih (fun r hr => h r (by omega))]
    simp only [List.flatMap_cons, List.flatMap_nil, List.append_nil]
    rw [h n (by omega), Nat.succ_mul]

theorem flatMap_range_getElem? {α : Type} (f : Nat → List α) (m : Nat) :
    ∀ n : Nat, (∀ r, r < n → (f r).length = m) → ∀ r c : Nat, r < n → c < m →
      ((List.range n).flatMap f)[r * m + c]? = (f r)[c]? := by
  intro n
  induction n with
  | zero => intro _ r c hr _; omega
  | succ n ih =>
    intro h r c hr hc
    have hlen := flatMap_range_length f m n (fun r hr => h r (by omega))
    rw [List.range_succ, List.flatMap_append]
    simp only [List.flatMap_cons, List.flatMap_nil, List.append_nil]
    by_cases hrn : r < n
    · have hlt : r * m + c < n * m := by
        calc r * m + c < r * m + m := by omega
          _ = (r + 1) * m := by ring
          _ ≤ n * m := Nat.mul_le_mul_right _ hrn
      rw [List.getElem?_append_left (by rw [hlen]; exact hlt)]
      exact ih (fun r hr => h r (by omega)) r c hrn hc
    · have hrn1 : r = n := by omega
      subst hrn1
      rw [List.getElem?_append_right (by rw [hlen]; omega), hlen]
      congr 1
      omega

theorem flatMap_range_tail_nil {α : Type} (f : Nat → List α) (n d : Nat)
    (h : ∀ r, n ≤ r → f r = []) :
    (List.range (n + d)).flatMap f = (List.range n).flatMap f := by
  induction d with
  | zero => rfl
  | succ d ih =>
    rw [← Nat.add_assoc, List.range_succ, List.flatMap_append, ih]
    simp only [List.flatMap_cons, List.flatMap_nil, List.append_nil]
    rw [h (n + d) (by omega), List.append_nil]

theorem resize_copied_le (R C NR NC r : Nat) :
    resize_copied R C NR NC r ≤ C ∧ resize_copied R C NR NC r ≤ NC ∧
      (0 < resize_copied R C NR NC r → r < R ∧ r < NR) := by
  unfold resize_copied
  split_ifs with h
  · exact ⟨Nat.min_le_left _ _, Nat.min_le_right _ _, fun _ => h⟩
  · exact ⟨Nat.zero_le _, Nat.zero_le _, fun h0 => absurd h0 (by omega)⟩

theorem resize_slice_bound (R C r k : Nat) (hk : k ≤ C) (hr : 0 < k → r < R) :
    r * C + k ≤ max (R * C) (r * C) ∧ (0 < k → r * C + k ≤ R * C) := by
  constructor
  · by_cases h0 : 0 < k
    · have h1 : (r + 1) * C ≤ R * C := Nat.mul_le_mul_right _ (hr h0)
      rw [Nat.succ_mul] at h1
      omega
    · omega
  · intro h0
    have h1 : (r + 1) * C ≤ R * C := Nat.mul_le_mul_right _ (hr h0)
    rw [Nat.succ_mul] at h1
    omega

theorem resize_new_row_length (old : List guac_surface_tile) (R C NR NC r : Nat)
    (hlen : old.length = R * C) :
    (resize_new_row old R C NR NC r).length = if r < NR then NC else 0 := by
  obtain ⟨h1, h2, h3⟩ := resize_copied_le R C NR NC r
  have hb := (resize_slice_bound R C r _ h1 (fun h0 => (h3 h0).1)).2
  unfold resize_new_row
  rw [List.length_append, List.length_take, List.length_drop, List.length_map,
    List.length_range', hlen]
  unfold resize_fresh
  split_ifs with h
  · by_cases h0 : 0 < resize_copied R C NR NC r
    · have := hb h0
      omega
    · omega
  · have : resize_copied R C NR NC r = 0 := by
      by_contra hne
      exact h (h3 (by omega)).2
    omega

/-- The entry of row `r` of the new array for column `c`: the old tile of the
position when the position lies in the old grid, else a fresh tile. -/
theorem resize_new_row_getElem? (old : List guac_surface_tile) (R C NR NC r c : Nat)
    (hlen : old.length = R * C) (hr : r < NR) (hc : c < NC) :
    (resize_new_row old R C NR NC r)[c]?
      = if r < R ∧ c < C then old[r * C + c]?
        else some (guac_surface_tile_alloc ((c : Int) * GUAC_SURFACE_TILE_WIDTH)
          ((r : Int) * GUAC_SURFACE_TILE_HEIGHT)) := by
  obtain ⟨h1, h2, h3⟩ := resize_copied_le R C NR NC r
  have hb := (resize_slice_bound R C r _ h1 (fun h0 => (h3 h0).1)).2
  have htake : ((old.drop (r * C)).take (resize_copied R C NR NC r)).length
      = resize_copied R C NR NC r := by
    rw [List.length_take, List.length_drop, hlen]
    by_cases h0 : 0 < resize_copied R C NR NC r
    · have := hb h0
      omega
    · omega
  unfold resize_new_row
  by_cases hck : c < resize_copied R C NR NC r
  · have hrr := h3 (by omega)
    rw [if_pos ⟨hrr.1, by omega⟩, List.getElem?_append_left (by rw [htake]; exact hck),
      List.getElem?_take_of_lt hck, List.getElem?_drop]
  · have hfresh : c - resize_copied R C NR NC r < resize_fresh R C NR NC r := by
      unfold resize_fresh
      rw [if_pos hr]
      omega
    have hnot : ¬ (r < R ∧ c < C) := by
      intro hh
      unfold resize_copied at hck
      rw [if_pos ⟨hh.1, hr⟩] at hck
      omega
    rw [if_neg hnot, List.getElem?_append_right (by rw [htake]; omega), htake,
      List.getElem?_map, List.getElem?_range' _ _ hfresh]
    simp only [Nat.one_mul, Option.map_some']
    rw [show resize_copied R C NR NC r + (c - resize_copied R C NR NC r) = c by omega]

theorem slice_eq_filterMap (old : List guac_surface_tile) (a : Nat) :
    ∀ n : Nat, a + n ≤ old.length →
      (old.drop a).take n = (List.range n).filterMap (fun i => old[a + i]?) := by
  intro n
  induction n with
  | zero => intro _; simp
  | succ n ih =>
    intro h
    have hlt : a + n < old.length := by omega
    rw [List.take_succ, ih (by omega), List.range_succ, List.filterMap_append,
      List.getElem?_drop, List.getElem?_eq_getElem hlt]
    simp [List.getElem?_eq_getElem hlt]

/-- The tiles of row `r` of the old array that the resize frees are the tiles of
the columns `c` whose position `(r, c)` lies outside of the new grid. -/
theorem resize_freed_row_eq (old : List guac_surface_tile) (R C NR NC r : Nat)
    (hlen : old.length = R * C) (hr : r < R) :
    resize_freed_row old R C NR NC r
      = ((List.range C).filter (fun c => decide (¬ (r < NR ∧ c < NC)))).filterMap
          (fun c => old[r * C + c]?) := by
  have hrow : (r + 1) * C ≤ R * C := Nat.mul_le_mul_right _ hr
  rw [Nat.succ_mul] at hrow
  unfold resize_freed_row resize_dropped resize_copied
  rw [if_pos hr]
  by_cases hn : r < NR
  · rw [if_pos ⟨hr, hn⟩]
    have hfil : (List.range C).filter (fun c => decide (¬ (r < NR ∧ c < NC)))
        = (List.range C).filter (fun c => decide (NC ≤ c)) := by
      apply List.filter_congr
      intro c _
      simp only [hn, true_and, not_lt]
    rw [hfil, range_filter_ge, List.filterMap_map,
      slice_eq_filterMap old _ _ (by rw [hlen]; omega)]
    have hC : C - min C NC = C - NC := by omega
    rw [hC]
    apply List.filterMap_congr
    intro i hi
    have hi1 := List.mem_range.1 hi
    have hm : min C NC = NC := by omega
    simp only [Function.comp, hm]
    congr 1
    omega
  · rw [if_neg (fun hh => hn hh.2)]
    have hfil : (List.range C).filter (fun c => decide (¬ (r < NR ∧ c < NC))) = List.range C := by
      apply List.filter_eq_self.2
      intro c _
      simp only [hn, false_and, not_false_eq_true, decide_True]
    rw [hfil, slice_eq_filterMap old _ _ (by rw [hlen]; omega)]
    simp only [Nat.add_zero, Nat.sub_zero]

/-- What `guac_surface_resize` does at an accepted size whenever rows and columns
do not change in opposite directions (every position of the loops then lies in
the old or in the new grid): for a surface with a grid of `R` rows and `C`
columns and a new grid of `NR` rows and `NC` columns it returns 0, the new array
has `NR * NC` tiles, a position of the new grid holds the very tile of the old
array when it lies in the old grid and a fresh tile of origin `(64 c, 64 r)`
else, and the tiles freed are the old tiles whose position lies outside of the
new grid, each once, in row-major order. -/
theorem resize_spec (max_width max_height : Int) (s : guac_surface) (width height : Int)
    (R C NR NC : Nat) (hR : s.rows = (R : Int)) (hC : s.columns = (C : Int))
    (hlen : s.tiles.length = R * C)
    (hNR : (height + GUAC_SURFACE_TILE_HEIGHT - 1).tdiv GUAC_SURFACE_TILE_HEIGHT = (NR : Int))
    (hNC : (width + GUAC_SURFACE_TILE_WIDTH - 1).tdiv GUAC_SURFACE_TILE_WIDTH = (NC : Int))
    (hacc : width ≤ max_width ∧ height ≤ max_height)
    (hH : (R < NR → C ≤ NC) ∧ (NR < R → NC ≤ C)) :
    ∃ (s1 : guac_surface) (freed : List guac_surface_tile),
      guac_surface_resize max_width max_height s width height = some (0, s1, freed) ∧
      s1.rows = (NR : Int) ∧ s1.columns = (NC : Int) ∧ s1.width = width ∧ s1.height = height ∧
      s1.size_dirty = 1 ∧ s1.content_dirty = s.content_dirty ∧ s1.layer = s.layer ∧
      s1.tiles.length = NR * NC ∧
      (∀ r c : Nat, r < NR → c < NC →
        s1.tiles[r * NC + c]?
          = if r < R ∧ c < C then s.tiles[r * C + c]?
            else some (guac_surface_tile_alloc ((c : Int) * 64) ((r : Int) * 64))) ∧
      freed = (List.range R).flatMap (fun r =>
        ((List.range C).filter (fun c => decide (¬ (r < NR ∧ c < NC)))).filterMap
          (fun c => s.tiles[r * C + c]?)) := by
  have hnew : (List.range (max R NR)).flatMap (resize_new_row s.tiles R C NR NC)
      = (List.range NR).flatMap (resize_new_row s.tiles R C NR NC) := by
    have e : max R NR = NR + (max R NR - NR) := by omega
    rw [e]
    apply flatMap_range_tail_nil
    intro r hr
    apply List.eq_nil_of_length_eq_zero
    rw [resize_new_row_length _ _ _ _ _ _ hlen, if_neg (by omega)]
  have hfreed : (List.range (max R NR)).flatMap (resize_freed_row s.tiles R C NR NC)
      = (List.range R).flatMap (resize_freed_row s.tiles R C NR NC) := by
    have e : max R NR = R + (max R NR - R) := by omega
    rw [e]
    apply flatMap_range_tail_nil
    intro r hr
    unfold resize_freed_row resize_dropped
    rw [if_neg (by omega)]
    simp
  have hrows : ∀ r, r < NR → (resize_new_row s.tiles R C NR NC r).length = NC := by
    intro r hr
    rw [resize_new_row_length _ _ _ _ _ _ hlen, if_pos hr]
  refine ⟨_, _, resize_eq max_width max_height s width height R C NR NC hR hC hlen hNR hNC
    (by omega) hH, rfl, rfl, rfl, rfl, rfl, rfl, rfl, ?_, ?_, ?_⟩
  · simp only
    rw [hnew, flatMap_range_length _ NC NR hrows]
  · intro r c hr hc
    simp only
    rw [hnew, flatMap_range_getElem? _ NC NR hrows r c hr hc,
      resize_new_row_getElem? _ _ _ _ _ _ _ hlen hr hc]
  · rw [hfreed]
    apply List.flatMap_congr
    intro r hr
    exact resize_freed_row_eq _ _ _ _ _ _ hlen (List.mem_range.1 hr)

/-! ## Claims about the resize -/

/-- C11, evaluated at an accepted resize that fails: the well-formed surface of
128x64 pixels (one row of two tiles), after a draw of one pixel at (0, 0), is
resized to 64x128 pixels (two rows of one tile). Grid position (0, 0) lies in
both grids, yet the resize has no defined result: at the position (1, 1), which
lies in neither grid, the loop hands `*(old_tile++)` to `guac_surface_tile_free`
and reads entry 2 of the old array of two tiles. The example of the claim, a
64x64 surface drawn at (0, 0) and resized to 192x192, does keep its tile (0, 0),
dirty and with its pages; and so does every accepted resize in which rows and
columns do not change in opposite directions: it returns 0 and every position of
both grids holds the very tile it held before. -/
theorem guac_surface_resize_keeps_tiles :
    (∃ s : guac_surface,
      guac_surface_draw (guac_surface_alloc 7 128 64) 0 0
        { data := fun _ => 9, width := 1, height := 1, stride := 4 } = some s ∧
      s.rows = 1 ∧ s.columns = 2 ∧ s.tiles.length = 2 ∧
      ((64 : Int) ≤ 8192 ∧ (128 : Int) ≤ 8192) ∧
      guac_surface_resize 8192 8192 s 64 128 = none) ∧
    (∃ s s1 : guac_surface, ∃ freed : List guac_surface_tile,
      guac_surface_draw (guac_surface_alloc 7 64 64) 0 0
        { data := fun _ => 9, width := 1, height := 1, stride := 4 } = some s ∧
      guac_surface_resize 8192 8192 s 192 192 = some (0, s1, freed) ∧
      s1.tiles[0]? = s.tiles[0]? ∧
      (s1.tiles[0]?).map (fun t => t.dirty) = some (-9) ∧
      s1.tiles.length = 9 ∧ freed = []) ∧
    (∀ (max_width max_height : Int) (s : guac_surface) (width height : Int) (R C NR NC : Nat),
      s.rows = (R : Int) → s.columns = (C : Int) → s.tiles.length = R * C →
      (height + GUAC_SURFACE_TILE_HEIGHT - 1).tdiv GUAC_SURFACE_TILE_HEIGHT = (NR : Int) →
      (width + GUAC_SURFACE_TILE_WIDTH - 1).tdiv GUAC_SURFACE_TILE_WIDTH = (NC : Int) →
      width ≤ max_width ∧ height ≤ max_height →
      (R < NR → C ≤ NC) ∧ (NR < R → NC ≤ C) →
      ∃ (s1 : guac_surface) (freed : List guac_surface_tile),
        guac_surface_resize max_width max_height s width height = some (0, s1, freed) ∧
        ∀ r c : Nat, r < R → c < C → r < NR → c < NC →
          s1.tiles[r * NC + c]? = s.tiles[r * C + c]?) := by
  refine ⟨⟨_, rfl, rfl, rfl, rfl, ⟨by decide, by decide⟩, rfl⟩,
    ⟨_, _, _, rfl, rfl, rfl, rfl, rfl, rfl⟩, ?_⟩
  intro max_width max_height s width height R C NR NC hR hC hlen hNR hNC hacc hH
  obtain ⟨s1, freed, h1, _, _, _, _, _, _, _, _, h2, _⟩ :=
    resize_spec max_width max_height s width height R C NR NC hR hC hlen hNR hNC hacc hH
  refine ⟨s1, freed, h1, ?_⟩
  intro r c hr hc hnr hnc
  rw [h2 r c hnr hnc, if_pos ⟨hr, hc⟩]

/-- C12, evaluated at an accepted resize that reads outside of the old grid: the
well-formed surface of 64x192 pixels (three rows of one tile) is resized to
192x64 pixels (one row of three tiles). The loops run over the grid of 3x3
positions; in row 1 the position (1, 0) frees the tile of origin (0, 64), the
position (1, 1), which lies in neither grid, frees the tile of origin (0, 128),
which belongs to position (2, 0), and the position (1, 2) reads entry 3 of the
old array of three tiles: the resize has no defined result. The example of the
claim, 192x192 resized to 64x64, keeps tile (0, 0) and frees the other eight
tiles, each once. And at every accepted resize in which rows and columns do not
change in opposite directions the claim holds: the new grid has the new numbers
of rows and columns, a position of both grids keeps its tile, a position of the
new grid alone gets a fresh tile of origin `(64 c, 64 r)`, and the tiles freed
are the old tiles whose position is not in the new grid, each once. -/
theorem guac_surface_resize_union :
    ((guac_surface_alloc 7 64 192).well_formed ∧
      (guac_surface_alloc 7 64 192).rows = 3 ∧ (guac_surface_alloc 7 64 192).columns = 1 ∧
      (guac_surface_alloc 7 64 192).tiles.length = 3 ∧
      ((1 : Int) ≤ 192 ∧ (192 : Int) ≤ 8192 ∧ (1 : Int) ≤ 64 ∧ (64 : Int) ≤ 8192) ∧
      guac_surface_resize 8192 8192 (guac_surface_alloc 7 64 192) 192 64 = none ∧
      (guac_surface_resize_columns (guac_surface_alloc 7 64 192).tiles 3 1 1 3 1 2 0 1 [] []).map
        (fun r => (r.1, r.2.2.map (fun t => (t.x, t.y)))) = some (3, [(0, 64), (0, 128)]) ∧
      guac_surface_resize_columns (guac_surface_alloc 7 64 192).tiles 3 1 1 3 1 1 2 3 [] []
        = none) ∧
    (guac_surface_resize 8192 8192 (guac_surface_alloc 7 192 192) 64 64).map
      (fun r => (r.1, r.2.1.tiles.map (fun t => (t.x, t.y)), r.2.2.map (fun t => (t.x, t.y))))
      = some (0, [(0, 0)],
          [(64, 0), (128, 0), (0, 64), (64, 64), (128, 64), (0, 128), (64, 128), (128, 128)]) ∧
    (∀ (max_width max_height : Int) (s : guac_surface) (width height : Int) (R C NR NC : Nat),
      s.rows = (R : Int) → s.columns = (C : Int) → s.tiles.length = R * C →
      (height + GUAC_SURFACE_TILE_HEIGHT - 1).tdiv GUAC_SURFACE_TILE_HEIGHT = (NR : Int) →
      (width + GUAC_SURFACE_TILE_WIDTH - 1).tdiv GUAC_SURFACE_TILE_WIDTH = (NC : Int) →
      width ≤ max_width ∧ height ≤ max_height →
      (R < NR → C ≤ NC) ∧ (NR < R → NC ≤ C) →
      ∃ (s1 : guac_surface) (freed : List guac_surface_tile),
        guac_surface_resize max_width max_height s width height = some (0, s1, freed) ∧
        s1.rows = (NR : Int) ∧ s1.columns = (NC : Int) ∧ s1.tiles.length = NR * NC ∧
        (∀ r c : Nat, r < NR → c < NC →
          s1.tiles[r * NC + c]?
            = if r < R ∧ c < C then s.tiles[r * C + c]?
              else some (guac_surface_tile_alloc ((c : Int) * 64) ((r : Int) * 64))) ∧
        freed = (List.range R).flatMap (fun r =>
          ((List.range C).filter (fun c => decide (¬ (r < NR ∧ c < NC)))).filterMap
            (fun c => s.tiles[r * C + c]?))) := by
  refine ⟨⟨alloc_well_formed 7 64 192 (by decide) (by decide), rfl, rfl, rfl,
    ⟨by decide, by decide, by decide, by decide⟩, rfl, rfl, rfl⟩, rfl, ?_⟩
  intro max_width max_height s width height R C NR NC hR hC hlen hNR hNC hacc hH
  obtain ⟨s1, freed, h1, h2, h3, _, _, _, _, _, h4, h5, h6⟩ :=
    resize_spec max_width max_height s width height R C NR NC hR hC hlen hNR hNC hacc hH
  exact ⟨s1, freed, h1, h2, h3, h4, h5, h6⟩

/-- C13: `guac_surface_resize` returns a status that is not zero if and only if
`width > GUAC_SURFACE_MAX_WIDTH` or `height > GUAC_SURFACE_MAX_HEIGHT`; in that
case it returns 1 with the surface as it was and frees no tile, and whenever the
status returned is not zero the surface is as it was. -/
theorem guac_surface_resize_rejects (max_width max_height : Int) (s : guac_surface)
    (width height : Int) :
    ((∃ (status : Int) (s1 : guac_surface) (freed : List guac_surface_tile),
        guac_surface_resize max_width max_height s width height = some (status, s1, freed) ∧
          status ≠ 0) ↔
      (width > max_width ∨ height > max_height)) ∧
    (width > max_width ∨ height > max_height →
      guac_surface_resize max_width max_height s width height = some (1, s, [])) ∧
    (∀ (status : Int) (s1 : guac_surface) (freed : List guac_surface_tile),
      guac_surface_resize max_width max_height s width height = some (status, s1, freed) →
      status ≠ 0 → s1 = s ∧ freed = []) := by
  have hpos : width > max_width ∨ height > max_height →
      guac_surface_resize max_width max_height s width height = some (1, s, []) := by
    intro h
    unfold guac_surface_resize
    rw [if_pos h]
  have hneg : ∀ (status : Int) (s1 : guac_surface) (freed : List guac_surface_tile),
      guac_surface_resize max_width max_height s width height = some (status, s1, freed) →
      status ≠ 0 → width > max_width ∨ height > max_height := by
    intro status s1 freed h hne
    by_contra hc
    unfold guac_surface_resize at h
    rw [if_neg hc] at h
    simp only at h
    split at h
    · exact absurd h (by simp)
    · simp only [Option.some.injEq, Prod.mk.injEq] at h
      exact hne h.1.symm
  refine ⟨⟨?_, ?_⟩, hpos, ?_⟩
  · rintro ⟨status, s1, freed, h, hne⟩
    exact hneg status s1 freed h hne
  · intro h
    exact ⟨1, s, [], hpos h, by decide⟩
  · intro status s1 freed h hne
    have h1 := hpos (hneg status s1 freed h hne)
    rw [h1] at h
    simp only [Option.some.injEq, Prod.mk.injEq] at h
    exact ⟨h.2.1.symm, h.2.2.symm⟩

/-! ## The fold of 32 bits onto 24 bits and the whole-surface hash -/

theorem and_upper_of_lt (v : Nat) (h : v < 2 ^ 24) : v &&& 0xFF000000 = 0 := by
  apply Nat.eq_of_testBit_eq
  intro i
  rw [Nat.testBit_and, Nat.zero_testBit]
  by_cases hi : i < 24
  · have : (0xFF000000 : Nat) = 2 ^ 24 * 255 := by norm_num
    rw [this, Nat.testBit_mul_pow_two]
    simp [hi]
  · have hv : v < 2 ^ i := lt_of_lt_of_le h (Nat.pow_le_pow_right (by norm_num) (by omega))
    rw [Nat.testBit_lt_two_pow hv]
    simp

theorem and_upper_eq (v : Nat) (h : v < 2 ^ 32) : v &&& 0xFF000000 = v / 2 ^ 24 * 2 ^ 24 := by
  apply Nat.eq_of_testBit_eq
  intro i
  have e1 : (0xFF000000 : Nat) = 2 ^ 24 * (2 ^ 8 - 1) := by norm_num
  have e2 : v / 2 ^ 24 * 2 ^ 24 = 2 ^ 24 * (v >>> 24) := by
    rw [Nat.shiftRight_eq_div_pow, Nat.mul_comm]
  rw [Nat.testBit_and, e1, e2, Nat.testBit_mul_pow_two, Nat.testBit_mul_pow_two,
    Nat.testBit_two_pow_sub_one, Nat.testBit_shiftRight]
  by_cases hi : i ≥ 24
  · have e3 : 24 + (i - 24) = i := by omega
    rw [e3]
    by_cases hi2 : i < 32
    · simp [hi, show i - 24 < 8 by omega]
    · have hv : v < 2 ^ i := lt_of_lt_of_le h (Nat.pow_le_pow_right (by norm_num) (by omega))
      rw [Nat.testBit_lt_two_pow hv]
      simp
  · simp [hi]

theorem hash_32to24_lt (v : Nat) : _guac_hash_32to24 v < 2 ^ 24 := by
  unfold _guac_hash_32to24
  have hu : v &&& 0xFF000000 < 2 ^ 32 := Nat.and_lt_two_pow v (by norm_num)
  have h1 : v &&& 0xFFFFFF < 2 ^ 24 := Nat.and_lt_two_pow v (by norm_num)
  have h2 : (v &&& 0xFF000000) >>> 8 < 2 ^ 24 := by omega
  have h3 : (v &&& 0xFF000000) >>> 16 < 2 ^ 24 := by omega
  have h4 : (v &&& 0xFF000000) >>> 24 < 2 ^ 24 := by omega
  exact Nat.xor_lt_two_pow (Nat.xor_lt_two_pow (Nat.xor_lt_two_pow h1 h2) h3) h4

/-- C21: `_guac_hash_32to24` maps every value below `2 ^ 24` onto itself
(`0x00ABCDEF` onto `0x00ABCDEF`); for every 32-bit value `v`, with `hi` the
value of its highest byte in place (`v & 0xFF000000`, that is `v / 2 ^ 24` times
`2 ^ 24`), the result is the lower three bytes XOR `hi >> 8` XOR `hi >> 16` XOR
`hi >> 24`, the shifts being divisions by powers of two; the result is below
`2 ^ 24` (`0x12345678` maps onto
`0x345678 XOR 0x120000 XOR 0x001200 XOR 0x000012`). -/
theorem guac_hash_32to24_fold :
    (∀ v : Nat, v < 2 ^ 24 → _guac_hash_32to24 v = v) ∧
    (∀ v : Nat, v < 2 ^ 32 →
      v &&& 0xFF000000 = v / 2 ^ 24 * 2 ^ 24 ∧
      _guac_hash_32to24 v
        = (v &&& 0xFFFFFF) ^^^ ((v &&& 0xFF000000) >>> 8) ^^^ ((v &&& 0xFF000000) >>> 16)
            ^^^ ((v &&& 0xFF000000) >>> 24) ∧
      _guac_hash_32to24 v
        = (v % 2 ^ 24) ^^^ (v / 2 ^ 24 * 2 ^ 16) ^^^ (v / 2 ^ 24 * 2 ^ 8) ^^^ (v / 2 ^ 24) ∧
      _guac_hash_32to24 v < 2 ^ 24) ∧
    _guac_hash_32to24 0x00ABCDEF = 0x00ABCDEF ∧
    _guac_hash_32to24 0x12345678 = 0x345678 ^^^ 0x120000 ^^^ 0x001200 ^^^ 0x000012 := by
  refine ⟨?_, ?_, by decide, by decide⟩
  · intro v hv
    unfold _guac_hash_32to24
    have e : (0xFFFFFF : Nat) = 2 ^ 24 - 1 := by norm_num
    simp only [and_upper_of_lt v hv, Nat.zero_shiftRight, Nat.xor_zero]
    rw [e, Nat.and_pow_two_sub_one_eq_mod, Nat.mod_eq_of_lt hv]
  · intro v hv
    refine ⟨and_upper_eq v hv, rfl, ?_, hash_32to24_lt v⟩
    unfold _guac_hash_32to24
    have e : (0xFFFFFF : Nat) = 2 ^ 24 - 1 := by norm_num
    simp only [and_upper_eq v hv]
    rw [e, Nat.and_pow_two_sub_one_eq_mod]
    have s1 : (v / 2 ^ 24 * 2 ^ 24) >>> 8 = v / 2 ^ 24 * 2 ^ 16 := by omega
    have s2 : (v / 2 ^ 24 * 2 ^ 24) >>> 16 = v / 2 ^ 24 * 2 ^ 8 := by omega
    have s3 : (v / 2 ^ 24 * 2 ^ 24) >>> 24 = v / 2 ^ 24 := by omega
    rw [s1, s2, s3]

theorem rotate_one_eq (v : Nat) (h : v < 2 ^ 32) : _guac_rotate v 1 = rotate_right_32 v := by
  have e1 : Int.land 1 0x1F = 1 := by decide
  unfold _guac_rotate rotate_right_32
  simp only [e1]
  have e2 : (1 : Int).toNat = 1 := rfl
  have e3 : ((32 : Int) - 1).toNat = 31 := rfl
  rw [e2, e3]
  have hs : (v <<< 31) % 2 ^ 32 = 2 ^ 31 * (v % 2) := by omega
  have hb : v >>> 1 < 2 ^ 31 := by omega
  rw [hs, Nat.or_comm, ← Nat.mul_add_lt_is_or hb]
  omega

theorem rotate_right_32_lt (v : Nat) (h : v < 2 ^ 32) : rotate_right_32 v < 2 ^ 32 := by
  unfold rotate_right_32
  omega

theorem read_uint32_lt (data : Mem) (offset : Int) : read_uint32 data offset < 2 ^ 32 := by
  unfold read_uint32
  exact Nat.mod_lt _ (by norm_num)

theorem hash_surface_step_lt (acc pixel : Nat) (ha : acc < 2 ^ 32) (hp : pixel < 2 ^ 32) :
    rotate_right_32 acc ^^^ pixel ^^^ 0x1B872E69 < 2 ^ 32 :=
  Nat.xor_lt_two_pow (Nat.xor_lt_two_pow (rotate_right_32_lt acc ha) hp) (by norm_num)

theorem hash_surface_foldl_lt (pixels : List Nat) (hp : ∀ p ∈ pixels, p < 2 ^ 32) :
    ∀ acc : Nat, acc < 2 ^ 32 →
      pixels.foldl (fun acc pixel => rotate_right_32 acc ^^^ pixel ^^^ 0x1B872E69) acc
        < 2 ^ 32 := by
  induction pixels with
  | nil => intro acc h; exact h
  | cons p rest ih =>
    intro acc h
    rw [List.foldl_cons]
    exact ih (fun q hq => hp q (List.mem_cons_of_mem _ hq)) _
      (hash_surface_step_lt acc p h (hp p (List.mem_cons_self _ _)))

/-- The inner loop of `guac_hash_surface` folds the pixels of the row. -/
theorem hash_surface_columns_eq (data : Mem) (n : Nat) :
    ∀ (row : Int) (hash_value : Nat), hash_value < 2 ^ 32 →
      guac_hash_surface_columns data n row hash_value
        = ((List.range n).map (fun x : Nat => read_uint32 data (row + 4 * (x : Int)))).foldl
            (fun acc pixel => rotate_right_32 acc ^^^ pixel ^^^ 0x1B872E69) hash_value := by
  induction n with
  | zero => intro row hash_value _; rfl
  | succ n ih =>
    intro row hash_value h
    unfold guac_hash_surface_columns
    simp only
    rw [rotate_one_eq hash_value h,
      ih (row + 4) _ (hash_surface_step_lt hash_value _ h (read_uint32_lt data row)),
      List.range_succ_eq_map, List.map_cons, List.map_map, List.foldl_cons]
    simp only [Nat.cast_zero, mul_zero, add_zero]
    congr 2
    funext x
    simp only [Function.comp, Nat.cast_succ]
    congr 1
    ring

theorem hash_surface_row_pixels_lt (data : Mem) (n : Nat) (row : Int) :
    ∀ p ∈ (List.range n).map (fun x : Nat => read_uint32 data (row + 4 * (x : Int))),
      p < 2 ^ 32 := by
  intro p hp
  obtain ⟨x, _, rfl⟩ := List.mem_map.1 hp
  exact read_uint32_lt _ _

/-- The outer loop of `guac_hash_surface` folds the pixels of the rows. -/
theorem hash_surface_rows_eq (data : Mem) (width stride : Int) (n : Nat) :
    ∀ (y0 : Nat) (hash_value : Nat), hash_value < 2 ^ 32 →
      guac_hash_surface_rows data width stride n ((y0 : Int) * stride) hash_value
        = ((List.range' y0 n).flatMap (fun y : Nat =>
            (List.range width.toNat).map (fun x : Nat =>
              read_uint32 data ((y : Int) * stride + 4 * (x : Int))))).foldl
            (fun acc pixel => rotate_right_32 acc ^^^ pixel ^^^ 0x1B872E69) hash_value := by
  induction n with
  | zero => intro y0 hash_value _; rfl
  | succ n ih =>
    intro y0 hash_value h
    unfold guac_hash_surface_rows
    have e : (y0 : Int) * stride + stride = ((y0 + 1 : Nat) : Int) * stride := by
      push_cast; ring
    rw [hash_surface_columns_eq data _ _ _ h, e, ih (y0 + 1) _
      (hash_surface_foldl_lt _ (hash_surface_row_pixels_lt data _ _) _ h),
      List.range'_succ, List.flatMap_cons, List.foldl_append]

theorem hash_surface_eq (img : cairo_surface_t) :
    guac_hash_surface img = _guac_hash_32to24 (hash_surface_fold (image_pixels img)) := by
  unfold guac_hash_surface hash_surface_fold image_pixels
  have h := hash_surface_rows_eq img.data img.width img.stride img.height.toNat 0 0
    (by norm_num)
  simp only [Nat.cast_zero, zero_mul] at h
  rw [h]
  simp only [List.range_eq_range']

theorem read_uint32_congr (a b : Mem) (pa pb : Int)
    (h : ∀ i : Int, 0 ≤ i → i < 4 → a (pa + i) = b (pb + i)) :
    read_uint32 a pa = read_uint32 b pb := by
  unfold read_uint32
  have h0 := h 0 (by decide) (by decide)
  have h1 := h 1 (by decide) (by decide)
  have h2 := h 2 (by decide) (by decide)
  have h3 := h 3 (by decide) (by decide)
  simp only [add_zero] at h0
  rw [h0, h1, h2, h3]

/-- C22: `guac_hash_surface` is `_guac_hash_32to24` of the reference fold: from
`acc = 0`, for every pixel in row-major order (the 32-bit pixel at byte offset
`y * stride + 4 x`), `acc <- rotate_right_32(acc, 1) XOR pixel XOR 0x1B872E69`.
The result is below `2 ^ 24`; two images of the same width and height whose rows
hold the same first `width * 4` bytes have the same hash, whatever their strides
and the bytes beyond `width * 4` are; and the hash of an image with no pixels is
0. -/
theorem guac_hash_surface_is_fold :
    (∀ img : cairo_surface_t,
      guac_hash_surface img = _guac_hash_32to24 (hash_surface_fold (image_pixels img)) ∧
      guac_hash_surface img < 2 ^ 24) ∧
    (∀ a b : cairo_surface_t, a.width = b.width → a.height = b.height →
      (∀ y j : Int, 0 ≤ y → y < a.height → 0 ≤ j → j < a.width * 4 →
        a.data (y * a.stride + j) = b.data (y * b.stride + j)) →
      guac_hash_surface a = guac_hash_surface b) ∧
    (∀ img : cairo_surface_t, img.width ≤ 0 ∨ img.height ≤ 0 → guac_hash_surface img = 0) := by
  refine ⟨fun img => ⟨hash_surface_eq img, ?_⟩, ?_, ?_⟩
  · rw [hash_surface_eq]
    exact hash_32to24_lt _
  · intro a b hw hh hbytes
    rw [hash_surface_eq, hash_surface_eq]
    have hp : image_pixels a = image_pixels b := by
      unfold image_pixels
      rw [← hw, ← hh]
      apply List.flatMap_congr
      intro y hy
      apply List.map_congr_left
      intro x hx
      have hy1 := List.mem_range.1 hy
      have hx1 := List.mem_range.1 hx
      apply read_uint32_congr
      intro i hi0 hi1
      have := hbytes (y : Int) (4 * (x : Int) + i) (by omega) (by omega) (by omega) (by omega)
      rw [add_assoc, add_assoc]
      exact this
    rw [hp]
  · intro img h
    rw [hash_surface_eq]
    have hp : image_pixels img = [] := by
      unfold image_pixels
      rcases h with h | h
      · have e : img.width.toNat = 0 := by omega
        rw [e]
        simp
      · have e : img.height.toNat = 0 := by omega
        rw [e]
        simp
    rw [hp]
    decide

/-- C29: for every 64x64 needle and every haystack of width at most 4096 (of any
height), `guac_hash_search_image` returns 0 or 1; it returns 1 if and only if
some valid position of the haystack holds a byte-exact copy of the needle, and
then `(found_x, found_y)` is a position that holds a copy and no position that
holds one comes before it in row-major order (smaller `y`, or the same `y` and a
smaller `x`). The enumeration of the needle hands exactly one hash to its
callback, the one that `guac_hash_assign_value` stores, and every call of the
enumeration of the haystack for a position that holds a copy of the needle
carries this hash. -/
theorem guac_hash_search_image_iff (haystack_data : Mem)
    (haystack_width haystack_height haystack_stride : Int)
    (needle_data : Mem) (needle_stride : Int) (found_x found_y : Int)
    (hW : haystack_width ≤ 4096) :
    (∃ r X Y : Int,
      guac_hash_search_image haystack_data haystack_width haystack_height haystack_stride
        needle_data 64 64 needle_stride found_x found_y = some (r, X, Y) ∧ (r = 0 ∨ r = 1)) ∧
    ((∃ X Y : Int,
        guac_hash_search_image haystack_data haystack_width haystack_height haystack_stride
          needle_data 64 64 needle_stride found_x found_y = some (1, X, Y)) ↔
      ∃ X Y : Int, valid_position haystack_width haystack_height 64 64 X Y ∧
        needle_at haystack_data haystack_stride needle_data 64 64 needle_stride X Y) ∧
    (∀ X Y : Int,
      guac_hash_search_image haystack_data haystack_width haystack_height haystack_stride
        needle_data 64 64 needle_stride found_x found_y = some (1, X, Y) →
      valid_position haystack_width haystack_height 64 64 X Y ∧
      needle_at haystack_data haystack_stride needle_data 64 64 needle_stride X Y ∧
      ∀ X1 Y1 : Int, valid_position haystack_width haystack_height 64 64 X1 Y1 →
        needle_at haystack_data haystack_stride needle_data 64 64 needle_stride X1 Y1 →
        ¬ row_major_before (X1, Y1) (X, Y)) ∧
    (∃ value : Nat,
      guac_hash_foreach_image_rect needle_data 64 64 needle_stride 64 64 record_call []
        = some (0, [(0, 0, value)]) ∧
      guac_hash_foreach_image_rect needle_data 64 64 needle_stride 64 64
        guac_hash_assign_value 0 = some (1, value) ∧
      ∃ calls : List (Int × Int × Nat),
        guac_hash_foreach_image_rect haystack_data haystack_width haystack_height
          haystack_stride 64 64 record_call [] = some (0, calls) ∧
        ∀ (X Y : Int) (hash : Nat), (X, Y, hash) ∈ calls →
          needle_at haystack_data haystack_stride needle_data 64 64 needle_stride X Y →
          hash = value) := by
  have hspec := search_spec haystack_data haystack_width haystack_height haystack_stride
    needle_data needle_stride found_x found_y hW
  refine ⟨?_, ?_, ?_, ?_⟩
  · rcases hspec with ⟨h1, _⟩ | ⟨X, Y, h1, _⟩
    · exact ⟨0, found_x, found_y, h1, Or.inl rfl⟩
    · exact ⟨1, X, Y, h1, Or.inr rfl⟩
  · rcases hspec with ⟨h1, h2⟩ | ⟨X, Y, h1, h2, h3, _⟩
    · constructor
      · rintro ⟨X, Y, h⟩
        rw [h1] at h
        simp only [Option.some.injEq, Prod.mk.injEq] at h
        exact absurd h.1 (by decide)
      · rintro ⟨X, Y, hv, hc⟩
        exact absurd hc (h2 X Y hv)
    · exact ⟨fun _ => ⟨X, Y, h2, h3⟩, fun _ => ⟨X, Y, h1⟩⟩
  · intro X Y h
    rcases hspec with ⟨h1, _⟩ | ⟨X0, Y0, h1, h2, h3, h4⟩
    · rw [h1] at h
      simp only [Option.some.injEq, Prod.mk.injEq] at h
      exact absurd h.1 (by decide)
    · rw [h1] at h
      simp only [Option.some.injEq, Prod.mk.injEq, true_and] at h
      obtain ⟨rfl, rfl⟩ := h
      refine ⟨h2, h3, ?_⟩
      intro X1 Y1 hv hc hbefore
      unfold row_major_before at hbefore
      rcases h4 X1 Y1 hv hc with ⟨e1, e2⟩ | hb
      · simp only [e1, e2] at hbefore
        omega
      · unfold row_major_before at hb
        simp only at hb hbefore
        omega
  · refine ⟨rect_hash needle_data needle_stride 0 0, ?_, ?_, _,
      foreach_record haystack_data haystack_width haystack_height haystack_stride hW, ?_⟩
    · rw [foreach_record needle_data 64 64 needle_stride (by decide), rect_enumeration_single]
    · rw [foreach_eq needle_data 64 64 needle_stride guac_hash_assign_value 0 (by decide),
        rect_enumeration_single]
      rfl
    · intro X Y hash hmem hc
      obtain ⟨X0, Y0, _, _, e⟩ := (rect_enumeration_mem _ _ _ _ _).1 hmem
      simp only [Prod.mk.injEq] at e
      obtain ⟨rfl, rfl, rfl⟩ := e
      exact needle_at_hash _ _ _ _ _ _ hc

/-- Witness of C29: a 64x64 haystack of zero bytes holds the 64x64 needle of
zero bytes, and the search returns 1. -/
theorem guac_hash_search_image_iff_witness :
    ∃ X Y : Int,
      guac_hash_search_image (fun _ => 0) 64 64 256 (fun _ => 0) 64 64 256 (-7) (-8)
        = some (1, X, Y) :=
  (guac_hash_search_image_iff (fun _ => 0) 64 64 256 (fun _ => 0) 256 (-7) (-8)
    (by decide)).2.1.2 ⟨0, 0, by unfold valid_position; decide, fun _ _ _ _ _ _ => rfl⟩

/-! ## The histories of a tile -/

/-- The new page after a put, pixel by pixel of the tile: the source byte inside
of the source rectangle, the byte that was there outside of it. -/
theorem tile_put_new_page (t : guac_surface_tile) (x y : Int) (buffer : Mem)
    (width height stride : Int) (dx dy k : Int)
    (hdx : 0 ≤ dx ∧ dx < 64) (hdy : 0 ≤ dy ∧ dy < 64) (hk : 0 ≤ k ∧ k < 4) :
    (guac_surface_tile_page (guac_surface_tile_put t x y buffer width height stride)
        t.current_page).pixel_byte dx dy k
      = if x ≤ t.x + dx ∧ t.x + dx < x + width ∧ y ≤ t.y + dy ∧ t.y + dy < y + height then
          buffer ((t.y + dy - y) * stride + (t.x + dx - x) * 4 + k)
        else (guac_surface_tile_page t t.current_page).pixel_byte dx dy k := by
  split_ifs with h
  · have := tile_put_new_page_in t x y buffer width height stride (t.x + dx) (t.y + dy) k
      ⟨h.1, h.2.1⟩ ⟨h.2.2.1, h.2.2.2⟩ ⟨by omega, by omega⟩ ⟨by omega, by omega⟩ hk
    rw [show t.x + dx - t.x = dx by ring, show t.y + dy - t.y = dy by ring] at this
    exact this
  · exact tile_put_new_page_out t x y buffer width height stride dx dy k hdx hdy hk h

theorem tile_alloc_consistent (x y : Int) : (guac_surface_tile_alloc x y).consistent := by
  intro _ dx dy k _ _ _
  rfl

/-- A put that leaves the tile clean has written, on a tile with identical
pages, the bytes of the old page: the pages are identical afterwards. -/
theorem tile_put_consistent (t : guac_surface_tile) (x y : Int) (buffer : Mem)
    (width height stride : Int) (ht : t.consistent) :
    (guac_surface_tile_put t x y buffer width height stride).consistent := by
  intro hclean dx dy k hdx hdy hk
  have hiff := tile_put_dirty_iff t x y buffer width height stride
  have hno : ¬ (t.dirty ≠ 0 ∨ ∃ px py k : Int,
      (x ≤ px ∧ px < x + width) ∧ (y ≤ py ∧ py < y + height) ∧
      (t.x ≤ px ∧ px < t.x + 64) ∧ (t.y ≤ py ∧ py < t.y + 64) ∧
      (0 ≤ k ∧ k < 4) ∧
      buffer ((py - y) * stride + (px - x) * 4 + k) ≠
        (guac_surface_tile_page t (1 - t.current_page)).pixel_byte
          (px - t.x) (py - t.y) k) := fun h => (hiff.2 h) hclean
  have hd : t.dirty = 0 := by
    by_contra h
    exact hno (Or.inl h)
  have hid := ht hd dx dy k hdx hdy hk
  rw [tile_put_current_page, tile_put_old_page t x y buffer width height stride dx dy k hdx hk,
    tile_put_new_page t x y buffer width height stride dx dy k hdx hdy hk]
  split_ifs with h
  · by_contra hne
    apply hno
    refine Or.inr ⟨t.x + dx, t.y + dy, k, ⟨h.1, h.2.1⟩, ⟨h.2.2.1, h.2.2.2⟩,
      ⟨by omega, by omega⟩, ⟨by omega, by omega⟩, hk, ?_⟩
    rw [show t.x + dx - t.x = dx by ring, show t.y + dy - t.y = dy by ring]
    exact fun e => hne e.symm
  · exact hid

/-- After a flush the two pages are identical. -/
theorem tile_flush_identical (t : guac_surface_tile) (layer : Nat) (ht : t.consistent) :
    (guac_surface_tile_flush t layer).1.pages_identical := by
  by_cases hd : t.dirty = 0
  · rw [tile_flush_clean t layer hd]
    exact ht hd
  · intro dx dy k hdx hdy hk
    rw [tile_flush_dirty_fst t layer hd]
    simp only
    rw [show (1 : Int) - (1 - t.current_page) = t.current_page by ring]
    have h1 := tile_flush_rows_page t t.current_page dx dy k (Or.inl rfl) hdx hdy hk
    have h2 := tile_flush_rows_page t (1 - t.current_page) dx dy k (Or.inr rfl) hdx hdy hk
    have e1 : ∀ page : Int,
        (guac_surface_tile_page
          { x := t.x, y := t.y, dirty := 0, current_page := 1 - t.current_page,
            buffer := t.synced_buffer } page).pixel_byte dx dy k
        = (guac_surface_tile_page { t with buffer := t.synced_buffer } page).pixel_byte
            dx dy k := fun _ => rfl
    rw [e1, e1, h1, h2]

theorem tile_flush_consistent (t : guac_surface_tile) (layer : Nat) (ht : t.consistent) :
    (guac_surface_tile_flush t layer).1.consistent :=
  fun _ => tile_flush_identical t layer ht

theorem tile_reachable_consistent (t : guac_surface_tile) (sent : List guac_instruction)
    (h : t.reachable sent) : t.consistent := by
  induction h with
  | alloc x y => exact tile_alloc_consistent x y
  | put t sent x y buffer width height stride _ ih =>
    exact tile_put_consistent t x y buffer width height stride ih
  | flush t sent layer _ ih => exact tile_flush_consistent t layer ih

/-- C30: in every tile state reached from `guac_surface_tile_alloc` by calls of
put and flush, a clear dirty flag implies that the old page and the new page
hold the same bytes over the whole 64x64 tile. -/
theorem guac_surface_tile_clean_pages (t : guac_surface_tile) (sent : List guac_instruction)
    (h : t.reachable sent) (hclean : t.dirty = 0) :
    ∀ dx dy k : Int, 0 ≤ dx ∧ dx < 64 → 0 ≤ dy ∧ dy < 64 → 0 ≤ k ∧ k < 4 →
      (guac_surface_tile_page t (1 - t.current_page)).pixel_byte dx dy k
        = (guac_surface_tile_page t t.current_page).pixel_byte dx dy k :=
  tile_reachable_consistent t sent h hclean

/-- Witness of C30: the tile at the origin after a put of one pixel of bytes 9
and a flush. -/
theorem guac_surface_tile_clean_pages_witness :
    guac_surface_tile.pages_identical
      (guac_surface_tile_flush
        (guac_surface_tile_put (guac_surface_tile_alloc 0 0) 0 0 (fun _ => 9) 1 1 4) 7).1 :=
  guac_surface_tile_clean_pages _ _
    (guac_surface_tile.reachable.flush _ _ 7
      (guac_surface_tile.reachable.put _ _ 0 0 (fun _ => 9) 1 1 4
        (guac_surface_tile.reachable.alloc 0 0)))
    (tile_flush_fst_dirty _ 7)

/-- Counterexample to C24 as stated: on a fresh tile a put of one pixel of bytes
9 at (0, 0) followed by a put of one pixel of bytes 0 at (0, 0) gives a tile
whose dirty flag is set although the old page and the new page hold the same
bytes everywhere: a put tests the pages only while the flag is clear, and only a
flush clears the flag. -/
theorem guac_surface_tile_dirty_sticky :
    guac_surface_tile.reachable
      (guac_surface_tile_put
        (guac_surface_tile_put (guac_surface_tile_alloc 0 0) 0 0 (fun _ => 9) 1 1 4)
        0 0 (fun _ => 0) 1 1 4) [] ∧
    (guac_surface_tile_put
        (guac_surface_tile_put (guac_surface_tile_alloc 0 0) 0 0 (fun _ => 9) 1 1 4)
        0 0 (fun _ => 0) 1 1 4).dirty = -9 ∧
    guac_surface_tile.pages_identical
      (guac_surface_tile_put
        (guac_surface_tile_put (guac_surface_tile_alloc 0 0) 0 0 (fun _ => 9) 1 1 4)
        0 0 (fun _ => 0) 1 1 4) := by
  refine ⟨guac_surface_tile.reachable.put _ _ 0 0 (fun _ => 0) 1 1 4
    (guac_surface_tile.reachable.put _ _ 0 0 (fun _ => 9) 1 1 4
      (guac_surface_tile.reachable.alloc 0 0)), rfl, ?_⟩
  intro dx dy k hdx hdy hk
  have e : (guac_surface_tile_put (guac_surface_tile_alloc 0 0) 0 0 (fun _ => 9) 1 1 4).current_page
      = (guac_surface_tile_alloc 0 0).current_page := tile_put_current_page _ _ _ _ _ _ _
  have ho := tile_put_old_page
    (guac_surface_tile_put (guac_surface_tile_alloc 0 0) 0 0 (fun _ => 9) 1 1 4)
    0 0 (fun _ => 0) 1 1 4 dx dy k hdx hk
  have hn := tile_put_new_page
    (guac_surface_tile_put (guac_surface_tile_alloc 0 0) 0 0 (fun _ => 9) 1 1 4)
    0 0 (fun _ => 0) 1 1 4 dx dy k hdx hdy hk
  have h2 := tile_put_new_page (guac_surface_tile_alloc 0 0) 0 0 (fun _ => 9) 1 1 4 dx dy k
    hdx hdy hk
  have h3 := tile_put_old_page (guac_surface_tile_alloc 0 0) 0 0 (fun _ => 9) 1 1 4 dx dy k
    hdx hk
  rw [e] at ho hn
  rw [tile_put_x, tile_put_y] at hn
  rw [tile_put_current_page, tile_put_current_page, ho, h3, hn]
  split_ifs with hin
  · rfl
  · rw [h2, if_neg hin]
    rfl

/-- C24, amended: in every tile state reached from `guac_surface_tile_alloc` by
calls of put and flush, the dirty flag is set whenever there is a byte at which
the old page and the new page differ; and a put on such a tile whose flag is
clear sets the flag if and only if the pages differ afterwards. -/
theorem guac_surface_tile_dirty_covers (t : guac_surface_tile) (sent : List guac_instruction)
    (h : t.reachable sent) :
    ((∃ dx dy k : Int, (0 ≤ dx ∧ dx < 64) ∧ (0 ≤ dy ∧ dy < 64) ∧ (0 ≤ k ∧ k < 4) ∧
        (guac_surface_tile_page t (1 - t.current_page)).pixel_byte dx dy k
          ≠ (guac_surface_tile_page t t.current_page).pixel_byte dx dy k) →
      t.dirty ≠ 0) ∧
    (t.dirty = 0 → ∀ (x y : Int) (buffer : Mem) (width height stride : Int),
      ((guac_surface_tile_put t x y buffer width height stride).dirty ≠ 0 ↔
        ∃ dx dy k : Int, (0 ≤ dx ∧ dx < 64) ∧ (0 ≤ dy ∧ dy < 64) ∧ (0 ≤ k ∧ k < 4) ∧
          (guac_surface_tile_page (guac_surface_tile_put t x y buffer width height stride)
              (1 - t.current_page)).pixel_byte dx dy k
            ≠ (guac_surface_tile_page (guac_surface_tile_put t x y buffer width height stride)
              t.current_page).pixel_byte dx dy k)) := by
  have hc := tile_reachable_consistent t sent h
  constructor
  · rintro ⟨dx, dy, k, hdx, hdy, hk, hne⟩ hd
    exact hne (hc hd dx dy k hdx hdy hk)
  · intro hd x y buffer width height stride
    have hcp := tile_reachable_consistent _ _
      (guac_surface_tile.reachable.put t sent x y buffer width height stride h)
    constructor
    · intro hdirty
      obtain h0 | ⟨px, py, k, hx, hy, htx, hty, hk, hne⟩ :=
        (tile_put_dirty_iff t x y buffer width height stride).1 hdirty
      · exact absurd hd h0
      · refine ⟨px - t.x, py - t.y, k, ⟨by omega, by omega⟩, ⟨by omega, by omega⟩, hk, ?_⟩
        rw [tile_put_old_page t x y buffer width height stride _ _ k ⟨by omega, by omega⟩ hk,
          tile_put_new_page t x y buffer width height stride _ _ k ⟨by omega, by omega⟩
            ⟨by omega, by omega⟩ hk,
          if_pos ⟨by omega, by omega, by omega, by omega⟩]
        rw [show t.y + (py - t.y) - y = py - y by ring,
          show t.x + (px - t.x) - x = px - x by ring]
        exact fun e => hne e.symm
    · rintro ⟨dx, dy, k, hdx, hdy, hk, hne⟩ hclean
      apply hne
      have := hcp hclean dx dy k hdx hdy hk
      rw [tile_put_current_page] at this
      exact this

/-- Witness of C24: a put of one pixel of bytes 9 on a fresh tile sets the dirty
flag. -/
theorem guac_surface_tile_dirty_covers_witness :
    (guac_surface_tile_put (guac_surface_tile_alloc 0 0) 0 0 (fun _ => 9) 1 1 4).dirty ≠ 0 :=
  (guac_surface_tile_dirty_covers
      (guac_surface_tile_put (guac_surface_tile_alloc 0 0) 0 0 (fun _ => 9) 1 1 4) []
      (guac_surface_tile.reachable.put _ _ 0 0 (fun _ => 9) 1 1 4
        (guac_surface_tile.reachable.alloc 0 0))).1
    ⟨0, 0, 0, by decide, by decide, by decide, by decide⟩

/-- What the flushes have sent for a tile, against its old page: when nothing was
sent the old page holds zero bytes, and otherwise the last instruction sent is a
PNG with the operator over at the origin of the tile that shows the old page. -/
theorem tile_reachable_old_page (t : guac_surface_tile) (sent : List guac_instruction)
    (h : t.reachable sent) :
    (sent = [] → ∀ dx dy k : Int, 0 ≤ dx ∧ dx < 64 → 0 ≤ dy ∧ dy < 64 → 0 ≤ k ∧ k < 4 →
      (guac_surface_tile_page t (1 - t.current_page)).pixel_byte dx dy k = 0) ∧
    (∀ i : guac_instruction, sent.getLast? = some i →
      ∃ (layer : Nat) (img : cairo_surface_t),
        i = guac_instruction.png guac_composite_mode.GUAC_COMP_OVER layer t.x t.y img ∧
        (guac_surface_tile_page t (1 - t.current_page)).same_picture img) := by
  induction h with
  | alloc x y =>
    exact ⟨fun _ _ _ _ _ _ _ => rfl, fun i hi => by simp at hi⟩
  | put t sent x y buffer width height stride _ ih =>
    rw [tile_put_current_page, tile_put_x, tile_put_y]
    constructor
    · intro hs dx dy k hdx hdy hk
      rw [tile_put_old_page t x y buffer width height stride dx dy k hdx hk]
      exact ih.1 hs dx dy k hdx hdy hk
    · intro i hi
      obtain ⟨layer, img, e, hsame⟩ := ih.2 i hi
      refine ⟨layer, img, e, hsame.1, hsame.2.1, ?_⟩
      intro px py k hpx hpy hk
      rw [tile_put_old_page t x y buffer width height stride px py k hpx hk]
      exact hsame.2.2 px py k hpx hpy hk
  | flush t sent layer _ ih =>
    by_cases hd : t.dirty = 0
    · rw [tile_flush_clean t layer hd]
      simp only [List.append_nil]
      exact ih
    · rw [tile_flush_dirty_snd t layer hd, tile_flush_dirty_fst t layer hd]
      constructor
      · intro hs
        simp at hs
      · intro i hi
        simp only [List.getLast?_append, List.getLast?_singleton, Option.or_some,
          Option.some.injEq] at hi
        refine ⟨layer, _, hi.symm, rfl, rfl, ?_⟩
        intro px py k _ _ _
        simp only
        rw [show (1 : Int) - (1 - t.current_page) = t.current_page by ring]
        rfl

/-- C23: in every tile state reached from `guac_surface_tile_alloc` by calls of
put and flush, `guac_surface_tile_dup` sends one PNG with the operator over at
`(tile.x, tile.y)` that shows the old page (page `1 - current_page`), and this
picture is, byte for byte, the picture of the last PNG that a flush has sent for
the tile, which was sent with the same operator at the same position, whatever
was put since; it is all zero when no flush has sent a PNG. The function
`guac_surface_tile_dup` writes to no member of the tile: it has the instruction
as its only result. -/
theorem guac_surface_tile_dup_shows_last_flush (t : guac_surface_tile)
    (sent : List guac_instruction) (layer : Nat) (h : t.reachable sent) :
    guac_surface_tile_dup t layer
      = guac_instruction.png guac_composite_mode.GUAC_COMP_OVER layer t.x t.y
          (guac_surface_tile_page t (1 - t.current_page)) ∧
    (sent = [] → ∀ dx dy k : Int, 0 ≤ dx ∧ dx < 64 → 0 ≤ dy ∧ dy < 64 → 0 ≤ k ∧ k < 4 →
      (guac_surface_tile_page t (1 - t.current_page)).pixel_byte dx dy k = 0) ∧
    (∀ i : guac_instruction, sent.getLast? = some i →
      ∃ (layer1 : Nat) (img : cairo_surface_t),
        i = guac_instruction.png guac_composite_mode.GUAC_COMP_OVER layer1 t.x t.y img ∧
        (guac_surface_tile_page t (1 - t.current_page)).same_picture img) :=
  ⟨rfl, (tile_reachable_old_page t sent h).1, (tile_reachable_old_page t sent h).2⟩

/-- Witness of C23: a fresh tile, one pixel of bytes 9 put at (0, 0), a flush,
then one pixel of bytes 5 put at (0, 0): the old page still shows the picture
that the flush has sent. -/
theorem guac_surface_tile_dup_shows_last_flush_witness :
    ∃ (layer1 : Nat) (img : cairo_surface_t),
      (guac_surface_tile_flush
        (guac_surface_tile_put (guac_surface_tile_alloc 0 0) 0 0 (fun _ => 9) 1 1 4) 7).2
        = [guac_instruction.png guac_composite_mode.GUAC_COMP_OVER layer1 0 0 img] ∧
      img.pixel_byte 0 0 0 = 9 ∧
      (guac_surface_tile_page
        (guac_surface_tile_put
          (guac_surface_tile_flush
            (guac_surface_tile_put (guac_surface_tile_alloc 0 0) 0 0 (fun _ => 9) 1 1 4) 7).1
          0 0 (fun _ => 5) 1 1 4) 0).same_picture img := by
  obtain ⟨_, _, h3⟩ := guac_surface_tile_dup_shows_last_flush
    (guac_surface_tile_put
      (guac_surface_tile_flush
        (guac_surface_tile_put (guac_surface_tile_alloc 0 0) 0 0 (fun _ => 9) 1 1 4) 7).1
      0 0 (fun _ => 5) 1 1 4)
    ([] ++ (guac_surface_tile_flush
        (guac_surface_tile_put (guac_surface_tile_alloc 0 0) 0 0 (fun _ => 9) 1 1 4) 7).2) 3
    (guac_surface_tile.reachable.put _ _ 0 0 (fun _ => 5) 1 1 4
      (guac_surface_tile.reachable.flush _ _ 7
        (guac_surface_tile.reachable.put _ _ 0 0 (fun _ => 9) 1 1 4
          (guac_surface_tile.reachable.alloc 0 0))))
  obtain ⟨layer1, img, e, hsame⟩ := h3 _ rfl
  refine ⟨layer1, img, ?_, ?_, hsame⟩
  · exact congrArg (fun i => [i]) e
  · injection e with _ _ _ _ e5
    rw [← e5]
    rfl

/-! ## What holds of every tile of a surface -/

theorem draw_columns_forall (P : guac_surface_tile → Prop) (x y : Int) (buffer : Mem)
    (width height stride : Int)
    (hput : ∀ t, P t → P (guac_surface_tile_put t x y buffer width height stride)) (n : Nat) :
    ∀ (current : Int) (tiles tiles1 : List guac_surface_tile),
    guac_surface_draw_columns x y buffer width height stride n current tiles = some tiles1 →
    (∀ t ∈ tiles, P t) → ∀ t ∈ tiles1, P t := by
  induction n with
  | zero =>
    intro current tiles tiles1 h hP
    simp only [guac_surface_draw_columns, Option.some.injEq] at h
    rw [← h]; exact hP
  | succ n ih =>
    intro current tiles tiles1 h hP
    unfold guac_surface_draw_columns at h
    split at h
    · exact absurd h (by simp)
    · split at h
      · exact absurd h (by simp)
      · rename_i t0 ht0
        refine ih _ _ _ h ?_
        intro t ht
        rcases List.mem_or_eq_of_mem_set ht with h1 | h1
        · exact hP t h1
        · rw [h1]
          exact hput t0 (hP t0 (List.getElem?_mem ht0))

theorem draw_rows_forall (P : guac_surface_tile → Prop) (x y : Int) (buffer : Mem)
    (width height stride columns : Int) (count : Nat)
    (hput : ∀ t, P t → P (guac_surface_tile_put t x y buffer width height stride)) (n : Nat) :
    ∀ (current : Int) (tiles tiles1 : List guac_surface_tile),
    guac_surface_draw_rows x y buffer width height stride columns count n current tiles
      = some tiles1 →
    (∀ t ∈ tiles, P t) → ∀ t ∈ tiles1, P t := by
  induction n with
  | zero =>
    intro current tiles tiles1 h hP
    simp only [guac_surface_draw_rows, Option.some.injEq] at h
    rw [← h]; exact hP
  | succ n ih =>
    intro current tiles tiles1 h hP
    unfold guac_surface_draw_rows at h
    split at h
    · exact absurd h (by simp)
    · rename_i tiles0 h0
      exact ih _ _ _ h (draw_columns_forall P x y buffer width height stride hput _ _ _ _ h0 hP)

/-- A property of tiles that a put keeps holds of every tile after a draw when
it held of every tile before. -/
theorem surface_draw_forall (P : guac_surface_tile → Prop) (s s1 : guac_surface) (x y : Int)
    (src : cairo_surface_t)
    (hput : ∀ t, P t → P (guac_surface_tile_put t x y src.data src.width src.height src.stride))
    (h : guac_surface_draw s x y src = some s1) (hP : ∀ t ∈ s.tiles, P t) :
    ∀ t ∈ s1.tiles, P t := by
  unfold guac_surface_draw at h
  split at h
  · simp only [Option.some.injEq] at h
    rw [← h]; exact hP
  · simp only at h
    split at h
    · exact absurd h (by simp)
    · rename_i tiles0 h0
      simp only [Option.some.injEq] at h
      rw [← h]
      exact draw_rows_forall P x y _ _ _ _ _ _ hput _ _ _ _ h0 hP

theorem surface_draw_flags (s s1 : guac_surface) (x y : Int) (src : cairo_surface_t)
    (h : guac_surface_draw s x y src = some s1) :
    s1.size_dirty = s.size_dirty ∧ s1.layer = s.layer := by
  unfold guac_surface_draw at h
  split at h
  · simp only [Option.some.injEq] at h
    rw [← h]
    exact ⟨rfl, rfl⟩
  · simp only at h
    split at h
    · exact absurd h (by simp)
    · simp only [Option.some.injEq] at h
      rw [← h]
      exact ⟨rfl, rfl⟩

theorem flush_columns_forall (P : guac_surface_tile → Prop) (layer : Nat)
    (hflush : ∀ t, P t → P (guac_surface_tile_flush t layer).1) (n : Nat) :
    ∀ (current : Nat) (tiles : List guac_surface_tile) (out : List guac_instruction)
      (r : Nat × List guac_surface_tile × List guac_instruction),
    guac_surface_flush_columns layer n current tiles out = some r →
    (∀ t ∈ tiles, P t) → ∀ t ∈ r.2.1, P t := by
  induction n with
  | zero =>
    intro current tiles out r h hP
    simp only [guac_surface_flush_columns, Option.some.injEq] at h
    rw [← h]; exact hP
  | succ n ih =>
    intro current tiles out r h hP
    unfold guac_surface_flush_columns at h
    split at h
    · exact absurd h (by simp)
    · rename_i t0 ht0
      refine ih _ _ _ _ h ?_
      intro t ht
      rcases List.mem_or_eq_of_mem_set ht with h1 | h1
      · exact hP t h1
      · rw [h1]
        exact hflush t0 (hP t0 (List.getElem?_mem ht0))

theorem flush_rows_forall (P : guac_surface_tile → Prop) (layer columns : Nat)
    (hflush : ∀ t, P t → P (guac_surface_tile_flush t layer).1) (n : Nat) :
    ∀ (current : Nat) (tiles : List guac_surface_tile) (out : List guac_instruction)
      (r : Nat × List guac_surface_tile × List guac_instruction),
    guac_surface_flush_rows layer columns n current tiles out = some r →
    (∀ t ∈ tiles, P t) → ∀ t ∈ r.2.1, P t := by
  induction n with
  | zero =>
    intro current tiles out r h hP
    simp only [guac_surface_flush_rows, Option.some.injEq] at h
    rw [← h]; exact hP
  | succ n ih =>
    intro current tiles out r h hP
    unfold guac_surface_flush_rows at h
    split at h
    · exact absurd h (by simp)
    · rename_i c1 t1 o1 h0
      exact ih _ _ _ _ h (flush_columns_forall P layer hflush _ _ _ _ _ h0 hP)

/-- A property of tiles that a flush of a tile keeps holds of every tile after a
flush of the surface when it held of every tile before. -/
theorem surface_flush_forall (P : guac_surface_tile → Prop) (s s1 : guac_surface)
    (out : List guac_instruction)
    (hflush : ∀ t, P t → P (guac_surface_tile_flush t s.layer).1)
    (h : guac_surface_flush s = some (s1, out)) (hP : ∀ t ∈ s.tiles, P t) :
    ∀ t ∈ s1.tiles, P t := by
  unfold guac_surface_flush at h
  simp only at h
  by_cases hs : s.size_dirty ≠ 0
  · simp only [if_pos hs] at h
    split at h
    · split at h
      · exact absurd h (by simp)
      · rename_i c1 t1 o1 h0
        simp only [Option.some.injEq, Prod.mk.injEq] at h
        rw [← h.1]
        exact flush_rows_forall P _ _ hflush _ _ _ _ _ h0 hP
    · simp only [Option.some.injEq, Prod.mk.injEq] at h
      rw [← h.1]; exact hP
  · simp only [if_neg hs] at h
    split at h
    · split at h
      · exact absurd h (by simp)
      · rename_i c1 t1 o1 h0
        simp only [Option.some.injEq, Prod.mk.injEq] at h
        rw [← h.1]
        exact flush_rows_forall P _ _ hflush _ _ _ _ _ h0 hP
    · simp only [Option.some.injEq, Prod.mk.injEq] at h
      rw [← h.1]; exact hP

theorem alloc_columns_forall (P : guac_surface_tile → Prop)
    (halloc : ∀ x y, P (guac_surface_tile_alloc x y)) (row : Int) (n : Nat) :
    ∀ column : Int, ∀ t ∈ guac_surface_alloc_columns row n column, P t := by
  induction n with
  | zero => intro column t ht; simp [guac_surface_alloc_columns] at ht
  | succ n ih =>
    intro column t ht
    unfold guac_surface_alloc_columns at ht
    rcases List.mem_cons.1 ht with h1 | h1
    · rw [h1]; exact halloc _ _
    · exact ih _ t h1

theorem alloc_rows_forall (P : guac_surface_tile → Prop)
    (halloc : ∀ x y, P (guac_surface_tile_alloc x y)) (columns : Int) (n : Nat) :
    ∀ row : Int, ∀ t ∈ guac_surface_alloc_rows columns n row, P t := by
  induction n with
  | zero => intro row t ht; simp [guac_surface_alloc_rows] at ht
  | succ n ih =>
    intro row t ht
    unfold guac_surface_alloc_rows at ht
    rcases List.mem_append.1 ht with h1 | h1
    · exact alloc_columns_forall P halloc _ _ _ t h1
    · exact ih _ t h1

theorem resize_columns_forall (P : guac_surface_tile → Prop)
    (halloc : ∀ x y, P (guac_surface_tile_alloc x y)) (old : List guac_surface_tile)
    (hold : ∀ t ∈ old, P t) (old_rows old_columns new_rows new_columns row : Int) (n : Nat) :
    ∀ (column : Int) (old_tile : Nat) (new_tiles freed : List guac_surface_tile)
      (r : Nat × List guac_surface_tile × List guac_surface_tile),
    guac_surface_resize_columns old old_rows old_columns new_rows new_columns row
      n column old_tile new_tiles freed = some r →
    (∀ t ∈ new_tiles, P t) → ∀ t ∈ r.2.1, P t := by
  induction n with
  | zero =>
    intro column old_tile new_tiles freed r h hP
    simp only [guac_surface_resize_columns, Option.some.injEq] at h
    rw [← h]; exact hP
  | succ n ih =>
    intro column old_tile new_tiles freed r h hP
    unfold guac_surface_resize_columns at h
    split at h
    · split at h
      · split at h
        · exact absurd h (by simp)
        · rename_i t0 ht0
          refine ih _ _ _ _ _ h ?_
          intro t ht
          rcases List.mem_append.1 ht with h1 | h1
          · exact hP t h1
          · rw [List.mem_singleton.1 h1]
            exact hold t0 (List.getElem?_mem ht0)
      · refine ih _ _ _ _ _ h ?_
        intro t ht
        rcases List.mem_append.1 ht with h1 | h1
        · exact hP t h1
        · rw [List.mem_singleton.1 h1]
          exact halloc _ _
    · split at h
      · exact absurd h (by simp)
      · exact ih _ _ _ _ _ h hP

theorem resize_rows_forall (P : guac_surface_tile → Prop)
    (halloc : ∀ x y, P (guac_surface_tile_alloc x y)) (old : List guac_surface_tile)
    (hold : ∀ t ∈ old, P t) (old_rows old_columns new_rows new_columns : Int)
    (max_columns : Nat) (n : Nat) :
    ∀ (row : Int) (old_tile : Nat) (new_tiles freed : List guac_surface_tile)
      (r : Nat × List guac_surface_tile × List guac_surface_tile),
    guac_surface_resize_rows old old_rows old_columns new_rows new_columns max_columns
      n row old_tile new_tiles freed = some r →
    (∀ t ∈ new_tiles, P t) → ∀ t ∈ r.2.1, P t := by
  induction n with
  | zero =>
    intro row old_tile new_tiles freed r h hP
    simp only [guac_surface_resize_rows, Option.some.injEq] at h
    rw [← h]; exact hP
  | succ n ih =>
    intro row old_tile new_tiles freed r h hP
    unfold guac_surface_resize_rows at h
    split at h
    · exact absurd h (by simp)
    · rename_i o1 n1 f1 h0
      exact ih _ _ _ _ _ h
        (resize_columns_forall P halloc old hold _ _ _ _ _ _ _ _ _ _ _ h0 hP)

/-- A property of tiles that holds of every fresh tile holds of every tile after
a resize when it held of every tile before. -/
theorem surface_resize_forall (P : guac_surface_tile → Prop)
    (halloc : ∀ x y, P (guac_surface_tile_alloc x y)) (max_width max_height : Int)
    (s s1 : guac_surface) (width height status : Int) (freed : List guac_surface_tile)
    (h : guac_surface_resize max_width max_height s width height = some (status, s1, freed))
    (hP : ∀ t ∈ s.tiles, P t) : ∀ t ∈ s1.tiles, P t := by
  unfold guac_surface_resize at h
  split at h
  · simp only [Option.some.injEq, Prod.mk.injEq] at h
    rw [← h.2.1]; exact hP
  · simp only at h
    split at h
    · exact absurd h (by simp)
    · rename_i o1 n1 f1 h0
      simp only [Option.some.injEq, Prod.mk.injEq] at h
      rw [← h.2.1]
      exact resize_rows_forall P halloc s.tiles hP _ _ _ _ _ _ _ _ _ _ _ h0
        (fun t ht => by simp at ht)

/-- In every surface reached from `guac_surface_alloc`, every clean tile has
identical pages. -/
theorem reachable_consistent (max_width max_height : Int) (s : guac_surface)
    (h : s.reachable max_width max_height) : ∀ t ∈ s.tiles, t.consistent := by
  induction h with
  | alloc layer width height =>
    exact alloc_rows_forall _ tile_alloc_consistent _ _ _
  | resize s s1 width height status freed _ hr ih =>
    exact surface_resize_forall _ tile_alloc_consistent _ _ _ _ _ _ _ _ hr ih
  | draw s s1 x y src _ hd ih =>
    exact surface_draw_forall _ _ _ _ _ _ (fun t ht => tile_put_consistent t _ _ _ _ _ _ ht) hd ih
  | flush s s1 out _ hf ih =>
    exact surface_flush_forall _ _ _ _ (fun t ht => tile_flush_consistent t _ ht) hf ih

/-! ## Two flushes in succession, and the size of a surface -/

theorem surface_flush_flags (s s1 : guac_surface) (out : List guac_instruction)
    (h : guac_surface_flush s = some (s1, out)) :
    s1.size_dirty = 0 ∧ s1.content_dirty = 0 ∧ s1.width = s.width ∧ s1.height = s.height := by
  unfold guac_surface_flush at h
  simp only at h
  by_cases hs : s.size_dirty ≠ 0
  · simp only [if_pos hs] at h
    split at h
    · split at h
      · exact absurd h (by simp)
      · simp only [Option.some.injEq, Prod.mk.injEq] at h
        rw [← h.1]
        exact ⟨rfl, rfl, rfl, rfl⟩
    · rename_i hc
      simp only [Option.some.injEq, Prod.mk.injEq] at h
      rw [← h.1]
      exact ⟨rfl, by simpa using hc, rfl, rfl⟩
  · simp only [if_neg hs] at h
    split at h
    · split at h
      · exact absurd h (by simp)
      · simp only [Option.some.injEq, Prod.mk.injEq] at h
        rw [← h.1]
        exact ⟨by simpa using hs, rfl, rfl, rfl⟩
    · rename_i hc
      simp only [Option.some.injEq, Prod.mk.injEq] at h
      rw [← h.1]
      exact ⟨by simpa using hs, by simpa using hc, rfl, rfl⟩

theorem surface_flush_of_clean (s : guac_surface) (h1 : s.size_dirty = 0)
    (h2 : s.content_dirty = 0) : guac_surface_flush s = some (s, []) := by
  unfold guac_surface_flush
  simp only [h1, h2, ne_eq, not_true_eq_false, if_false]

/-- C26: whenever a flush of a surface returns, a second flush right after it
returns as well, sends no instruction at all and leaves the surface as the first
flush has left it; the first flush returns on every surface whose tile array has
`rows * columns` tiles; and on a freshly allocated surface the first flush sends
the size instruction and nothing else, so that the two flushes together send
exactly one size instruction. -/
theorem guac_surface_flush_twice :
    (∀ (s s1 : guac_surface) (out1 : List guac_instruction),
      guac_surface_flush s = some (s1, out1) → guac_surface_flush s1 = some (s1, [])) ∧
    (∀ s : guac_surface, s.tiles.length = s.rows.toNat * s.columns.toNat →
      ∃ (s1 : guac_surface) (out1 : List guac_instruction),
        guac_surface_flush s = some (s1, out1)) ∧
    (∀ (layer : Nat) (width height : Int),
      ∃ s1 : guac_surface,
        guac_surface_flush (guac_surface_alloc layer width height)
          = some (s1, [guac_instruction.size layer width height]) ∧
        guac_surface_flush s1 = some (s1, [])) := by
  refine ⟨?_, ?_, ?_⟩
  · intro s s1 out1 h
    obtain ⟨h1, h2, _, _⟩ := surface_flush_flags s s1 out1 h
    exact surface_flush_of_clean s1 h1 h2
  · intro s hlen
    exact ⟨_, _, surface_flush_eq s hlen⟩
  · intro layer width height
    exact ⟨_, rfl, rfl⟩

theorem surface_resize_size (max_width max_height : Int) (s s1 : guac_surface)
    (width height status : Int) (freed : List guac_surface_tile)
    (h : guac_surface_resize max_width max_height s width height = some (status, s1, freed)) :
    s1 = s ∨ (s1.width = width ∧ s1.height = height ∧ width ≤ max_width ∧
      height ≤ max_height) := by
  unfold guac_surface_resize at h
  split at h
  · simp only [Option.some.injEq, Prod.mk.injEq] at h
    exact Or.inl h.2.1.symm
  · rename_i hc
    simp only at h
    split at h
    · exact absurd h (by simp)
    · simp only [Option.some.injEq, Prod.mk.injEq] at h
      rw [← h.2.1]
      exact Or.inr ⟨rfl, rfl, by omega, by omega⟩

theorem surface_draw_size (s s1 : guac_surface) (x y : Int) (src : cairo_surface_t)
    (h : guac_surface_draw s x y src = some s1) :
    s1.width = s.width ∧ s1.height = s.height := by
  unfold guac_surface_draw at h
  split at h
  · simp only [Option.some.injEq] at h
    rw [← h]
    exact ⟨rfl, rfl⟩
  · simp only at h
    split at h
    · exact absurd h (by simp)
    · simp only [Option.some.injEq] at h
      rw [← h]
      exact ⟨rfl, rfl⟩

/-- Counterexample to C27 as stated: the surface allocated with 64x64 pixels and
limits of 8192, resized to width 0 and height 0, is a surface obtained from
`guac_surface_alloc` by a call of resize that returns 0, and its width and
height are 0: `guac_surface_resize` tests its arguments against the limits only
and stores them. -/
theorem guac_surface_resize_to_zero :
    ∃ (s1 : guac_surface) (freed : List guac_surface_tile),
      guac_surface_resize 8192 8192 (guac_surface_alloc 7 64 64) 0 0 = some (0, s1, freed) ∧
      guac_surface.obtained 8192 8192 (fun _ _ => True) s1 ∧
      s1.width = 0 ∧ s1.height = 0 :=
  ⟨_, _, rfl,
    guac_surface.obtained.resize _ _ 0 0 0 _
      (guac_surface.obtained.alloc 7 64 64 (by decide) (by decide) (by decide) (by decide))
      trivial rfl,
    rfl, rfl⟩

/-- C27, amended: every surface obtained from `guac_surface_alloc` with
`1 <= W <= GUAC_SURFACE_MAX_WIDTH` and `1 <= H <= GUAC_SURFACE_MAX_HEIGHT` by
calls of resize, draw and flush with arbitrary integer arguments has
`width <= GUAC_SURFACE_MAX_WIDTH` and `height <= GUAC_SURFACE_MAX_HEIGHT`; when
every call of resize is given a width and a height of at least 1 it has
`1 <= width` and `1 <= height` as well. -/
theorem guac_surface_size_within_limits (max_width max_height : Int) :
    (∀ s : guac_surface, guac_surface.obtained max_width max_height (fun _ _ => True) s →
      s.width ≤ max_width ∧ s.height ≤ max_height) ∧
    (∀ s : guac_surface,
      guac_surface.obtained max_width max_height (fun w h => 1 ≤ w ∧ 1 ≤ h) s →
      1 ≤ s.width ∧ s.width ≤ max_width ∧ 1 ≤ s.height ∧ s.height ≤ max_height) := by
  constructor
  · intro s h
    induction h with
    | alloc layer width height _ h2 _ h4 => exact ⟨h2, h4⟩
    | resize s s1 width height status freed _ _ hres ih =>
      rcases surface_resize_size _ _ _ _ _ _ _ _ hres with e | ⟨e1, e2, e3, e4⟩
      · rw [e]; exact ih
      · rw [e1, e2]; exact ⟨e3, e4⟩
    | draw s s1 x y src _ hd ih =>
      obtain ⟨e1, e2⟩ := surface_draw_size _ _ _ _ _ hd
      rw [e1, e2]; exact ih
    | flush s s1 out _ hf ih =>
      obtain ⟨_, _, e1, e2⟩ := surface_flush_flags _ _ _ hf
      rw [e1, e2]; exact ih
  · intro s h
    induction h with
    | alloc layer width height h1 h2 h3 h4 => exact ⟨h1, h2, h3, h4⟩
    | resize s s1 width height status freed _ hsz hres ih =>
      rcases surface_resize_size _ _ _ _ _ _ _ _ hres with e | ⟨e1, e2, e3, e4⟩
      · rw [e]; exact ih
      · rw [e1, e2]; exact ⟨hsz.1, e3, hsz.2, e4⟩
    | draw s s1 x y src _ hd ih =>
      obtain ⟨e1, e2⟩ := surface_draw_size _ _ _ _ _ hd
      rw [e1, e2]; exact ih
    | flush s s1 out _ hf ih =>
      obtain ⟨_, _, e1, e2⟩ := surface_flush_flags _ _ _ hf
      rw [e1, e2]; exact ih

/-! ## Draws that write what the new pages hold -/

/-- A put that writes the bytes of the new page leaves the new page as it is. -/
theorem tile_put_redundant_new_page (t : guac_surface_tile) (x y : Int) (src : cairo_surface_t)
    (hr : t.put_redundant x y src) (dx dy k : Int)
    (hdx : 0 ≤ dx ∧ dx < 64) (hdy : 0 ≤ dy ∧ dy < 64) (hk : 0 ≤ k ∧ k < 4) :
    (guac_surface_tile_page
        (guac_surface_tile_put t x y src.data src.width src.height src.stride)
        t.current_page).pixel_byte dx dy k
      = (guac_surface_tile_page t t.current_page).pixel_byte dx dy k := by
  rw [tile_put_new_page t x y src.data src.width src.height src.stride dx dy k hdx hdy hk]
  split_ifs with h
  · have := hr (t.x + dx) (t.y + dy) k ⟨h.1, h.2.1, h.2.2.1, h.2.2.2⟩
      ⟨by omega, by omega, by omega, by omega⟩ hk
    rw [show t.x + dx - t.x = dx by ring, show t.y + dy - t.y = dy by ring] at this
    exact this
  · rfl

/-- A clean tile with identical pages stays so under a put that writes the bytes
of its new page, and the same put would again write the bytes of the new page. -/
theorem tile_put_redundant_keeps (t : guac_surface_tile) (x y : Int) (src : cairo_surface_t)
    (h : t.dirty = 0 ∧ t.pages_identical ∧ t.put_redundant x y src) :
    (guac_surface_tile_put t x y src.data src.width src.height src.stride).dirty = 0 ∧
    (guac_surface_tile_put t x y src.data src.width src.height src.stride).pages_identical ∧
    (guac_surface_tile_put t x y src.data src.width src.height src.stride).put_redundant
      x y src := by
  obtain ⟨hd, hid, hr⟩ := h
  have hpages : guac_surface_tile.pages_identical
      (guac_surface_tile_put t x y src.data src.width src.height src.stride) := by
    intro dx dy k hdx hdy hk
    rw [tile_put_current_page,
      tile_put_old_page t x y src.data src.width src.height src.stride dx dy k hdx hk,
      tile_put_redundant_new_page t x y src hr dx dy k hdx hdy hk]
    exact hid dx dy k hdx hdy hk
  refine ⟨?_, hpages, ?_⟩
  · by_contra hne
    rcases (tile_put_dirty_iff t x y src.data src.width src.height src.stride).1 hne with
      h0 | ⟨px, py, k, hx, hy, htx, hty, hk, hdiff⟩
    · exact h0 hd
    · apply hdiff
      have h1 := hr px py k ⟨hx.1, hx.2, hy.1, hy.2⟩ ⟨htx.1, htx.2, hty.1, hty.2⟩ hk
      have h2 := hid (px - t.x) (py - t.y) k ⟨by omega, by omega⟩ ⟨by omega, by omega⟩ hk
      rw [h2]
      exact h1
  · intro px py k hin htile hk
    rw [tile_put_x, tile_put_y] at htile
    rw [tile_put_x, tile_put_y, tile_put_current_page]
    unfold in_rect at htile
    rw [tile_put_redundant_new_page t x y src hr _ _ k ⟨by omega, by omega⟩
      ⟨by omega, by omega⟩ hk]
    exact hr px py k hin htile hk

/-- Draws that write what the new pages hold keep every tile clean with
identical pages, and change neither the layout nor the size flag. -/
theorem redundant_draws_keep (s s1 : guac_surface) (h : s.redundant_draws s1)
    (hl : s.layout) (hP : ∀ t ∈ s.tiles, t.dirty = 0 ∧ t.pages_identical) :
    s1.layout ∧ (∀ t ∈ s1.tiles, t.dirty = 0 ∧ t.pages_identical) ∧
      s1.size_dirty = s.size_dirty ∧ s1.layer = s.layer ∧ s1.width = s.width ∧
      s1.height = s.height := by
  induction h with
  | none => exact ⟨hl, hP, rfl, rfl, rfl, rfl⟩
  | draw s1 s2 x y src _ hred hd ih =>
    obtain ⟨hl1, hP1, e1, e2, e3, e4⟩ := ih
    have hall := surface_draw_forall
      (fun t => t.dirty = 0 ∧ t.pages_identical ∧ t.put_redundant x y src) s1 s2 x y src
      (fun t ht => tile_put_redundant_keeps t x y src ht) hd
      (fun t ht => ⟨(hP1 t ht).1, (hP1 t ht).2, hred t ht⟩)
    obtain ⟨f1, f2⟩ := surface_draw_flags s1 s2 x y src hd
    obtain ⟨f3, f4⟩ := surface_draw_size s1 s2 x y src hd
    exact ⟨draw_layout s1 s2 x y src hl1 hd, fun t ht => ⟨(hall t ht).1, (hall t ht).2.1⟩,
      by rw [f1, e1], by rw [f2, e2], by rw [f3, e3], by rw [f4, e4]⟩

/-- Counterexample to C25 as stated: the surface of 64x64 pixels on which one
pixel of bytes 9 was drawn at (0, 0) and not flushed; a draw of the same pixel at
(0, 0) writes the bytes that the new page of the tile holds, and the flush that
follows sends the size instruction and a PNG: the tile was dirty before the
draws. -/
theorem guac_surface_redundant_draw_on_dirty :
    ∃ (s s1 s2 : guac_surface) (png : guac_instruction),
      guac_surface_draw (guac_surface_alloc 7 64 64) 0 0
        { data := fun _ => 9, width := 1, height := 1, stride := 4 } = some s ∧
      guac_surface.reachable 8192 8192 s ∧
      (∀ t ∈ s.tiles, t.put_redundant 0 0
        { data := fun _ => 9, width := 1, height := 1, stride := 4 }) ∧
      guac_surface_draw s 0 0
        { data := fun _ => 9, width := 1, height := 1, stride := 4 } = some s1 ∧
      guac_surface_flush s1 = some (s2, [guac_instruction.size 7 64 64, png]) ∧
      png.is_png = true := by
  refine ⟨_, _, _, _, rfl,
    guac_surface.reachable.draw _ _ 0 0
      { data := fun _ => 9, width := 1, height := 1, stride := 4 }
      (guac_surface.reachable.alloc 7 64 64) rfl,
    ?_, rfl, rfl, rfl⟩
  intro t ht
  have e : t = guac_surface_tile_put (guac_surface_tile_alloc 0 0) 0 0 (fun _ => 9) 1 1 4 := by
    have hl : (guac_surface_alloc 7 64 64).tiles = [guac_surface_tile_alloc 0 0] := rfl
    have : ∀ t0 ∈ [guac_surface_tile_put (guac_surface_tile_alloc 0 0) 0 0 (fun _ => 9) 1 1 4],
        t0 = guac_surface_tile_put (guac_surface_tile_alloc 0 0) 0 0 (fun _ => 9) 1 1 4 := by
      intro t0 h0
      exact List.mem_singleton.1 h0
    exact this t ht
  rw [e]
  intro px py k hin htile hk
  rw [tile_put_x, tile_put_y, tile_put_current_page]
  unfold in_rect at hin htile
  have := tile_put_new_page_in (guac_surface_tile_alloc 0 0) 0 0 (fun _ => 9) 1 1 4 px py k
    ⟨hin.1, hin.2.1⟩ ⟨hin.2.2.1, hin.2.2.2⟩ ⟨htile.1, htile.2.1⟩ ⟨htile.2.2.1, htile.2.2.2⟩ hk
  rw [this]
  rfl

/-- C25, amended: for every surface reached from `guac_surface_alloc` by calls
of resize, draw and flush whose tiles are all clean, and every sequence of calls
of `guac_surface_draw` that return, each of which writes on every tile the bytes
that the new page of the tile holds at that time, a flush that follows returns
and sends no PNG: it sends the size instruction when the surface is size-dirty
and nothing else. -/
theorem guac_surface_redundant_draws_silent (max_width max_height : Int) (s s1 : guac_surface)
    (hreach : s.reachable max_width max_height) (hclean : ∀ t ∈ s.tiles, t.dirty = 0)
    (hdraws : s.redundant_draws s1) :
    ∃ s2 : guac_surface,
      guac_surface_flush s1
        = some (s2, if s.size_dirty ≠ 0 then [guac_instruction.size s.layer s.width s.height]
            else []) ∧
      (∀ t ∈ s2.tiles, t.dirty = 0) := by
  have hcons := reachable_consistent max_width max_height s hreach
  obtain ⟨hl, hP, e1, e2, e3, e4⟩ := redundant_draws_keep s s1 hdraws
    (reachable_layout max_width max_height s hreach)
    (fun t ht => ⟨hclean t ht, hcons t ht (hclean t ht)⟩)
  have hf := surface_flush_eq s1 hl.2.2
  have hclean1 : ∀ t ∈ s1.tiles, t.dirty = 0 := fun t ht => (hP t ht).1
  rw [tiles_flush_clean s1.layer s1.tiles hclean1] at hf
  rw [e1, e2, e3, e4] at hf
  simp only [ite_self, List.append_nil] at hf
  refine ⟨_, hf, ?_⟩
  intro t ht
  simp only at ht
  split_ifs at ht with hc
  · obtain ⟨t0, _, rfl⟩ := List.mem_map.1 ht
    exact tile_flush_fst_dirty t0 s.layer
  · exact hclean1 t ht

/-- Witness of C25: a fresh surface of 64x64 pixels after a flush, then a draw of
one pixel of zero bytes at (0, 0), which is what the new page holds: the flush
that follows sends nothing. -/
theorem guac_surface_redundant_draws_silent_witness :
    ∃ (s s1 s2 : guac_surface) (out : List guac_instruction),
      guac_surface_flush (guac_surface_alloc 7 64 64) = some (s, out) ∧
      guac_surface_draw s 0 0 { data := fun _ => 0, width := 1, height := 1, stride := 4 }
        = some s1 ∧
      guac_surface_flush s1 = some (s2, []) := by
  obtain ⟨s2, h, _⟩ := guac_surface_redundant_draws_silent 8192 8192 _ _
    (guac_surface.reachable.flush _ _ _ (guac_surface.reachable.alloc 7 64 64) rfl)
    (by
      intro t ht
      have : t = guac_surface_tile_alloc 0 0 := List.mem_singleton.1 ht
      rw [this]
      rfl)
    (guac_surface.redundant_draws.draw _ _ _ 0 0
      { data := fun _ => 0, width := 1, height := 1, stride := 4 }
      (guac_surface.redundant_draws.none _)
      (by
        intro t ht
        have : t = guac_surface_tile_alloc 0 0 := List.mem_singleton.1 ht
        rw [this]
        intro px py k _ _ _
        rfl)
      rfl)
  exact ⟨_, _, s2, _, rfl, rfl, h⟩

/-! ## The mutex discipline -/

theorem mutex_discipline_accesses (l rest : List guac_surface_event)
    (h : ∀ e ∈ l, e.is_access = true) :
    mutex_discipline true (l ++ rest) = mutex_discipline true rest := by
  induction l with
  | nil => rfl
  | cons e l ih =>
    have he := h e (List.mem_cons_self _ _)
    have ih1 := ih (fun e1 h1 => h e1 (List.mem_cons_of_mem _ h1))
    cases e with
    | mutex_lock => exact absurd he (by decide)
    | mutex_unlock => exact absurd he (by decide)
    | read member => simp [mutex_discipline, ih1]
    | write member => simp [mutex_discipline, ih1]
    | tile_access => simp [mutex_discipline, ih1]

theorem count_accesses (l : List guac_surface_event) (h : ∀ e ∈ l, e.is_access = true) :
    l.count guac_surface_event.mutex_lock = 0 ∧ l.count guac_surface_event.mutex_unlock = 0 := by
  constructor
  · apply List.count_eq_zero.2
    intro hmem
    exact absurd (h _ hmem) (by decide)
  · apply List.count_eq_zero.2
    intro hmem
    exact absurd (h _ hmem) (by decide)

theorem resize_columns_events_accesses (old_rows old_columns new_rows new_columns row : Int)
    (n : Nat) : ∀ column : Int,
    ∀ e ∈ guac_surface_resize_columns_events old_rows old_columns new_rows new_columns row
      n column, e.is_access = true := by
  induction n with
  | zero => intro column e he; simp [guac_surface_resize_columns_events] at he
  | succ n ih =>
    intro column e he
    unfold guac_surface_resize_columns_events at he
    have hhead : ∀ e ∈ (if row < new_rows ∧ column < new_columns then
        [guac_surface_event.read guac_surface_member.rows]
          ++ (if row < old_rows then [guac_surface_event.read guac_surface_member.columns]
              else [])
          ++ (if row < old_rows ∧ column < old_columns then [guac_surface_event.tile_access]
              else [])
        else [guac_surface_event.tile_access]), e.is_access = true := by
      split_ifs <;> decide
    rcases List.mem_append.1 he with h1 | h1
    · exact hhead e h1
    · exact ih _ e h1

theorem resize_rows_events_accesses (old_rows old_columns new_rows new_columns : Int)
    (max_columns n : Nat) : ∀ row : Int,
    ∀ e ∈ guac_surface_resize_rows_events old_rows old_columns new_rows new_columns
      max_columns n row, e.is_access = true := by
  induction n with
  | zero => intro row e he; simp [guac_surface_resize_rows_events] at he
  | succ n ih =>
    intro row e he
    unfold guac_surface_resize_rows_events at he
    rcases List.mem_append.1 he with h1 | h1
    · exact resize_columns_events_accesses _ _ _ _ _ _ _ e h1
    · exact ih _ e h1

theorem draw_columns_events_accesses (n : Nat) :
    ∀ e ∈ guac_surface_draw_columns_events n, e.is_access = true := by
  induction n with
  | zero => intro e he; simp [guac_surface_draw_columns_events] at he
  | succ n ih =>
    intro e he
    unfold guac_surface_draw_columns_events at he
    rcases List.mem_cons.1 he with h1 | h1
    · rw [h1]; rfl
    · exact ih e h1

theorem draw_rows_events_accesses (count n : Nat) :
    ∀ e ∈ guac_surface_draw_rows_events count n, e.is_access = true := by
  induction n with
  | zero => intro e he; simp [guac_surface_draw_rows_events] at he
  | succ n ih =>
    intro e he
    unfold guac_surface_draw_rows_events at he
    rcases List.mem_cons.1 he with h1 | h1
    · rw [h1]; rfl
    · rcases List.mem_append.1 h1 with h2 | h2
      · exact draw_columns_events_accesses _ e h2
      · exact ih e h2

theorem flush_columns_events_accesses (n : Nat) :
    ∀ e ∈ guac_surface_flush_columns_events n, e.is_access = true := by
  induction n with
  | zero =>
    intro e he
    simp only [guac_surface_flush_columns_events, List.mem_singleton] at he
    rw [he]; rfl
  | succ n ih =>
    intro e he
    unfold guac_surface_flush_columns_events at he
    rcases List.mem_append.1 he with h1 | h1
    · simp only [List.mem_cons, List.mem_singleton, List.not_mem_nil, or_false] at h1
      rcases h1 with h1 | h1 | h1 | h1 | h1 <;> (rw [h1]; rfl)
    · exact ih e h1

theorem flush_rows_events_accesses (columns n : Nat) :
    ∀ e ∈ guac_surface_flush_rows_events columns n, e.is_access = true := by
  induction n with
  | zero =>
    intro e he
    simp only [guac_surface_flush_rows_events, List.mem_singleton] at he
    rw [he]; rfl
  | succ n ih =>
    intro e he
    unfold guac_surface_flush_rows_events at he
    rcases List.mem_cons.1 he with h1 | h1
    · rw [h1]; rfl
    · rcases List.mem_append.1 h1 with h2 | h2
      · exact flush_columns_events_accesses _ e h2
      · exact ih e h2

theorem accesses_append (a b : List guac_surface_event)
    (ha : ∀ e ∈ a, e.is_access = true) (hb : ∀ e ∈ b, e.is_access = true) :
    ∀ e ∈ a ++ b, e.is_access = true := by
  intro e he
  rcases List.mem_append.1 he with h | h
  · exact ha e h
  · exact hb e h

theorem mutex_discipline_append (a b : List guac_surface_event) :
    ∀ held : Bool, mutex_discipline held (a ++ b)
      = (mutex_discipline held a).bind (fun held1 => mutex_discipline held1 b) := by
  induction a with
  | nil => intro held; rfl
  | cons e a ih =>
    intro held
    cases e with
    | mutex_lock =>
      simp only [List.cons_append, mutex_discipline]
      split_ifs
      · rfl
      · exact ih _
    | mutex_unlock =>
      simp only [List.cons_append, mutex_discipline]
      split_ifs
      · exact ih _
      · rfl
    | read member =>
      simp only [List.cons_append, mutex_discipline]
      split_ifs
      · rfl
      · exact ih _
    | write member =>
      simp only [List.cons_append, mutex_discipline]
      split_ifs
      · rfl
      · exact ih _
    | tile_access =>
      simp only [List.cons_append, mutex_discipline]
      split_ifs
      · exact ih _
      · rfl

theorem mutex_opened_lock : mutex_opened [guac_surface_event.mutex_lock] := by
  unfold mutex_opened
  decide

theorem mutex_opened_append (events a : List guac_surface_event) (h : mutex_opened events)
    (ha : ∀ e ∈ a, e.is_access = true) : mutex_opened (events ++ a) := by
  obtain ⟨h1, h2, h3⟩ := h
  obtain ⟨c1, c2⟩ := count_accesses a ha
  refine ⟨?_, ?_, ?_⟩
  · rw [mutex_discipline_append, h1]
    have := mutex_discipline_accesses a [] ha
    rw [List.append_nil] at this
    rw [Option.some_bind, this]
    rfl
  · rw [List.count_append, h2, c1]
  · rw [List.count_append, h3, c2]

theorem mutex_bracketed_unlock (events : List guac_surface_event) (h : mutex_opened events) :
    mutex_bracketed (events ++ [guac_surface_event.mutex_unlock]) := by
  obtain ⟨h1, h2, h3⟩ := h
  refine ⟨?_, ?_, ?_, ?_⟩
  · rw [mutex_discipline_append, h1]
    rfl
  · rw [List.count_append, h2]
    rfl
  · rw [List.count_append, h3]
    rfl
  · simp

theorem accesses_ite (c : Prop) [Decidable c] (a b : List guac_surface_event)
    (ha : ∀ e ∈ a, e.is_access = true) (hb : ∀ e ∈ b, e.is_access = true) :
    ∀ e ∈ (if c then a else b), e.is_access = true := by
  split_ifs
  · exact ha
  · exact hb

theorem resize_events_bracketed (max_width max_height : Int) (surface : guac_surface)
    (width height : Int) (hacc : ¬ (width > max_width ∨ height > max_height)) :
    mutex_bracketed (guac_surface_resize_events max_width max_height surface width height) := by
  unfold guac_surface_resize_events
  rw [if_neg hacc]
  simp only
  apply mutex_bracketed_unlock
  apply mutex_opened_append
  · apply mutex_opened_append
    · apply mutex_opened_append
      · apply mutex_opened_append
        · apply mutex_opened_append
          · apply mutex_opened_append
            · apply mutex_opened_append
              · exact mutex_opened_lock
              · decide
            · exact accesses_ite _ _ _ (by decide) (by decide)
          · decide
        · exact accesses_ite _ _ _ (by decide) (by decide)
      · decide
    · exact resize_rows_events_accesses _ _ _ _ _ _ _
  · decide

theorem draw_events_bracketed (surface : guac_surface) (x y : Int) (src : cairo_surface_t) :
    mutex_bracketed (guac_surface_draw_events surface x y src) := by
  unfold guac_surface_draw_events
  by_cases h : x ≥ surface.width ∨ y ≥ surface.height
  · rw [if_pos h]
    apply mutex_bracketed_unlock
    apply mutex_opened_append
    · have e : [guac_surface_event.mutex_lock, guac_surface_event.read guac_surface_member.width]
          = [guac_surface_event.mutex_lock]
            ++ [guac_surface_event.read guac_surface_member.width] := rfl
      rw [e]
      exact mutex_opened_append _ _ mutex_opened_lock (by decide)
    · exact accesses_ite _ _ _ (by decide) (by decide)
  · rw [if_neg h]
    simp only
    have e : ∀ (a b : List guac_surface_event),
        a ++ b ++ [guac_surface_event.write guac_surface_member.content_dirty,
            guac_surface_event.mutex_unlock]
          = a ++ b ++ [guac_surface_event.write guac_surface_member.content_dirty]
            ++ [guac_surface_event.mutex_unlock] := by
      intro a b
      simp
    rw [e, ← List.append_assoc]
    apply mutex_bracketed_unlock
    rw [← List.append_assoc, ← List.append_assoc]
    apply mutex_opened_append
    · apply mutex_opened_append
      · apply mutex_opened_append
        · apply mutex_opened_append
          · have e2 : [guac_surface_event.mutex_lock,
                guac_surface_event.read guac_surface_member.width]
                = [guac_surface_event.mutex_lock]
                  ++ [guac_surface_event.read guac_surface_member.width] := rfl
            rw [e2]
            exact mutex_opened_append _ _ mutex_opened_lock (by decide)
          · exact accesses_ite _ _ _ (by decide) (by decide)
        · decide
      · exact draw_rows_events_accesses _ _
    · decide

theorem flush_events_bracketed (surface : guac_surface) :
    mutex_bracketed (guac_surface_flush_events surface) := by
  unfold guac_surface_flush_events
  apply mutex_bracketed_unlock
  apply mutex_opened_append
  · apply mutex_opened_append
    · apply mutex_opened_append
      · have e : [guac_surface_event.mutex_lock,
            guac_surface_event.read guac_surface_member.size_dirty]
            = [guac_surface_event.mutex_lock]
              ++ [guac_surface_event.read guac_surface_member.size_dirty] := rfl
        rw [e]
        exact mutex_opened_append _ _ mutex_opened_lock (by decide)
      · exact accesses_ite _ _ _ (by decide) (by decide)
    · decide
  · apply accesses_ite _ _ _ _ (by decide)
    apply accesses_append
    · apply accesses_append
      · decide
      · exact flush_rows_events_accesses _ _
    · decide

/-- Counterexample to C28 as stated: the execution of `guac_surface_resize` with
a width above the limit returns 1 before `pthread_mutex_lock`: it has no event
at all, so the mutex is not released once on this path (it is never locked, and
no member of the surface is touched). -/
theorem guac_surface_resize_rejects_unlocked :
    guac_surface_resize 8192 8192 (guac_surface_alloc 7 64 64) 8193 64
      = some (1, guac_surface_alloc 7 64 64, []) ∧
    guac_surface_resize_events 8192 8192 (guac_surface_alloc 7 64 64) 8193 64 = [] ∧
    (guac_surface_resize_events 8192 8192 (guac_surface_alloc 7 64 64) 8193 64).count
      guac_surface_event.mutex_unlock = 0 :=
  ⟨rfl, rfl, rfl⟩

/-- C28, amended: along the events of every execution of `guac_surface_resize`,
`guac_surface_draw` and `guac_surface_flush`, the mutex is locked before any
member of the surface other than `client`, `socket` and `layer`, or any tile, is
read or written, and no execution ends with the mutex held. The rejection of
`guac_surface_resize` returns before it locks and touches no member of the
surface; every other execution locks once and unlocks once, the unlock being
its last event before the function returns. This holds on the early return of
`guac_surface_draw` for an origin with `x >= width` or `y >= height`, which
unlocks before it returns. -/
theorem guac_surface_mutex_discipline (max_width max_height : Int) (surface : guac_surface)
    (width height x y : Int) (src : cairo_surface_t) :
    ((width > max_width ∨ height > max_height) →
      guac_surface_resize_events max_width max_height surface width height = []) ∧
    (¬ (width > max_width ∨ height > max_height) →
      mutex_bracketed
        (guac_surface_resize_events max_width max_height surface width height)) ∧
    mutex_bracketed (guac_surface_draw_events surface x y src) ∧
    ((x ≥ surface.width ∨ y ≥ surface.height) →
      guac_surface_draw_events surface x y src
        = [guac_surface_event.mutex_lock, guac_surface_event.read guac_surface_member.width]
          ++ (if x ≥ surface.width then []
              else [guac_surface_event.read guac_surface_member.height])
          ++ [guac_surface_event.mutex_unlock]) ∧
    mutex_bracketed (guac_surface_flush_events surface) := by
  refine ⟨?_, resize_events_bracketed max_width max_height surface width height,
    draw_events_bracketed surface x y src, ?_, flush_events_bracketed surface⟩
  · intro h
    unfold guac_surface_resize_events
    rw [if_pos h]
  · intro h
    unfold guac_surface_draw_events
    rw [if_pos h]

/-! ## The weights of the pixels in the hash of a rectangle -/

theorem sum_modEq (m : Nat) (s : Finset Nat) (f g : Nat → Nat)
    (h : ∀ i ∈ s, f i ≡ g i [MOD m]) : (∑ i ∈ s, f i) ≡ (∑ i ∈ s, g i) [MOD m] := by
  unfold Nat.ModEq
  rw [Finset.sum_nat_mod s m f, Finset.sum_nat_mod s m g]
  exact congrArg (fun t => t % m) (Finset.sum_congr rfl h)

theorem pow_62_mod (k : Nat) (hk : 64 ≤ k) : 62 ^ k % 2 ^ 64 = 0 := by
  obtain ⟨d, rfl⟩ : ∃ d, k = 64 + d := ⟨k - 64, by omega⟩
  rw [pow_add, Nat.mul_mod]
  have e : 62 ^ 64 % 2 ^ 64 = 0 := by norm_num
  rw [e, Nat.zero_mul, Nat.zero_mod]

/-- The hash after `n` updates is a polynomial in 62 of the values, modulo
`2 ^ 64`. -/
theorem hash_fold_poly (f : Nat → Nat) (h : Nat) (n : Nat) :
    hash_fold h ((List.range n).map f)
      ≡ 62 ^ n * h + ∑ k ∈ Finset.range n, f k * 62 ^ (n - 1 - k) [MOD 2 ^ 64] := by
  induction n with
  | zero => simp [hash_fold, Nat.ModEq]
  | succ n ih =>
    rw [List.range_succ, List.map_append, List.map_singleton, hash_fold_snoc, hash_step_eq]
    refine (Nat.mod_modEq _ _).trans ?_
    have h1 : 62 * hash_fold h ((List.range n).map f) + f n
        ≡ 62 * (62 ^ n * h + ∑ k ∈ Finset.range n, f k * 62 ^ (n - 1 - k)) + f n
          [MOD 2 ^ 64] := (ih.mul_left 62).add_right (f n)
    refine h1.trans ?_
    have e1 : ∑ k ∈ Finset.range n, 62 * (f k * 62 ^ (n - 1 - k))
        = ∑ k ∈ Finset.range n, f k * 62 ^ (n + 1 - 1 - k) := by
      apply Finset.sum_congr rfl
      intro k hk
      rw [Finset.mem_range] at hk
      have e : n + 1 - 1 - k = (n - 1 - k) + 1 := by omega
      rw [e, pow_succ]
      ring
    have e2 : n + 1 - 1 - n = 0 := by omega
    have e : 62 * (62 ^ n * h + ∑ k ∈ Finset.range n, f k * 62 ^ (n - 1 - k)) + f n
        = 62 ^ (n + 1) * h + ∑ k ∈ Finset.range (n + 1), f k * 62 ^ (n + 1 - 1 - k) := by
      rw [Finset.sum_range_succ, Nat.mul_add, Finset.mul_sum, e1, e2, pow_zero, Nat.mul_one,
        pow_succ]
      ring
    rw [e]

theorem hash_fold_lt (h : Nat) (f : Nat → Nat) (n : Nat) :
    hash_fold h ((List.range (n + 1)).map f) < 2 ^ 64 := by
  rw [List.range_succ, List.map_append, List.map_singleton, hash_fold_snoc]
  exact hash_step_lt _ _

theorem rect_hash_eq_polynomial (data : Mem) (stride : Int) (X Y : Nat) :
    rect_hash data stride X Y = rect_polynomial data stride (X : Int) (Y : Int) := by
  have hlt : rect_hash data stride X Y < 2 ^ 64 := by
    unfold rect_hash
    exact hash_fold_lt 0 _ 63
  have hm : rect_hash data stride X Y
      ≡ ∑ i ∈ Finset.range 64, ∑ j ∈ Finset.range 64,
          image_pixel data stride ((X : Int) + (i : Int)) ((Y : Int) + (j : Int))
            * 62 ^ (126 - i - j) [MOD 2 ^ 64] := by
    unfold rect_hash
    refine (hash_fold_poly _ 0 64).trans ?_
    rw [Nat.mul_zero, Nat.zero_add, Finset.sum_comm]
    apply sum_modEq
    intro b hb
    rw [Finset.mem_range] at hb
    have h1 := (hash_fold_poly (fun a : Nat =>
      read_uint32 data (((Y + b : Nat) : Int) * stride + 4 * ((X + a : Nat) : Int))) 0 64).mul_right
      (62 ^ (64 - 1 - b))
    refine h1.trans ?_
    rw [Nat.mul_zero, Nat.zero_add, Finset.sum_mul]
    apply sum_modEq
    intro a ha
    rw [Finset.mem_range] at ha
    have e : 126 - a - b = (64 - 1 - a) + (64 - 1 - b) := by omega
    rw [e, pow_add, Nat.mul_assoc]
    unfold image_pixel
    push_cast
    exact Nat.ModEq.refl _
  unfold rect_polynomial
  unfold Nat.ModEq at hm
  rw [← hm, Nat.mod_eq_of_lt hlt]

theorem rect_polynomial_eq_lower (data : Mem) (stride : Int) (X Y : Int) :
    rect_polynomial data stride X Y = rect_polynomial_lower data stride X Y := by
  unfold rect_polynomial rect_polynomial_lower
  apply sum_modEq
  intro i _
  apply sum_modEq
  intro j _
  by_cases h : 63 ≤ i + j
  · rw [if_pos h]
  · rw [if_neg h]
    unfold Nat.ModEq
    rw [Nat.mul_mod, pow_62_mod _ (by omega), Nat.mul_zero, Nat.zero_mod]

theorem rect_polynomial_lower_congr (data1 : Mem) (stride1 : Int) (data2 : Mem) (stride2 : Int)
    (X1 Y1 X2 Y2 : Int)
    (h : ∀ i j : Int, 0 ≤ i → i < 64 → 0 ≤ j → j < 64 → 63 ≤ i + j →
      image_pixel data1 stride1 (X1 + i) (Y1 + j) = image_pixel data2 stride2 (X2 + i) (Y2 + j)) :
    rect_polynomial_lower data1 stride1 X1 Y1 = rect_polynomial_lower data2 stride2 X2 Y2 := by
  unfold rect_polynomial_lower
  refine congrArg (fun t => t % 2 ^ 64) (Finset.sum_congr rfl (fun i hi => ?_))
  refine Finset.sum_congr rfl (fun j hj => ?_)
  rw [Finset.mem_range] at hi hj
  by_cases hc : 63 ≤ i + j
  · rw [if_pos hc, if_pos hc, h (i : Int) (j : Int) (by omega) (by omega) (by omega) (by omega)
      (by omega)]
  · rw [if_neg hc, if_neg hc]

/-- C31: for an image of width at most 4096, `guac_hash_foreach_image_rect` hands
its calls to a recording callback, and the hash of every call, for the top-left
position `(X, Y)`, is the sum over `0 <= i, j < 64` of
`pixel(X + i, Y + j) * 62 ^ (126 - i - j)` modulo `2 ^ 64`; `62 ^ k` is 0 modulo
`2 ^ 64` for every `k >= 64`, so the hash is also the sum over the `i + j >= 63`
only, and whenever a call for one image and a call for another are for
positions whose 64x64 rectangles agree on every pixel with `i + j >= 63` (they
may differ in any pixel with `i + j <= 62`, the top-left pixel included), the
two hashes are equal. -/
theorem guac_hash_rect_polynomial (data1 : Mem) (width1 height1 stride1 : Int)
    (data2 : Mem) (width2 height2 stride2 : Int) (hW1 : width1 ≤ 4096) (hW2 : width2 ≤ 4096) :
    (∀ k : Nat, 64 ≤ k → 62 ^ k % 2 ^ 64 = 0) ∧
    ∃ calls1 calls2 : List (Int × Int × Nat),
      guac_hash_foreach_image_rect data1 width1 height1 stride1 64 64 record_call []
        = some (0, calls1) ∧
      guac_hash_foreach_image_rect data2 width2 height2 stride2 64 64 record_call []
        = some (0, calls2) ∧
      (∀ (X Y : Int) (hash : Nat), (X, Y, hash) ∈ calls1 →
        hash = rect_polynomial data1 stride1 X Y ∧
        hash = rect_polynomial_lower data1 stride1 X Y) ∧
      ∀ (X1 Y1 : Int) (hash1 : Nat) (X2 Y2 : Int) (hash2 : Nat),
        (X1, Y1, hash1) ∈ calls1 → (X2, Y2, hash2) ∈ calls2 →
        (∀ i j : Int, 0 ≤ i → i < 64 → 0 ≤ j → j < 64 → 63 ≤ i + j →
          image_pixel data1 stride1 (X1 + i) (Y1 + j)
            = image_pixel data2 stride2 (X2 + i) (Y2 + j)) →
        hash1 = hash2 := by
  refine ⟨pow_62_mod, _, _, foreach_record data1 width1 height1 stride1 hW1,
    foreach_record data2 width2 height2 stride2 hW2, ?_, ?_⟩
  · intro X Y hash h
    obtain ⟨A, B, _, _, e⟩ := (rect_enumeration_mem _ _ _ _ _).1 h
    simp only [Prod.mk.injEq] at e
    obtain ⟨rfl, rfl, rfl⟩ := e
    exact ⟨rect_hash_eq_polynomial _ _ _ _,
      (rect_hash_eq_polynomial _ _ _ _).trans (rect_polynomial_eq_lower _ _ _ _)⟩
  · intro X1 Y1 hash1 X2 Y2 hash2 h1 h2 h
    obtain ⟨A1, B1, _, _, e1⟩ := (rect_enumeration_mem _ _ _ _ _).1 h1
    obtain ⟨A2, B2, _, _, e2⟩ := (rect_enumeration_mem _ _ _ _ _).1 h2
    simp only [Prod.mk.injEq] at e1 e2
    obtain ⟨rfl, rfl, rfl⟩ := e1
    obtain ⟨rfl, rfl, rfl⟩ := e2
    rw [rect_hash_eq_polynomial, rect_hash_eq_polynomial, rect_polynomial_eq_lower,
      rect_polynomial_eq_lower]
    exact rect_polynomial_lower_congr _ _ _ _ _ _ _ _ h

/-- Witness of C31: the 64x64 image of zero bytes and the 64x64 image that
differs from it in the first byte of the top-left pixel only: the single call of
each enumeration hands over the same hash. -/
theorem guac_hash_rect_polynomial_witness :
    ∃ hash : Nat,
      guac_hash_foreach_image_rect (fun _ => 0) 64 64 256 64 64 record_call []
        = some (0, [(0, 0, hash)]) ∧
      guac_hash_foreach_image_rect (fun i => if i = 0 then 1 else 0) 64 64 256 64 64
        record_call [] = some (0, [(0, 0, hash)]) := by
  obtain ⟨_, calls1, calls2, e1, e2, _, h⟩ :=
    guac_hash_rect_polynomial (fun _ => 0) 64 64 256 (fun i => if i = 0 then 1 else 0) 64 64 256
      (by decide) (by decide)
  have f1 := foreach_record (fun _ => 0) 64 64 256 (by decide)
  have f2 := foreach_record (fun i => if i = 0 then 1 else 0) 64 64 256 (by decide)
  rw [rect_enumeration_single] at f1 f2
  rw [f1] at e1
  rw [f2] at e2
  simp only [Option.some.injEq, Prod.mk.injEq, true_and] at e1 e2
  have hh := h 0 0 (rect_hash (fun _ => 0) 256 0 0) 0 0
    (rect_hash (fun i => if i = 0 then 1 else 0) 256 0 0)
    (by rw [← e1]; exact List.mem_singleton.2 rfl)
    (by rw [← e2]; exact List.mem_singleton.2 rfl)
    (by
      intro i j hi0 hi1 hj0 hj1 hij
      unfold image_pixel read_uint32
      simp only
      split_ifs <;> first | rfl | omega)
  rw [f2, ← hh]
  exact ⟨_, f1, rfl⟩

/-! ## The bytes that a put reads and writes -/

theorem tile_put_rows_accesses_mem (buffer : Mem) (stride width : Int) :
    ∀ (n : Nat) (src dst_new dst_old dirty : Int) (buf : Mem) (a : guac_surface_tile_access),
    a ∈ guac_surface_tile_put_rows_accesses buffer stride width n src dst_new dst_old dirty buf →
    ∃ i : Nat, i < n ∧
      (a = guac_surface_tile_access.source_read (src + (i : Int) * stride) (width * 4) ∨
        a = guac_surface_tile_access.tile_write (dst_new + (i : Int) * 512) (width * 4) ∨
        a = guac_surface_tile_access.tile_read (dst_old + (i : Int) * 512) (width * 4) ∨
        a = guac_surface_tile_access.tile_read (dst_new + (i : Int) * 512) (width * 4)) := by
  intro n
  induction n with
  | zero =>
    intro src dst_new dst_old dirty buf a h
    exact absurd h (List.not_mem_nil a)
  | succ n ih =>
    intro src dst_new dst_old dirty buf a h
    unfold guac_surface_tile_put_rows_accesses at h
    simp only [List.mem_append, List.mem_cons, List.mem_singleton, List.not_mem_nil,
      or_false] at h
    rcases h with (h | h) | h
    · rcases h with h | h
      · exact ⟨0, by omega, Or.inl (by rw [h]; simp)⟩
      · exact ⟨0, by omega, Or.inr (Or.inl (by rw [h]; simp))⟩
    · split_ifs at h
      · simp only [List.mem_cons, List.mem_singleton, List.not_mem_nil, or_false] at h
        rcases h with h | h
        · exact ⟨0, by omega, Or.inr (Or.inr (Or.inl (by rw [h]; simp)))⟩
        · exact ⟨0, by omega, Or.inr (Or.inr (Or.inr (by rw [h]; simp)))⟩
      · exact absurd h (List.not_mem_nil a)
    · obtain ⟨i, hi, h1⟩ := ih _ _ _ _ _ a h
      have e1 : src + stride + (i : Int) * stride = src + ((i + 1 : Nat) : Int) * stride := by
        push_cast; ring
      have e2 : dst_new + GUAC_SURFACE_TILE_STRIDE + (i : Int) * 512
          = dst_new + ((i + 1 : Nat) : Int) * 512 := by
        simp only [GUAC_SURFACE_TILE_STRIDE, GUAC_SURFACE_TILE_ROW_SIZE, GUAC_SURFACE_TILE_WIDTH]
        push_cast; ring
      have e3 : dst_old + GUAC_SURFACE_TILE_STRIDE + (i : Int) * 512
          = dst_old + ((i + 1 : Nat) : Int) * 512 := by
        simp only [GUAC_SURFACE_TILE_STRIDE, GUAC_SURFACE_TILE_ROW_SIZE, GUAC_SURFACE_TILE_WIDTH]
        push_cast; ring
      rw [e1, e2, e3] at h1
      exact ⟨i + 1, by omega, h1⟩

theorem tile_put_accesses_eq (tile : guac_surface_tile) (x y : Int) (buffer : Mem)
    (width height stride : Int) :
    guac_surface_tile_put_accesses tile x y buffer width height stride =
      if min (x + width) (tile.x + 64) - max x tile.x ≤ 0 then []
      else if min (y + height) (tile.y + 64) - max y tile.y ≤ 0 then []
      else guac_surface_tile_put_rows_accesses buffer stride
        (min (x + width) (tile.x + 64) - max x tile.x)
        (min (y + height) (tile.y + 64) - max y tile.y).toNat
        ((max y tile.y - y) * stride + (max x tile.x - x) * 4)
        (tile.current_page * 256 + (max y tile.y - tile.y) * 512 + (max x tile.x - tile.x) * 4)
        ((1 - tile.current_page) * 256 + (max y tile.y - tile.y) * 512
          + (max x tile.x - tile.x) * 4)
        tile.dirty tile.buffer := by
  have e1 : (if x > tile.x then x else tile.x) = max x tile.x := by
    split_ifs <;> omega
  have e2 : (if y > tile.y then y else tile.y) = max y tile.y := by
    split_ifs <;> omega
  have e3 : (if x + width < tile.x + 64 then x + width else tile.x + 64)
      = min (x + width) (tile.x + 64) := by
    split_ifs <;> omega
  have e4 : (if y + height < tile.y + 64 then y + height else tile.y + 64)
      = min (y + height) (tile.y + 64) := by
    split_ifs <;> omega
  simp only [guac_surface_tile_put_accesses, GUAC_SURFACE_TILE_STRIDE,
    GUAC_SURFACE_TILE_ROW_SIZE, GUAC_SURFACE_TILE_WIDTH, GUAC_SURFACE_TILE_HEIGHT, e1, e2, e3, e4]
  norm_num only

theorem tile_put_accesses_in_bounds (tile : guac_surface_tile) (x y : Int) (buffer : Mem)
    (width height stride : Int) (hpage : tile.current_page = 0 ∨ tile.current_page = 1)
    (a : guac_surface_tile_access)
    (ha : a ∈ guac_surface_tile_put_accesses tile x y buffer width height stride) :
    a.in_bounds tile.current_page width height stride := by
  rw [tile_put_accesses_eq] at ha
  split_ifs at ha with hw hh
  · exact absurd ha (List.not_mem_nil a)
  · exact absurd ha (List.not_mem_nil a)
  · obtain ⟨i, hi, h⟩ := tile_put_rows_accesses_mem _ _ _ _ _ _ _ _ _ a ha
    have hi1 : (i : Int) < min (y + height) (tile.y + 64) - max y tile.y := by omega
    rcases h with h | h | h | h
    · rw [h]
      refine ⟨max y tile.y - y + (i : Int), max x tile.x - x,
        min (x + width) (tile.x + 64) - max x tile.x, by omega, by omega, by omega, by omega,
        by omega, by ring, rfl⟩
    · rw [h]
      refine ⟨by omega, by omega, max y tile.y - tile.y + (i : Int), ?_⟩
      unfold in_page_row
      omega
    · rw [h]
      refine ⟨by omega, by omega, max y tile.y - tile.y + (i : Int), Or.inr ?_⟩
      unfold in_page_row
      omega
    · rw [h]
      refine ⟨by omega, by omega, max y tile.y - tile.y + (i : Int), Or.inl ?_⟩
      unfold in_page_row
      omega

/-- C32: for every tile with `current_page` 0 or 1 and every `x`, `y`, `width`,
`height` and `stride` of any sign, every access of `guac_surface_tile_put` is
within bounds: the bytes that it reads and writes in `tile->buffer` lie in
`[0, 32768)` and in the 256-byte row segment of one row of the page addressed
(the new page for `memcpy`, either page for `memcmp`), and the bytes that it
reads in the source lie in one row `r` of the source with `0 <= r < height`, at
pixel columns `c, ..., c + w - 1` with `0 <= c` and `c + w <= width`. -/
theorem guac_surface_tile_put_in_bounds (tile : guac_surface_tile) (x y : Int) (buffer : Mem)
    (width height stride : Int) (hpage : tile.current_page = 0 ∨ tile.current_page = 1) :
    ∀ a ∈ guac_surface_tile_put_accesses tile x y buffer width height stride,
      a.in_bounds tile.current_page width height stride :=
  fun a ha => tile_put_accesses_in_bounds tile x y buffer width height stride hpage a ha

/-- Witness of C32: a put of a 2x1 image at (63, 0) on the fresh tile at (0, 0)
reads the four bytes of its first pixel and writes them at the bytes 252 to 255
of the tile buffer, the end of row 0 of page 0, and compares them with the bytes
508 to 511, the end of row 0 of page 1. -/
theorem guac_surface_tile_put_in_bounds_witness :
    guac_surface_tile_put_accesses (guac_surface_tile_alloc 0 0) 63 0 (fun _ => 7) 2 1 8
      = [guac_surface_tile_access.source_read 0 4, guac_surface_tile_access.tile_write 252 4,
          guac_surface_tile_access.tile_read 508 4, guac_surface_tile_access.tile_read 252 4] ∧
    ∀ a ∈ guac_surface_tile_put_accesses (guac_surface_tile_alloc 0 0) 63 0 (fun _ => 7) 2 1 8,
      a.in_bounds 0 2 1 8 :=
  ⟨by decide, guac_surface_tile_put_in_bounds (guac_surface_tile_alloc 0 0) 63 0 (fun _ => 7) 2 1 8
    (Or.inl rfl)⟩

/-! ## The entries of `cell_hash` that the enumeration uses -/

theorem foreach_columns_indices {σ : Type} (data : Mem) (offset : Int) (y : Nat)
    (callback : Int → Int → Nat → σ → Int × σ) :
    ∀ (n x row_hash : Nat) (cell_hash : Nat → Nat) (closure : σ), x + n ≤ 4096 →
    ∃ (r : Int) (cell_hash1 : Nat → Nat) (closure1 : σ),
      guac_hash_foreach_image_rect_columns data offset y 64 64 callback n x row_hash cell_hash
          closure = some (r, cell_hash1, closure1) ∧
      ((r = 0 ∧ guac_hash_foreach_image_rect_columns_indices data offset y 64 64 callback n x
          row_hash cell_hash closure = List.range' x n) ∨
        (r ≠ 0 ∧ 63 ≤ y ∧ ∃ m, m < n ∧ 63 ≤ x + m ∧
          guac_hash_foreach_image_rect_columns_indices data offset y 64 64 callback n x
            row_hash cell_hash closure = List.range' x (m + 1))) := by
  intro n
  induction n with
  | zero =>
    intro x row_hash cell_hash closure _
    exact ⟨0, cell_hash, closure, rfl, Or.inl ⟨rfl, rfl⟩⟩
  | succ n ih =>
    intro x row_hash cell_hash closure hx
    unfold guac_hash_foreach_image_rect_columns guac_hash_foreach_image_rect_columns_indices
    have hx1 : ¬ 4096 ≤ x := by omega
    rw [if_neg hx1, if_neg hx1]
    simp only
    by_cases hc : (y : Int) ≥ 64 - 1 ∧ (x : Int) ≥ 64 - 1
    · rw [if_pos hc, if_pos hc]
      by_cases hr : (callback ((x : Int) - 64 + 1) ((y : Int) - 64 + 1)
          (hash_step (cell_hash x)
            (hash_step row_hash (read_uint32 data (offset + 4 * (x : Int))))) closure).1 ≠ 0
      · rw [if_pos hr, if_pos hr]
        exact ⟨_, _, _, rfl, Or.inr ⟨hr, by omega, 0, by omega, by omega, rfl⟩⟩
      · rw [if_neg hr, if_neg hr]
        obtain ⟨r, c1, cl1, h1, h2⟩ := ih (x + 1)
          (hash_step row_hash (read_uint32 data (offset + 4 * (x : Int))))
          (fun i => if i = x then hash_step (cell_hash x)
            (hash_step row_hash (read_uint32 data (offset + 4 * (x : Int)))) else cell_hash i)
          (callback ((x : Int) - 64 + 1) ((y : Int) - 64 + 1)
            (hash_step (cell_hash x)
              (hash_step row_hash (read_uint32 data (offset + 4 * (x : Int))))) closure).2
          (by omega)
        refine ⟨r, c1, cl1, h1, ?_⟩
        rcases h2 with ⟨e1, e2⟩ | ⟨e1, e2, m, hm1, hm2, e3⟩
        · exact Or.inl ⟨e1, by rw [e2, List.range'_succ]⟩
        · exact Or.inr ⟨e1, e2, m + 1, by omega, by omega, by rw [e3]; rfl⟩
    · rw [if_neg hc, if_neg hc]
      obtain ⟨r, c1, cl1, h1, h2⟩ := ih (x + 1)
        (hash_step row_hash (read_uint32 data (offset + 4 * (x : Int))))
        (fun i => if i = x then hash_step (cell_hash x)
          (hash_step row_hash (read_uint32 data (offset + 4 * (x : Int)))) else cell_hash i)
        closure (by omega)
      refine ⟨r, c1, cl1, h1, ?_⟩
      rcases h2 with ⟨e1, e2⟩ | ⟨e1, e2, m, hm1, hm2, e3⟩
      · exact Or.inl ⟨e1, by rw [e2, List.range'_succ]⟩
      · exact Or.inr ⟨e1, e2, m + 1, by omega, by omega, by rw [e3]; rfl⟩

theorem foreach_rows_indices {σ : Type} (data : Mem) (width stride : Int)
    (callback : Int → Int → Nat → σ → Int × σ) (hW : width.toNat ≤ 4096) :
    ∀ (n y : Nat) (offset : Int) (cell_hash : Nat → Nat) (closure : σ),
    ∃ (r : Int) (closure1 : σ),
      guac_hash_foreach_image_rect_rows data width stride 64 64 callback n y offset cell_hash
          closure = some (r, closure1) ∧
      ((r = 0 ∧ guac_hash_foreach_image_rect_rows_indices data width stride 64 64 callback n y
          offset cell_hash closure = List.replicate n (List.range width.toNat)) ∨
        (r ≠ 0 ∧ ∃ k m, k < n ∧ 63 ≤ y + k ∧ 63 ≤ m ∧ m < width.toNat ∧
          guac_hash_foreach_image_rect_rows_indices data width stride 64 64 callback n y
            offset cell_hash closure
              = List.replicate k (List.range width.toNat) ++ [List.range (m + 1)])) := by
  intro n
  induction n with
  | zero =>
    intro y offset cell_hash closure
    exact ⟨0, closure, rfl, Or.inl ⟨rfl, rfl⟩⟩
  | succ n ih =>
    intro y offset cell_hash closure
    obtain ⟨r, c1, cl1, h1, h2⟩ := foreach_columns_indices data offset y callback width.toNat 0 0
      cell_hash closure (by omega)
    unfold guac_hash_foreach_image_rect_rows guac_hash_foreach_image_rect_rows_indices
    rw [h1]
    simp only
    rcases h2 with ⟨e1, e2⟩ | ⟨e1, e2, m, hm1, hm2, e3⟩
    · rw [if_neg (by simpa using e1), if_neg (by simpa using e1), e2, ← List.range_eq_range']
      obtain ⟨r2, cl2, h3, h4⟩ := ih (y + 1) (offset + stride) c1 cl1
      refine ⟨r2, cl2, h3, ?_⟩
      rcases h4 with ⟨f1, f2⟩ | ⟨f1, k, m, hk1, hk2, hm1, hm2, f2⟩
      · exact Or.inl ⟨f1, by rw [f2, List.replicate_succ]⟩
      · exact Or.inr ⟨f1, k + 1, m, by omega, by omega, hm1, hm2, by
          rw [f2, List.replicate_succ, List.cons_append]⟩
    · rw [if_pos e1, if_pos e1, e3, ← List.range_eq_range']
      exact ⟨r, cl1, rfl, Or.inr ⟨e1, 0, m, by omega, by omega, by omega, hm1, rfl⟩⟩

theorem foreach_columns_indices_overflow {σ : Type} (data : Mem) (offset : Int) (y : Nat)
    (hy : y < 63) (callback : Int → Int → Nat → σ → Int × σ) :
    ∀ (n x row_hash : Nat) (cell_hash : Nat → Nat) (closure : σ), x ≤ 4096 → 4096 < x + n →
      guac_hash_foreach_image_rect_columns_indices data offset y 64 64 callback n x row_hash
        cell_hash closure = List.range' x (4097 - x) := by
  intro n
  induction n with
  | zero => intro x _ _ _ h1 h2; omega
  | succ n ih =>
    intro x row_hash cell_hash closure h1 h2
    unfold guac_hash_foreach_image_rect_columns_indices
    by_cases hx : 4096 ≤ x
    · rw [if_pos hx]
      have e : 4097 - x = 1 := by omega
      rw [e]
      rfl
    · rw [if_neg hx]
      simp only
      rw [if_neg (by omega), ih _ _ _ _ (by omega) (by omega)]
      have e : 4097 - x = (4097 - (x + 1)) + 1 := by omega
      rw [e, List.range'_succ]

theorem foreach_indices_overflow {σ : Type} (data : Mem) (width height stride : Int)
    (callback : Int → Int → Nat → σ → Int × σ) (closure : σ) (hW : 4096 < width)
    (hH : 1 ≤ height) :
    guac_hash_foreach_image_rect_indices data width height stride 64 64 callback closure
      = [List.range 4097] := by
  unfold guac_hash_foreach_image_rect_indices
  rw [if_neg (by simp)]
  obtain ⟨n, hn⟩ : ∃ n, height.toNat = n + 1 := ⟨height.toNat - 1, by omega⟩
  rw [hn]
  unfold guac_hash_foreach_image_rect_rows_indices
  rw [foreach_columns_overflow data 0 0 (by decide) callback width.toNat 0 0 _ closure
    (by omega) (by omega),
    foreach_columns_indices_overflow data 0 0 (by decide) callback width.toNat 0 0 _ closure
    (by omega) (by omega), List.range_eq_range']

theorem foreach_indices_spec {σ : Type} (data : Mem) (width height stride : Int)
    (callback : Int → Int → Nat → σ → Int × σ) (closure : σ) (hW : width ≤ 4096) :
    ∃ (r : Int) (closure1 : σ),
      guac_hash_foreach_image_rect data width height stride 64 64 callback closure
        = some (r, closure1) ∧
      ((r = 0 ∧ guac_hash_foreach_image_rect_indices data width height stride 64 64 callback
          closure = List.replicate height.toNat (List.range width.toNat)) ∨
        (r ≠ 0 ∧ ∃ k m, 63 ≤ k ∧ k < height.toNat ∧ 63 ≤ m ∧ m < width.toNat ∧
          guac_hash_foreach_image_rect_indices data width height stride 64 64 callback closure
            = List.replicate k (List.range width.toNat) ++ [List.range (m + 1)])) := by
  unfold guac_hash_foreach_image_rect guac_hash_foreach_image_rect_indices
  rw [if_neg (by simp), if_neg (by simp)]
  obtain ⟨r, cl1, h1, h2⟩ := foreach_rows_indices data width stride callback (by omega)
    height.toNat 0 0 (fun _ => 0) closure
  refine ⟨r, cl1, h1, ?_⟩
  rcases h2 with h | ⟨e1, k, m, hk1, hk2, hm1, hm2, e2⟩
  · exact Or.inl h
  · exact Or.inr ⟨e1, k, m, by omega, hk1, hm1, hm2, e2⟩

theorem foreach_indices_in_range {σ : Type} (data : Mem) (width height stride : Int)
    (callback : Int → Int → Nat → σ → Int × σ) (closure : σ) (hH : 1 ≤ height) :
    (∀ l ∈ guac_hash_foreach_image_rect_indices data width height stride 64 64 callback closure,
      ∀ i ∈ l, i < 4096) ↔ width ≤ 4096 := by
  constructor
  · intro h
    by_contra hW
    have e := foreach_indices_overflow data width height stride callback closure (by omega) hH
    have := h (List.range 4097) (by rw [e]; exact List.mem_singleton.2 rfl) 4096
      (List.mem_range.2 (by omega))
    omega
  · intro hW l hl i hi
    obtain ⟨r, cl1, _, h2⟩ := foreach_indices_spec data width height stride callback closure hW
    rcases h2 with ⟨_, e⟩ | ⟨_, k, m, _, _, _, hm, e⟩
    · rw [e] at hl
      have := List.eq_of_mem_replicate hl
      rw [this, List.mem_range] at hi
      omega
    · rw [e, List.mem_append] at hl
      rcases hl with hl | hl
      · have := List.eq_of_mem_replicate hl
        rw [this, List.mem_range] at hi
        omega
      · rw [List.mem_singleton] at hl
        rw [hl, List.mem_range] at hi
        omega

/-- Counterexample to C33 as stated: on an image of 65x64 pixels the callback
`guac_hash_assign_value`, which returns 1, is called at `x = 63` of row 63 and
`guac_hash_foreach_image_rect` returns at once; rows 0 to 62 use the indices
0 to 64 of `cell_hash`, and row 63, which is executed, uses the indices 0 to 63
only: the index `width - 1 = 64` is not used in that row. -/
theorem guac_hash_foreach_image_rect_stops_inside_row :
    guac_hash_foreach_image_rect_indices (fun _ => 0) 65 64 260 64 64 guac_hash_assign_value 0
      = List.replicate 63 (List.range 65) ++ [List.range 64] ∧
    List.range 64 ≠ List.range 65 := by
  decide

/-- C33, amended: `guac_hash_foreach_image_rect` with a 64x64 rectangle uses
`cell_hash` in every row that it executes at the indices `0, 1, ...` in order:
for an image of width at most 4096 it returns, the rows that it runs to their
end use exactly the indices `0` to `width - 1`, and when a callback stops the
enumeration the last row uses the indices `0` to `m` only, `m` the column of
that call (`63 <= m < width`, in a row `k >= 63`); when no callback stops it
the rows are all `height` rows of the image. For an image of width above 4096
and height at least 1 the first row reaches the index 4096, outside of the
array, whatever the callback does: nothing tests the width. So for every image
with height at least 1, all indices used are below 4096 if and only if
`width <= 4096`. -/
theorem guac_hash_foreach_image_rect_cell_hash_indices {σ : Type} (data : Mem)
    (width height stride : Int) (callback : Int → Int → Nat → σ → Int × σ) (closure : σ) :
    (width ≤ 4096 →
      ∃ (r : Int) (closure1 : σ),
        guac_hash_foreach_image_rect data width height stride 64 64 callback closure
          = some (r, closure1) ∧
        ((r = 0 ∧ guac_hash_foreach_image_rect_indices data width height stride 64 64 callback
            closure = List.replicate height.toNat (List.range width.toNat)) ∨
          (r ≠ 0 ∧ ∃ k m, 63 ≤ k ∧ k < height.toNat ∧ 63 ≤ m ∧ m < width.toNat ∧
            guac_hash_foreach_image_rect_indices data width height stride 64 64 callback closure
              = List.replicate k (List.range width.toNat) ++ [List.range (m + 1)]))) ∧
    (4096 < width → 1 ≤ height →
      guac_hash_foreach_image_rect_indices data width height stride 64 64 callback closure
        = [List.range 4097] ∧
      guac_hash_foreach_image_rect data width height stride 64 64 callback closure = none) ∧
    (1 ≤ height →
      ((∀ l ∈ guac_hash_foreach_image_rect_indices data width height stride 64 64 callback
          closure, ∀ i ∈ l, i < 4096) ↔ width ≤ 4096)) :=
  ⟨foreach_indices_spec data width height stride callback closure,
    fun hW hH => ⟨foreach_indices_overflow data width height stride callback closure hW hH,
      foreach_overflow data width height stride callback closure hW hH⟩,
    foreach_indices_in_range data width height stride callback closure⟩

/-- Witness of C33: on an image of 4097x1 pixels the only row uses the indices
0 to 4096 of `cell_hash`, the last of them outside of the array, and the
function has no defined result. -/
theorem guac_hash_foreach_image_rect_cell_hash_indices_witness :
    guac_hash_foreach_image_rect_indices (fun _ => 0) 4097 1 16388 64 64 record_call []
      = [List.range 4097] ∧
    guac_hash_foreach_image_rect (fun _ => 0) 4097 1 16388 64 64 record_call [] = none :=
  (guac_hash_foreach_image_rect_cell_hash_indices (fun _ => 0) 4097 1 16388 record_call []).2.1
    (by decide) (by decide)

end Guac
